import Mathlib

/-!
# Photon mapping: linear octree and photon-map queries

A verification development for the linear octree (`source/octree/linear-octree.hpp`)
and the photon mapper (`source/integrator/photon-mapper/photon-mapper.cpp`).

Conventions of the embedding:

* `double` values are exact elements of an ordered ring or field `α`, and a double
  operation is the exact operation.  Where a claim turns on the rounding of double
  operations, the function is embedded a second time with a rounding function applied after
  every double operation (section "Rounded double arithmetic").  Quantities that the source
  initialises with `numeric_limits<double>::max()` or that may have no finite value live in
  `WithTop α`.
* `size_t` / `uint64_t` values are natural numbers; the one place where unsigned
  wrap-around can occur (`k - 1` in `knnSearch`) is written modulo `2 ^ 64`, and a
  `static_cast<uint32_t>` is written modulo `2 ^ 32`.
* `uint32_t` node indices are natural numbers and the sentinel `NULL_IDX` is `none`.
* vectors are lists; an index that is out of range makes the operation fail with `none`.
* loops of the source that are not bounded by a counter take a fuel argument.
-/

set_option autoImplicit false
set_option linter.unusedSectionVars false
set_option linter.deprecated false

/-! ## Vectors -/

/-- Three-component vector, the model of `glm::dvec3`. -/
structure Vec3 (α : Type) where
  x : α
  y : α
  z : α
deriving DecidableEq, Repr

namespace Vec3

variable {α : Type}

/-- Squared Euclidean distance, the model of `glm::distance2`. -/
def distance2 [LinearOrderedCommRing α] (a b : Vec3 α) : α :=
  (a.x - b.x) * (a.x - b.x) + (a.y - b.y) * (a.y - b.y) + (a.z - b.z) * (a.z - b.z)

end Vec3

/-! ## Bounding boxes -/

/-- Modelled from the spec: `BoundingBox` (its header is not among the sources).  A box is
either empty or spans `min .. max`; the empty box is distinguishable and absorbs any
merged point. -/
inductive BoundingBox (α : Type) where
  | empty : BoundingBox α
  | box (min max : Vec3 α) : BoundingBox α
deriving DecidableEq, Repr

namespace BoundingBox

variable {α : Type} [LinearOrderedCommRing α]

/-- Modelled from the spec: `BoundingBox::merge(point)`, the smallest box containing the
box and the point. -/
def merge : BoundingBox α → Vec3 α → BoundingBox α
  | empty, p => box p p
  | box mn mx, p =>
    box ⟨min mn.x p.x, min mn.y p.y, min mn.z p.z⟩ ⟨max mx.x p.x, max mx.y p.y, max mx.z p.z⟩

/-- Modelled from the spec: `BoundingBox::merge(box)`, the smallest box containing both
boxes. -/
def mergeBox : BoundingBox α → BoundingBox α → BoundingBox α
  | empty, b => b
  | b, empty => b
  | box mn mx, box mn2 mx2 =>
    box ⟨min mn.x mn2.x, min mn.y mn2.y, min mn.z mn2.z⟩
      ⟨max mx.x mx2.x, max mx.y mx2.y, max mx.z mx2.z⟩

/-- Modelled from the spec: `BoundingBox::contains(point)`. -/
def contains : BoundingBox α → Vec3 α → Prop
  | empty, _ => False
  | box mn mx, p =>
    mn.x ≤ p.x ∧ p.x ≤ mx.x ∧ mn.y ≤ p.y ∧ p.y ≤ mx.y ∧ mn.z ≤ p.z ∧ p.z ≤ mx.z

/-- Clamp of a coordinate to the interval `lo .. hi`. -/
def clamp (v lo hi : α) : α := min (max v lo) hi

/-- Modelled from the spec: `BoundingBox::distance2`, which clamps the query point to the
box and returns the squared distance to that clamp (0 when inside).  The empty box has no
point to clamp to: its distance is `⊤`. -/
def distance2 : BoundingBox α → Vec3 α → WithTop α
  | empty, _ => ⊤
  | box mn mx, p =>
    ((Vec3.distance2 p ⟨clamp p.x mn.x mx.x, clamp p.y mn.y mx.y, clamp p.z mn.z mx.z⟩ : α) :
      WithTop α)

/-- Modelled from the spec: `BoundingBox::max_distance2`, the squared distance to the
farthest of the eight corners, i.e. the maximal per-axis distance to either face,
squared and summed.  The empty box gives no finite bound: `⊤`. -/
def max_distance2 : BoundingBox α → Vec3 α → WithTop α
  | empty, _ => ⊤
  | box mn mx, p =>
    let dx := max |p.x - mn.x| |p.x - mx.x|
    let dy := max |p.y - mn.y| |p.y - mx.y|
    let dz := max |p.z - mn.z| |p.z - mx.z|
    ((dx * dx + dy * dy + dz * dz : α) : WithTop α)

end BoundingBox

/-! ## The dynamic octree -/

/-- Modelled from the spec: `Octree<Data>` (its header is not among the sources), as far
as `LinearOctree` reads it: the geometric octant box `BB`, the payload `data_vec` and the
child array `octants`. -/
inductive Octree (α D : Type) where
  | mk (BB : BoundingBox α) (data_vec : List D) (octants : List (Octree α D)) : Octree α D

namespace Octree

variable {α D : Type}

/-- Payload stored in the node itself. -/
def data_vec : Octree α D → List D
  | mk _ d _ => d

/-- Child array of the node. -/
def octants : Octree α D → List (Octree α D)
  | mk _ _ cs => cs

/-- Geometric octant box of the node. -/
def BB : Octree α D → BoundingBox α
  | mk b _ _ => b

/-- Modelled from the spec: `Octree::leaf()`; a node is a leaf when it has no child
subtrees. -/
def leaf (t : Octree α D) : Bool := t.octants.isEmpty

/-- The test `!(octant->leaf() && octant->data_vec.empty())` that `compact` and `octreeSize`
apply to a node: it is visited unless it is a leaf without payload. -/
def used (t : Octree α D) : Bool := !(t.leaf && t.data_vec.isEmpty)

end Octree

/-- Modelled from the spec: `SearchResult<Data>` (declared in the octree header), an item
together with its squared distance to the query point. -/
structure SearchResult (α D : Type) where
  data : D
  distance2 : α
deriving DecidableEq, Repr

/-! ## The linear octree -/

/-- Record `LinearOctree::LinearOctant`.  `next_sibling = none` stands for `NULL_IDX`. -/
structure LinearOctant (α : Type) where
  BB : BoundingBox α
  start_data : Nat
  contained_data : Nat
  next_sibling : Option Nat
  leaf : Bool
deriving DecidableEq, Repr

/-- Value-initialised octant, as created by `linear_tree.emplace_back()`. -/
def LinearOctant.fresh (α : Type) : LinearOctant α :=
  { BB := BoundingBox.empty, start_data := 0, contained_data := 0, next_sibling := some 0,
    leaf := false }

/-- Class `LinearOctree<Data>`: the node array and the data array. -/
structure LinearOctree (α D : Type) where
  linear_tree : List (LinearOctant α)
  ordered_data : List D
deriving DecidableEq, Repr

/-- Write access `v[i].field = ...` on a vector: apply `f` to the element at index `i`. -/
def updateAt {β : Type} : List β → Nat → (β → β) → List β
  | [], _, _ => []
  | b :: bs, 0, f => f b :: bs
  | b :: bs, i + 1, f => b :: updateAt bs i f

/-- Values that `compact` hands back: the updated object, the two running counters
(`df_idx`, `data_idx`), the out-parameter `contained_data` and the returned box. -/
structure CompactOut (α D : Type) where
  self : LinearOctree α D
  df_idx : Nat
  data_idx : Nat
  contained_data : Nat
  BB : BoundingBox α

/-- State of the loop over `use` inside `compact`. -/
structure CompactLoop (α D : Type) where
  self : LinearOctree α D
  df_idx : Nat
  data_idx : Nat
  BB : BoundingBox α

namespace LinearOctree

variable {α D : Type} [LinearOrderedCommRing α]

/-- The default constructor `LinearOctree()`. -/
def empty : LinearOctree α D := { linear_tree := [], ordered_data := [] }

mutual
/-- Function `LinearOctree::octreeSize`: adds the number of visited nodes and of their
payload items to the two counters. -/
def octreeSize : Octree α D → Nat × Nat → Nat × Nat
  | .mk _ data_vec octants, (size, data_size) =>
    if octants.isEmpty && data_vec.isEmpty then (size, data_size)
    else
      if !octants.isEmpty then octreeSizeLoop octants (size + 1, data_size + data_vec.length)
      else (size + 1, data_size + data_vec.length)
/-- The loop `for (const auto &octant : octree_root.octants)` of `octreeSize`. -/
def octreeSizeLoop : List (Octree α D) → Nat × Nat → Nat × Nat
  | [], acc => acc
  | c :: cs, acc => octreeSizeLoop cs (octreeSize c acc)
end

mutual
/-- Function `LinearOctree::compact`.  The node is appended at index `idx = df_idx`, its
payload is copied to `ordered_data`, then the children that pass the `use` test are
compacted in child order; finally `next_sibling`, `BB` and `contained_data` are written. -/
def compact (pos : D → Vec3 α) :
    Octree α D → LinearOctree α D → Nat → Nat → Bool → CompactOut α D
  | .mk _ data_vec octants, self, df_idx, data_idx, last =>
    let idx := df_idx
    let df_idx := df_idx + 1
    let lt := self.linear_tree ++ [LinearOctant.fresh α]
    let lt := updateAt lt idx (fun o =>
      { o with leaf := octants.isEmpty, start_data := data_idx,
               contained_data := data_vec.length })
    let BB := data_vec.foldl (fun bb d => bb.merge (pos d)) BoundingBox.empty
    let od := self.ordered_data ++ data_vec
    let data_idx := data_idx + data_vec.length
    let st : CompactLoop α D :=
      if !octants.isEmpty then
        compactLoop pos octants idx
          { self := { linear_tree := lt, ordered_data := od }, df_idx := df_idx,
            data_idx := data_idx, BB := BB }
      else
        { self := { linear_tree := lt, ordered_data := od }, df_idx := df_idx,
          data_idx := data_idx, BB := BB }
    let lt := updateAt st.self.linear_tree idx (fun o =>
      { o with next_sibling := if last then none else some st.df_idx, BB := st.BB })
    { self := { linear_tree := lt, ordered_data := st.self.ordered_data },
      df_idx := st.df_idx, data_idx := st.data_idx,
      contained_data := (lt.get? idx).elim 0 LinearOctant.contained_data,
      BB := st.BB }
/-- The loop `for (const auto& i : use)` of `compact`, run over the child array: a child
that fails the `use` test is skipped, and `i == use.back()` holds for a child exactly when
no later child passes the test. -/
def compactLoop (pos : D → Vec3 α) :
    List (Octree α D) → Nat → CompactLoop α D → CompactLoop α D
  | [], _, st => st
  | c :: cs, idx, st =>
    if c.used then
      let r := compact pos c st.self st.df_idx st.data_idx (!(cs.any Octree.used))
      let lt := updateAt r.self.linear_tree idx (fun o =>
        { o with contained_data := o.contained_data + r.contained_data })
      compactLoop pos cs idx
        { self := { linear_tree := lt, ordered_data := r.self.ordered_data },
          df_idx := r.df_idx, data_idx := r.data_idx, BB := st.BB.mergeBox r.BB }
    else compactLoop pos cs idx st
end

/-- The constructor `LinearOctree(Octree<Data>& octree_root)`. -/
def ofOctree (pos : D → Vec3 α) (octree_root : Octree α D) : LinearOctree α D :=
  let sz := octreeSize octree_root (0, 0)
  if sz.1 = 0 ∨ sz.2 = 0 then empty
  else (compact pos octree_root empty 0 0 true).self

end LinearOctree

/-! ## The priority queue -/

/-- Modelled from the spec: `PriorityQueue<T>` (its header is not among the sources), a
binary heap stored in a vector and ordered by the element type's `operator<` (the
argument `lt`): the element at index 0 is a largest one. -/
abbrev PriorityQueue (T : Type) := List T

namespace PriorityQueue

variable {T : Type}

/-- Comparison `c[a] < c[b]` of two stored elements; false when an index is out of range. -/
def ltAt (lt : T → T → Bool) (c : List T) (a b : Nat) : Bool :=
  match c.get? a, c.get? b with
  | some x, some y => lt x y
  | _, _ => false

/-- Exchange of the elements at two indices. -/
def swap (c : List T) (a b : Nat) : List T :=
  match c.get? a, c.get? b with
  | some x, some y => (c.set a y).set b x
  | _, _ => c

/-- Sift-down from index `i`: while a child is larger than the element, exchange it with
its largest child. -/
def siftDown (lt : T → T → Bool) : Nat → List T → Nat → List T
  | 0, c, _ => c
  | fuel + 1, c, i =>
    let j := if ltAt lt c i (2 * i + 1) then 2 * i + 1 else i
    let j := if ltAt lt c j (2 * i + 2) then 2 * i + 2 else j
    if j = i then c else siftDown lt fuel (swap c i j) j

/-- Sift-up from index `i`: while the element is larger than its parent, exchange them. -/
def siftUp (lt : T → T → Bool) : Nat → List T → Nat → List T
  | 0, c, _ => c
  | fuel + 1, c, i =>
    if i = 0 then c
    else if ltAt lt c ((i - 1) / 2) i then siftUp lt fuel (swap c i ((i - 1) / 2)) ((i - 1) / 2)
    else c

/-- Modelled from the spec: `clear()`. -/
def clear (_ : PriorityQueue T) : PriorityQueue T := []

/-- Modelled from the spec: `empty()`. -/
def empty (c : PriorityQueue T) : Bool := c.isEmpty

/-- Modelled from the spec: `size()`. -/
def size (c : PriorityQueue T) : Nat := c.length

/-- Modelled from the spec: `top()`, the element at the root of the heap. -/
def top (c : PriorityQueue T) : Option T := c.head?

/-- Modelled from the spec: `push(x)`, the standard heap insert (append, then sift up). -/
def push (lt : T → T → Bool) (c : PriorityQueue T) (x : T) : PriorityQueue T :=
  siftUp lt (c.length + 1) (c ++ [x]) c.length

/-- Modelled from the spec: `push_unordered(x)`, append without restoring heap order. -/
def push_unordered (c : PriorityQueue T) (x : T) : PriorityQueue T := c ++ [x]

/-- Floyd's heapify: sift down the indices `i - 1, i - 2, .., 0` in this order. -/
def heapifyFrom (lt : T → T → Bool) : Nat → List T → List T
  | 0, c => c
  | i + 1, c => heapifyFrom lt i (siftDown lt c.length c i)

/-- Modelled from the spec: `make_heap()`, Floyd heapify over the current contents. -/
def make_heap (lt : T → T → Bool) (c : PriorityQueue T) : PriorityQueue T :=
  heapifyFrom lt (c.length / 2) c

/-- Modelled from the spec: `pop_push(x)`, replace the root by `x`, then sift down. -/
def pop_push (lt : T → T → Bool) (c : PriorityQueue T) (x : T) : PriorityQueue T :=
  siftDown lt c.length (c.set 0 x) 0

/-- Modelled from the spec: `pop()`, move the last element to the root, shrink, sift down. -/
def pop (lt : T → T → Bool) (c : PriorityQueue T) : PriorityQueue T :=
  match c.getLast? with
  | none => c
  | some x => siftDown lt (c.length - 1) ((c.set 0 x).dropLast) 0

end PriorityQueue

/-- Modelled from the spec: `SearchResult::operator<`, which orders search results by
squared distance (the result queue is a max-heap keyed by squared distance). -/
def SearchResult.lt {α D : Type} [LinearOrder α] (a b : SearchResult α D) : Bool :=
  decide (a.distance2 < b.distance2)

/-! ## k-nearest-neighbour search -/

/-- Local struct `DNode` of `knnSearch`: a pending subtree and the squared distance from the
query point to its box. -/
structure DNode (α : Type) where
  distance2 : WithTop α
  octant : Nat

/-- Member `DNode::operator<`: `rhs.distance2 < distance2`. -/
def DNode.lt {α : Type} [LinearOrder α] (a rhs : DNode α) : Bool :=
  decide (rhs.distance2 < a.distance2)

/-- Variables of `knnSearch` that the loops update. -/
structure KnnState (α D : Type) where
  result : PriorityQueue (SearchResult α D)
  max_distance2 : WithTop α
  to_visit : PriorityQueue (DNode α)

namespace LinearOctree

variable {α D : Type} [LinearOrderedCommRing α]

/-- The lambda `updateMaxDistance` of `knnSearch`. -/
def updateMaxDistance (st : KnnState α D) (d2 : WithTop α) : KnnState α D :=
  if d2 < st.max_distance2 then { st with max_distance2 := d2 } else st

/-- Body of the data loop of `knnSearch` for one item. -/
def knnVisit (p : Vec3 α) (k : Nat) (data : D) (pd : Vec3 α) (st : KnnState α D) :
    Option (KnnState α D) :=
  let distance2 := Vec3.distance2 pd p
  if (distance2 : WithTop α) ≤ st.max_distance2 then
    if st.result.size < (k + 2 ^ 64 - 1) % 2 ^ 64 then
      some { st with result := st.result.push_unordered ⟨data, distance2⟩ }
    else
      let result :=
        if st.result.size ≠ k then
          PriorityQueue.make_heap SearchResult.lt (st.result.push_unordered ⟨data, distance2⟩)
        else
          PriorityQueue.pop_push SearchResult.lt st.result ⟨data, distance2⟩
      match PriorityQueue.top result with
      | none => none
      | some t => some (updateMaxDistance { st with result := result } (t.distance2 : α))
  else some st

/-- The loop `for (uint64_t i = node.start_data; i < end_idx; i++)` of `knnSearch`, with
`n` iterations left. -/
def knnScan (pos : D → Vec3 α) (self : LinearOctree α D) (p : Vec3 α) (k : Nat) :
    Nat → Nat → KnnState α D → Option (KnnState α D)
  | 0, _, st => some st
  | n + 1, i, st =>
    match self.ordered_data.get? i with
    | none => none
    | some data =>
      match knnVisit p k data (pos data) st with
      | none => none
      | some st => knnScan pos self p k n (i + 1) st

/-- The loop `while (child_octant != NULL_IDX)` of `knnSearch`. -/
def knnChildren (self : LinearOctree α D) (p : Vec3 α) (k : Nat) :
    Nat → Option Nat → KnnState α D → Option (KnnState α D)
  | _, none, st => some st
  | 0, some _, _ => none
  | fuel + 1, some child_octant, st =>
    match self.linear_tree.get? child_octant with
    | none => none
    | some child_node =>
      let distance2 := child_node.BB.distance2 p
      let st :=
        if distance2 ≤ st.max_distance2 then
          let st := { st with
            to_visit := PriorityQueue.push DNode.lt st.to_visit ⟨distance2, child_octant⟩ }
          if child_node.contained_data ≥ k then
            updateMaxDistance st (child_node.BB.max_distance2 p)
          else st
        else st
      knnChildren self p k fuel child_node.next_sibling st

/-- The loop `while (true)` of `knnSearch`. -/
def knnLoop (pos : D → Vec3 α) (self : LinearOctree α D) (p : Vec3 α) (k : Nat) :
    Nat → DNode α → KnnState α D → Option (PriorityQueue (SearchResult α D))
  | 0, _, _ => none
  | fuel + 1, current, st =>
    match self.linear_tree.get? current.octant with
    | none => none
    | some node =>
      let step :=
        if node.leaf || node.contained_data ≤ k then
          knnScan pos self p k node.contained_data node.start_data st
        else
          knnChildren self p k self.linear_tree.length (some (current.octant + 1)) st
      match step with
      | none => none
      | some st =>
        if st.to_visit.empty then some st.result
        else
          match PriorityQueue.top st.to_visit with
          | none => none
          | some current =>
            if current.distance2 > st.max_distance2 then some st.result
            else knnLoop pos self p k fuel current
              { st with to_visit := PriorityQueue.pop DNode.lt st.to_visit }

/-- Function `LinearOctree::knnSearch`.  The argument `result` is the queue passed by
reference; the value is its final content, or `none` when an index is out of range or a
loop does not end within the node count. -/
def knnSearch (pos : D → Vec3 α) (self : LinearOctree α D) (p : Vec3 α) (k : Nat)
    (result : PriorityQueue (SearchResult α D)) : Option (PriorityQueue (SearchResult α D)) :=
  let result := PriorityQueue.clear result
  if self.linear_tree.isEmpty then some result
  else
    let k := if k > self.ordered_data.length then self.ordered_data.length else k
    match self.linear_tree.get? 0 with
    | none => none
    | some root =>
      knnLoop pos self p k self.linear_tree.length ⟨root.BB.distance2 p, 0⟩
        { result := result, max_distance2 := ⊤, to_visit := PriorityQueue.clear [] }

/-! ## Radius search -/

/-- Variables of `radiusSearch` that the loops update. -/
structure RadiusState (α D : Type) where
  result : List (SearchResult α D)
  to_visit : List Nat

/-- The leaf loop of `radiusSearch`: items of the range within the radius are appended. -/
def radiusScan (pos : D → Vec3 α) (self : LinearOctree α D) (p : Vec3 α) (radius2 : α) :
    Nat → Nat → List (SearchResult α D) → Option (List (SearchResult α D))
  | 0, _, result => some result
  | n + 1, i, result =>
    match self.ordered_data.get? i with
    | none => none
    | some data =>
      let distance2 := Vec3.distance2 (pos data) p
      radiusScan pos self p radius2 n (i + 1)
        (if distance2 ≤ radius2 then result ++ [⟨data, distance2⟩] else result)

/-- The loop of `radiusSearch` over a child that lies completely inside the search sphere:
every item of the range is appended. -/
def radiusCollect (pos : D → Vec3 α) (self : LinearOctree α D) (p : Vec3 α) :
    Nat → Nat → List (SearchResult α D) → Option (List (SearchResult α D))
  | 0, _, result => some result
  | n + 1, i, result =>
    match self.ordered_data.get? i with
    | none => none
    | some data =>
      radiusCollect pos self p n (i + 1) (result ++ [⟨data, Vec3.distance2 (pos data) p⟩])

/-- The loop `while (child_idx != NULL_IDX)` of `radiusSearch`. -/
def radiusChildren (pos : D → Vec3 α) (self : LinearOctree α D) (p : Vec3 α) (radius2 : α) :
    Nat → Option Nat → RadiusState α D → Option (RadiusState α D)
  | _, none, st => some st
  | 0, some _, _ => none
  | fuel + 1, some child_idx, st =>
    match self.linear_tree.get? child_idx with
    | none => none
    | some child_node =>
      let st : Option (RadiusState α D) :=
        if child_node.BB.distance2 p ≤ (radius2 : WithTop α) then
          if child_node.BB.max_distance2 p ≤ (radius2 : WithTop α) then
            (radiusCollect pos self p child_node.contained_data child_node.start_data
              st.result).map (fun r => { st with result := r })
          else some { st with to_visit := st.to_visit ++ [child_idx] }
        else some st
      match st with
      | none => none
      | some st => radiusChildren pos self p radius2 fuel child_node.next_sibling st

/-- The loop `while (true)` of `radiusSearch`. -/
def radiusLoop (pos : D → Vec3 α) (self : LinearOctree α D) (p : Vec3 α) (radius2 : α) :
    Nat → Nat → RadiusState α D → Option (List (SearchResult α D))
  | 0, _, _ => none
  | fuel + 1, node_idx, st =>
    match self.linear_tree.get? node_idx with
    | none => none
    | some node =>
      let step : Option (RadiusState α D) :=
        if node.leaf then
          (radiusScan pos self p radius2 node.contained_data node.start_data st.result).map
            (fun r => { st with result := r })
        else
          radiusChildren pos self p radius2 self.linear_tree.length (some (node_idx + 1)) st
      match step with
      | none => none
      | some st =>
        match st.to_visit.getLast? with
        | none => some st.result
        | some node_idx => radiusLoop pos self p radius2 fuel node_idx
            { st with to_visit := st.to_visit.dropLast }

/-- Function `LinearOctree::radiusSearch`; `none` when an index is out of range or a loop
does not end within the node count. -/
def radiusSearch (pos : D → Vec3 α) (self : LinearOctree α D) (p : Vec3 α) (radius : α) :
    Option (List (SearchResult α D)) :=
  if self.linear_tree.isEmpty then some []
  else
    let radius2 := radius * radius
    radiusLoop pos self p radius2 self.linear_tree.length 0 { result := [], to_visit := [] }

end LinearOctree

/-! ## The photon mapper -/

namespace Vec3

variable {α : Type}

/-- Vector of three equal components, `glm::dvec3(s)`. -/
def splat (s : α) : Vec3 α := ⟨s, s, s⟩

/-- Unary minus of a vector. -/
def neg [Neg α] (a : Vec3 α) : Vec3 α := ⟨-a.x, -a.y, -a.z⟩

/-- Component-wise sum. -/
def add [Add α] (a b : Vec3 α) : Vec3 α := ⟨a.x + b.x, a.y + b.y, a.z + b.z⟩

/-- Component-wise product `a * b` of two vectors. -/
def mul [Mul α] (a b : Vec3 α) : Vec3 α := ⟨a.x * b.x, a.y * b.y, a.z * b.z⟩

/-- Product `a * s` of a vector and a scalar. -/
def smul [Mul α] (a : Vec3 α) (s : α) : Vec3 α := ⟨a.x * s, a.y * s, a.z * s⟩

/-- Quotient `a / s` of a vector by a scalar. -/
def sdiv [Div α] (a : Vec3 α) (s : α) : Vec3 α := ⟨a.x / s, a.y / s, a.z / s⟩

/-- Sum of the components, `glm::compAdd`. -/
def compAdd [Add α] (a : Vec3 α) : α := a.x + a.y + a.z

/-- Largest component, `glm::compMax`. -/
def compMax [Max α] (a : Vec3 α) : α := max (max a.x a.y) a.z

end Vec3

/-- Modelled from the spec: `Photon` (its header is not among the sources): flux, position
and the direction from the surface toward the previous vertex of the path. -/
structure Photon (α : Type) where
  flux : Vec3 α
  position : Vec3 α
  dir : Vec3 α
deriving DecidableEq, Repr

/-- Accessor `Photon::pos()` used by the octree. -/
def Photon.pos {α : Type} (ph : Photon α) : Vec3 α := ph.position

/-- The fields of `Ray` that the photon mapper reads or writes. -/
structure Ray (α : Type) where
  start : Vec3 α
  direction : Vec3 α
  medium_ior : α
  dirac_delta : Bool
  depth : Nat

/-- Constructor `Ray(pos, dir, ior)`: a fresh ray is not dirac-delta and has depth 0. -/
def Ray.new {α : Type} (pos dir : Vec3 α) (ior : α) : Ray α :=
  { start := pos, direction := dir, medium_ior := ior, dirac_delta := false, depth := 0 }

/-- The fields of `Interaction` that the photon mapper reads: the hit position, the flag
`material->dirac_delta` of the hit material and the flag `dirac_delta` of the interaction
itself. -/
structure Interaction (α : Type) where
  position : Vec3 α
  material_dirac_delta : Bool
  dirac_delta : Bool

/-- An emissive surface of the scene, as far as the budget allocation reads it. -/
structure Light (α : Type) where
  emittance : Vec3 α
  area : α

/-- The scene, as far as the photon mapper reads it. -/
structure Scene (α : Type) where
  emissives : List (Light α)
  BB : BoundingBox α
  ior : α

/-- The collaborators of the photon mapper whose code is outside the core: the sampler, the
scene intersection together with the construction of the `Interaction`, the BSDF, the
refraction history, the light geometry, the dynamic octree insertion, the work shuffle
(`std::shuffle`, which permutes the work items) and the numeric constants.  `σ` is the state
of the sampler and of the refraction history. -/
structure Collaborators (α σ : Type) where
  initiate : σ → Nat → σ
  setIndex : σ → Nat → σ
  shuffle : σ → σ
  get_PM_LIGHT : σ → (α × α × α × α) × σ
  get_PM_REJECT : σ → α × σ
  get_ABSORB : σ → α × σ
  newHistory : σ → Ray α → σ
  updateHistory : σ → Ray α → σ
  intersect : σ → Ray α → Option (Interaction α)
  sampleBSDF : σ → Interaction α → Ray α → Bool → Option (Vec3 α × α × Ray α) × σ
  BSDF : Interaction α → Vec3 α → Option (Vec3 α × α)
  lightPoint : Light α → α → α → Vec3 α
  lightNormal : Light α → Vec3 α → Vec3 α
  hemisphereDirection : α → α → Vec3 α → Vec3 α
  insert : Nat → Octree α (Photon α) → Photon α → Octree α (Photon α)
  shuffleWork : {W : Type} → List W → List W
  shuffleWork_perm : ∀ {W : Type} (l : List W), (shuffleWork l).Perm l
  sqrt : α → α
  EPSILON : α
  PI : α
  INV_PI : α

/-- The object `j.at("photon_map")`; a key that is absent is `none`. -/
structure PhotonMapConfig (α : Type) where
  caustic_factor : Option α
  emissions : Option Nat
  k_nearest_photons : Option Nat
  max_photons_per_octree_leaf : Option Nat
  direct_visualization : Option Bool

/-- Member variables of `PhotonMapper`. -/
structure PhotonMapper (α : Type) where
  k_nearest_photons : Nat
  non_caustic_reject : α
  max_node_data : Nat
  direct_visualization : Bool
  caustic_vecs : List (List (Photon α))
  global_vecs : List (List (Photon α))
  caustic_map : LinearOctree α (Photon α)
  global_map : LinearOctree α (Photon α)

/-- Local struct `EmissionWork` of the constructor. -/
structure EmissionWork (α : Type) where
  light_index : Nat
  emissions_offset : Nat
  num_emissions : Nat
  photon_flux : Vec3 α

namespace PhotonMapper

variable {α σ : Type} [LinearOrderedField α] [FloorRing α]

/-- Constant `EPW`, the emissions per work item. -/
def EPW : Nat := 100000

/-- Helper `getOptional(j, key, default)`. -/
def getOptional {β : Type} (v : Option β) (dflt : β) : β := v.getD dflt

/-- Conversion `static_cast<size_t>(double)` of a non-negative value: truncation. -/
def toSizeT (x : α) : Nat := ⌊x⌋₊

/-- Scalar flux `glm::compAdd(light->material->emittance * light->area())` of a light. -/
def lightFlux (light : Light α) : α := (light.emittance.smul light.area).compAdd

/-- The loop that accumulates `total_add_flux` over `scene.emissives`. -/
def totalAddFlux (emissives : List (Light α)) : α :=
  emissives.foldl (fun total light => total + lightFlux light) 0

/-- The value `num_light_emissions` that the constructor computes for a light. -/
def numLightEmissions (photon_emissions : Nat) (total_add_flux : α) (light : Light α) : Nat :=
  let light_flux := light.emittance.smul light.area
  let photon_emissions_share := light_flux.compAdd / total_add_flux
  toSizeT ((photon_emissions : α) * photon_emissions_share)

/-- The loop `while (count != num_light_emissions)` that splits the emissions of light `i`
into work items. -/
def batchLoop (i num_light_emissions : Nat) (photon_flux : Vec3 α) :
    Nat → Nat → List (EmissionWork α) → Option (List (EmissionWork α))
  | 0, count, work_vec => if count ≠ num_light_emissions then none else some work_vec
  | fuel + 1, count, work_vec =>
    if count ≠ num_light_emissions then
      let emissions :=
        if count + EPW > num_light_emissions then num_light_emissions - count else EPW
      batchLoop i num_light_emissions photon_flux fuel (count + emissions)
        (work_vec ++ [⟨i, count, emissions, photon_flux⟩])
    else some work_vec

/-- The loop `for (size_t i = 0; i < scene.emissives.size(); i++)` of the constructor, run
over the lights that are left; `i` is the index of the first of them. -/
def workLoop (photon_emissions : Nat) (total_add_flux : α) :
    List (Light α) → Nat → List (EmissionWork α) → Option (List (EmissionWork α))
  | [], _, work_vec => some work_vec
  | light :: rest, i, work_vec =>
    let light_flux := light.emittance.smul light.area
    let num_light_emissions := numLightEmissions photon_emissions total_add_flux light
    let photon_flux := light_flux.sdiv (num_light_emissions : α)
    match batchLoop i num_light_emissions photon_flux num_light_emissions 0 work_vec with
    | none => none
    | some work_vec => workLoop photon_emissions total_add_flux rest (i + 1) work_vec

/-- The deposit rule of `emitPhoton` (the block guarded by
`!interaction.material->dirac_delta`). -/
def deposit (env : Collaborators α σ) (self : PhotonMapper α) (s : σ)
    (interaction : Interaction α) (ray : Ray α) (flux : Vec3 α) : PhotonMapper α × σ :=
  if !interaction.material_dirac_delta then
    if ray.dirac_delta then
      let photon : Photon α := ⟨flux, interaction.position, ray.direction.neg⟩
      ({ self with caustic_vecs := updateAt self.caustic_vecs 0 (fun v => v ++ [photon]) }, s)
    else
      let u := env.get_PM_REJECT s
      if self.non_caustic_reject > u.1 then
        let photon : Photon α :=
          ⟨flux.sdiv self.non_caustic_reject, interaction.position, ray.direction.neg⟩
        ({ self with global_vecs := updateAt self.global_vecs 0 (fun v => v ++ [photon]) }, u.2)
      else (self, u.2)
  else (self, s)

/-- The loop `while (true)` of `PhotonMapper::emitPhoton`; `none` when the path has not
ended within the fuel. -/
def emitPhotonLoop (env : Collaborators α σ) :
    Nat → PhotonMapper α → σ → Ray α → Vec3 α → Option (PhotonMapper α × σ)
  | 0, _, _, _, _ => none
  | fuel + 1, self, s, ray, flux =>
    let s := env.shuffle s
    match env.intersect s ray with
    | none => some (self, s)
    | some interaction =>
      let dep := deposit env self s interaction ray flux
      match env.sampleBSDF dep.2 interaction ray true with
      | (none, s) => some (dep.1, s)
      | (some (bsdf_absIdotN, bsdf_pdf, ray), s) =>
        let bsdf_absIdotN := bsdf_absIdotN.sdiv bsdf_pdf
        let survive := min bsdf_absIdotN.compMax (95 / 100)
        if survive = 0 then some (dep.1, s)
        else
          let u := env.get_ABSORB s
          if survive ≤ u.1 then some (dep.1, u.2)
          else
            emitPhotonLoop env fuel dep.1 (env.updateHistory u.2 ray) ray
              (flux.mul (bsdf_absIdotN.sdiv survive))

/-- Function `PhotonMapper::emitPhoton`. -/
def emitPhoton (env : Collaborators α σ) (fuel : Nat) (self : PhotonMapper α) (s : σ)
    (ray : Ray α) (flux : Vec3 α) : Option (PhotonMapper α × σ) :=
  emitPhotonLoop env fuel self (env.newHistory s ray) ray flux

/-- The loop `for (size_t i = 0; i < work.num_emissions; i++)` of the constructor, with `n`
iterations left. -/
def emissionLoop (env : Collaborators α σ) (fuel : Nat) (scene : Scene α) (light : Light α)
    (work : EmissionWork α) :
    Nat → Nat → PhotonMapper α → σ → Option (PhotonMapper α × σ)
  | 0, _, self, s => some (self, s)
  | n + 1, i, self, s =>
    let s := env.setIndex s ((work.emissions_offset + i) % 2 ^ 32)
    let u := env.get_PM_LIGHT s
    let pos := env.lightPoint light u.1.1 u.1.2.1
    let normal := env.lightNormal light pos
    let dir := env.hemisphereDirection u.1.2.2.1 u.1.2.2.2 normal
    let pos := pos.add (normal.smul env.EPSILON)
    match emitPhoton env fuel self u.2 (Ray.new pos dir scene.ior) work.photon_flux with
    | none => none
    | some r => emissionLoop env fuel scene light work n (i + 1) r.1 r.2

/-- The loop `while (work_queue.getWork(work))` of the constructor. -/
def runWork (env : Collaborators α σ) (fuel : Nat) (scene : Scene α) :
    List (EmissionWork α) → PhotonMapper α → σ → Option (PhotonMapper α × σ)
  | [], self, s => some (self, s)
  | work :: rest, self, s =>
    match scene.emissives.get? work.light_index with
    | none => none
    | some light =>
      let s := env.initiate s (work.light_index % 2 ^ 32)
      match emissionLoop env fuel scene light work work.num_emissions 0 self s with
      | none => none
      | some r => runWork env fuel scene rest r.1 r.2

/-- The lambda `insertAndPop`: the photons are inserted into the octree from the last to
the first, and the vector is left empty. -/
def insertAndPop (env : Collaborators α σ) (max_node_data : Nat) (pvec : List (Photon α))
    (pmap : Octree α (Photon α)) : List (Photon α) × Octree α (Photon α) :=
  ([], pvec.foldr (fun ph t => env.insert max_node_data t ph) pmap)

/-- Modelled from the spec: the constructor `Octree(BB, max_node_data)`, a leaf without
payload whose box is the given root box. -/
def newOctree (BB : BoundingBox α) : Octree α (Photon α) := Octree.mk BB [] []

/-- The constructor `PhotonMapper::PhotonMapper`; `none` when a required key is missing, an
index is out of range or a photon path does not end within the fuel. -/
def construct (env : Collaborators α σ) (fuel : Nat) (pm : PhotonMapConfig α)
    (scene : Scene α) (s : σ) : Option (PhotonMapper α × σ) :=
  match pm.caustic_factor, pm.emissions with
  | some caustic_factor, some photon_emissions =>
    let self : PhotonMapper α :=
      { k_nearest_photons := getOptional pm.k_nearest_photons 50,
        non_caustic_reject := 1 / caustic_factor,
        max_node_data := getOptional pm.max_photons_per_octree_leaf 200,
        direct_visualization := getOptional pm.direct_visualization false,
        caustic_vecs := [],
        global_vecs := [],
        caustic_map := LinearOctree.empty,
        global_map := LinearOctree.empty }
    let photon_emissions := toSizeT ((photon_emissions : α) * caustic_factor)
    let total_add_flux := totalAddFlux scene.emissives
    match workLoop photon_emissions total_add_flux scene.emissives 0 [] with
    | none => none
    | some work_vec =>
      let work_vec := env.shuffleWork work_vec
      let self := { self with caustic_vecs := [[]], global_vecs := [[]] }
      match runWork env fuel scene work_vec self s with
      | none => none
      | some (self, s) =>
        match self.global_vecs.get? 0, self.caustic_vecs.get? 0 with
        | some gv, some cv =>
          let g := insertAndPop env self.max_node_data gv (newOctree scene.BB)
          let c := insertAndPop env self.max_node_data cv (newOctree scene.BB)
          some ({ self with
            global_vecs := updateAt self.global_vecs 0 (fun _ => g.1),
            caustic_vecs := updateAt self.caustic_vecs 0 (fun _ => c.1),
            caustic_map := LinearOctree.ofOctree Photon.pos c.2,
            global_map := LinearOctree.ofOctree Photon.pos g.2 }, s)
        | _, _ => none
  | _, _ => none

/-- The loop `for (const auto& p : photons)` of `estimateGlobalRadiance`. -/
def globalSum (env : Collaborators α σ) (interaction : Interaction α) :
    List (SearchResult α (Photon α)) → Vec3 α → Vec3 α
  | [], radiance => radiance
  | p :: ps, radiance =>
    match env.BSDF interaction p.data.dir with
    | some (bsdf_absIdotN, bsdf_pdf) =>
      globalSum env interaction ps (radiance.add ((p.data.flux.mul bsdf_absIdotN).sdiv bsdf_pdf))
    | none => globalSum env interaction ps radiance

/-- Function `PhotonMapper::estimateGlobalRadiance`; `none` when the search fails. -/
def estimateGlobalRadiance (env : Collaborators α σ) (self : PhotonMapper α)
    (interaction : Interaction α) : Option (Vec3 α) :=
  match LinearOctree.knnSearch Photon.pos self.global_map interaction.position
      self.k_nearest_photons [] with
  | none => none
  | some photons =>
    if photons.empty then some (Vec3.splat 0)
    else
      match PriorityQueue.top photons with
      | none => none
      | some top =>
        let radiance := globalSum env interaction photons (Vec3.splat 0)
        some (radiance.sdiv (top.distance2 * env.PI))

/-- The loop `for (const auto& p : photons)` of `estimateCausticRadiance`. -/
def causticSum (env : Collaborators α σ) (interaction : Interaction α)
    (inv_max_squared_radius : α) :
    List (SearchResult α (Photon α)) → Vec3 α → Vec3 α
  | [], radiance => radiance
  | p :: ps, radiance =>
    match env.BSDF interaction p.data.dir with
    | some (bsdf_absIdotN, bsdf_pdf) =>
      let wp := max 0 (1 - env.sqrt (p.distance2 * inv_max_squared_radius))
      causticSum env interaction inv_max_squared_radius ps
        (radiance.add (((p.data.flux.mul bsdf_absIdotN).smul wp).sdiv bsdf_pdf))
    | none => causticSum env interaction inv_max_squared_radius ps radiance

/-- Function `PhotonMapper::estimateCausticRadiance`; `none` when the search fails. -/
def estimateCausticRadiance (env : Collaborators α σ) (self : PhotonMapper α)
    (interaction : Interaction α) : Option (Vec3 α) :=
  match LinearOctree.knnSearch Photon.pos self.caustic_map interaction.position
      self.k_nearest_photons [] with
  | none => none
  | some photons =>
    if photons.empty then some (Vec3.splat 0)
    else
      match PriorityQueue.top photons with
      | none => none
      | some top =>
        let inv_max_squared_radius := 1 / top.distance2
        let radiance := causticSum env interaction inv_max_squared_radius photons (Vec3.splat 0)
        some (((radiance.smul 3).smul inv_max_squared_radius).smul env.INV_PI)

end PhotonMapper

/-- The field of `LightSample` that `sampleRay` writes; the other fields are part of the
state `σ` of the collaborators. -/
structure LightSample (α : Type) where
  bsdf_pdf : α

/-- The members of the base class `Integrator` that `sampleRay` calls (their code is outside
the core): `sampleEmissive`, `sampleDirect` and `absorb`.  The local `ls` is handed to
`sampleEmissive` and `sampleDirect`, and the local `throughput` to `absorb`; each of them
gives back the value it leaves in that variable.  `absorb` tells whether the path is
absorbed. -/
structure IntegratorCollaborators (α σ : Type) where
  sampleEmissive : σ → Interaction α → LightSample α → (Vec3 α × LightSample α) × σ
  sampleDirect : σ → Interaction α → LightSample α → (Vec3 α × LightSample α) × σ
  absorb : σ → Ray α → Vec3 α → (Bool × Vec3 α) × σ

/-- Outcome of one iteration of the loop of `sampleRay`: the function returns `radiance`, or
the loop goes on with the updated variables. -/
inductive SampleRayStep (α σ : Type) where
  | ret (radiance : Vec3 α) (s : σ) : SampleRayStep α σ
  | next (s : σ) (ray : Ray α) (radiance throughput : Vec3 α) (ls : LightSample α) :
      SampleRayStep α σ

/-- The radiance accumulated when the iteration ends. -/
def SampleRayStep.radiance {α σ : Type} : SampleRayStep α σ → Vec3 α
  | .ret radiance _ => radiance
  | .next _ _ radiance _ _ => radiance

namespace PhotonMapper

variable {α σ : Type} [LinearOrderedField α] [FloorRing α]

/-- The end of an iteration of `sampleRay` that has not returned: `absorb(ray, throughput)`
and `refraction_history.update(ray)`. -/
def sampleRayTail (env : Collaborators α σ) (ienv : IntegratorCollaborators α σ) (s : σ)
    (ray : Ray α) (radiance throughput : Vec3 α) (ls : LightSample α) : SampleRayStep α σ :=
  let a := ienv.absorb s ray throughput
  if a.1.1 then .ret radiance a.2
  else .next (env.updateHistory a.2 ray) ray radiance a.1.2 ls

/-- The call `interaction.sampleBSDF(bsdf_absIdotN, ls.bsdf_pdf, ray)` of `sampleRay`
together with what follows it: return when the sampling fails, otherwise scale the
throughput and go to the end of the iteration. -/
def sampleRayContinue (env : Collaborators α σ) (ienv : IntegratorCollaborators α σ) (s : σ)
    (interaction : Interaction α) (ray : Ray α) (radiance throughput : Vec3 α)
    (ls : LightSample α) : SampleRayStep α σ :=
  match env.sampleBSDF s interaction ray false with
  | (none, s) => .ret radiance s
  | (some (bsdf_absIdotN, bsdf_pdf, ray), s) =>
    sampleRayTail env ienv s ray radiance (throughput.mul (bsdf_absIdotN.sdiv bsdf_pdf))
      { ls with bsdf_pdf := bsdf_pdf }

/-- The body of the loop of `PhotonMapper::sampleRay` after a hit; `none` when a photon-map
search fails. -/
def sampleRayHit (env : Collaborators α σ) (ienv : IntegratorCollaborators α σ)
    (self : PhotonMapper α) (s : σ) (ray : Ray α) (interaction : Interaction α)
    (radiance throughput : Vec3 α) (ls : LightSample α) : Option (SampleRayStep α σ) :=
  let e := ienv.sampleEmissive s interaction ls
  let radiance := radiance.add (e.1.1.mul throughput)
  if interaction.dirac_delta then
    if !ray.dirac_delta && ray.depth != 0 then some (.ret radiance e.2)
    else some (sampleRayContinue env ienv e.2 interaction ray radiance throughput e.1.2)
  else
    match estimateCausticRadiance env self interaction with
    | none => none
    | some caustic =>
      let radiance := radiance.add (caustic.mul throughput)
      if !self.direct_visualization && (ray.dirac_delta || ray.depth == 0) then
        let d := ienv.sampleDirect e.2 interaction e.1.2
        let radiance := radiance.add (d.1.1.mul throughput)
        some (sampleRayContinue env ienv d.2 interaction ray radiance throughput d.1.2)
      else
        match estimateGlobalRadiance env self interaction with
        | none => none
        | some glob => some (.ret (radiance.add (glob.mul throughput)) e.2)

/-- The loop `while (true)` of `PhotonMapper::sampleRay`; `none` when the path has not ended
within the fuel or a photon-map search fails. -/
def sampleRayLoop (env : Collaborators α σ) (ienv : IntegratorCollaborators α σ)
    (self : PhotonMapper α) :
    Nat → σ → Ray α → Vec3 α → Vec3 α → LightSample α → Option (Vec3 α × σ)
  | 0, _, _, _, _, _ => none
  | fuel + 1, s, ray, radiance, throughput, ls =>
    let s := env.shuffle s
    match env.intersect s ray with
    | none => some (radiance, s)
    | some interaction =>
      match sampleRayHit env ienv self s ray interaction radiance throughput ls with
      | none => none
      | some (.ret radiance s) => some (radiance, s)
      | some (.next s ray radiance throughput ls) =>
        sampleRayLoop env ienv self fuel s ray radiance throughput ls

/-- Function `PhotonMapper::sampleRay`; `ls` is the default-constructed `LightSample`. -/
def sampleRay (env : Collaborators α σ) (ienv : IntegratorCollaborators α σ)
    (self : PhotonMapper α) (fuel : Nat) (s : σ) (ray : Ray α) (ls : LightSample α) :
    Option (Vec3 α × σ) :=
  sampleRayLoop env ienv self fuel (env.newHistory s ray) ray (Vec3.splat 0) (Vec3.splat 1) ls

end PhotonMapper

/-! ## Specification-side functions on the dynamic octree -/

namespace Octree

variable {α D : Type}

mutual
/-- Depth-first pre-order concatenation of the payload: the node's own items, then the
items of its children in child order. -/
def flatten : Octree α D → List D
  | mk _ d cs => d ++ flattenList cs
/-- Concatenation of `flatten` over a child array. -/
def flattenList : List (Octree α D) → List D
  | [] => []
  | c :: cs => flatten c ++ flattenList cs
end

mutual
/-- The subtrees that `compact` visits, in depth-first pre-order. -/
def emitted : Octree α D → List (Octree α D)
  | mk b d cs => mk b d cs :: emittedList cs
/-- The visited subtrees below a child array. -/
def emittedList : List (Octree α D) → List (Octree α D)
  | [] => []
  | c :: cs => if c.used then emitted c ++ emittedList cs else emittedList cs
end

variable [LinearOrderedCommRing α]

/-- Smallest box around the positions of a payload sequence, grown from `bb`. -/
def mergeAll (pos : D → Vec3 α) (bb : BoundingBox α) (d : List D) : BoundingBox α :=
  d.foldl (fun bb x => bb.merge (pos x)) bb

mutual
/-- Box that `compact` computes for a subtree. -/
def hull (pos : D → Vec3 α) : Octree α D → BoundingBox α
  | mk _ d cs => hullList pos cs (mergeAll pos BoundingBox.empty d)
/-- Box after merging the boxes of the visited children into `bb`. -/
def hullList (pos : D → Vec3 α) : List (Octree α D) → BoundingBox α → BoundingBox α
  | [], bb => bb
  | c :: cs, bb => if c.used then hullList pos cs (bb.mergeBox (hull pos c)) else hullList pos cs bb
end

mutual
/-- The octants that `compact` appends for a subtree placed at node index `idx` and data
offset `s`. -/
def nodes (pos : D → Vec3 α) : Octree α D → Nat → Nat → Bool → List (LinearOctant α)
  | mk b d cs, idx, s, last =>
    { BB := hull pos (mk b d cs), start_data := s,
      contained_data := (flatten (mk b d cs)).length,
      next_sibling := if last then none else some (idx + (emitted (mk b d cs)).length),
      leaf := cs.isEmpty } :: nodesList pos cs (idx + 1) (s + d.length)
/-- The octants appended for the visited children of a node. -/
def nodesList (pos : D → Vec3 α) : List (Octree α D) → Nat → Nat → List (LinearOctant α)
  | [], _, _ => []
  | c :: cs, idx, s =>
    if c.used then
      nodes pos c idx s (!(cs.any used)) ++
        nodesList pos cs (idx + (emitted c).length) (s + (flatten c).length)
    else nodesList pos cs idx s
end

end Octree

namespace Octree

variable {α D : Type}

mutual
/-- Data-model condition "payload only in leaves": a node with children holds no payload of
its own. -/
def payloadOnlyInLeaves : Octree α D → Bool
  | mk _ d cs => (cs.isEmpty || d.isEmpty) && payloadOnlyInLeavesList cs
/-- The condition `payloadOnlyInLeaves` for every subtree of a child array. -/
def payloadOnlyInLeavesList : List (Octree α D) → Bool
  | [] => true
  | c :: cs => payloadOnlyInLeaves c && payloadOnlyInLeavesList cs
end

mutual
/-- Every internal node has at least one non-empty descendant: below each node with
children there is payload. -/
def internalNonEmpty : Octree α D → Bool
  | mk _ _ cs => (cs.isEmpty || !(flattenList cs).isEmpty) && internalNonEmptyList cs
/-- The condition `internalNonEmpty` for every subtree of a child array. -/
def internalNonEmptyList : List (Octree α D) → Bool
  | [] => true
  | c :: cs => internalNonEmpty c && internalNonEmptyList cs
end

mutual
/-- Shape condition of the data model: a node is a leaf or has exactly eight children. -/
def eightChildren : Octree α D → Bool
  | mk _ _ cs => (cs.isEmpty || cs.length == 8) && eightChildrenList cs
/-- The condition `eightChildren` for every subtree of a child array. -/
def eightChildrenList : List (Octree α D) → Bool
  | [] => true
  | c :: cs => eightChildren c && eightChildrenList cs
end

end Octree

namespace Octree

variable {α D : Type}

mutual
/-- All payload items of a tree, as a multiset. -/
def items : Octree α D → Multiset D
  | mk _ d cs => (d : Multiset D) + itemsList cs
/-- All payload items below a child array. -/
def itemsList : List (Octree α D) → Multiset D
  | [] => 0
  | c :: cs => items c + itemsList cs
end

mutual
/-- The tree with every geometric octant box replaced by the empty box. -/
def eraseBB : Octree α D → Octree α D
  | mk _ d cs => mk BoundingBox.empty d (eraseBBList cs)
/-- The child array with every geometric octant box replaced by the empty box. -/
def eraseBBList : List (Octree α D) → List (Octree α D)
  | [] => []
  | c :: cs => eraseBB c :: eraseBBList cs
end

end Octree

section

open Octree

variable {α D : Type} [LinearOrderedCommRing α]

mutual
/-- Subtree `t` is laid out in `lin` at node index `i` with its data at offset `s`, and
its octant links to `nx`. -/
def OctreeLayout (pos : D → Vec3 α) (lin : LinearOctree α D) :
    Octree α D → Nat → Nat → Option Nat → Prop
  | .mk b d cs, i, s, nx =>
    lin.linear_tree.get? i = some
      { BB := hull pos (.mk b d cs), start_data := s,
        contained_data := (flatten (.mk b d cs)).length, next_sibling := nx,
        leaf := cs.isEmpty } ∧
    (∃ pre post, lin.ordered_data = pre ++ flatten (.mk b d cs) ++ post ∧ pre.length = s) ∧
    OctreeLayoutList pos lin cs (i + 1) (s + d.length)
/-- The visited children of a child array are laid out in `lin` one after the other from
node index `i` and data offset `s`, each linked to the next. -/
def OctreeLayoutList (pos : D → Vec3 α) (lin : LinearOctree α D) :
    List (Octree α D) → Nat → Nat → Prop
  | [], _, _ => True
  | c :: cs, i, s =>
    if c.used then
      OctreeLayout pos lin c i s (if !(cs.any Octree.used) then none else some (i + (emitted c).length)) ∧
        OctreeLayoutList pos lin cs (i + (emitted c).length) (s + (flatten c).length)
    else OctreeLayoutList pos lin cs i s
end

end

section

open Octree

variable {α D : Type} [LinearOrderedCommRing α]

/-- The value `m` is the least value of the coordinate `f` over the items `l`. -/
def IsMinOf {β : Type} (f : β → α) (l : List β) (m : α) : Prop :=
  (∀ d ∈ l, m ≤ f d) ∧ ∃ d ∈ l, f d = m

/-- The value `m` is the greatest value of the coordinate `f` over the items `l`. -/
def IsMaxOf {β : Type} (f : β → α) (l : List β) (m : α) : Prop :=
  (∀ d ∈ l, f d ≤ m) ∧ ∃ d ∈ l, f d = m

/-- The box is tight over the positions of `l`: it is empty when `l` is, and otherwise each
of its six bounds is the extreme coordinate of the items. -/
def BoundingBox.TightOver (pos : D → Vec3 α) : BoundingBox α → List D → Prop
  | .empty, l => l = []
  | .box mn mx, l =>
    IsMinOf (fun d => (pos d).x) l mn.x ∧ IsMinOf (fun d => (pos d).y) l mn.y ∧
    IsMinOf (fun d => (pos d).z) l mn.z ∧ IsMaxOf (fun d => (pos d).x) l mx.x ∧
    IsMaxOf (fun d => (pos d).y) l mx.y ∧ IsMaxOf (fun d => (pos d).z) l mx.z

end

/-- A dynamic octree of leaves and eight-child internal nodes whose first child is an
internal node without any payload below it. -/
def emptyInternalTree : Octree ℤ (Vec3 ℤ) :=
  let e : Octree ℤ (Vec3 ℤ) := Octree.mk BoundingBox.empty [] []
  Octree.mk BoundingBox.empty []
    [Octree.mk BoundingBox.empty [] [e, e, e, e, e, e, e, e],
     Octree.mk BoundingBox.empty [⟨0, 0, 0⟩] [], e, e, e, e, e, e]

/-- A dynamic octree in which every internal node has payload below it. -/
def sampleTree : Octree ℤ (Vec3 ℤ) :=
  let e : Octree ℤ (Vec3 ℤ) := Octree.mk BoundingBox.empty [] []
  Octree.mk BoundingBox.empty []
    [Octree.mk BoundingBox.empty [⟨0, 0, 0⟩, ⟨1, 1, 1⟩] [], e,
     Octree.mk BoundingBox.empty []
       [e, Octree.mk BoundingBox.empty [⟨5, 5, 5⟩] [],
        Octree.mk BoundingBox.empty [⟨7, 7, 7⟩] [], e, e, e, e, e],
     e, Octree.mk BoundingBox.empty [⟨9, 9, 9⟩] [], e, e, e]

namespace PriorityQueue

variable {T K : Type} [LinearOrder K]

/-- The heap condition on the edges whose parent index is at least `s`: a child is not
larger than its parent. -/
def IsHeapFrom (key : T → K) (v : List T) (s : Nat) : Prop :=
  ∀ q j x y, s ≤ q → (j = 2 * q + 1 ∨ j = 2 * q + 2) → v[q]? = some x → v[j]? = some y →
    key y ≤ key x

/-- The max-heap property of the vector of a priority queue. -/
def IsHeap (key : T → K) (v : List T) : Prop := IsHeapFrom key v 0

/-- The state of a sift-down at index `i`: every edge below `s` that does not start at `i`
is ordered, and the parent of `i` dominates the children of `i`. -/
def SiftDownPre (key : T → K) (v : List T) (s i : Nat) : Prop :=
  (∀ q j x y, s ≤ q → q ≠ i → (j = 2 * q + 1 ∨ j = 2 * q + 2) → v[q]? = some x →
    v[j]? = some y → key y ≤ key x) ∧
  (∀ q j x y, s ≤ q → (i = 2 * q + 1 ∨ i = 2 * q + 2) → (j = 2 * i + 1 ∨ j = 2 * i + 2) →
    v[q]? = some x → v[j]? = some y → key y ≤ key x)

/-- The state of a sift-up at index `i`: every edge that does not end at `i` is ordered, and
the parent of `i` dominates the children of `i`. -/
def SiftUpPre (key : T → K) (v : List T) (i : Nat) : Prop :=
  (∀ q j x y, (j = 2 * q + 1 ∨ j = 2 * q + 2) → j ≠ i → v[q]? = some x → v[j]? = some y →
    key y ≤ key x) ∧
  (∀ q j x y, (i = 2 * q + 1 ∨ i = 2 * q + 2) → (j = 2 * i + 1 ∨ j = 2 * i + 2) →
    v[q]? = some x → v[j]? = some y → key y ≤ key x)

end PriorityQueue

/-! ## Definitions used in the proofs about the searches -/

section

open Octree LinearOctree

variable {α D : Type} [LinearOrderedCommRing α]

/-- The start of the sibling chain of a child array laid out from index `j`. -/
def chainStart (cs : List (Octree α D)) (j : Nat) : Option Nat :=
  if cs.any Octree.used then some j else none

/-- A subtree waiting to be visited: it is laid out at the given index, follows the data
model and holds payload. -/
def Pending (pos : D → Vec3 α) (lin : LinearOctree α D) (g : Octree α D × Nat) : Prop :=
  (∃ s nx, OctreeLayout pos lin g.1 g.2 s nx) ∧ g.1.payloadOnlyInLeaves = true ∧
    flatten g.1 ≠ []

/-- Number of octants of a list of waiting subtrees. -/
def pendingSize (pend : List (Octree α D × Nat)) : Nat :=
  (pend.map (fun g => (emitted g.1).length)).sum

/-- Payload of a list of waiting subtrees. -/
def pendingItems (pend : List (Octree α D × Nat)) : List D :=
  pend.flatMap (fun g => flatten g.1)

/-- The items held by a result queue. -/
def resItems (res : List (SearchResult α D)) : List D := res.map SearchResult.data

/-- Invariant of `knnSearch`: `B` are the items that were accepted and later replaced, `R`
the items that were rejected or pruned. -/
structure KnnInv (pos : D → Vec3 α) (p : Vec3 α) (k : Nat) (all : List D)
    (st : KnnState α D) (B R : List D) : Prop where
  exact : ∀ r ∈ st.result, r.distance2 = Vec3.distance2 (pos r.data) p
  size_le : st.result.length ≤ k
  bumped : st.result.length < k → B = []
  bumped_ge : ∀ b ∈ B, ∀ r ∈ st.result, r.distance2 ≤ Vec3.distance2 (pos b) p
  full : st.result.length = k →
    PriorityQueue.IsHeap SearchResult.distance2 st.result ∧
    ∃ t, PriorityQueue.top st.result = some t ∧
      st.max_distance2 ≤ ((t.distance2 : α) : WithTop α)
  rejected : ∀ d ∈ R, st.max_distance2 < ((Vec3.distance2 (pos d) p : α) : WithTop α)
  enough : k ≤ (all.filter (fun d =>
    decide (((Vec3.distance2 (pos d) p : α) : WithTop α) ≤ st.max_distance2))).length

/-- The queue entry of a waiting subtree. -/
def dnodeOf (pos : D → Vec3 α) (p : Vec3 α) (g : Octree α D × Nat) : DNode α :=
  ⟨(hull pos g.1).distance2 p, g.2⟩

/-- Key of the `to_visit` queue: entries with a smaller distance are larger. -/
def dnodeKey (a : DNode α) : (WithTop α)ᵒᵈ := OrderDual.toDual a.distance2

/-- A subtree waiting in the `to_visit` queue of `knnSearch`. -/
def PendingK (pos : D → Vec3 α) (lin : LinearOctree α D) (g : Octree α D × Nat) : Prop :=
  (∃ s nx, OctreeLayout pos lin g.1 g.2 s nx) ∧ g.1.payloadOnlyInLeaves = true

/-- What `knnSearch` has achieved when it stops: `k` entries with exact distances, and every
other stored item is at least as far as each of them. -/
def KnnFinal (pos : D → Vec3 α) (p : Vec3 α) (k : Nat) (all : List D)
    (result : List (SearchResult α D)) : Prop :=
  result.length = k ∧ (∀ r ∈ result, r.distance2 = Vec3.distance2 (pos r.data) p) ∧
  ∃ rest, all.Perm (resItems result ++ rest) ∧
    ∀ r ∈ result, ∀ d ∈ rest, r.distance2 ≤ Vec3.distance2 (pos d) p

/-- Brute-force scan: the squared distances of all items to `p`, sorted, the `k` smallest
kept. -/
def bruteForceKnn (pos : D → Vec3 α) (data : List D) (p : Vec3 α) (k : Nat) : List α :=
  ((data.map (fun d => Vec3.distance2 (pos d) p)).insertionSort (· ≤ ·)).take k

end

/-! ## Notions used to state the shape of the linear tree -/

section

open Octree

variable {α D : Type} [LinearOrderedCommRing α]

/-- The node indices visited by following `next_sibling` from a start index until
`NULL_IDX`. -/
def siblingChain (self : LinearOctree α D) : Nat → Option Nat → List Nat
  | _, none => []
  | 0, some _ => []
  | fuel + 1, some i =>
    i :: (match self.linear_tree.get? i with
      | none => []
      | some node => siblingChain self fuel node.next_sibling)

/-- The data ranges of the octants follow one another and cover exactly `[a, b)`. -/
def tilesRange : List (LinearOctant α) → Nat → Nat → Prop
  | [], a, b => a = b
  | n :: ns, a, b => n.start_data = a ∧ tilesRange ns (a + n.contained_data) b

/-- Node indices of the visited children of a child array laid out from index `j`. -/
def childIndices : List (Octree α D) → Nat → List Nat
  | [], _ => []
  | c :: cs, j =>
    if c.used then j :: childIndices cs (j + (emitted c).length) else childIndices cs j

/-- Octant records of the visited children of a child array laid out from index `j` and
data offset `s`. -/
def childRecords (pos : D → Vec3 α) : List (Octree α D) → Nat → Nat → List (LinearOctant α)
  | [], _, _ => []
  | c :: cs, j, s =>
    if c.used then
      { BB := hull pos c, start_data := s, contained_data := (flatten c).length,
        next_sibling := if !(cs.any Octree.used) then none else some (j + (emitted c).length),
        leaf := c.leaf } :: childRecords pos cs (j + (emitted c).length) (s + (flatten c).length)
    else childRecords pos cs j s

end

/-- A dynamic octree that holds no item: an internal node with eight empty leaves. -/
def itemlessTree : Octree ℤ (Vec3 ℤ) :=
  let e : Octree ℤ (Vec3 ℤ) := Octree.mk BoundingBox.empty [] []
  Octree.mk BoundingBox.empty [] [e, e, e, e, e, e, e, e]

/-! ## Sample inputs for the photon mapper -/

/-- Collaborators that never hit anything, over the rationals. -/
def idleCollaborators : Collaborators ℚ Unit :=
  { initiate := fun s _ => s
    setIndex := fun s _ => s
    shuffle := fun s => s
    get_PM_LIGHT := fun s => ((0, 0, 0, 0), s)
    get_PM_REJECT := fun s => (1 / 2, s)
    get_ABSORB := fun s => (1 / 2, s)
    newHistory := fun s _ => s
    updateHistory := fun s _ => s
    intersect := fun _ _ => none
    sampleBSDF := fun s _ _ _ => (none, s)
    BSDF := fun _ _ => none
    lightPoint := fun _ _ _ => ⟨0, 0, 0⟩
    lightNormal := fun _ _ => ⟨0, 0, 1⟩
    hemisphereDirection := fun _ _ n => n
    insert := fun _ t _ => t
    shuffleWork := fun l => l
    shuffleWork_perm := fun l => List.Perm.refl l
    sqrt := fun x => x
    EPSILON := 1 / 1000
    PI := 22 / 7
    INV_PI := 7 / 22 }

/-- A photon mapper whose buffers have been resized to one vector each, set up with
`caustic_factor = 4`. -/
def sampleMapper : PhotonMapper ℚ :=
  { k_nearest_photons := 50
    non_caustic_reject := 1 / 4
    max_node_data := 200
    direct_visualization := false
    caustic_vecs := [[]]
    global_vecs := [[]]
    caustic_map := LinearOctree.empty
    global_map := LinearOctree.empty }

/-- A configuration with both required keys. -/
def sampleConfig : PhotonMapConfig ℚ :=
  { caustic_factor := some 4
    emissions := some 1000
    k_nearest_photons := none
    max_photons_per_octree_leaf := none
    direct_visualization := none }

/-- A scene without emissive surfaces. -/
def emptyScene : Scene ℚ :=
  { emissives := []
    BB := BoundingBox.box ⟨0, 0, 0⟩ ⟨1, 1, 1⟩
    ior := 1 }

/-! ## The searches with a record of their run

The functions of this section repeat `knnSearch` and `radiusSearch` line by line and keep,
next to the variables of the source, a record of the run: the states that the search goes
through and the node indices that it pushes on `to_visit`.  The record is never read by the
search (`knnSearchLog_fst`, `radiusSearchLog_fst`). -/

/-- Record of a run of `knnSearch`: the successive values of its variables (`states`, the
latest last) and the node indices pushed on `to_visit` (`pushed`, in the order of the
pushes). -/
structure KnnLog (α D : Type) where
  states : List (KnnState α D)
  pushed : List Nat

namespace LinearOctree

variable {α D : Type} [LinearOrderedCommRing α]

/-- The data loop of `knnSearch` (see `knnScan`), recording the state after every item. -/
def knnScanLog (pos : D → Vec3 α) (self : LinearOctree α D) (p : Vec3 α) (k : Nat) :
    Nat → Nat → KnnState α D → KnnLog α D → Option (KnnState α D × KnnLog α D)
  | 0, _, st, log => some (st, log)
  | n + 1, i, st, log =>
    match self.ordered_data.get? i with
    | none => none
    | some data =>
      match knnVisit p k data (pos data) st with
      | none => none
      | some st => knnScanLog pos self p k n (i + 1) st ⟨log.states ++ [st], log.pushed⟩

/-- The child loop of `knnSearch` (see `knnChildren`), recording the state after every child
and every index that is pushed. -/
def knnChildrenLog (self : LinearOctree α D) (p : Vec3 α) (k : Nat) :
    Nat → Option Nat → KnnState α D → KnnLog α D → Option (KnnState α D × KnnLog α D)
  | _, none, st, log => some (st, log)
  | 0, some _, _, _ => none
  | fuel + 1, some child_octant, st, log =>
    match self.linear_tree.get? child_octant with
    | none => none
    | some child_node =>
      let distance2 := child_node.BB.distance2 p
      let pushed :=
        if distance2 ≤ st.max_distance2 then log.pushed ++ [child_octant] else log.pushed
      let st :=
        if distance2 ≤ st.max_distance2 then
          let st := { st with
            to_visit := PriorityQueue.push DNode.lt st.to_visit ⟨distance2, child_octant⟩ }
          if child_node.contained_data ≥ k then
            updateMaxDistance st (child_node.BB.max_distance2 p)
          else st
        else st
      knnChildrenLog self p k fuel child_node.next_sibling st ⟨log.states ++ [st], pushed⟩

/-- The main loop of `knnSearch` (see `knnLoop`), recording the state after every pop. -/
def knnLoopLog (pos : D → Vec3 α) (self : LinearOctree α D) (p : Vec3 α) (k : Nat) :
    Nat → DNode α → KnnState α D → KnnLog α D →
      Option (PriorityQueue (SearchResult α D) × KnnLog α D)
  | 0, _, _, _ => none
  | fuel + 1, current, st, log =>
    match self.linear_tree.get? current.octant with
    | none => none
    | some node =>
      let step :=
        if node.leaf || node.contained_data ≤ k then
          knnScanLog pos self p k node.contained_data node.start_data st log
        else
          knnChildrenLog self p k self.linear_tree.length (some (current.octant + 1)) st log
      match step with
      | none => none
      | some (st, log) =>
        if st.to_visit.empty then some (st.result, log)
        else
          match PriorityQueue.top st.to_visit with
          | none => none
          | some current =>
            if current.distance2 > st.max_distance2 then some (st.result, log)
            else
              let st : KnnState α D :=
                { st with to_visit := PriorityQueue.pop DNode.lt st.to_visit }
              knnLoopLog pos self p k fuel current st ⟨log.states ++ [st], log.pushed⟩

/-- Function `knnSearch` together with the record of its run. -/
def knnSearchLog (pos : D → Vec3 α) (self : LinearOctree α D) (p : Vec3 α) (k : Nat)
    (result : PriorityQueue (SearchResult α D)) :
    Option (PriorityQueue (SearchResult α D) × KnnLog α D) :=
  let result := PriorityQueue.clear result
  if self.linear_tree.isEmpty then some (result, ⟨[], []⟩)
  else
    let k := if k > self.ordered_data.length then self.ordered_data.length else k
    match self.linear_tree.get? 0 with
    | none => none
    | some root =>
      let st : KnnState α D :=
        { result := result, max_distance2 := ⊤, to_visit := PriorityQueue.clear [] }
      knnLoopLog pos self p k self.linear_tree.length ⟨root.BB.distance2 p, 0⟩ st ⟨[st], []⟩

/-- The child loop of `radiusSearch` (see `radiusChildren`), recording every index that is
pushed. -/
def radiusChildrenLog (pos : D → Vec3 α) (self : LinearOctree α D) (p : Vec3 α) (radius2 : α) :
    Nat → Option Nat → RadiusState α D → List Nat → Option (RadiusState α D × List Nat)
  | _, none, st, pushed => some (st, pushed)
  | 0, some _, _, _ => none
  | fuel + 1, some child_idx, st, pushed =>
    match self.linear_tree.get? child_idx with
    | none => none
    | some child_node =>
      let st : Option (RadiusState α D × List Nat) :=
        if child_node.BB.distance2 p ≤ (radius2 : WithTop α) then
          if child_node.BB.max_distance2 p ≤ (radius2 : WithTop α) then
            (radiusCollect pos self p child_node.contained_data child_node.start_data
              st.result).map (fun r => ({ st with result := r }, pushed))
          else some ({ st with to_visit := st.to_visit ++ [child_idx] }, pushed ++ [child_idx])
        else some (st, pushed)
      match st with
      | none => none
      | some (st, pushed) =>
        radiusChildrenLog pos self p radius2 fuel child_node.next_sibling st pushed

/-- The main loop of `radiusSearch` (see `radiusLoop`), with the indices that are pushed. -/
def radiusLoopLog (pos : D → Vec3 α) (self : LinearOctree α D) (p : Vec3 α) (radius2 : α) :
    Nat → Nat → RadiusState α D → List Nat → Option (List (SearchResult α D) × List Nat)
  | 0, _, _, _ => none
  | fuel + 1, node_idx, st, pushed =>
    match self.linear_tree.get? node_idx with
    | none => none
    | some node =>
      let step : Option (RadiusState α D × List Nat) :=
        if node.leaf then
          (radiusScan pos self p radius2 node.contained_data node.start_data st.result).map
            (fun r => ({ st with result := r }, pushed))
        else
          radiusChildrenLog pos self p radius2 self.linear_tree.length (some (node_idx + 1)) st
            pushed
      match step with
      | none => none
      | some (st, pushed) =>
        match st.to_visit.getLast? with
        | none => some (st.result, pushed)
        | some node_idx => radiusLoopLog pos self p radius2 fuel node_idx
            { st with to_visit := st.to_visit.dropLast } pushed

/-- Function `radiusSearch` together with the node indices it pushes on `to_visit`. -/
def radiusSearchLog (pos : D → Vec3 α) (self : LinearOctree α D) (p : Vec3 α) (radius : α) :
    Option (List (SearchResult α D) × List Nat) :=
  if self.linear_tree.isEmpty then some ([], [])
  else
    let radius2 := radius * radius
    radiusLoopLog pos self p radius2 self.linear_tree.length 0 { result := [], to_visit := [] }
      []

end LinearOctree

/-- Condition on the result queue of `knnSearch`: it holds at most `k` entries, and when it
holds `k` entries it is a max-heap on `distance2`. -/
def KnnQueueInv {α D : Type} [LinearOrderedCommRing α] (k : Nat) (st : KnnState α D) : Prop :=
  st.result.length ≤ k ∧
    (st.result.length = k → PriorityQueue.IsHeap SearchResult.distance2 st.result)

/-- Condition on the record of a run: every recorded state satisfies `KnnQueueInv`, and
`max_distance2` does not grow from one recorded state to the next. -/
def KnnRunInv {α D : Type} [LinearOrderedCommRing α] (k : Nat) (states : List (KnnState α D)) :
    Prop :=
  (∀ st ∈ states, KnnQueueInv k st) ∧
    states.Chain' (fun a b => b.max_distance2 ≤ a.max_distance2)

/-! ## Notions used to state the safety of the searches -/

section

open Octree

variable {α D : Type} [LinearOrderedCommRing α]

/-- The node index ranges `[i, i + number of octants)` of two laid-out subtrees do not
overlap. -/
def Apart (a b : Octree α D × Nat) : Prop :=
  a.2 + (emitted a.1).length ≤ b.2 ∨ b.2 + (emitted b.1).length ≤ a.2

/-- The node index `j` is not the index of a proper descendant of the laid-out subtree
`g`. -/
def Outside (j : Nat) (g : Octree α D × Nat) : Prop :=
  j ≤ g.2 ∨ g.2 + (emitted g.1).length ≤ j

/-- A subtree waiting to be visited: it is laid out at the given index and every internal
node of it has payload below it. -/
def PendingS (pos : D → Vec3 α) (lin : LinearOctree α D) (g : Octree α D × Nat) : Prop :=
  (∃ s nx, OctreeLayout pos lin g.1 g.2 s nx) ∧ g.1.internalNonEmpty = true

/-- Invariant of a search on the pushes made so far and the subtrees `waiting` to be visited:
the waiting subtrees occupy disjoint index ranges, no index was pushed twice, every pushed
index is a node index, and no pushed index lies strictly inside a waiting subtree. -/
def SafeRun (len : Nat) (pushed : List Nat) (waiting : List (Octree α D × Nat)) : Prop :=
  waiting.Pairwise Apart ∧ pushed.Nodup ∧ (∀ j ∈ pushed, j < len) ∧
    ∀ j ∈ pushed, ∀ g ∈ waiting, Outside j g

end

/-! ## Notions used to state the search with `k = 0` -/

section

variable {α D : Type} [LinearOrderedCommRing α]

/-- A non-empty list of items none of which is farther from `p` than the bound `m`: the data
loop of `knnSearch` lets every one of them pass the test `distance2 <= max_distance2`. -/
def WithinBound (pos : D → Vec3 α) (p : Vec3 α) (m : WithTop α) (l : List D) : Prop :=
  l ≠ [] ∧ ∀ d ∈ l, ((Vec3.distance2 (pos d) p : α) : WithTop α) ≤ m

/-- The entries that the data loop of `knnSearch` appends for the items `l` when every item
within the bound `m` is appended. -/
def acceptedEntries (pos : D → Vec3 α) (p : Vec3 α) (m : WithTop α) (l : List D) :
    List (SearchResult α D) :=
  (l.filter (fun d => decide (((Vec3.distance2 (pos d) p : α) : WithTop α) ≤ m))).map
    (fun d => ⟨d, Vec3.distance2 (pos d) p⟩)

end

/-- A dynamic octree that is one leaf with one item, at the origin. -/
def oneItemTree : Octree ℤ (Vec3 ℤ) := Octree.mk BoundingBox.empty [⟨0, 0, 0⟩] []

/-! ## Notions used to state the estimators -/

/-- Sum of a list of vectors. -/
def Vec3.sum {α : Type} [Zero α] [Add α] (l : List (Vec3 α)) : Vec3 α :=
  l.foldr Vec3.add (Vec3.splat 0)

namespace PhotonMapper

variable {α σ : Type} [LinearOrderedField α] [FloorRing α]

/-- The contributions `p.flux * bsdf_absIdotN / bsdf_pdf` of the photons for which the BSDF
evaluation at the interaction with incoming direction `p.dir` succeeds. -/
def globalTerms (env : Collaborators α σ) (interaction : Interaction α)
    (photons : List (SearchResult α (Photon α))) : List (Vec3 α) :=
  photons.filterMap (fun p =>
    (env.BSDF interaction p.data.dir).map (fun b => (p.data.flux.mul b.1).sdiv b.2))

/-- Cone weight `w_p = max(0, 1 - sqrt(d_p^2 / r^2))`. -/
def coneWeight (env : Collaborators α σ) (d2 r2 : α) : α := max 0 (1 - env.sqrt (d2 / r2))

/-- The contributions `w_p * p.flux * bsdf_absIdotN / bsdf_pdf` of the photons for which the
BSDF evaluation succeeds, for the squared radius `r2`. -/
def causticTerms (env : Collaborators α σ) (interaction : Interaction α) (r2 : α)
    (photons : List (SearchResult α (Photon α))) : List (Vec3 α) :=
  photons.filterMap (fun p =>
    (env.BSDF interaction p.data.dir).map (fun b =>
      ((p.data.flux.mul b.1).sdiv b.2).smul (coneWeight env p.distance2 r2)))

end PhotonMapper

/-! ## Sample inputs for the estimators -/

/-- Collaborators whose BSDF evaluation succeeds everywhere with `bsdf_absIdotN =
(1/2, 1/2, 1/2)` and `bsdf_pdf = 1/4`; the stand-in for the square root is exact at 0 and
1. -/
def diffuseCollaborators : Collaborators ℚ Unit :=
  { idleCollaborators with BSDF := fun _ _ => some (⟨1 / 2, 1 / 2, 1 / 2⟩, 1 / 4) }

/-- The photon of scenario E2: flux `(1,1,1)` at the origin. -/
def e2Photon : Photon ℚ := ⟨⟨1, 1, 1⟩, ⟨0, 0, 0⟩, ⟨0, 0, 1⟩⟩

/-- The dynamic octree of scenario E2: one leaf with 100 photons at the origin. -/
def e2Tree : Octree ℚ (Photon ℚ) :=
  Octree.mk (BoundingBox.box ⟨-1, -1, -1⟩ ⟨1, 1, 1⟩) (List.replicate 100 e2Photon) []

/-- The mapper of scenario E2: `k = 10` and both maps built from `e2Tree`. -/
def e2Mapper : PhotonMapper ℚ :=
  { sampleMapper with
    k_nearest_photons := 10
    caustic_map := LinearOctree.ofOctree Photon.pos e2Tree
    global_map := LinearOctree.ofOctree Photon.pos e2Tree }

/-- A leaf with one photon at `(1,0,0)` and one at the origin. -/
def twoPhotonTree : Octree ℚ (Photon ℚ) :=
  Octree.mk (BoundingBox.box ⟨-1, -1, -1⟩ ⟨1, 1, 1⟩)
    [⟨⟨1, 1, 1⟩, ⟨1, 0, 0⟩, ⟨0, 0, 1⟩⟩, ⟨⟨2, 2, 2⟩, ⟨0, 0, 0⟩, ⟨0, 0, 1⟩⟩] []

/-- A mapper with `k = 2` whose maps are built from `twoPhotonTree`. -/
def twoPhotonMapper : PhotonMapper ℚ :=
  { sampleMapper with
    k_nearest_photons := 2
    caustic_map := LinearOctree.ofOctree Photon.pos twoPhotonTree
    global_map := LinearOctree.ofOctree Photon.pos twoPhotonTree }

/-! ## Sample inputs for the emission pass and the integrator -/

/-- Collaborators whose sampler state is the list of the indices passed to `setIndex`, in
the order of the calls, in a scene where no ray hits anything. -/
def indexTracer (α : Type) [LinearOrderedField α] : Collaborators α (List Nat) :=
  { initiate := fun s _ => s
    setIndex := fun s i => s ++ [i]
    shuffle := fun s => s
    get_PM_LIGHT := fun s => ((0, 0, 0, 0), s)
    get_PM_REJECT := fun s => (0, s)
    get_ABSORB := fun s => (0, s)
    newHistory := fun s _ => s
    updateHistory := fun s _ => s
    intersect := fun _ _ => none
    sampleBSDF := fun s _ _ _ => (none, s)
    BSDF := fun _ _ => none
    lightPoint := fun _ _ _ => ⟨0, 0, 0⟩
    lightNormal := fun _ _ => ⟨0, 0, 1⟩
    hemisphereDirection := fun _ _ n => n
    insert := fun _ t _ => t
    shuffleWork := fun l => l
    shuffleWork_perm := fun l => List.Perm.refl l
    sqrt := fun x => x
    EPSILON := 0
    PI := 1
    INV_PI := 1 }

/-- A scene with one emissive surface. -/
def oneLightScene : Scene ℚ :=
  { emissives := [{ emittance := ⟨1, 1, 1⟩, area := 1 }]
    BB := BoundingBox.box ⟨0, 0, 0⟩ ⟨1, 1, 1⟩
    ior := 1 }

/-- A configuration with `caustic_factor = 1/2`. -/
def halfConfig : PhotonMapConfig ℚ :=
  { caustic_factor := some (1 / 2)
    emissions := some 1000
    k_nearest_photons := none
    max_photons_per_octree_leaf := none
    direct_visualization := none }

/-- Collaborators in a scene where every ray hits a diffuse surface at the origin and every
BSDF sampling succeeds with `bsdf_absIdotN = (1/2, 1/4, 1/4)` and pdf `1`; the absorb
variate is `1/4`. -/
def bounceCollaborators : Collaborators ℚ Unit :=
  { idleCollaborators with
    intersect := fun _ _ => some ⟨⟨0, 0, 0⟩, false, false⟩
    sampleBSDF := fun s _ ray _ => (some (⟨1 / 2, 1 / 4, 1 / 4⟩, 1, ray), s)
    get_ABSORB := fun s => (1 / 4, s) }

/-- Members of `Integrator` that find no emission, direct light `(1, 1, 1)` and never
absorb. -/
def idleIntegrator : IntegratorCollaborators ℚ Unit :=
  { sampleEmissive := fun s _ ls => ((⟨0, 0, 0⟩, ls), s)
    sampleDirect := fun s _ ls => ((⟨1, 1, 1⟩, ls), s)
    absorb := fun s _ throughput => ((false, throughput), s) }

/-! ## Rounded double arithmetic

The definitions above treat a `double` operation as exact.  For the claims that turn on the
rounding of double operations, the functions concerned are embedded a second time, with a
rounding function `fl` applied to the result of every double operation; their names end in
`Rounded`, and with `fl = id` they are the exact embeddings.  `roundNearestEven` is the
rounding of IEEE 754 binary64 arithmetic (to nearest, ties to even, 53 binary digits), with
an unbounded exponent range: overflow and underflow stay outside the model. -/

section

variable {α : Type} [LinearOrderedField α] [FloorRing α]

/-- Rounding of `q` to the nearest integer, a tie going to the even one. -/
def roundHalfEven (q : α) : ℤ :=
  if q - (⌊q⌋ : α) < 1 / 2 then ⌊q⌋
  else if 1 / 2 < q - (⌊q⌋ : α) then ⌊q⌋ + 1
  else if ⌊q⌋ % 2 = 0 then ⌊q⌋ else ⌊q⌋ + 1

/-- The double nearest to `x`: with `2 ^ k ≤ |x| < 2 ^ (k + 1)` the value `|x|` is rounded to
a multiple of `2 ^ (k - 52)`, a tie going to the even multiple. -/
def roundNearestEven (x : α) : α :=
  if x = 0 then 0
  else if 0 < x then
    (roundHalfEven (x / 2 ^ (Int.log 2 x - 52)) : α) * 2 ^ (Int.log 2 x - 52)
  else
    -((roundHalfEven (-x / 2 ^ (Int.log 2 (-x) - 52)) : α) * 2 ^ (Int.log 2 (-x) - 52))

/-- The correctly rounded square root of doubles, `std::sqrt`: the double nearest to the
square root of `x`.  With `4 ^ 60 ≤ y = x * 4 ^ k < 4 ^ 61` and `s = ⌊√y⌋`, the value
`s / 2 ^ k`, or `(s + 1/2) / 2 ^ k` when `y` is not a square, is rounded; it lies on the same
side of every double and of every midpoint of two doubles as the square root.  Arguments
that are not positive give `0`. -/
def sqrtNearest (x : α) : α :=
  if x ≤ 0 then 0
  else
    let k := 60 - Int.log 4 x
    let s := Nat.sqrt ⌊x * 4 ^ k⌋₊
    roundNearestEven (((s : α) + (if (s : α) * s = x * 4 ^ k then 0 else 1 / 2)) / 2 ^ k)

/-- Application of a function to every component of a vector. -/
def Vec3.map (f : α → α) (a : Vec3 α) : Vec3 α := ⟨f a.x, f a.y, f a.z⟩

end

namespace PhotonMapper

variable {α σ : Type} [LinearOrderedField α] [FloorRing α]

/-- The vector `light->material->emittance * light->area()` with rounding. -/
def lightFluxVecRounded (fl : α → α) (light : Light α) : Vec3 α :=
  (light.emittance.smul light.area).map fl

/-- The scalar flux `glm::compAdd(light_flux)` of a light with rounding. -/
def lightFluxRounded (fl : α → α) (light : Light α) : α :=
  fl (fl ((lightFluxVecRounded fl light).x + (lightFluxVecRounded fl light).y)
    + (lightFluxVecRounded fl light).z)

/-- The loop that accumulates `total_add_flux` with rounding (see `totalAddFlux`). -/
def totalAddFluxRounded (fl : α → α) (emissives : List (Light α)) : α :=
  emissives.foldl (fun total light => fl (total + lightFluxRounded fl light)) 0

/-- The value `num_light_emissions` with rounding (see `numLightEmissions`): the quotient
`photon_emissions_share`, the conversion of `photon_emissions` and the product round before
the conversion to `size_t` truncates. -/
def numLightEmissionsRounded (fl : α → α) (photon_emissions : Nat) (total_add_flux : α)
    (light : Light α) : Nat :=
  let photon_emissions_share := fl (lightFluxRounded fl light / total_add_flux)
  toSizeT (fl (fl (photon_emissions : α) * photon_emissions_share))

/-- The weight `wp` of `estimateCausticRadiance` with rounding: the product
`p.distance2 * inv_max_squared_radius` and the difference round; `env.sqrt` is `std::sqrt`
on doubles. -/
def coneWeightRounded (fl : α → α) (env : Collaborators α σ) (distance2 : α)
    (inv_max_squared_radius : α) : α :=
  max 0 (fl (1 - env.sqrt (fl (distance2 * inv_max_squared_radius))))

/-- The value `(p.data.flux() * bsdf_absIdotN * wp) / bsdf_pdf` that the loop of
`estimateCausticRadiance` adds for a photon, with rounding. -/
def causticTermRounded (fl : α → α) (flux bsdf_absIdotN : Vec3 α) (wp bsdf_pdf : α) :
    Vec3 α :=
  (((((flux.mul bsdf_absIdotN).map fl).smul wp).map fl).sdiv bsdf_pdf).map fl

/-- The loop `for (const auto& p : photons)` of `estimateCausticRadiance` with rounding (see
`causticSum`). -/
def causticSumRounded (fl : α → α) (env : Collaborators α σ) (interaction : Interaction α)
    (inv_max_squared_radius : α) :
    List (SearchResult α (Photon α)) → Vec3 α → Vec3 α
  | [], radiance => radiance
  | p :: ps, radiance =>
    match env.BSDF interaction p.data.dir with
    | some (bsdf_absIdotN, bsdf_pdf) =>
      let wp := coneWeightRounded fl env p.distance2 inv_max_squared_radius
      causticSumRounded fl env interaction inv_max_squared_radius ps
        ((radiance.add (causticTermRounded fl p.data.flux bsdf_absIdotN wp bsdf_pdf)).map fl)
    | none => causticSumRounded fl env interaction inv_max_squared_radius ps radiance

/-- Function `PhotonMapper::estimateCausticRadiance` with rounding (see
`estimateCausticRadiance`); the squared distances are those that `knnSearch` returns. -/
def estimateCausticRadianceRounded (fl : α → α) (env : Collaborators α σ)
    (self : PhotonMapper α) (interaction : Interaction α) : Option (Vec3 α) :=
  match LinearOctree.knnSearch Photon.pos self.caustic_map interaction.position
      self.k_nearest_photons [] with
  | none => none
  | some photons =>
    if photons.empty then some (Vec3.splat 0)
    else
      match PriorityQueue.top photons with
      | none => none
      | some top =>
        let inv_max_squared_radius := fl (1 / top.distance2)
        let radiance :=
          causticSumRounded fl env interaction inv_max_squared_radius photons (Vec3.splat 0)
        some ((((((radiance.smul 3).map fl).smul inv_max_squared_radius).map fl).smul
          env.INV_PI).map fl)

end PhotonMapper

/-! ## Sample inputs for the rounded arithmetic -/

/-- Collaborators over the rationals with the arithmetic of doubles: `std::sqrt` is the
correctly rounded square root, `PI` and `INV_PI` are the doubles nearest to `π` and `1/π`,
and every BSDF evaluation succeeds with `bsdf_absIdotN = (1/2, 1/2, 1/2)` and pdf `1/4`. -/
def doubleCollaborators : Collaborators ℚ Unit :=
  { idleCollaborators with
    BSDF := fun _ _ => some (⟨1 / 2, 1 / 2, 1 / 2⟩, 1 / 4)
    sqrt := sqrtNearest
    PI := 884279719003555 / 2 ^ 48
    INV_PI := 5734161139222659 / 2 ^ 54 }

/-- A photon of flux `(1,1,1)` at `(7,0,0)`. -/
def farPhoton : Photon ℚ := ⟨⟨1, 1, 1⟩, ⟨7, 0, 0⟩, ⟨0, 0, 1⟩⟩

/-- A leaf that holds `farPhoton` only. -/
def farPhotonTree : Octree ℚ (Photon ℚ) :=
  Octree.mk (BoundingBox.box ⟨-8, -8, -8⟩ ⟨8, 8, 8⟩) [farPhoton] []

/-- A mapper with `k = 1` whose maps are built from `farPhotonTree`. -/
def farPhotonMapper : PhotonMapper ℚ :=
  { sampleMapper with
    k_nearest_photons := 1
    caustic_map := LinearOctree.ofOctree Photon.pos farPhotonTree
    global_map := LinearOctree.ofOctree Photon.pos farPhotonTree }

/-! ## Compaction -/

section CompactProofs

open Octree LinearOctree

variable {α D : Type} [LinearOrderedCommRing α]

theorem updateAt_append_left {β : Type} (l r : List β) (i : Nat) (f : β → β)
    (h : i < l.length) : updateAt (l ++ r) i f = updateAt l i f ++ r := by
  induction l generalizing i with
  | nil => simp at h
  | cons b bs ih =>
    cases i with
    | zero => rfl
    | succ i =>
      have := ih i (by simpa using h)
      show b :: updateAt (bs ++ r) i f = b :: (updateAt bs i f ++ r)
      rw [this]

theorem updateAt_length {β : Type} (l : List β) (i : Nat) (f : β → β) :
    (updateAt l i f).length = l.length := by
  induction l generalizing i with
  | nil => rfl
  | cons b bs ih => cases i <;> simp [updateAt, ih]

theorem updateAt_append_right {β : Type} (l : List β) (b : β) (r : List β) (f : β → β) :
    updateAt (l ++ b :: r) l.length f = l ++ f b :: r := by
  induction l with
  | nil => rfl
  | cons a as ih =>
    show a :: updateAt (as ++ b :: r) as.length f = a :: (as ++ f b :: r)
    rw [ih]

theorem get?_append_self {β : Type} (l : List β) (b : β) (r : List β) :
    (l ++ b :: r).get? l.length = some b := by
  rw [List.get?_eq_getElem?, List.getElem?_append_right (le_refl _)]
  simp

mutual
theorem nodes_length (pos : D → Vec3 α) :
    ∀ (t : Octree α D) (idx s : Nat) (last : Bool),
      (nodes pos t idx s last).length = (emitted t).length
  | .mk b d cs, idx, s, last => by
    simp [nodes, emitted, nodesList_length pos cs]
theorem nodesList_length (pos : D → Vec3 α) :
    ∀ (cs : List (Octree α D)) (idx s : Nat),
      (nodesList pos cs idx s).length = (emittedList cs).length
  | [], idx, s => by simp [nodesList, emittedList]
  | c :: cs, idx, s => by
    by_cases hu : c.used = true
    · simp [nodesList, emittedList, hu, nodes_length pos c, nodesList_length pos cs]
    · simp [nodesList, emittedList, hu, nodesList_length pos cs]
end

omit [LinearOrderedCommRing α] in
theorem flatten_of_not_used (c : Octree α D) (hu : ¬ c.used = true) : flatten c = [] := by
  cases c with
  | mk b d cs' =>
    simp [Octree.used, Octree.leaf, Octree.octants, Octree.data_vec] at hu
    simp [flatten, hu.1, hu.2, flattenList]

mutual
theorem compact_spec (pos : D → Vec3 α) :
    ∀ (t : Octree α D) (lt : List (LinearOctant α)) (od : List D) (df data : Nat) (last : Bool),
      df = lt.length →
      compact pos t ⟨lt, od⟩ df data last =
        ⟨⟨lt ++ nodes pos t df data last, od ++ flatten t⟩, df + (emitted t).length,
          data + (flatten t).length, (flatten t).length, hull pos t⟩
  | .mk b d cs, lt, od, df, data, last, hdf => by
    subst hdf
    cases cs with
    | nil =>
      simp [compact, nodes, nodesList, flatten, flattenList, emitted, emittedList, hull, hullList,
        LinearOctant.fresh, updateAt_append_right, get?_append_self, mergeAll]
    | cons c cs =>
      simp only [compact, List.isEmpty_cons, Bool.not_false, if_true, LinearOctant.fresh,
        updateAt_append_right]
      rw [compactLoop_spec pos (c :: cs) lt _ [] _ _ _ _ (by simp)]
      simp only [updateAt_append_right, get?_append_self, Option.elim]
      simp [nodes, flatten, emitted, hull, updateAt_append_right, get?_append_self, mergeAll,
        Nat.add_assoc, Nat.add_comm, Nat.add_left_comm]
theorem compactLoop_spec (pos : D → Vec3 α) :
    ∀ (cs : List (Octree α D)) (pre : List (LinearOctant α)) (node : LinearOctant α)
      (post : List (LinearOctant α)) (od : List D) (df data : Nat) (bb : BoundingBox α),
      df = (pre ++ node :: post).length →
      compactLoop pos cs pre.length ⟨⟨pre ++ node :: post, od⟩, df, data, bb⟩ =
        ⟨⟨pre ++ { node with contained_data := node.contained_data + (flattenList cs).length } ::
            (post ++ nodesList pos cs df data), od ++ flattenList cs⟩,
          df + (emittedList cs).length, data + (flattenList cs).length, hullList pos cs bb⟩
  | [], pre, node, post, od, df, data, bb, _ => by
    simp [compactLoop, flattenList, nodesList, emittedList, hullList]
  | c :: cs, pre, node, post, od, df, data, bb, hdf => by
    by_cases hu : c.used = true
    · have h1 := compact_spec pos c (pre ++ node :: post) od df data (!(cs.any Octree.used)) hdf
      have h2 := compactLoop_spec pos cs pre
        { node with contained_data := node.contained_data + (flatten c).length }
        (post ++ nodes pos c df data (!(cs.any Octree.used))) (od ++ flatten c)
        (df + (emitted c).length) (data + (flatten c).length) (bb.mergeBox (hull pos c))
        (by simp [hdf, nodes_length]; omega)
      simp only [compactLoop, hu, if_true, h1]
      have h3 : updateAt (pre ++ node :: post ++ nodes pos c df data (!(cs.any Octree.used)))
          pre.length (fun o => { o with contained_data := o.contained_data + (flatten c).length })
          = pre ++ { node with contained_data := node.contained_data + (flatten c).length } ::
            (post ++ nodes pos c df data (!(cs.any Octree.used))) := by
        rw [List.append_assoc, List.cons_append, updateAt_append_right]
      rw [h3, h2]
      simp [flattenList, nodesList, emittedList, hullList, hu, Nat.add_assoc]
    · have h2 := compactLoop_spec pos cs pre node post od df data bb hdf
      have hf : flatten c = [] := flatten_of_not_used c hu
      simp only [compactLoop, hu, h2]
      simp [flattenList, nodesList, emittedList, hullList, hu, hf]
end

omit [LinearOrderedCommRing α] in
theorem used_of_flatten_ne_nil (c : Octree α D) (h : flatten c ≠ []) : c.used = true := by
  by_contra hu
  exact h (flatten_of_not_used c hu)

omit [LinearOrderedCommRing α] in
theorem emitted_length_pos (t : Octree α D) : 0 < (emitted t).length := by
  cases t with
  | mk b d cs => simp [emitted]

mutual
theorem octreeSize_spec :
    ∀ (t : Octree α D) (a b : Nat),
      octreeSize t (a, b) =
        if t.used then (a + (emitted t).length, b + (flatten t).length) else (a, b)
  | .mk bb d cs, a, b => by
    cases cs with
    | nil =>
      cases d with
      | nil => simp [octreeSize, Octree.used, Octree.leaf, Octree.octants, Octree.data_vec]
      | cons x xs =>
        simp [octreeSize, Octree.used, Octree.leaf, Octree.octants, Octree.data_vec, emitted,
          emittedList, flatten, flattenList]
    | cons c cs =>
      simp only [octreeSize, List.isEmpty_cons, Bool.false_and, Bool.not_false, if_true,
        Bool.false_eq_true, if_false]
      rw [octreeSizeLoop_spec (c :: cs)]
      simp [Octree.used, Octree.leaf, Octree.octants, emitted, flatten]
      omega
theorem octreeSizeLoop_spec :
    ∀ (cs : List (Octree α D)) (a b : Nat),
      octreeSizeLoop cs (a, b) = (a + (emittedList cs).length, b + (flattenList cs).length)
  | [], a, b => by simp [octreeSizeLoop, emittedList, flattenList]
  | c :: cs, a, b => by
    by_cases hu : c.used = true
    · simp only [octreeSizeLoop, octreeSize_spec c, hu, if_true, octreeSizeLoop_spec cs]
      simp [emittedList, flattenList, hu, Nat.add_assoc]
    · simp only [octreeSizeLoop, octreeSize_spec c, hu, octreeSizeLoop_spec cs]
      simp [emittedList, flattenList, hu, flatten_of_not_used c hu]
end

theorem ofOctree_of_flatten_nil (pos : D → Vec3 α) (t : Octree α D) (h : flatten t = []) :
    ofOctree pos t = LinearOctree.empty := by
  unfold ofOctree
  rw [octreeSize_spec]
  by_cases hu : t.used = true
  · simp [hu, h]
  · simp [hu]

theorem ofOctree_of_flatten_ne_nil (pos : D → Vec3 α) (t : Octree α D) (h : flatten t ≠ []) :
    ofOctree pos t = ⟨nodes pos t 0 0 true, flatten t⟩ := by
  unfold ofOctree
  rw [octreeSize_spec]
  have hu := used_of_flatten_ne_nil t h
  have h1 := emitted_length_pos t
  have h2 : (flatten t).length ≠ 0 := by simpa using h
  have h3 : ¬ ((emitted t).length = 0 ∨ (flatten t).length = 0) := by omega
  simp only [hu, if_true, Nat.zero_add, h3, if_false]
  rw [show (LinearOctree.empty : LinearOctree α D) = ⟨[], []⟩ from rfl,
    compact_spec pos t [] [] 0 0 true rfl]
  simp



mutual
theorem layout_of_nodes (pos : D → Vec3 α) (lin : LinearOctree α D) :
    ∀ (t : Octree α D) (P Q : List (LinearOctant α)) (A B : List D) (last : Bool),
      lin.linear_tree = P ++ nodes pos t P.length A.length last ++ Q →
      lin.ordered_data = A ++ flatten t ++ B →
      OctreeLayout pos lin t P.length A.length
        (if last then none else some (P.length + (emitted t).length))
  | .mk b d cs, P, Q, A, B, last, hlt, hod => by
    refine ⟨?_, ⟨A, B, hod, rfl⟩, ?_⟩
    · rw [hlt, nodes, List.append_assoc, List.cons_append, get?_append_self]
    · have := layoutList_of_nodesList pos lin cs
        (P ++ [{ BB := hull pos (.mk b d cs), start_data := A.length,
                 contained_data := (flatten (.mk b d cs)).length,
                 next_sibling := if last then none
                   else some (P.length + (emitted (.mk b d cs)).length),
                 leaf := cs.isEmpty }]) Q (A ++ d) B
        (by rw [hlt, nodes]; simp)
        (by rw [hod, flatten]; simp)
      simpa using this
theorem layoutList_of_nodesList (pos : D → Vec3 α) (lin : LinearOctree α D) :
    ∀ (cs : List (Octree α D)) (P Q : List (LinearOctant α)) (A B : List D),
      lin.linear_tree = P ++ nodesList pos cs P.length A.length ++ Q →
      lin.ordered_data = A ++ flattenList cs ++ B →
      OctreeLayoutList pos lin cs P.length A.length
  | [], P, Q, A, B, _, _ => by simp [OctreeLayoutList]
  | c :: cs, P, Q, A, B, hlt, hod => by
    by_cases hu : c.used = true
    · simp only [OctreeLayoutList, hu, if_true]
      constructor
      · have := layout_of_nodes pos lin c P
          (nodesList pos cs (P.length + (emitted c).length) (A.length + (flatten c).length) ++ Q)
          A (flattenList cs ++ B) (!(cs.any Octree.used))
          (by rw [hlt, nodesList]; simp [hu])
          (by rw [hod, flattenList]; simp)
        exact this
      · have := layoutList_of_nodesList pos lin cs
          (P ++ nodes pos c P.length A.length (!(cs.any Octree.used))) Q (A ++ flatten c) B
          (by rw [hlt, nodesList]; simp [hu, nodes_length])
          (by rw [hod, flattenList]; simp)
        simpa [nodes_length] using this
    · simp only [OctreeLayoutList, hu]
      have := layoutList_of_nodesList pos lin cs P Q A B
        (by rw [hlt, nodesList]; simp [hu])
        (by rw [hod, flattenList]; simp [flatten_of_not_used c hu])
      exact this
end

theorem layout_ofOctree (pos : D → Vec3 α) (t : Octree α D) (h : flatten t ≠ []) :
    OctreeLayout pos (ofOctree pos t) t 0 0 none := by
  have := layout_of_nodes pos (ofOctree pos t) t [] [] [] [] true
    (by rw [ofOctree_of_flatten_ne_nil pos t h]; simp)
    (by rw [ofOctree_of_flatten_ne_nil pos t h]; simp)
  simpa using this

mutual
theorem layout_emitted (pos : D → Vec3 α) (lin : LinearOctree α D) :
    ∀ (t : Octree α D) (i s : Nat) (nx : Option Nat), OctreeLayout pos lin t i s nx →
      ∀ (j : Nat) (sub : Octree α D), (emitted t).get? j = some sub →
        ∃ s' nx', OctreeLayout pos lin sub (i + j) s' nx'
  | .mk b d cs, i, s, nx, h, j, sub, hj => by
    cases j with
    | zero =>
      simp only [emitted, List.get?_cons_zero, Option.some.injEq] at hj
      subst hj
      exact ⟨s, nx, h⟩
    | succ j =>
      simp only [emitted, List.get?_cons_succ] at hj
      obtain ⟨s', nx', h'⟩ := layoutList_emitted pos lin cs (i + 1) (s + d.length) h.2.2 j sub hj
      exact ⟨s', nx', by rwa [show i + (j + 1) = i + 1 + j by omega]⟩
theorem layoutList_emitted (pos : D → Vec3 α) (lin : LinearOctree α D) :
    ∀ (cs : List (Octree α D)) (i s : Nat), OctreeLayoutList pos lin cs i s →
      ∀ (j : Nat) (sub : Octree α D), (emittedList cs).get? j = some sub →
        ∃ s' nx', OctreeLayout pos lin sub (i + j) s' nx'
  | [], i, s, _, j, sub, hj => by simp [emittedList] at hj
  | c :: cs, i, s, h, j, sub, hj => by
    by_cases hu : c.used = true
    · simp only [OctreeLayoutList, hu, if_true] at h
      simp only [emittedList, hu, if_true] at hj
      by_cases hlt : j < (emitted c).length
      · rw [List.get?_eq_getElem?, List.getElem?_append_left hlt, ← List.get?_eq_getElem?] at hj
        exact layout_emitted pos lin c i s _ h.1 j sub hj
      · rw [List.get?_eq_getElem?, List.getElem?_append_right (by omega),
          ← List.get?_eq_getElem?] at hj
        obtain ⟨s', nx', h'⟩ := layoutList_emitted pos lin cs _ _ h.2 _ sub hj
        exact ⟨s', nx', by rwa [show i + j = i + (emitted c).length + (j - (emitted c).length)
          by omega]⟩
    · simp only [OctreeLayoutList, hu] at h
      simp only [emittedList, hu] at hj
      exact layoutList_emitted pos lin cs i s h j sub hj
end

/-- What a layout says about the octant record and the data range. -/
theorem layout_node (pos : D → Vec3 α) (lin : LinearOctree α D) (t : Octree α D) (i s : Nat)
    (nx : Option Nat) (h : OctreeLayout pos lin t i s nx) :
    lin.linear_tree.get? i = some
      { BB := hull pos t, start_data := s, contained_data := (flatten t).length,
        next_sibling := nx, leaf := t.leaf } ∧
    (lin.ordered_data.drop s).take (flatten t).length = flatten t := by
  cases t with
  | mk b d cs =>
    obtain ⟨h1, ⟨pre, post, h2, h3⟩, _⟩ := h
    refine ⟨h1, ?_⟩
    subst h3
    rw [h2, List.append_assoc, List.drop_left, List.take_left]



theorem isMinOf_append {β : Type} {f : β → α} {l1 l2 : List β} {m1 m2 : α}
    (h1 : IsMinOf f l1 m1) (h2 : IsMinOf f l2 m2) : IsMinOf f (l1 ++ l2) (min m1 m2) := by
  constructor
  · intro d hd
    rcases List.mem_append.1 hd with h | h
    · exact le_trans (min_le_left _ _) (h1.1 d h)
    · exact le_trans (min_le_right _ _) (h2.1 d h)
  · rcases min_choice m1 m2 with h | h
    · obtain ⟨d, hd, e⟩ := h1.2
      exact ⟨d, List.mem_append_left _ hd, by rw [h, e]⟩
    · obtain ⟨d, hd, e⟩ := h2.2
      exact ⟨d, List.mem_append_right _ hd, by rw [h, e]⟩

theorem isMaxOf_append {β : Type} {f : β → α} {l1 l2 : List β} {m1 m2 : α}
    (h1 : IsMaxOf f l1 m1) (h2 : IsMaxOf f l2 m2) : IsMaxOf f (l1 ++ l2) (max m1 m2) := by
  constructor
  · intro d hd
    rcases List.mem_append.1 hd with h | h
    · exact le_trans (h1.1 d h) (le_max_left _ _)
    · exact le_trans (h2.1 d h) (le_max_right _ _)
  · rcases max_choice m1 m2 with h | h
    · obtain ⟨d, hd, e⟩ := h1.2
      exact ⟨d, List.mem_append_left _ hd, by rw [h, e]⟩
    · obtain ⟨d, hd, e⟩ := h2.2
      exact ⟨d, List.mem_append_right _ hd, by rw [h, e]⟩

theorem tight_mergeBox (pos : D → Vec3 α) {b1 b2 : BoundingBox α} {l1 l2 : List D}
    (h1 : b1.TightOver pos l1) (h2 : b2.TightOver pos l2) :
    (b1.mergeBox b2).TightOver pos (l1 ++ l2) := by
  cases b1 with
  | empty =>
    simp only [BoundingBox.TightOver] at h1
    subst h1
    simpa [BoundingBox.mergeBox] using h2
  | box mn mx =>
    cases b2 with
    | empty =>
      simp only [BoundingBox.TightOver] at h2
      subst h2
      simpa [BoundingBox.mergeBox] using h1
    | box mn2 mx2 =>
      obtain ⟨a1, a2, a3, a4, a5, a6⟩ := h1
      obtain ⟨c1, c2, c3, c4, c5, c6⟩ := h2
      exact ⟨isMinOf_append a1 c1, isMinOf_append a2 c2, isMinOf_append a3 c3,
        isMaxOf_append a4 c4, isMaxOf_append a5 c5, isMaxOf_append a6 c6⟩

theorem tight_merge (pos : D → Vec3 α) {bb : BoundingBox α} {l : List D}
    (h : bb.TightOver pos l) (d : D) : (bb.merge (pos d)).TightOver pos (l ++ [d]) := by
  have hd : (BoundingBox.box (pos d) (pos d)).TightOver pos [d] := by
    simp [BoundingBox.TightOver, IsMinOf, IsMaxOf]
  have := tight_mergeBox pos h hd
  cases bb <;> exact this

theorem tight_mergeAll (pos : D → Vec3 α) (d : List D) :
    ∀ {bb : BoundingBox α} {l : List D}, bb.TightOver pos l →
      (mergeAll pos bb d).TightOver pos (l ++ d) := by
  induction d with
  | nil => intro bb l h; simpa [mergeAll] using h
  | cons x xs ih =>
    intro bb l h
    have := ih (tight_merge pos h x)
    simpa [mergeAll] using this

mutual
theorem hull_tight (pos : D → Vec3 α) :
    ∀ (t : Octree α D), (hull pos t).TightOver pos (flatten t)
  | .mk b d cs => by
    have h0 : (BoundingBox.empty : BoundingBox α).TightOver pos ([] : List D) := rfl
    have := hullList_tight pos cs (tight_mergeAll pos d h0)
    simpa [hull, flatten] using this
theorem hullList_tight (pos : D → Vec3 α) :
    ∀ (cs : List (Octree α D)) {bb : BoundingBox α} {l : List D}, bb.TightOver pos l →
      (hullList pos cs bb).TightOver pos (l ++ flattenList cs)
  | [], bb, l, h => by simpa [hullList, flattenList] using h
  | c :: cs, bb, l, h => by
    by_cases hu : c.used = true
    · have := hullList_tight pos cs (tight_mergeBox pos h (hull_tight pos c))
      simpa [hullList, flattenList, hu] using this
    · have := hullList_tight pos cs h
      simpa [hullList, flattenList, hu, flatten_of_not_used c hu] using this
end

theorem tightOver_contains (pos : D → Vec3 α) {bb : BoundingBox α} {l : List D}
    (h : bb.TightOver pos l) : ∀ d ∈ l, bb.contains (pos d) := by
  intro d hd
  cases bb with
  | empty =>
    simp only [BoundingBox.TightOver] at h
    subst h
    simp at hd
  | box mn mx =>
    obtain ⟨a1, a2, a3, a4, a5, a6⟩ := h
    exact ⟨a1.1 d hd, a4.1 d hd, a2.1 d hd, a5.1 d hd, a3.1 d hd, a6.1 d hd⟩

omit [LinearOrderedCommRing α] in
theorem used_eraseBB (c : Octree α D) : (eraseBB c).used = c.used := by
  cases c with
  | mk b d cs =>
    cases cs <;> simp [eraseBB, eraseBBList, Octree.used, Octree.leaf, Octree.octants,
      Octree.data_vec]

omit [LinearOrderedCommRing α] in
theorem any_used_eraseBBList (cs : List (Octree α D)) :
    (eraseBBList cs).any Octree.used = cs.any Octree.used := by
  induction cs with
  | nil => rfl
  | cons c cs ih => simp [eraseBBList, used_eraseBB, ih]

omit [LinearOrderedCommRing α] in
theorem isEmpty_eraseBBList (cs : List (Octree α D)) :
    (eraseBBList cs).isEmpty = cs.isEmpty := by
  cases cs <;> rfl

mutual
theorem compact_eraseBB (pos : D → Vec3 α) :
    ∀ (t : Octree α D) (self : LinearOctree α D) (df data : Nat) (last : Bool),
      compact pos (eraseBB t) self df data last = compact pos t self df data last
  | .mk b d cs, self, df, data, last => by
    simp only [eraseBB, compact, isEmpty_eraseBBList, compactLoop_eraseBB pos cs]
theorem compactLoop_eraseBB (pos : D → Vec3 α) :
    ∀ (cs : List (Octree α D)) (idx : Nat) (st : CompactLoop α D),
      compactLoop pos (eraseBBList cs) idx st = compactLoop pos cs idx st
  | [], idx, st => by simp [eraseBBList, compactLoop]
  | c :: cs, idx, st => by
    simp only [eraseBBList, compactLoop, used_eraseBB, any_used_eraseBBList,
      compact_eraseBB pos c, compactLoop_eraseBB pos cs]
end

mutual
theorem octreeSize_eraseBB :
    ∀ (t : Octree α D) (acc : Nat × Nat), octreeSize (eraseBB t) acc = octreeSize t acc
  | .mk b d cs, (a, b') => by
    simp only [eraseBB, octreeSize, isEmpty_eraseBBList, octreeSizeLoop_eraseBB cs]
theorem octreeSizeLoop_eraseBB :
    ∀ (cs : List (Octree α D)) (acc : Nat × Nat),
      octreeSizeLoop (eraseBBList cs) acc = octreeSizeLoop cs acc
  | [], acc => by simp [eraseBBList, octreeSizeLoop]
  | c :: cs, acc => by
    simp only [eraseBBList, octreeSizeLoop, octreeSize_eraseBB c, octreeSizeLoop_eraseBB cs]
end

theorem ofOctree_eraseBB (pos : D → Vec3 α) (t : Octree α D) :
    ofOctree pos (eraseBB t) = ofOctree pos t := by
  simp only [ofOctree, octreeSize_eraseBB, compact_eraseBB]

mutual
theorem coe_flatten :
    ∀ (t : Octree α D), ((flatten t : List D) : Multiset D) = items t
  | .mk b d cs => by
    rw [flatten, items, ← coe_flattenList cs]; rfl
theorem coe_flattenList :
    ∀ (cs : List (Octree α D)), ((flattenList cs : List D) : Multiset D) = itemsList cs
  | [] => rfl
  | c :: cs => by
    rw [flattenList, itemsList, ← coe_flatten c, ← coe_flattenList cs]; rfl
end

/-! ### Per-node facts of a compacted tree -/

theorem ofOctree_length (pos : D → Vec3 α) (t : Octree α D) (h : flatten t ≠ []) :
    (ofOctree pos t).linear_tree.length = (emitted t).length := by
  rw [ofOctree_of_flatten_ne_nil pos t h]
  exact nodes_length pos t 0 0 true

theorem ofOctree_ordered_data (pos : D → Vec3 α) (t : Octree α D) :
    (ofOctree pos t).ordered_data = flatten t := by
  by_cases h : flatten t = []
  · rw [ofOctree_of_flatten_nil pos t h, h]; rfl
  · rw [ofOctree_of_flatten_ne_nil pos t h]

/-- Every octant of a compacted tree is the record of the visited subtree with the same
pre-order index. -/
theorem ofOctree_node (pos : D → Vec3 α) (t : Octree α D) (i : Nat) (node : LinearOctant α)
    (hn : (ofOctree pos t).linear_tree.get? i = some node) :
    ∃ sub s nx, (emitted t).get? i = some sub ∧ OctreeLayout pos (ofOctree pos t) sub i s nx ∧
      node = { BB := hull pos sub, start_data := s, contained_data := (flatten sub).length,
               next_sibling := nx, leaf := sub.leaf } ∧
      ((ofOctree pos t).ordered_data.drop s).take (flatten sub).length = flatten sub := by
  by_cases h : flatten t = []
  · rw [ofOctree_of_flatten_nil pos t h] at hn
    simp [LinearOctree.empty] at hn
  · have hlen := ofOctree_length pos t h
    have hi : i < (emitted t).length := by
      rw [← hlen]
      exact (List.get?_eq_some.1 hn).1
    obtain ⟨sub, hsub⟩ : ∃ sub, (emitted t).get? i = some sub :=
      ⟨(emitted t).get ⟨i, hi⟩, List.get?_eq_get hi⟩
    obtain ⟨s, nx, hl⟩ := layout_emitted pos _ t 0 0 none (layout_ofOctree pos t h) i sub hsub
    rw [Nat.zero_add] at hl
    obtain ⟨h1, h2⟩ := layout_node pos _ sub i s nx hl
    refine ⟨sub, s, nx, hsub, hl, ?_, h2⟩
    rw [hn] at h1
    exact Option.some.inj h1

omit [LinearOrderedCommRing α] in
theorem flatten_ne_nil_of_used (c : Octree α D) (hu : c.used = true)
    (hi : c.internalNonEmpty = true) : flatten c ≠ [] := by
  cases c with
  | mk b d cs =>
    cases cs with
    | nil =>
      simp [Octree.used, Octree.leaf, Octree.octants, Octree.data_vec] at hu
      simp [flatten, flattenList, hu]
    | cons c cs =>
      simp [internalNonEmpty] at hi
      simp [flatten, hi.1]

mutual
theorem emitted_nonempty :
    ∀ (t : Octree α D), t.internalNonEmpty = true → flatten t ≠ [] →
      ∀ sub ∈ emitted t, flatten sub ≠ [] ∧ sub.internalNonEmpty = true
  | .mk b d cs, hi, hf, sub, hs => by
    simp only [emitted, List.mem_cons] at hs
    rcases hs with hs | hs
    · subst hs; exact ⟨hf, hi⟩
    · simp only [internalNonEmpty, Bool.and_eq_true] at hi
      exact emittedList_nonempty cs hi.2 sub hs
theorem emittedList_nonempty :
    ∀ (cs : List (Octree α D)), internalNonEmptyList cs = true →
      ∀ sub ∈ emittedList cs, flatten sub ≠ [] ∧ sub.internalNonEmpty = true
  | [], _, sub, hs => by simp [emittedList] at hs
  | c :: cs, hi, sub, hs => by
    simp only [internalNonEmptyList, Bool.and_eq_true] at hi
    by_cases hu : c.used = true
    · simp only [emittedList, hu, if_true, List.mem_append] at hs
      rcases hs with hs | hs
      · exact emitted_nonempty c hi.1 (flatten_ne_nil_of_used c hu hi.1) sub hs
      · exact emittedList_nonempty cs hi.2 sub hs
    · simp only [emittedList, hu] at hs
      exact emittedList_nonempty cs hi.2 sub hs
end

/-! ### Claims about compaction -/

/-- C3: for a dynamic octree holding at least one item, `ordered_data` of the compacted tree
is the depth-first pre-order concatenation of the payload, hence a permutation of all
items; node 0 starts at 0 and contains all data; the data range of every node holds exactly
the items of the subtree it was made from. -/
theorem compact_preserves_payload (pos : D → Vec3 α) (t : Octree α D) (h : t.items ≠ 0) :
    (ofOctree pos t).ordered_data = t.flatten ∧
    (((ofOctree pos t).ordered_data : List D) : Multiset D) = t.items ∧
    (∃ root, (ofOctree pos t).linear_tree.get? 0 = some root ∧ root.start_data = 0 ∧
      root.contained_data = (ofOctree pos t).ordered_data.length) ∧
    (ofOctree pos t).linear_tree.length = t.emitted.length ∧
    ∀ i node, (ofOctree pos t).linear_tree.get? i = some node →
      ∃ sub, t.emitted.get? i = some sub ∧ node.contained_data = sub.flatten.length ∧
        ((ofOctree pos t).ordered_data.drop node.start_data).take node.contained_data =
          sub.flatten := by
  have hf : flatten t ≠ [] := by
    intro h0
    apply h
    rw [← coe_flatten, h0]; rfl
  refine ⟨ofOctree_ordered_data pos t, ?_, ?_, ofOctree_length pos t hf, ?_⟩
  · rw [ofOctree_ordered_data, coe_flatten]
  · obtain ⟨h1, _⟩ := layout_node pos _ t 0 0 none (layout_ofOctree pos t hf)
    exact ⟨_, h1, rfl, by rw [ofOctree_ordered_data]⟩
  · intro i node hn
    obtain ⟨sub, s, nx, hsub, _, hnode, hslice⟩ := ofOctree_node pos t i node hn
    subst hnode
    exact ⟨sub, hsub, rfl, hslice⟩

/-- C5: in a compacted tree every item of a node's data range lies inside the node's box,
and each of the six bounds of the box is attained by an item of the range; the result of
compaction does not depend on the geometric octant boxes of the dynamic tree. -/
theorem compact_boxes_tight (pos : D → Vec3 α) (t : Octree α D) :
    (∀ i node, (ofOctree pos t).linear_tree.get? i = some node →
      (∀ d ∈ ((ofOctree pos t).ordered_data.drop node.start_data).take node.contained_data,
        node.BB.contains (pos d)) ∧
      ∀ mn mx, node.BB = BoundingBox.box mn mx →
        IsMinOf (fun d => (pos d).x)
          (((ofOctree pos t).ordered_data.drop node.start_data).take node.contained_data) mn.x ∧
        IsMinOf (fun d => (pos d).y)
          (((ofOctree pos t).ordered_data.drop node.start_data).take node.contained_data) mn.y ∧
        IsMinOf (fun d => (pos d).z)
          (((ofOctree pos t).ordered_data.drop node.start_data).take node.contained_data) mn.z ∧
        IsMaxOf (fun d => (pos d).x)
          (((ofOctree pos t).ordered_data.drop node.start_data).take node.contained_data) mx.x ∧
        IsMaxOf (fun d => (pos d).y)
          (((ofOctree pos t).ordered_data.drop node.start_data).take node.contained_data) mx.y ∧
        IsMaxOf (fun d => (pos d).z)
          (((ofOctree pos t).ordered_data.drop node.start_data).take node.contained_data) mx.z) ∧
    ∀ t' : Octree α D, t'.eraseBB = t.eraseBB → ofOctree pos t' = ofOctree pos t := by
  constructor
  · intro i node hn
    obtain ⟨sub, s, nx, _, _, hnode, hslice⟩ := ofOctree_node pos t i node hn
    subst hnode
    simp only [hslice]
    have ht := hull_tight pos sub
    refine ⟨tightOver_contains pos ht, ?_⟩
    intro mn mx hbox
    rw [hbox] at ht
    exact ht
  · intro t' h'
    rw [← ofOctree_eraseBB pos t', h', ofOctree_eraseBB]


/-- C6, as stated, fails: compacting `emptyInternalTree` emits a node with
`contained_data = 0`. -/
theorem elision_counterexample :
    emptyInternalTree.eightChildren = true ∧ emptyInternalTree.payloadOnlyInLeaves = true ∧
    ¬ (∀ node ∈ (ofOctree id emptyInternalTree).linear_tree, 1 ≤ node.contained_data) := by
  decide

/-- C6, amended: when every internal node of the dynamic octree has at least one non-empty
descendant, every node of the compacted tree has `contained_data ≥ 1`: no node without data
and no empty subtree is emitted. -/
theorem compact_elides_empty (pos : D → Vec3 α) (t : Octree α D)
    (h : t.internalNonEmpty = true) :
    ∀ node ∈ (ofOctree pos t).linear_tree, 1 ≤ node.contained_data := by
  intro node hmem
  obtain ⟨i, hn⟩ := List.mem_iff_get?.1 hmem
  obtain ⟨sub, s, nx, hsub, _, hnode, _⟩ := ofOctree_node pos t i node hn
  have hf : flatten t ≠ [] := by
    intro h0
    rw [ofOctree_of_flatten_nil pos t h0] at hmem
    simp [LinearOctree.empty] at hmem
  have := (emitted_nonempty t h hf sub (List.get?_mem hsub)).1
  subst hnode
  exact List.length_pos.2 this

theorem compact_elides_empty_witness :
    sampleTree.internalNonEmpty = true ∧
    ∀ node ∈ (ofOctree id sampleTree).linear_tree, 1 ≤ node.contained_data :=
  ⟨by decide, compact_elides_empty id sampleTree (by decide)⟩

theorem compact_preserves_payload_witness :
    sampleTree.items ≠ 0 ∧ (ofOctree id sampleTree).ordered_data = sampleTree.flatten :=
  ⟨by decide, (compact_preserves_payload id sampleTree (by decide)).1⟩

end CompactProofs

/-! ## The binary heap -/

section HeapProofs

namespace PriorityQueue

variable {T K : Type} [LinearOrder K]


theorem ltAt_iff (lt : T → T → Bool) (key : T → K)
    (hlt : ∀ a b, lt a b = true ↔ key a < key b) (v : List T) (a b : Nat) :
    ltAt lt v a b = true ↔ ∃ x y, v[a]? = some x ∧ v[b]? = some y ∧ key x < key y := by
  unfold ltAt
  simp only [List.get?_eq_getElem?]
  cases h1 : v[a]? with
  | none => simp
  | some x =>
    cases h2 : v[b]? with
    | none => simp
    | some y => simp [hlt]

theorem length_swap (v : List T) (a b : Nat) : (swap v a b).length = v.length := by
  unfold swap
  split <;> simp

theorem getElem?_swap (v : List T) (a b m : Nat) (ha : a < v.length) (hb : b < v.length) :
    (swap v a b)[m]? = if m = b then v[a]? else if m = a then v[b]? else v[m]? := by
  unfold swap
  simp only [List.get?_eq_getElem?, List.getElem?_eq_getElem ha, List.getElem?_eq_getElem hb]
  simp only [List.getElem?_set, List.length_set]
  by_cases h1 : m = b
  · subst h1; simp [hb]
  · by_cases h2 : m = a
    · subst h2
      simp [h1, Ne.symm h1, ha]
    · simp [h1, h2, Ne.symm h1, Ne.symm h2]

theorem perm_set (l : List T) (i : Nat) (a x : T) (h : l[i]? = some x) :
    (l.set i a ++ [x]).Perm (a :: l) := by
  induction l generalizing i with
  | nil => simp at h
  | cons b bs ih =>
    cases i with
    | zero =>
      simp only [List.getElem?_cons_zero, Option.some.injEq] at h
      subst h
      simp only [List.set_cons_zero, List.cons_append]
      exact (List.perm_append_singleton b bs).cons a
    | succ i =>
      simp only [List.getElem?_cons_succ] at h
      simp only [List.set_cons_succ, List.cons_append]
      exact ((ih i h).cons b).trans (List.Perm.swap a b bs)

theorem swap_perm (v : List T) (a b : Nat) : (swap v a b).Perm v := by
  unfold swap
  simp only [List.get?_eq_getElem?]
  cases h1 : v[a]? with
  | none => exact List.Perm.refl _
  | some x =>
    cases h2 : v[b]? with
    | none => exact List.Perm.refl _
    | some y =>
      have e1 := perm_set v a y x h1
      have hb : (v.set a y)[b]? = some y := by
        rw [List.getElem?_set]
        by_cases hab : a = b
        · subst hab
          have : a < v.length := (List.getElem?_eq_some.1 h1).1
          simp [this]
        · simp [hab, h2]
      have e2 := perm_set (v.set a y) b x y hb
      have e3 : (((v.set a y).set b x) ++ [y]).Perm (v ++ [y]) :=
        e2.trans ((List.perm_append_singleton x _).symm.trans
          (e1.trans (List.perm_append_singleton y v).symm))
      exact (List.perm_append_right_iff [y]).1 e3

theorem siftDown_perm (lt : T → T → Bool) :
    ∀ (fuel : Nat) (v : List T) (i : Nat), (siftDown lt fuel v i).Perm v
  | 0, v, i => List.Perm.refl _
  | fuel + 1, v, i => by
    simp only [siftDown]
    split_ifs <;>
      first
      | exact List.Perm.refl _
      | exact (siftDown_perm lt fuel _ _).trans (swap_perm _ _ _)

theorem siftUp_perm (lt : T → T → Bool) :
    ∀ (fuel : Nat) (v : List T) (i : Nat), (siftUp lt fuel v i).Perm v
  | 0, v, i => List.Perm.refl _
  | fuel + 1, v, i => by
    simp only [siftUp]
    split_ifs <;>
      first
      | exact List.Perm.refl _
      | exact (siftUp_perm lt fuel _ _).trans (swap_perm _ _ _)

theorem siftDown_length (lt : T → T → Bool) (fuel : Nat) (v : List T) (i : Nat) :
    (siftDown lt fuel v i).length = v.length :=
  (siftDown_perm lt fuel v i).length_eq


/-- The child chosen by one step of `siftDown`. -/
theorem siftDown_choice (lt : T → T → Bool) (key : T → K)
    (hlt : ∀ a b, lt a b = true ↔ key a < key b) (v : List T) (i j : Nat)
    (hj : j = (if ltAt lt v (if ltAt lt v i (2 * i + 1) then 2 * i + 1 else i) (2 * i + 2)
      then 2 * i + 2 else (if ltAt lt v i (2 * i + 1) then 2 * i + 1 else i))) :
    (j = i ∧ ∀ m y x, (m = 2 * i + 1 ∨ m = 2 * i + 2) → v[m]? = some y → v[i]? = some x →
      key y ≤ key x) ∨
    (j ≠ i ∧ (j = 2 * i + 1 ∨ j = 2 * i + 2) ∧ ∃ xi xj, v[i]? = some xi ∧ v[j]? = some xj ∧
      key xi < key xj ∧
      ∀ m y, (m = 2 * i + 1 ∨ m = 2 * i + 2) → v[m]? = some y → key y ≤ key xj) := by
  by_cases h1 : ltAt lt v i (2 * i + 1) = true
  · obtain ⟨xi, xl, hi, hl, hil⟩ := (ltAt_iff lt key hlt v _ _).1 h1
    rw [if_pos h1] at hj
    by_cases h2 : ltAt lt v (2 * i + 1) (2 * i + 2) = true
    · obtain ⟨xl', xr, hl', hr, hlr⟩ := (ltAt_iff lt key hlt v _ _).1 h2
      rw [hl] at hl'
      cases hl'
      rw [if_pos h2] at hj
      right
      refine ⟨by omega, Or.inr hj, xi, xr, hi, by rw [hj]; exact hr, lt_trans hil hlr, ?_⟩
      rintro m y (rfl | rfl) hm
      · rw [hl] at hm; cases hm; exact le_of_lt hlr
      · rw [hr] at hm; cases hm; exact le_refl _
    · rw [if_neg h2] at hj
      right
      refine ⟨by omega, Or.inl hj, xi, xl, hi, by rw [hj]; exact hl, hil, ?_⟩
      rintro m y (rfl | rfl) hm
      · rw [hl] at hm; cases hm; exact le_refl _
      · by_contra hc
        exact h2 ((ltAt_iff lt key hlt v _ _).2 ⟨xl, y, hl, hm, lt_of_not_le hc⟩)
  · rw [if_neg h1] at hj
    by_cases h2 : ltAt lt v i (2 * i + 2) = true
    · obtain ⟨xi, xr, hi, hr, hir⟩ := (ltAt_iff lt key hlt v _ _).1 h2
      rw [if_pos h2] at hj
      right
      refine ⟨by omega, Or.inr hj, xi, xr, hi, by rw [hj]; exact hr, hir, ?_⟩
      rintro m y (rfl | rfl) hm
      · by_contra hc
        have hxy : key xi < key y := lt_trans hir (lt_of_not_le hc)
        exact h1 ((ltAt_iff lt key hlt v _ _).2 ⟨xi, y, hi, hm, hxy⟩)
      · rw [hr] at hm; cases hm; exact le_refl _
    · rw [if_neg h2] at hj
      left
      refine ⟨hj, ?_⟩
      rintro m y x (rfl | rfl) hm hx
      · by_contra hc
        exact h1 ((ltAt_iff lt key hlt v _ _).2 ⟨x, y, hx, hm, lt_of_not_le hc⟩)
      · by_contra hc
        exact h2 ((ltAt_iff lt key hlt v _ _).2 ⟨x, y, hx, hm, lt_of_not_le hc⟩)

theorem lt_length_of_getElem? {v : List T} {i : Nat} {x : T} (h : v[i]? = some x) :
    i < v.length := (List.getElem?_eq_some.1 h).1

theorem siftDown_heap (lt : T → T → Bool) (key : T → K)
    (hlt : ∀ a b, lt a b = true ↔ key a < key b) (s : Nat) :
    ∀ (fuel : Nat) (v : List T) (i : Nat), v.length ≤ fuel + i → SiftDownPre key v s i →
      IsHeapFrom key (siftDown lt fuel v i) s
  | 0, v, i, hf, hpre => by
    intro q j x y hq hj hx hy
    simp only [siftDown] at hx hy
    by_cases hqi : q = i
    · subst hqi
      have := lt_length_of_getElem? hx
      omega
    · exact hpre.1 q j x y hq hqi hj hx hy
  | fuel + 1, v, i, hf, hpre => by
    simp only [siftDown]
    generalize hjdef : (if ltAt lt v (if ltAt lt v i (2 * i + 1) then 2 * i + 1 else i)
      (2 * i + 2) then 2 * i + 2 else (if ltAt lt v i (2 * i + 1) then 2 * i + 1 else i)) = j
    rcases siftDown_choice lt key hlt v i j hjdef.symm with
      ⟨hji, hch⟩ | ⟨hji, hjc, xi, xj, hi, hxj, hlt', hmax⟩
    · rw [if_pos hji]
      intro q jj x y hq hjj hx hy
      by_cases hqi : q = i
      · subst hqi
        exact hch jj y x hjj hy hx
      · exact hpre.1 q jj x y hq hqi hjj hx hy
    · rw [if_neg hji]
      have hil := lt_length_of_getElem? hi
      have hjl := lt_length_of_getElem? hxj
      apply siftDown_heap lt key hlt s fuel _ j (by rw [length_swap]; omega)
      constructor
      · intro q jj x y hq hqj hjj hx hy
        rw [getElem?_swap v i j _ hil hjl] at hx hy
        by_cases hqi : q = i
        · subst hqi
          rw [if_neg hqj, if_pos rfl, hxj] at hx
          cases hx
          by_cases hjj2 : jj = j
          · rw [if_pos hjj2, hi] at hy
            cases hy
            exact le_of_lt hlt'
          · rw [if_neg hjj2, if_neg (by omega)] at hy
            exact hmax jj y hjj hy
        · rw [if_neg hqj, if_neg hqi] at hx
          rw [if_neg (by omega)] at hy
          by_cases hjj2 : jj = i
          · rw [if_pos hjj2, hxj] at hy
            cases hy
            exact hpre.2 q j x _ hq (by omega) hjc hx hxj
          · rw [if_neg hjj2] at hy
            exact hpre.1 q jj x y hq hqi hjj hx hy
      · intro q jj x y hq hjq hjj hx hy
        have hqi : q = i := by omega
        subst hqi
        rw [getElem?_swap v q j _ hil hjl] at hx hy
        rw [if_neg (by omega), if_pos rfl, hxj] at hx
        cases hx
        rw [if_neg (by omega), if_neg (by omega)] at hy
        exact hpre.1 j jj _ y (by omega) hji hjj hxj hy

theorem isHeapFrom_half (key : T → K) (v : List T) : IsHeapFrom key v (v.length / 2) := by
  intro q j x y hq hj _ hy
  have := lt_length_of_getElem? hy
  omega

theorem heapifyFrom_heap (lt : T → T → Bool) (key : T → K)
    (hlt : ∀ a b, lt a b = true ↔ key a < key b) :
    ∀ (i : Nat) (v : List T), IsHeapFrom key v i → IsHeap key (heapifyFrom lt i v)
  | 0, v, h => h
  | i + 1, v, h => by
    simp only [heapifyFrom]
    apply heapifyFrom_heap lt key hlt i
    apply siftDown_heap lt key hlt i v.length v i (by omega)
    constructor
    · intro q j x y hq hqi hj hx hy
      exact h q j x y (by omega) hj hx hy
    · intro q j x y hq hiq
      omega

theorem heapifyFrom_perm (lt : T → T → Bool) :
    ∀ (i : Nat) (v : List T), (heapifyFrom lt i v).Perm v
  | 0, v => List.Perm.refl _
  | i + 1, v => by
    simp only [heapifyFrom]
    exact (heapifyFrom_perm lt i _).trans (siftDown_perm lt _ _ _)

/-- Floyd's heapify establishes the heap property. -/
theorem make_heap_isHeap (lt : T → T → Bool) (key : T → K)
    (hlt : ∀ a b, lt a b = true ↔ key a < key b) (v : List T) :
    IsHeap key (make_heap lt v) :=
  heapifyFrom_heap lt key hlt _ v (isHeapFrom_half key v)

theorem make_heap_perm (lt : T → T → Bool) (v : List T) : (make_heap lt v).Perm v :=
  heapifyFrom_perm lt _ v

/-- Replacing the root and sifting down keeps the heap property. -/
theorem pop_push_isHeap (lt : T → T → Bool) (key : T → K)
    (hlt : ∀ a b, lt a b = true ↔ key a < key b) (v : List T) (x : T) (h : IsHeap key v) :
    IsHeap key (pop_push lt v x) := by
  unfold pop_push
  apply siftDown_heap lt key hlt 0 v.length (v.set 0 x) 0 (by simp)
  constructor
  · intro q j a b _ hq0 hj ha hb
    rw [List.getElem?_set_ne (by omega)] at ha hb
    exact h q j a b (Nat.zero_le _) hj ha hb
  · intro q j a b _ h0
    omega

theorem pop_push_perm (lt : T → T → Bool) (t : T) (v : List T) (x : T) :
    (pop_push lt (t :: v) x).Perm (x :: v) := by
  unfold pop_push
  exact siftDown_perm lt _ _ _

/-- In a heap the root is a largest element. -/
theorem isHeap_root_max (key : T → K) (v : List T) (h : IsHeap key v) (t : T)
    (ht : v[0]? = some t) : ∀ (m : Nat) (y : T), v[m]? = some y → key y ≤ key t := by
  intro m
  induction m using Nat.strong_induction_on with
  | _ m ih =>
    intro y hy
    by_cases hm : m = 0
    · subst hm
      rw [ht] at hy
      cases hy
      exact le_refl _
    · have hml := lt_length_of_getElem? hy
      have hp : (m - 1) / 2 < v.length := by omega
      have hx : v[(m - 1) / 2]? = some v[(m - 1) / 2] := List.getElem?_eq_getElem hp
      exact le_trans (h _ m _ y (Nat.zero_le _) (by omega) hx hy)
        (ih ((m - 1) / 2) (by omega) _ hx)

theorem top_max (key : T → K) (v : List T) (h : IsHeap key v) (t : T)
    (ht : top v = some t) : ∀ y ∈ v, key y ≤ key t := by
  intro y hy
  obtain ⟨m, hm⟩ := List.mem_iff_getElem?.1 hy
  have h0 : v[0]? = some t := by
    cases v with
    | nil => simp [top] at ht
    | cons a as => simpa [top] using ht
  exact isHeap_root_max key v h t h0 m y hm


theorem siftUp_heap (lt : T → T → Bool) (key : T → K)
    (hlt : ∀ a b, lt a b = true ↔ key a < key b) :
    ∀ (fuel : Nat) (v : List T) (i : Nat), i ≤ fuel → SiftUpPre key v i →
      IsHeap key (siftUp lt fuel v i)
  | 0, v, i, hf, hpre => by
    intro q j x y _ hj hx hy
    exact hpre.1 q j x y hj (by omega) hx hy
  | fuel + 1, v, i, hf, hpre => by
    simp only [siftUp]
    by_cases hi0 : i = 0
    · rw [if_pos hi0]
      intro q j x y _ hj hx hy
      exact hpre.1 q j x y hj (by omega) hx hy
    · rw [if_neg hi0]
      by_cases hl : ltAt lt v ((i - 1) / 2) i = true
      · rw [if_pos hl]
        obtain ⟨xp, xi, hp, hi, hpi⟩ := (ltAt_iff lt key hlt v _ _).1 hl
        have hil := lt_length_of_getElem? hi
        have hpl := lt_length_of_getElem? hp
        generalize hpdef : (i - 1) / 2 = p at *
        have hip : i = 2 * p + 1 ∨ i = 2 * p + 2 := by omega
        apply siftUp_heap lt key hlt fuel _ p (by omega)
        constructor
        · intro q j x y hj hjp hx hy
          rw [getElem?_swap v i p _ hil hpl] at hx hy
          rw [if_neg hjp] at hy
          by_cases hqp : q = p
          · subst hqp
            rw [if_pos rfl, hi] at hx
            cases hx
            by_cases hji : j = i
            · rw [if_pos hji, hp] at hy
              cases hy
              exact le_of_lt hpi
            · rw [if_neg hji] at hy
              exact le_trans (hpre.1 q j xp y hj hji hp hy) (le_of_lt hpi)
          · rw [if_neg hqp] at hx
            by_cases hqi : q = i
            · subst hqi
              rw [if_pos rfl, hp] at hx
              cases hx
              rw [if_neg (by omega)] at hy
              exact hpre.2 p j _ y hip hj hp hy
            · rw [if_neg hqi] at hx
              rw [if_neg (by omega)] at hy
              exact hpre.1 q j x y hj (by omega) hx hy
        · intro q j x y hpq hj hx hy
          rw [getElem?_swap v i p _ hil hpl] at hx hy
          rw [if_neg (by omega), if_neg (by omega)] at hx
          rw [if_neg (by omega)] at hy
          by_cases hji : j = i
          · rw [if_pos hji, hp] at hy
            cases hy
            exact hpre.1 q p x _ hpq (by omega) hx hp
          · rw [if_neg hji] at hy
            exact le_trans (hpre.1 p j xp y hj hji hp hy) (hpre.1 q p x xp hpq (by omega) hx hp)
      · rw [if_neg hl]
        intro q j x y _ hj hx hy
        by_cases hji : j = i
        · subst hji
          have hq : (j - 1) / 2 = q := by omega
          rw [hq] at hl
          by_contra hc
          exact hl ((ltAt_iff lt key hlt v _ _).2 ⟨x, y, hx, hy, lt_of_not_le hc⟩)
        · exact hpre.1 q j x y hj hji hx hy

/-- The standard heap insert keeps the heap property. -/
theorem push_isHeap (lt : T → T → Bool) (key : T → K)
    (hlt : ∀ a b, lt a b = true ↔ key a < key b) (v : List T) (x : T) (h : IsHeap key v) :
    IsHeap key (push lt v x) := by
  unfold push
  apply siftUp_heap lt key hlt _ _ _ (by omega)
  constructor
  · intro q j a b hj hjl ha hb
    have hjl2 := lt_length_of_getElem? hb
    simp only [List.length_append, List.length_singleton] at hjl2
    rw [List.getElem?_append_left (by omega)] at ha hb
    exact h q j a b (Nat.zero_le _) hj ha hb
  · intro q j a b _ hj _ hb
    have hjl2 := lt_length_of_getElem? hb
    simp only [List.length_append, List.length_singleton] at hjl2
    omega

theorem push_perm (lt : T → T → Bool) (v : List T) (x : T) : (push lt v x).Perm (x :: v) := by
  unfold push
  exact (siftUp_perm lt _ _ _).trans (List.perm_append_singleton x v)

/-- Removing the root keeps the heap property. -/
theorem pop_isHeap (lt : T → T → Bool) (key : T → K)
    (hlt : ∀ a b, lt a b = true ↔ key a < key b) (v : List T) (h : IsHeap key v) :
    IsHeap key (pop lt v) := by
  unfold pop
  cases hlast : v.getLast? with
  | none => exact h
  | some x =>
    simp only
    apply siftDown_heap lt key hlt 0 _ _ 0 (by simp)
    constructor
    · intro q j a b _ hq0 hj ha hb
      rw [List.getElem?_dropLast] at ha hb
      split at ha
      · split at hb
        · rw [List.getElem?_set_ne (by omega)] at ha hb
          exact h q j a b (Nat.zero_le _) hj ha hb
        · cases hb
      · cases ha
    · intro q j a b _ h0
      omega

theorem pop_perm (lt : T → T → Bool) (t : T) (v : List T) : (pop lt (t :: v)).Perm v := by
  unfold pop
  cases v with
  | nil => simp [siftDown, List.dropLast]
  | cons a as =>
    have hne : (a :: as) ≠ [] := by simp
    have hl : (t :: a :: as).getLast? = some ((a :: as).getLast hne) := by
      simp [List.getLast?_eq_getLast]
    rw [hl]
    simp only
    refine (siftDown_perm lt _ _ _).trans ?_
    have h1 : ((t :: a :: as).set 0 ((a :: as).getLast hne)).dropLast
        = (a :: as).getLast hne :: (a :: as).dropLast := by
      simp [List.dropLast]
    rw [h1]
    have h2 := List.dropLast_append_getLast hne
    exact (List.perm_append_singleton _ _).symm.trans (by rw [h2])

end PriorityQueue

end HeapProofs

/-! ## Distance bounds of a box -/

section SearchProofs

open Octree LinearOctree

variable {α D : Type} [LinearOrderedCommRing α]

theorem clamp_axis_le (p q lo hi : α) (h1 : lo ≤ q) (h2 : q ≤ hi) :
    (p - BoundingBox.clamp p lo hi) * (p - BoundingBox.clamp p lo hi) ≤ (p - q) * (p - q) := by
  unfold BoundingBox.clamp
  rcases le_total p lo with h | h
  · rw [max_eq_right h, min_eq_left (le_trans h1 h2)]
    nlinarith
  · rw [max_eq_left h]
    rcases le_total p hi with h' | h'
    · rw [min_eq_left h']; nlinarith [mul_self_nonneg (p - q)]
    · rw [min_eq_right h']; nlinarith

theorem axis_le_far (p q lo hi : α) (h1 : lo ≤ q) (h2 : q ≤ hi) :
    (p - q) * (p - q) ≤ max |p - lo| |p - hi| * max |p - lo| |p - hi| := by
  have h : |p - q| ≤ max |p - lo| |p - hi| := by
    rw [abs_le]
    constructor
    · have := neg_abs_le (p - hi)
      have := le_max_right |p - lo| |p - hi|
      linarith
    · have := le_abs_self (p - lo)
      have := le_max_left |p - lo| |p - hi|
      linarith
  calc (p - q) * (p - q) = |p - q| * |p - q| := (abs_mul_abs_self _).symm
    _ ≤ _ := mul_self_le_mul_self (abs_nonneg _) h

theorem distance2_comm (a b : Vec3 α) : Vec3.distance2 a b = Vec3.distance2 b a := by
  unfold Vec3.distance2
  ring

/-- A point inside a box is at least `distance2` and at most `max_distance2` away. -/
theorem box_bounds (bb : BoundingBox α) (q p : Vec3 α) (h : bb.contains q) :
    bb.distance2 p ≤ ((Vec3.distance2 q p : α) : WithTop α) ∧
    ((Vec3.distance2 q p : α) : WithTop α) ≤ bb.max_distance2 p := by
  cases bb with
  | empty => exact absurd h (by simp [BoundingBox.contains])
  | box mn mx =>
    obtain ⟨hx1, hx2, hy1, hy2, hz1, hz2⟩ := h
    rw [distance2_comm q p]
    constructor
    · simp only [BoundingBox.distance2, WithTop.coe_le_coe, Vec3.distance2]
      have := clamp_axis_le p.x q.x mn.x mx.x hx1 hx2
      have := clamp_axis_le p.y q.y mn.y mx.y hy1 hy2
      have := clamp_axis_le p.z q.z mn.z mx.z hz1 hz2
      linarith
    · simp only [BoundingBox.max_distance2, WithTop.coe_le_coe, Vec3.distance2]
      have := axis_le_far p.x q.x mn.x mx.x hx1 hx2
      have := axis_le_far p.y q.y mn.y mx.y hy1 hy2
      have := axis_le_far p.z q.z mn.z mx.z hz1 hz2
      linarith

theorem hull_bounds (pos : D → Vec3 α) (sub : Octree α D) (p : Vec3 α) :
    ∀ d ∈ flatten sub,
      (hull pos sub).distance2 p ≤ ((Vec3.distance2 (pos d) p : α) : WithTop α) ∧
      ((Vec3.distance2 (pos d) p : α) : WithTop α) ≤ (hull pos sub).max_distance2 p :=
  fun d hd => box_bounds _ _ p (tightOver_contains pos (hull_tight pos sub) d hd)

theorem flatten_ne_nil_of_distance2 (pos : D → Vec3 α) (sub : Octree α D) (p : Vec3 α)
    (h : (hull pos sub).distance2 p ≠ ⊤) : flatten sub ≠ [] := by
  have ht := hull_tight pos sub
  intro h0
  cases hb : hull pos sub with
  | empty => rw [hb] at h; exact h rfl
  | box mn mx =>
    rw [hb, h0] at ht
    obtain ⟨⟨_, d, hd, _⟩, _⟩ := ht
    simp at hd

/-! ## Walking the linear tree -/

omit [LinearOrderedCommRing α] in
theorem payloadOnlyInLeaves_flatten (b : BoundingBox α) (d : List D) (cs : List (Octree α D))
    (h : (Octree.mk b d cs).payloadOnlyInLeaves = true) (hl : cs ≠ []) :
    flatten (Octree.mk b d cs) = flattenList cs ∧ payloadOnlyInLeavesList cs = true := by
  simp only [payloadOnlyInLeaves, Bool.and_eq_true, Bool.or_eq_true, List.isEmpty_iff] at h
  rcases h with ⟨h1 | h1, h2⟩
  · exact absurd h1 hl
  · rw [flatten, h1]
    exact ⟨rfl, h2⟩

omit [LinearOrderedCommRing α] in
theorem any_used_of_flattenList_ne_nil (cs : List (Octree α D)) (h : flattenList cs ≠ []) :
    cs.any Octree.used = true := by
  induction cs with
  | nil => simp [flattenList] at h
  | cons c cs ih =>
    by_cases hu : c.used = true
    · simp [hu]
    · rw [flattenList, flatten_of_not_used c hu, List.nil_append] at h
      simp [ih h]

/-- Reading a data range that is laid out contiguously. -/
theorem radiusCollect_spec (pos : D → Vec3 α) (lin : LinearOctree α D) (p : Vec3 α) :
    ∀ (l pre post : List D) (res : List (SearchResult α D)),
      lin.ordered_data = pre ++ l ++ post →
      radiusCollect pos lin p l.length pre.length res =
        some (res ++ l.map (fun d => ⟨d, Vec3.distance2 (pos d) p⟩))
  | [], pre, post, res, _ => by simp [radiusCollect]
  | x :: xs, pre, post, res, h => by
    have hx : lin.ordered_data.get? pre.length = some x := by
      rw [h, List.append_assoc, List.cons_append, get?_append_self]
    have := radiusCollect_spec pos lin p xs (pre ++ [x]) post
      (res ++ [⟨x, Vec3.distance2 (pos x) p⟩]) (by rw [h]; simp)
    simp only [List.length_append, List.length_singleton] at this
    simp only [List.length_cons, radiusCollect, hx, this]
    simp

theorem radiusScan_spec (pos : D → Vec3 α) (lin : LinearOctree α D) (p : Vec3 α) (r2 : α) :
    ∀ (l pre post : List D) (res : List (SearchResult α D)),
      lin.ordered_data = pre ++ l ++ post →
      radiusScan pos lin p r2 l.length pre.length res =
        some (res ++ (l.filter (fun d => decide (Vec3.distance2 (pos d) p ≤ r2))).map
          (fun d => ⟨d, Vec3.distance2 (pos d) p⟩))
  | [], pre, post, res, _ => by simp [radiusScan]
  | x :: xs, pre, post, res, h => by
    have hx : lin.ordered_data.get? pre.length = some x := by
      rw [h, List.append_assoc, List.cons_append, get?_append_self]
    have := radiusScan_spec pos lin p r2 xs (pre ++ [x]) post
      (if Vec3.distance2 (pos x) p ≤ r2 then res ++ [⟨x, Vec3.distance2 (pos x) p⟩] else res)
      (by rw [h]; simp)
    simp only [List.length_append, List.length_singleton] at this
    simp only [List.length_cons, radiusScan, hx, this]
    by_cases hc : Vec3.distance2 (pos x) p ≤ r2
    · simp [hc, List.filter_cons]
    · simp [hc, List.filter_cons]

/-! ## Radius search -/

theorem radiusChildren_none (pos : D → Vec3 α) (lin : LinearOctree α D) (p : Vec3 α) (r2 : α)
    (fuel : Nat) (st : RadiusState α D) :
    radiusChildren pos lin p r2 fuel none st = some st := by
  cases fuel <;> rfl

theorem radiusChildren_spec (pos : D → Vec3 α) (lin : LinearOctree α D) (p : Vec3 α) (r2 : α) :
    ∀ (cs : List (Octree α D)) (j s fuel : Nat) (res : List (SearchResult α D))
      (tv : List Nat),
      OctreeLayoutList pos lin cs j s → payloadOnlyInLeavesList cs = true →
      lin.linear_tree.length ≤ fuel + j →
      ∃ coll pushed,
        radiusChildren pos lin p r2 fuel (chainStart cs j) ⟨res, tv⟩ =
          some ⟨res ++ coll, tv ++ pushed.map Prod.snd⟩ ∧
        (coll.map SearchResult.data ++
          (pendingItems pushed).filter (fun d => decide (Vec3.distance2 (pos d) p ≤ r2))).Perm
          ((flattenList cs).filter (fun d => decide (Vec3.distance2 (pos d) p ≤ r2))) ∧
        (∀ r ∈ coll, r.distance2 = Vec3.distance2 (pos r.data) p) ∧
        (∀ g ∈ pushed, Pending pos lin g) ∧
        pendingSize pushed ≤ (emittedList cs).length
  | [], j, s, fuel, res, tv, _, _, _ => by
    refine ⟨[], [], ?_, ?_, ?_, ?_, ?_⟩
    · simp [chainStart, radiusChildren_none]
    · simp [pendingItems, flattenList]
    · simp
    · simp
    · simp [pendingSize]
  | c :: cs, j, s, fuel, res, tv, hlay, hpay, hfuel => by
    simp only [payloadOnlyInLeavesList, Bool.and_eq_true] at hpay
    by_cases hu : c.used = true
    · simp only [OctreeLayoutList, hu, if_true] at hlay
      obtain ⟨hc, hcs⟩ := hlay
      obtain ⟨hnode, _⟩ := layout_node pos lin c j s _ hc
      have hjl : j < lin.linear_tree.length := (List.get?_eq_some.1 hnode).1
      obtain ⟨fuel', rfl⟩ : ∃ f, fuel = f + 1 := ⟨fuel - 1, by omega⟩
      have hslice : ∃ pre post, lin.ordered_data = pre ++ flatten c ++ post ∧ pre.length = s := by
        cases c with
        | mk b d cs' => exact hc.2.1
      obtain ⟨pre, post, hod, hpre⟩ := hslice
      have hsz := emitted_length_pos c
      have hstart : chainStart (c :: cs) j = some j := by simp [chainStart, hu]
      have hnext : (if !(cs.any Octree.used) then none else some (j + (emitted c).length))
          = chainStart cs (j + (emitted c).length) := by
        unfold chainStart
        cases cs.any Octree.used <;> rfl
      have hb := hull_bounds pos c p
      rw [hstart]
      simp only [radiusChildren, hnode, hnext]
      by_cases h1 : (hull pos c).distance2 p ≤ ((r2 : α) : WithTop α)
      · by_cases h2 : (hull pos c).max_distance2 p ≤ ((r2 : α) : WithTop α)
        · have hcol := radiusCollect_spec pos lin p (flatten c) pre post res hod
          rw [hpre] at hcol
          obtain ⟨coll, pushed, e1, e2, e3, e4, e5⟩ := radiusChildren_spec pos lin p r2 cs
            (j + (emitted c).length) (s + (flatten c).length) fuel'
            (res ++ (flatten c).map (fun d => ⟨d, Vec3.distance2 (pos d) p⟩)) tv hcs hpay.2
            (by omega)
          refine ⟨(flatten c).map (fun d => ⟨d, Vec3.distance2 (pos d) p⟩) ++ coll, pushed,
            ?_, ?_, ?_, e4, ?_⟩
          · simp only [h1, h2, if_true, hcol, Option.map_some', e1, List.append_assoc]
          · have hall : (flatten c).filter
                (fun d => decide (Vec3.distance2 (pos d) p ≤ r2)) = flatten c := by
              rw [List.filter_eq_self]
              intro d hd
              have := le_trans (hb d hd).2 h2
              simpa using this
            simp only [flattenList, List.filter_append, hall, List.map_append, List.map_map,
              List.append_assoc]
            have : (List.map (SearchResult.data ∘ fun d => (⟨d, Vec3.distance2 (pos d) p⟩ :
                SearchResult α D)) (flatten c)) = flatten c := by
              simp [Function.comp_def]
            rw [this]
            exact e2.append_left _
          · intro r hr
            rcases List.mem_append.1 hr with hr | hr
            · obtain ⟨d, _, rfl⟩ := List.mem_map.1 hr
              rfl
            · exact e3 r hr
          · simp only [emittedList, hu, if_true, List.length_append]
            omega
        · obtain ⟨coll, pushed, e1, e2, e3, e4, e5⟩ := radiusChildren_spec pos lin p r2 cs
            (j + (emitted c).length) (s + (flatten c).length) fuel' res (tv ++ [j]) hcs hpay.2
            (by omega)
          refine ⟨coll, (c, j) :: pushed, ?_, ?_, e3, ?_, ?_⟩
          · simp only [h1, h2, if_true, if_false, e1, List.append_assoc, List.map_cons,
              List.singleton_append]
          · have := e2.append_left
              ((flatten c).filter (fun d => decide (Vec3.distance2 (pos d) p ≤ r2)))
            simp only [flattenList, pendingItems, List.flatMap_cons, List.filter_append]
            refine List.Perm.trans ?_ this
            rw [← List.append_assoc, ← List.append_assoc]
            exact List.Perm.append_right _ List.perm_append_comm
          · intro g hg
            rcases List.mem_cons.1 hg with rfl | hg
            · refine ⟨⟨s, _, hc⟩, hpay.1, ?_⟩
              apply flatten_ne_nil_of_distance2 pos c p
              intro htop
              rw [htop] at h1
              simp at h1
            · exact e4 g hg
          · simp only [emittedList, hu, if_true, List.length_append, pendingSize, List.map_cons,
              List.sum_cons]
            unfold pendingSize at e5
            omega
      · obtain ⟨coll, pushed, e1, e2, e3, e4, e5⟩ := radiusChildren_spec pos lin p r2 cs
          (j + (emitted c).length) (s + (flatten c).length) fuel' res tv hcs hpay.2 (by omega)
        refine ⟨coll, pushed, ?_, ?_, e3, e4, ?_⟩
        · simp only [h1, if_false, e1]
        · have hnone : (flatten c).filter
              (fun d => decide (Vec3.distance2 (pos d) p ≤ r2)) = [] := by
            rw [List.filter_eq_nil_iff]
            intro d hd hle
            apply h1
            exact le_trans (hb d hd).1 (by simpa using hle)
          simp only [flattenList, List.filter_append, hnone, List.nil_append]
          exact e2
        · simp only [emittedList, hu, if_true, List.length_append]
          omega
    · simp only [OctreeLayoutList, hu] at hlay
      have hstart : chainStart (c :: cs) j = chainStart cs j := by simp [chainStart, hu]
      rw [hstart]
      obtain ⟨coll, pushed, e1, e2, e3, e4, e5⟩ :=
        radiusChildren_spec pos lin p r2 cs j s fuel res tv hlay hpay.2 hfuel
      refine ⟨coll, pushed, e1, ?_, e3, e4, ?_⟩
      · simpa [flattenList, flatten_of_not_used c hu] using e2
      · simpa [emittedList, hu] using e5

omit [LinearOrderedCommRing α] in
theorem pendingItems_append (a b : List (Octree α D × Nat)) :
    pendingItems (a ++ b) = pendingItems a ++ pendingItems b := by
  simp [pendingItems, List.flatMap_append]

omit [LinearOrderedCommRing α] in
theorem pendingSize_append (a b : List (Octree α D × Nat)) :
    pendingSize (a ++ b) = pendingSize a + pendingSize b := by
  simp [pendingSize]

omit [LinearOrderedCommRing α] in
theorem pendingItems_single (g : Octree α D × Nat) : pendingItems [g] = flatten g.1 := by
  simp [pendingItems]

omit [LinearOrderedCommRing α] in
theorem pendingSize_single (g : Octree α D × Nat) : pendingSize [g] = (emitted g.1).length := by
  simp [pendingSize]

theorem radiusLoop_spec (pos : D → Vec3 α) (lin : LinearOctree α D) (p : Vec3 α) (r2 : α) :
    ∀ (fuel : Nat) (sub : Octree α D) (idx : Nat) (pend : List (Octree α D × Nat))
      (res : List (SearchResult α D)),
      Pending pos lin (sub, idx) → (∀ g ∈ pend, Pending pos lin g) →
      (emitted sub).length + pendingSize pend ≤ fuel →
      ∃ extra, radiusLoop pos lin p r2 fuel idx ⟨res, pend.map Prod.snd⟩ = some (res ++ extra) ∧
        (extra.map SearchResult.data).Perm
          ((flatten sub ++ pendingItems pend).filter
            (fun d => decide (Vec3.distance2 (pos d) p ≤ r2))) ∧
        ∀ r ∈ extra, r.distance2 = Vec3.distance2 (pos r.data) p
  | 0, sub, idx, pend, res, _, _, hfuel => by
    have := emitted_length_pos sub
    omega
  | fuel + 1, .mk b d cs, idx, pend, res, hsub, hpend, hfuel => by
    obtain ⟨⟨s, nx, hlay⟩, hpay, hne⟩ := hsub
    obtain ⟨hnode, ⟨pre, post, hod, hpre⟩, hlist⟩ := hlay
    simp only at hpay hne hnode hlist
    -- what happens after the node has been handled
    have hnext : ∀ (coll : List (SearchResult α D)) (pushed : List (Octree α D × Nat)),
        (coll.map SearchResult.data ++ (pendingItems pushed).filter
          (fun d => decide (Vec3.distance2 (pos d) p ≤ r2))).Perm
          ((flatten (Octree.mk b d cs)).filter
            (fun d => decide (Vec3.distance2 (pos d) p ≤ r2))) →
        (∀ r ∈ coll, r.distance2 = Vec3.distance2 (pos r.data) p) →
        (∀ g ∈ pushed, Pending pos lin g) →
        pendingSize pushed + 1 ≤ (emitted (Octree.mk b d cs)).length →
        ∃ extra,
          (match ((pend ++ pushed).map Prod.snd).getLast? with
            | none => some (res ++ coll)
            | some node_idx => radiusLoop pos lin p r2 fuel node_idx
                ⟨res ++ coll, ((pend ++ pushed).map Prod.snd).dropLast⟩) = some (res ++ extra) ∧
          (extra.map SearchResult.data).Perm
            ((flatten (Octree.mk b d cs) ++ pendingItems pend).filter
              (fun d => decide (Vec3.distance2 (pos d) p ≤ r2))) ∧
          ∀ r ∈ extra, r.distance2 = Vec3.distance2 (pos r.data) p := by
      intro coll pushed e2 e3 e4 e5
      rcases List.eq_nil_or_concat (pend ++ pushed) with hnil | ⟨pend', g, hcat⟩
      · obtain ⟨rfl, rfl⟩ := List.append_eq_nil.1 hnil
        refine ⟨coll, by simp, ?_, e3⟩
        simpa [pendingItems] using e2
      · rw [List.concat_eq_append] at hcat
        have hg : Pending pos lin g := by
          have : g ∈ pend ++ pushed := by rw [hcat]; simp
          rcases List.mem_append.1 this with h | h
          · exact hpend g h
          · exact e4 g h
        have hp' : ∀ g' ∈ pend', Pending pos lin g' := by
          intro g' hg'
          have : g' ∈ pend ++ pushed := by rw [hcat]; simp [hg']
          rcases List.mem_append.1 this with h | h
          · exact hpend g' h
          · exact e4 g' h
        have hsz : pendingSize pend + pendingSize pushed = pendingSize pend' + (emitted g.1).length := by
          rw [← pendingSize_append, hcat, pendingSize_append, pendingSize_single]
        have hit : pendingItems pend ++ pendingItems pushed = pendingItems pend' ++ flatten g.1 := by
          rw [← pendingItems_append, hcat, pendingItems_append, pendingItems_single]
        obtain ⟨extra', f1, f2, f3⟩ := radiusLoop_spec pos lin p r2 fuel g.1 g.2 pend'
          (res ++ coll) hg hp' (by omega)
        refine ⟨coll ++ extra', ?_, ?_, ?_⟩
        · have hl : ((pend' ++ [g]).map Prod.snd).getLast? = some g.2 := by simp
          have hd : ((pend' ++ [g]).map Prod.snd).dropLast = pend'.map Prod.snd := by simp
          rw [hcat, hl, hd]
          simp only
          rw [f1, List.append_assoc]
        · rw [← Multiset.coe_eq_coe] at e2 f2 ⊢
          have hit' := congrArg (fun l => ((l.filter
            (fun d => decide (Vec3.distance2 (pos d) p ≤ r2)) : List D) : Multiset D)) hit
          simp only [List.filter_append, List.map_append, ← Multiset.coe_add] at e2 f2 hit' ⊢
          rw [f2, ← e2, add_comm (Multiset.ofList (List.filter _ (flatten g.1))), ← hit']
          abel
        · intro r hr
          rcases List.mem_append.1 hr with h | h
          · exact e3 r h
          · exact f3 r h
    cases cs with
    | nil =>
      have hscan := radiusScan_spec pos lin p r2 (flatten (Octree.mk b d [])) pre post res hod
      rw [hpre] at hscan
      obtain ⟨extra, g1, g2, g3⟩ := hnext
        (((flatten (Octree.mk b d [])).filter
          (fun d => decide (Vec3.distance2 (pos d) p ≤ r2))).map
          (fun d => ⟨d, Vec3.distance2 (pos d) p⟩)) []
        (by simp [pendingItems, Function.comp_def])
        (by
          intro r hr
          obtain ⟨d', _, rfl⟩ := List.mem_map.1 hr
          rfl)
        (by simp)
        (by simp [pendingSize, emitted])
      refine ⟨extra, ?_, g2, g3⟩
      simp only [radiusLoop, hnode, List.isEmpty_nil, if_true, hscan, Option.map_some']
      simpa using g1
    | cons c cs =>
      obtain ⟨hfl, hpl⟩ := payloadOnlyInLeaves_flatten b d (c :: cs) hpay (by simp)
      have hany : (c :: cs).any Octree.used = true :=
        any_used_of_flattenList_ne_nil _ (by rw [← hfl]; exact hne)
      have hstart : chainStart (c :: cs) (idx + 1) = some (idx + 1) := by
        unfold chainStart
        rw [hany]
        rfl
      obtain ⟨coll, pushed, e1, e2, e3, e4, e5⟩ := radiusChildren_spec pos lin p r2 (c :: cs)
        (idx + 1) (s + d.length) lin.linear_tree.length res (pend.map Prod.snd) hlist hpl
        (by omega)
      rw [hstart] at e1
      obtain ⟨extra, g1, g2, g3⟩ := hnext coll pushed (by rw [hfl]; exact e2) e3 e4
        (by simp only [emitted, List.length_cons]; omega)
      refine ⟨extra, ?_, g2, g3⟩
      simp only [radiusLoop, hnode, List.isEmpty_cons, Bool.false_eq_true, if_false, e1]
      simpa using g1

/-- C2: on a compacted tree whose dynamic octree has payload only in leaves, `radiusSearch`
returns exactly the stored items with squared distance at most `radius²`, each with its
exact squared distance. -/
theorem radiusSearch_correct (pos : D → Vec3 α) (t : Octree α D) (p : Vec3 α) (radius : α)
    (hmodel : t.payloadOnlyInLeaves = true) :
    ∃ result, radiusSearch pos (ofOctree pos t) p radius = some result ∧
      (result.map SearchResult.data).Perm
        ((ofOctree pos t).ordered_data.filter
          (fun d => decide (Vec3.distance2 (pos d) p ≤ radius * radius))) ∧
      ∀ r ∈ result, r.distance2 = Vec3.distance2 (pos r.data) p := by
  by_cases hf : flatten t = []
  · refine ⟨[], ?_, ?_, by simp⟩
    · rw [ofOctree_of_flatten_nil pos t hf]
      rfl
    · rw [ofOctree_ordered_data, hf]
      exact List.Perm.refl _
  · have hlen := ofOctree_length pos t hf
    have hpos := emitted_length_pos t
    obtain ⟨extra, h1, h2, h3⟩ := radiusLoop_spec pos (ofOctree pos t) p (radius * radius)
      (ofOctree pos t).linear_tree.length t 0 [] []
      ⟨⟨0, none, layout_ofOctree pos t hf⟩, hmodel, hf⟩ (by simp)
      (by simp [pendingSize, hlen])
    refine ⟨extra, ?_, ?_, h3⟩
    · unfold radiusSearch
      have hne : (ofOctree pos t).linear_tree.isEmpty = false := by
        cases hl : (ofOctree pos t).linear_tree with
        | nil => rw [hl] at hlen; simp at hlen; omega
        | cons a as => rfl
      simp only [hne, Bool.false_eq_true, if_false]
      simpa using h1
    · rw [ofOctree_ordered_data]
      simpa [pendingItems] using h2

theorem radiusSearch_correct_witness :
    sampleTree.payloadOnlyInLeaves = true ∧
    ∃ result, radiusSearch id (ofOctree id sampleTree) ⟨4, 4, 4⟩ 6 = some result ∧
      (result.map SearchResult.data).Perm
        ((ofOctree id sampleTree).ordered_data.filter
          (fun d => decide (Vec3.distance2 (id d) ⟨4, 4, 4⟩ ≤ 6 * 6))) ∧
      ∀ r ∈ result, r.distance2 = Vec3.distance2 (id r.data) ⟨4, 4, 4⟩ :=
  ⟨by decide, radiusSearch_correct id sampleTree ⟨4, 4, 4⟩ 6 (by decide)⟩

end SearchProofs

/-! ## k-nearest-neighbour search -/

section KnnProofs

open Octree LinearOctree

variable {α D : Type} [LinearOrderedCommRing α]

theorem searchResult_lt_iff (a b : SearchResult α D) :
    SearchResult.lt a b = true ↔ a.distance2 < b.distance2 := by
  simp [SearchResult.lt]

theorem length_filter_ge_of_subperm {β : Type} (P : β → Bool) (S all : List β) (k : Nat)
    (hs : S.Subperm all) (hk : k ≤ S.length) (hP : ∀ d ∈ S, P d = true) :
    k ≤ (all.filter P).length := by
  have h1 : S.filter P = S := List.filter_eq_self.2 hP
  have h2 := (hs.filter P).length_le
  rw [h1] at h2
  omega

theorem wrap_pred (k : Nat) (h1 : 1 ≤ k) (h2 : k < 2 ^ 64) : (k + 2 ^ 64 - 1) % 2 ^ 64 = k - 1 := by
  norm_num at h2 ⊢
  omega

/-- Effect of `updateMaxDistance` with a bound `m` that is witnessed by `k` stored items. -/
theorem knnInv_update (pos : D → Vec3 α) (p : Vec3 α) (k : Nat) (all : List D)
    (st : KnnState α D) (B R : List D) (m : WithTop α)
    (h_exact : ∀ r ∈ st.result, r.distance2 = Vec3.distance2 (pos r.data) p)
    (h_size : st.result.length ≤ k)
    (h_bumped : st.result.length < k → B = [])
    (h_bge : ∀ b ∈ B, ∀ r ∈ st.result, r.distance2 ≤ Vec3.distance2 (pos b) p)
    (h_full : st.result.length = k →
      PriorityQueue.IsHeap SearchResult.distance2 st.result ∧
      ∃ t, PriorityQueue.top st.result = some t ∧
        min st.max_distance2 m ≤ ((t.distance2 : α) : WithTop α))
    (h_rej : ∀ d ∈ R, st.max_distance2 < ((Vec3.distance2 (pos d) p : α) : WithTop α))
    (h_en1 : k ≤ (all.filter (fun d =>
      decide (((Vec3.distance2 (pos d) p : α) : WithTop α) ≤ st.max_distance2))).length)
    (h_en2 : k ≤ (all.filter (fun d =>
      decide (((Vec3.distance2 (pos d) p : α) : WithTop α) ≤ m))).length) :
    KnnInv pos p k all (updateMaxDistance st m) B R ∧
      (updateMaxDistance st m).result = st.result ∧
      (updateMaxDistance st m).to_visit = st.to_visit := by
  unfold updateMaxDistance
  by_cases hlt : m < st.max_distance2
  · rw [if_pos hlt]
    have hmin : min st.max_distance2 m = m := min_eq_right (le_of_lt hlt)
    refine ⟨⟨h_exact, h_size, h_bumped, h_bge, ?_, ?_, h_en2⟩, rfl, rfl⟩
    · intro hfull
      obtain ⟨hh, t, ht, hle⟩ := h_full hfull
      exact ⟨hh, t, ht, by rwa [hmin] at hle⟩
    · intro d hd
      exact lt_trans hlt (h_rej d hd)
  · rw [if_neg hlt]
    have hmin : min st.max_distance2 m = st.max_distance2 := min_eq_left (not_lt.1 hlt)
    refine ⟨⟨h_exact, h_size, h_bumped, h_bge, ?_, h_rej, h_en1⟩, rfl, rfl⟩
    intro hfull
    obtain ⟨hh, t, ht, hle⟩ := h_full hfull
    exact ⟨hh, t, ht, by rwa [hmin] at hle⟩

omit [LinearOrderedCommRing α] in
theorem top_of_length_pos {T : Type} (v : List T) (h : 0 < v.length) :
    ∃ t, PriorityQueue.top v = some t := by
  cases v with
  | nil => simp at h
  | cons a as => exact ⟨a, rfl⟩

/-- One iteration of the data loop of `knnSearch`. -/
theorem knnVisit_spec (pos : D → Vec3 α) (p : Vec3 α) (k : Nat) (all : List D)
    (hk1 : 1 ≤ k) (hk64 : k < 2 ^ 64) (st : KnnState α D) (B R : List D) (d : D)
    (rest : List D) (hinv : KnnInv pos p k all st B R)
    (hacc : all.Perm (resItems st.result ++ B ++ R ++ d :: rest)) :
    ∃ st' B' R', knnVisit p k d (pos d) st = some st' ∧ KnnInv pos p k all st' B' R' ∧
      all.Perm (resItems st'.result ++ B' ++ R' ++ rest) ∧ st'.to_visit = st.to_visit := by
  unfold knnVisit
  simp only [PriorityQueue.size, wrap_pred k hk1 hk64]
  by_cases hle : ((Vec3.distance2 (pos d) p : α) : WithTop α) ≤ st.max_distance2
  · rw [if_pos hle]
    by_cases hsz : st.result.length < k - 1
    · rw [if_pos hsz]
      have hB : B = [] := hinv.bumped (by omega)
      refine ⟨_, B, R, rfl, ⟨?_, ?_, ?_, ?_, ?_, hinv.rejected, hinv.enough⟩, ?_, rfl⟩
      · intro r hr
        simp only [PriorityQueue.push_unordered, List.mem_append, List.mem_singleton] at hr
        rcases hr with hr | rfl
        · exact hinv.exact r hr
        · rfl
      · simp only [PriorityQueue.push_unordered, List.length_append, List.length_singleton]
        omega
      · intro _; exact hB
      · intro b hb; rw [hB] at hb; simp at hb
      · intro hfull
        simp only [PriorityQueue.push_unordered, List.length_append, List.length_singleton]
          at hfull
        omega
      · simp only [PriorityQueue.push_unordered, resItems, List.map_append, List.map_cons,
          List.map_nil]
        rw [← Multiset.coe_eq_coe] at hacc ⊢
        simp only [resItems, ← Multiset.coe_add, ← Multiset.cons_coe, ← Multiset.singleton_add]
          at hacc ⊢
        rw [hacc]
        simp only [Multiset.coe_nil, add_zero]
        abel
    · rw [if_neg hsz]
      have hsl := hinv.size_le
      -- the new content of the queue
      have hnew : ∃ (res' : List (SearchResult α D)) (B' : List D),
          (if st.result.length ≠ k then
              PriorityQueue.make_heap SearchResult.lt
                (PriorityQueue.push_unordered st.result ⟨d, Vec3.distance2 (pos d) p⟩)
            else PriorityQueue.pop_push SearchResult.lt st.result
              ⟨d, Vec3.distance2 (pos d) p⟩) = res' ∧
          res'.length = k ∧ PriorityQueue.IsHeap SearchResult.distance2 res' ∧
          (∀ r ∈ res', r.distance2 = Vec3.distance2 (pos r.data) p) ∧
          (∀ b ∈ B', ∀ r ∈ res', r.distance2 ≤ Vec3.distance2 (pos b) p) ∧
          (resItems res' ++ B').Perm (d :: (resItems st.result ++ B)) := by
        by_cases hne : st.result.length ≠ k
        · rw [if_pos hne]
          have hB : B = [] := hinv.bumped (by omega)
          have hperm := PriorityQueue.make_heap_perm SearchResult.lt
            (PriorityQueue.push_unordered st.result ⟨d, Vec3.distance2 (pos d) p⟩)
          refine ⟨_, [], rfl, ?_, ?_, ?_, ?_, ?_⟩
          · rw [hperm.length_eq]
            simp only [PriorityQueue.push_unordered, List.length_append, List.length_singleton]
            omega
          · exact PriorityQueue.make_heap_isHeap SearchResult.lt SearchResult.distance2
              searchResult_lt_iff _
          · intro r hr
            have := hperm.mem_iff.1 hr
            simp only [PriorityQueue.push_unordered, List.mem_append, List.mem_singleton] at this
            rcases this with hr | rfl
            · exact hinv.exact r hr
            · rfl
          · intro b hb; simp at hb
          · rw [hB, List.append_nil, List.append_nil]
            have := hperm.map SearchResult.data
            unfold resItems
            refine this.trans ?_
            simp only [PriorityQueue.push_unordered, List.map_append, List.map_cons,
              List.map_nil]
            exact List.perm_append_singleton _ _
        · rw [if_neg hne]
          have hfull : st.result.length = k := by omega
          obtain ⟨hheap, t0, ht0, hM⟩ := hinv.full hfull
          obtain ⟨rest0, hres⟩ : ∃ rest0, st.result = t0 :: rest0 := by
            cases hr : st.result with
            | nil => rw [hr] at ht0; simp [PriorityQueue.top] at ht0
            | cons a as =>
              rw [hr] at ht0
              simp only [PriorityQueue.top, List.head?_cons, Option.some.injEq] at ht0
              exact ⟨as, by rw [ht0]⟩
          have hperm := PriorityQueue.pop_push_perm SearchResult.lt t0 rest0
            (⟨d, Vec3.distance2 (pos d) p⟩ : SearchResult α D)
          have hmax := PriorityQueue.top_max SearchResult.distance2 st.result hheap t0 ht0
          have ht0e := hinv.exact t0 (by rw [hres]; simp)
          have hd0 : Vec3.distance2 (pos d) p ≤ t0.distance2 := by
            have := le_trans hle hM
            exact WithTop.coe_le_coe.1 this
          rw [hres]
          refine ⟨_, t0.data :: B, rfl, ?_, ?_, ?_, ?_, ?_⟩
          · rw [hperm.length_eq, ← hfull, hres]
            simp
          · rw [← hres]
            exact PriorityQueue.pop_push_isHeap SearchResult.lt SearchResult.distance2
              searchResult_lt_iff _ _ hheap
          · intro r hr
            have := hperm.mem_iff.1 hr
            rcases List.mem_cons.1 this with rfl | hr
            · rfl
            · exact hinv.exact r (by rw [hres]; exact List.mem_cons_of_mem _ hr)
          · intro b hb r hr
            have hr' := hperm.mem_iff.1 hr
            have hrle : r.distance2 ≤ t0.distance2 := by
              rcases List.mem_cons.1 hr' with rfl | hr'
              · exact hd0
              · exact hmax r (by rw [hres]; exact List.mem_cons_of_mem _ hr')
            rcases List.mem_cons.1 hb with rfl | hb
            · rw [← ht0e]; exact hrle
            · exact le_trans hrle (hinv.bumped_ge b hb t0 (by rw [hres]; simp))
          · have := hperm.map SearchResult.data
            rw [← Multiset.coe_eq_coe] at this ⊢
            simp only [resItems, List.map_cons, ← Multiset.coe_add, ← Multiset.cons_coe,
              ← Multiset.singleton_add] at this ⊢
            rw [this]
            abel
      obtain ⟨res', B', hres', hlen', hheap', hexact', hbge', hperm'⟩ := hnew
      rw [hres']
      obtain ⟨t, ht⟩ := top_of_length_pos res' (by omega)
      rw [ht]
      have hacc' : all.Perm (resItems res' ++ B' ++ R ++ rest) := by
        rw [← Multiset.coe_eq_coe] at hacc hperm' ⊢
        simp only [← Multiset.coe_add, ← Multiset.cons_coe, ← Multiset.singleton_add]
          at hacc hperm' ⊢
        rw [hacc, hperm']
        abel
      have hmax' := PriorityQueue.top_max SearchResult.distance2 res' hheap' t ht
      obtain ⟨hI, hr1, hr2⟩ := knnInv_update pos p k all
        { st with result := res' } B' R ((t.distance2 : α) : WithTop α)
        hexact' (le_of_eq hlen') (fun h => by simp only at h; omega) hbge'
        (fun _ => ⟨hheap', t, ht, min_le_right _ _⟩) hinv.rejected hinv.enough
        (by
          apply length_filter_ge_of_subperm _ (resItems res') all k
          · refine List.Subperm.trans ?_ hacc'.symm.subperm
            rw [List.append_assoc, List.append_assoc]
            exact (List.sublist_append_left _ _).subperm
          · simp [resItems, hlen']
          · intro x hx
            obtain ⟨r, hr, rfl⟩ := List.mem_map.1 hx
            simp only [decide_eq_true_eq, WithTop.coe_le_coe]
            rw [← hexact' r hr]
            exact hmax' r hr)
      refine ⟨_, B', R, rfl, hI, ?_, ?_⟩
      · rw [hr1]; exact hacc'
      · rw [hr2]
  · rw [if_neg hle]
    refine ⟨st, B, d :: R, rfl, ⟨hinv.exact, hinv.size_le, hinv.bumped, hinv.bumped_ge, hinv.full,
      ?_, hinv.enough⟩, ?_, rfl⟩
    · intro x hx
      rcases List.mem_cons.1 hx with rfl | hx
      · exact lt_of_not_le hle
      · exact hinv.rejected x hx
    · rw [← Multiset.coe_eq_coe] at hacc ⊢
      simp only [← Multiset.coe_add, ← Multiset.cons_coe, ← Multiset.singleton_add] at hacc ⊢
      rw [hacc]
      abel

/-- The data loop of `knnSearch` over a range that is laid out contiguously. -/
theorem knnScan_spec (pos : D → Vec3 α) (lin : LinearOctree α D) (p : Vec3 α) (k : Nat)
    (all : List D) (hk1 : 1 ≤ k) (hk64 : k < 2 ^ 64) :
    ∀ (l pre post : List D) (st : KnnState α D) (B R X : List D),
      lin.ordered_data = pre ++ l ++ post → KnnInv pos p k all st B R →
      all.Perm (resItems st.result ++ B ++ R ++ (l ++ X)) →
      ∃ st' B' R', knnScan pos lin p k l.length pre.length st = some st' ∧
        KnnInv pos p k all st' B' R' ∧
        all.Perm (resItems st'.result ++ B' ++ R' ++ X) ∧ st'.to_visit = st.to_visit
  | [], pre, post, st, B, R, X, _, hinv, hacc =>
    ⟨st, B, R, rfl, hinv, by simpa using hacc, rfl⟩
  | x :: xs, pre, post, st, B, R, X, hod, hinv, hacc => by
    have hx : lin.ordered_data.get? pre.length = some x := by
      rw [hod, List.append_assoc, List.cons_append, get?_append_self]
    obtain ⟨st1, B1, R1, h1, hinv1, hacc1, htv1⟩ :=
      knnVisit_spec pos p k all hk1 hk64 st B R x (xs ++ X) hinv (by simpa using hacc)
    obtain ⟨st2, B2, R2, h2, hinv2, hacc2, htv2⟩ :=
      knnScan_spec pos lin p k all hk1 hk64 xs (pre ++ [x]) post st1 B1 R1 X
        (by rw [hod]; simp) hinv1 hacc1
    simp only [List.length_append, List.length_singleton] at h2
    refine ⟨st2, B2, R2, ?_, hinv2, hacc2, by rw [htv2, htv1]⟩
    simp only [List.length_cons, knnScan, hx, h1, h2]

theorem dnode_lt_iff (a b : DNode α) : DNode.lt a b = true ↔ dnodeKey a < dnodeKey b := by
  simp [DNode.lt, dnodeKey]

theorem knnChildren_none (lin : LinearOctree α D) (p : Vec3 α) (k fuel : Nat)
    (st : KnnState α D) : knnChildren lin p k fuel none st = some st := by
  cases fuel <;> rfl

theorem knnInv_congr {pos : D → Vec3 α} {p : Vec3 α} {k : Nat} {all : List D}
    {st st' : KnnState α D} {B R : List D} (h : KnnInv pos p k all st B R)
    (h1 : st'.result = st.result) (h2 : st'.max_distance2 = st.max_distance2) :
    KnnInv pos p k all st' B R := by
  obtain ⟨a1, a2, a3, a4, a5, a6, a7⟩ := h
  exact ⟨by rwa [h1], by rwa [h1], by rwa [h1], by rwa [h1], by rwa [h1, h2], by rwa [h2],
    by rwa [h2]⟩

/-- The child loop of `knnSearch` over a child array that is laid out in the tree. -/
theorem knnChildren_spec (pos : D → Vec3 α) (lin : LinearOctree α D) (p : Vec3 α) (k : Nat)
    (all : List D) :
    ∀ (cs : List (Octree α D)) (j s fuel : Nat) (st : KnnState α D) (B R : List D)
      (pend : List (Octree α D × Nat)) (X : List D),
      OctreeLayoutList pos lin cs j s → payloadOnlyInLeavesList cs = true →
      lin.linear_tree.length ≤ fuel + j →
      KnnInv pos p k all st B R →
      all.Perm (resItems st.result ++ B ++ R ++ (flattenList cs ++ X)) →
      st.to_visit.Perm (pend.map (dnodeOf pos p)) →
      PriorityQueue.IsHeap dnodeKey st.to_visit →
      ∃ st' R' pushed, knnChildren lin p k fuel (chainStart cs j) st = some st' ∧
        KnnInv pos p k all st' B R' ∧
        all.Perm (resItems st'.result ++ B ++ R' ++ (pendingItems pushed ++ X)) ∧
        st'.to_visit.Perm ((pend ++ pushed).map (dnodeOf pos p)) ∧
        PriorityQueue.IsHeap dnodeKey st'.to_visit ∧
        (∀ g ∈ pushed, PendingK pos lin g) ∧
        pendingSize pushed ≤ (emittedList cs).length
  | [], j, s, fuel, st, B, R, pend, X, _, _, _, hinv, hacc, htv, hheap => by
    refine ⟨st, R, [], ?_, hinv, ?_, by simpa using htv, hheap, by simp, by simp [pendingSize]⟩
    · simp [chainStart, knnChildren_none]
    · simpa [pendingItems, flattenList] using hacc
  | c :: cs, j, s, fuel, st, B, R, pend, X, hlay, hpay, hfuel, hinv, hacc, htv, hheap => by
    simp only [payloadOnlyInLeavesList, Bool.and_eq_true] at hpay
    by_cases hu : c.used = true
    · simp only [OctreeLayoutList, hu, if_true] at hlay
      obtain ⟨hc, hcs⟩ := hlay
      obtain ⟨hnode, _⟩ := layout_node pos lin c j s _ hc
      have hjl : j < lin.linear_tree.length := (List.get?_eq_some.1 hnode).1
      obtain ⟨fuel', rfl⟩ : ∃ f, fuel = f + 1 := ⟨fuel - 1, by omega⟩
      have hsz := emitted_length_pos c
      have hstart : chainStart (c :: cs) j = some j := by simp [chainStart, hu]
      have hnext : (if !(cs.any Octree.used) then none else some (j + (emitted c).length))
          = chainStart cs (j + (emitted c).length) := by
        unfold chainStart
        cases cs.any Octree.used <;> rfl
      have hb := hull_bounds pos c p
      rw [hstart]
      simp only [knnChildren, hnode, hnext]
      by_cases h1 : (hull pos c).distance2 p ≤ st.max_distance2
      · rw [if_pos h1]
        -- the child is pushed
        have htv1 : (PriorityQueue.push DNode.lt st.to_visit ⟨(hull pos c).distance2 p, j⟩).Perm
            ((pend ++ [(c, j)]).map (dnodeOf pos p)) := by
          refine (PriorityQueue.push_perm DNode.lt _ _).trans ?_
          simp only [List.map_append, List.map_cons, List.map_nil]
          exact (List.perm_append_singleton _ _).symm.trans (List.Perm.append_right _ htv)
        have hheap1 := PriorityQueue.push_isHeap DNode.lt dnodeKey dnode_lt_iff st.to_visit
          ⟨(hull pos c).distance2 p, j⟩ hheap
        have hacc1 : all.Perm (resItems st.result ++ B ++ R ++
            (flattenList cs ++ (flatten c ++ X))) := by
          refine hacc.trans ?_
          rw [← Multiset.coe_eq_coe]
          simp only [flattenList, ← Multiset.coe_add]
          abel
        have hfin : ∀ (st1 : KnnState α D), KnnInv pos p k all st1 B R →
            st1.result = st.result →
            st1.to_visit = PriorityQueue.push DNode.lt st.to_visit
              ⟨(hull pos c).distance2 p, j⟩ →
            ∃ st' R' pushed,
              knnChildren lin p k fuel' (chainStart cs (j + (emitted c).length)) st1 =
                some st' ∧
              KnnInv pos p k all st' B R' ∧
              all.Perm (resItems st'.result ++ B ++ R' ++ (pendingItems pushed ++ X)) ∧
              st'.to_visit.Perm ((pend ++ pushed).map (dnodeOf pos p)) ∧
              PriorityQueue.IsHeap dnodeKey st'.to_visit ∧
              (∀ g ∈ pushed, PendingK pos lin g) ∧
              pendingSize pushed ≤ (emittedList (c :: cs)).length := by
          intro st1 hinv1 hres1 htv1'
          obtain ⟨st', R', pushed, e1, e2, e3, e4, e5, e6, e7⟩ :=
            knnChildren_spec pos lin p k all cs (j + (emitted c).length)
              (s + (flatten c).length) fuel' st1 B R (pend ++ [(c, j)]) (flatten c ++ X) hcs
              hpay.2 (by omega) hinv1 (by rw [hres1]; exact hacc1)
              (by rw [htv1']; exact htv1) (by rw [htv1']; exact hheap1)
          refine ⟨st', R', (c, j) :: pushed, e1, e2, ?_, ?_, e5, ?_, ?_⟩
          · refine e3.trans ?_
            rw [← Multiset.coe_eq_coe]
            simp only [pendingItems, List.flatMap_cons, ← Multiset.coe_add]
            abel
          · simpa using e4
          · intro g hg
            rcases List.mem_cons.1 hg with rfl | hg
            · exact ⟨⟨s, _, hc⟩, hpay.1⟩
            · exact e6 g hg
          · simp only [emittedList, hu, if_true, List.length_append, pendingSize, List.map_cons,
              List.sum_cons]
            unfold pendingSize at e7
            omega
        by_cases h2 : (flatten c).length ≥ k
        · rw [if_pos h2]
          obtain ⟨hI, hr1, hr2⟩ := knnInv_update pos p k all
            ⟨st.result, st.max_distance2, PriorityQueue.push DNode.lt st.to_visit
                ⟨(hull pos c).distance2 p, j⟩⟩ B R ((hull pos c).max_distance2 p)
            hinv.exact hinv.size_le hinv.bumped hinv.bumped_ge
            (fun hfull => by
              obtain ⟨hh, t, ht, hle⟩ := hinv.full hfull
              exact ⟨hh, t, ht, le_trans (min_le_left _ _) hle⟩)
            hinv.rejected hinv.enough
            (by
              apply length_filter_ge_of_subperm _ (flatten c) all k
              · refine List.Subperm.trans ?_ hacc.symm.subperm
                rw [flattenList]
                refine List.Sublist.subperm ?_
                refine List.Sublist.trans ?_ (List.sublist_append_right _ _)
                exact List.Sublist.trans (List.sublist_append_left _ _)
                  (List.sublist_append_left _ _)
              · exact h2
              · intro d hd
                simpa using (hb d hd).2)
          exact hfin _ hI hr1 hr2
        · rw [if_neg h2]
          exact hfin _ (knnInv_congr hinv rfl rfl) rfl rfl
      · rw [if_neg h1]
        have hrej : ∀ d ∈ R ++ flatten c,
            st.max_distance2 < ((Vec3.distance2 (pos d) p : α) : WithTop α) := by
          intro d hd
          rcases List.mem_append.1 hd with hd | hd
          · exact hinv.rejected d hd
          · exact lt_of_lt_of_le (lt_of_not_le h1) (hb d hd).1
        obtain ⟨st', R', pushed, e1, e2, e3, e4, e5, e6, e7⟩ :=
          knnChildren_spec pos lin p k all cs (j + (emitted c).length)
            (s + (flatten c).length) fuel' st B (R ++ flatten c) pend X hcs hpay.2 (by omega)
            ⟨hinv.exact, hinv.size_le, hinv.bumped, hinv.bumped_ge, hinv.full, hrej, hinv.enough⟩
            (by
              refine hacc.trans ?_
              rw [← Multiset.coe_eq_coe]
              simp only [flattenList, ← Multiset.coe_add]
              abel)
            htv hheap
        refine ⟨st', R', pushed, e1, e2, e3, e4, e5, e6, ?_⟩
        simp only [emittedList, hu, if_true, List.length_append]
        omega
    · simp only [OctreeLayoutList, hu] at hlay
      have hstart : chainStart (c :: cs) j = chainStart cs j := by simp [chainStart, hu]
      rw [hstart]
      obtain ⟨st', R', pushed, e1, e2, e3, e4, e5, e6, e7⟩ :=
        knnChildren_spec pos lin p k all cs j s fuel st B R pend X hlay hpay.2 hfuel hinv
          (by simpa [flattenList, flatten_of_not_used c hu] using hacc) htv hheap
      exact ⟨st', R', pushed, e1, e2, e3, e4, e5, e6, by simpa [emittedList, hu] using e7⟩

/-- When nothing is left to visit, the invariant gives the final property. -/
theorem knn_final (pos : D → Vec3 α) (p : Vec3 α) (k : Nat) (all : List D)
    (st : KnnState α D) (B R : List D) (hinv : KnnInv pos p k all st B R)
    (hacc : all.Perm (resItems st.result ++ B ++ R)) :
    KnnFinal pos p k all st.result := by
  have hen := hinv.enough
  have hfil := (hacc.filter (fun d =>
    decide (((Vec3.distance2 (pos d) p : α) : WithTop α) ≤ st.max_distance2))).length_eq
  have hR : R.filter (fun d =>
      decide (((Vec3.distance2 (pos d) p : α) : WithTop α) ≤ st.max_distance2)) = [] := by
    rw [List.filter_eq_nil_iff]
    intro d hd
    simpa using hinv.rejected d hd
  simp only [List.filter_append, List.length_append, hR, List.length_nil, add_zero] at hfil
  have hres_le := List.length_filter_le (fun d =>
    decide (((Vec3.distance2 (pos d) p : α) : WithTop α) ≤ st.max_distance2))
    (resItems st.result)
  have hlenres : (resItems st.result).length = st.result.length := by simp [resItems]
  have hlen : st.result.length = k := by
    by_contra hne
    have hlt : st.result.length < k := lt_of_le_of_ne hinv.size_le hne
    have hB := hinv.bumped hlt
    rw [hB] at hfil
    simp only [List.filter_nil, List.length_nil, add_zero] at hfil
    omega
  have hall : ∀ r ∈ st.result, ((r.distance2 : α) : WithTop α) ≤ st.max_distance2 := by
    intro r0 hr0
    by_contra hc
    have hB : B.filter (fun d =>
        decide (((Vec3.distance2 (pos d) p : α) : WithTop α) ≤ st.max_distance2)) = [] := by
      rw [List.filter_eq_nil_iff]
      intro b hb
      have h1 := hinv.bumped_ge b hb r0 hr0
      have h2 : st.max_distance2 < ((Vec3.distance2 (pos b) p : α) : WithTop α) :=
        lt_of_lt_of_le (lt_of_not_le hc) (WithTop.coe_le_coe.2 h1)
      simpa using h2
    have hlt : ((resItems st.result).filter (fun d =>
        decide (((Vec3.distance2 (pos d) p : α) : WithTop α) ≤ st.max_distance2))).length
        < (resItems st.result).length := by
      rw [List.length_filter_lt_length_iff_exists]
      refine ⟨r0.data, List.mem_map_of_mem _ hr0, ?_⟩
      rw [← hinv.exact r0 hr0]
      simpa using hc
    rw [hB] at hfil
    simp only [List.length_nil, add_zero] at hfil
    omega
  refine ⟨hlen, hinv.exact, B ++ R, by rw [← List.append_assoc]; exact hacc, ?_⟩
  intro r hr d hd
  rcases List.mem_append.1 hd with hd | hd
  · exact hinv.bumped_ge d hd r hr
  · have := lt_of_le_of_lt (hall r hr) (hinv.rejected d hd)
    exact le_of_lt (WithTop.coe_lt_coe.1 this)

omit [LinearOrderedCommRing α] in
theorem pendingItems_perm {a b : List (Octree α D × Nat)} (h : a.Perm b) :
    (pendingItems a).Perm (pendingItems b) := by
  unfold pendingItems
  induction h with
  | nil => exact List.Perm.refl _
  | cons x _ ih => simpa [List.flatMap_cons] using ih.append_left _
  | swap x y l =>
    simp only [List.flatMap_cons, ← List.append_assoc]
    exact List.Perm.append_right _ List.perm_append_comm
  | trans _ _ ih1 ih2 => exact ih1.trans ih2

/-- The main loop of `knnSearch`. -/
theorem knnLoop_spec (pos : D → Vec3 α) (lin : LinearOctree α D) (p : Vec3 α) (k : Nat)
    (all : List D) (hk1 : 1 ≤ k) (hk64 : k < 2 ^ 64) :
    ∀ (fuel : Nat) (current : DNode α) (sub : Octree α D) (pend : List (Octree α D × Nat))
      (st : KnnState α D) (B R : List D),
      PendingK pos lin (sub, current.octant) → (∀ g ∈ pend, PendingK pos lin g) →
      st.to_visit.Perm (pend.map (dnodeOf pos p)) →
      PriorityQueue.IsHeap dnodeKey st.to_visit →
      KnnInv pos p k all st B R →
      all.Perm (resItems st.result ++ B ++ R ++ (flatten sub ++ pendingItems pend)) →
      (emitted sub).length + pendingSize pend ≤ fuel →
      ∃ result, knnLoop pos lin p k fuel current st = some result ∧
        KnnFinal pos p k all result
  | 0, current, sub, pend, st, B, R, _, _, _, _, _, _, hfuel => by
    have := emitted_length_pos sub
    omega
  | fuel + 1, current, .mk b d cs, pend, st, B, R, hsub, hpend, htv, hheap, hinv, hacc,
      hfuel => by
    obtain ⟨⟨s, nx, hlay⟩, hpay⟩ := hsub
    obtain ⟨hnode, ⟨pre, post, hod, hpre⟩, hlist⟩ := hlay
    simp only at hpay hnode hlist
    -- what happens after the node has been handled
    have hnext : ∀ (st1 : KnnState α D) (B1 R1 : List D) (pushed : List (Octree α D × Nat)),
        KnnInv pos p k all st1 B1 R1 →
        all.Perm (resItems st1.result ++ B1 ++ R1 ++ pendingItems (pend ++ pushed)) →
        st1.to_visit.Perm ((pend ++ pushed).map (dnodeOf pos p)) →
        PriorityQueue.IsHeap dnodeKey st1.to_visit →
        (∀ g ∈ pushed, PendingK pos lin g) →
        pendingSize pushed + 1 ≤ (emitted (Octree.mk b d cs)).length →
        ∃ result,
          (if st1.to_visit.empty then some st1.result
            else
              match PriorityQueue.top st1.to_visit with
              | none => none
              | some current =>
                if current.distance2 > st1.max_distance2 then some st1.result
                else knnLoop pos lin p k fuel current
                  { st1 with to_visit := PriorityQueue.pop DNode.lt st1.to_visit }) =
            some result ∧
          KnnFinal pos p k all result := by
      intro st1 B1 R1 pushed hinv1 hacc1 htv1 hheap1 hpushed hsize
      cases htvl : st1.to_visit with
      | nil =>
        have hnil : pend ++ pushed = [] := by
          rw [htvl] at htv1
          have := htv1.length_eq
          simpa using this.symm
        rw [hnil] at hacc1
        refine ⟨st1.result, by simp [PriorityQueue.empty], ?_⟩
        exact knn_final pos p k all st1 B1 R1 hinv1 (by simpa [pendingItems] using hacc1)
      | cons cur rest =>
        have htop : PriorityQueue.top (cur :: rest) = some cur := rfl
        simp only [PriorityQueue.empty, List.isEmpty_cons, Bool.false_eq_true, if_false, htop]
        rw [htvl] at htv1 hheap1
        have hmin := PriorityQueue.top_max dnodeKey (cur :: rest) hheap1 cur htop
        by_cases hgt : cur.distance2 > st1.max_distance2
        · rw [if_pos hgt]
          refine ⟨st1.result, rfl, ?_⟩
          apply knn_final pos p k all st1 B1 (R1 ++ pendingItems (pend ++ pushed))
          · refine ⟨hinv1.exact, hinv1.size_le, hinv1.bumped, hinv1.bumped_ge, hinv1.full, ?_,
              hinv1.enough⟩
            intro x hx
            rcases List.mem_append.1 hx with hx | hx
            · exact hinv1.rejected x hx
            · simp only [pendingItems, List.mem_flatMap] at hx
              obtain ⟨g, hg, hxg⟩ := hx
              have hgm : dnodeOf pos p g ∈ cur :: rest :=
                htv1.mem_iff.2 (List.mem_map_of_mem _ hg)
              have h1 : cur.distance2 ≤ (dnodeOf pos p g).distance2 := hmin _ hgm
              exact lt_of_lt_of_le (lt_of_lt_of_le hgt h1) (hull_bounds pos g.1 p x hxg).1
          · rw [← List.append_assoc]
            exact hacc1
        · rw [if_neg hgt]
          -- the popped entry belongs to a waiting subtree
          have hcm : cur ∈ (pend ++ pushed).map (dnodeOf pos p) :=
            htv1.mem_iff.1 (List.mem_cons_self _ _)
          obtain ⟨g, hg, hgc⟩ := List.mem_map.1 hcm
          obtain ⟨l1, l2, hsplit⟩ := List.append_of_mem hg
          have hperm2 : (pend ++ pushed).Perm (g :: (l1 ++ l2)) := by
            rw [hsplit]
            exact List.perm_middle
          have hgP : PendingK pos lin g := by
            rcases List.mem_append.1 hg with h | h
            · exact hpend g h
            · exact hpushed g h
          have hrestP : ∀ g' ∈ l1 ++ l2, PendingK pos lin g' := by
            intro g' hg'
            have : g' ∈ pend ++ pushed := hperm2.mem_iff.2 (List.mem_cons_of_mem _ hg')
            rcases List.mem_append.1 this with h | h
            · exact hpend g' h
            · exact hpushed g' h
          have hpop : (PriorityQueue.pop DNode.lt (cur :: rest)).Perm
              ((l1 ++ l2).map (dnodeOf pos p)) := by
            refine (PriorityQueue.pop_perm DNode.lt cur rest).trans ?_
            have := htv1.trans (hperm2.map (dnodeOf pos p))
            rw [List.map_cons, hgc] at this
            exact this.cons_inv
          have hsz2 : pendingSize (pend ++ pushed)
              = (emitted g.1).length + pendingSize (l1 ++ l2) := by
            unfold pendingSize
            rw [(hperm2.map _).sum_eq]
            simp
          have hit2 := pendingItems_perm hperm2
          have hcur : cur.octant = g.2 := by rw [← hgc]; rfl
          obtain ⟨result, hres, hfinal⟩ := knnLoop_spec pos lin p k all hk1 hk64 fuel cur g.1
            (l1 ++ l2) { st1 with to_visit := PriorityQueue.pop DNode.lt st1.to_visit } B1 R1
            (by rw [hcur]; exact hgP) hrestP (by simp only [htvl]; exact hpop)
            (by
              simp only [htvl]
              exact PriorityQueue.pop_isHeap DNode.lt dnodeKey dnode_lt_iff _ hheap1)
            (knnInv_congr hinv1 rfl rfl)
            (by
              refine hacc1.trans ?_
              rw [← Multiset.coe_eq_coe] at hit2 ⊢
              simp only [pendingItems, List.flatMap_cons, ← Multiset.coe_add] at hit2 ⊢
              rw [hit2])
            (by
              rw [pendingSize_append] at hsz2
              omega)
          exact ⟨result, by rw [← htvl]; exact hres, hfinal⟩
    simp only [knnLoop, hnode]
    by_cases hscan : (cs.isEmpty || decide ((flatten (Octree.mk b d cs)).length ≤ k)) = true
    · rw [if_pos hscan]
      obtain ⟨st1, B1, R1, h1, hinv1, hacc1, htv1⟩ :=
        knnScan_spec pos lin p k all hk1 hk64 (flatten (Octree.mk b d cs)) pre post st B R
          (pendingItems pend) hod hinv hacc
      rw [hpre] at h1
      rw [h1]
      exact hnext st1 B1 R1 [] hinv1 (by simpa using hacc1) (by simpa [htv1] using htv)
        (by rw [htv1]; exact hheap) (by simp)
        (by simp [pendingSize, emitted])
    · rw [if_neg hscan]
      simp only [Bool.or_eq_true, List.isEmpty_iff, decide_eq_true_eq, not_or, not_le] at hscan
      obtain ⟨hne, hbig⟩ := hscan
      obtain ⟨hfl, hpl⟩ := payloadOnlyInLeaves_flatten b d cs hpay hne
      have hany : cs.any Octree.used = true :=
        any_used_of_flattenList_ne_nil _ (by
          rw [← hfl]
          intro h0
          rw [h0] at hbig
          simp at hbig)
      have hstart : chainStart cs (current.octant + 1) = some (current.octant + 1) := by
        unfold chainStart
        rw [hany]
        rfl
      obtain ⟨st1, R1, pushed, e1, e2, e3, e4, e5, e6, e7⟩ :=
        knnChildren_spec pos lin p k all cs (current.octant + 1) (s + d.length)
          lin.linear_tree.length st B R pend (pendingItems pend) hlist hpl (by omega) hinv
          (by rw [← hfl]; exact hacc) htv hheap
      rw [hstart] at e1
      rw [e1]
      exact hnext st1 B R1 pushed e2
        (by
          refine e3.trans ?_
          rw [← Multiset.coe_eq_coe]
          simp only [pendingItems_append, ← Multiset.coe_add]
          abel)
        e4 e5 e6 (by simp only [emitted, List.length_cons]; omega)

/-- A sub-collection that lies below the remainder is the start of the sorted list. -/
theorem perm_take_insertionSort {β : Type} [LinearOrder β] (S T vals : List β)
    (hperm : vals.Perm (S ++ T)) (hle : ∀ x ∈ S, ∀ y ∈ T, x ≤ y) :
    S.Perm ((vals.insertionSort (· ≤ ·)).take S.length) := by
  have hS := List.perm_insertionSort (· ≤ ·) S
  have hT := List.perm_insertionSort (· ≤ ·) T
  have hsorted : (S.insertionSort (· ≤ ·) ++ T.insertionSort (· ≤ ·)).Sorted (· ≤ ·) := by
    unfold List.Sorted
    rw [List.pairwise_append]
    refine ⟨List.sorted_insertionSort (· ≤ ·) S, List.sorted_insertionSort (· ≤ ·) T, ?_⟩
    intro x hx y hy
    exact hle x (hS.mem_iff.1 hx) y (hT.mem_iff.1 hy)
  have heq : vals.insertionSort (· ≤ ·) = S.insertionSort (· ≤ ·) ++ T.insertionSort (· ≤ ·) :=
    List.eq_of_perm_of_sorted
      ((List.perm_insertionSort (· ≤ ·) vals).trans (hperm.trans (hS.append hT).symm))
      (List.sorted_insertionSort (· ≤ ·) vals) hsorted
  rw [heq, List.take_left' (by rw [hS.length_eq])]
  exact hS.symm

/-- C1: on a compacted tree whose dynamic octree has payload only in leaves, and for
`1 ≤ k` (a `size_t`), `knnSearch` leaves `min(k, n)` entries in the result; each entry is a
distinct stored item with its exact squared distance, and the returned squared distances are
the `min(k, n)` smallest ones of a brute-force scan. -/
theorem knnSearch_correct (pos : D → Vec3 α) (t : Octree α D) (p : Vec3 α) (k : Nat)
    (result0 : PriorityQueue (SearchResult α D)) (hmodel : t.payloadOnlyInLeaves = true)
    (hk : 1 ≤ k) (hk64 : k < 2 ^ 64) :
    ∃ result, knnSearch pos (ofOctree pos t) p k result0 = some result ∧
      result.length = min k (ofOctree pos t).ordered_data.length ∧
      (∀ r ∈ result, r.distance2 = Vec3.distance2 (pos r.data) p) ∧
      (result.map SearchResult.data).Subperm (ofOctree pos t).ordered_data ∧
      (result.map SearchResult.distance2).Perm
        (bruteForceKnn pos (ofOctree pos t).ordered_data p
          (min k (ofOctree pos t).ordered_data.length)) := by
  by_cases hf : flatten t = []
  · refine ⟨[], ?_, ?_, by simp, ?_, ?_⟩
    · rw [ofOctree_of_flatten_nil pos t hf]
      rfl
    · rw [ofOctree_ordered_data, hf]
      simp
    · simp
    · rw [ofOctree_ordered_data, hf]
      simp [bruteForceKnn]
  · have hlen := ofOctree_length pos t hf
    have hpos := emitted_length_pos t
    have hod := ofOctree_ordered_data pos t
    have hn : 0 < (flatten t).length := List.length_pos.2 hf
    obtain ⟨hroot, _⟩ := layout_node pos _ t 0 0 none (layout_ofOctree pos t hf)
    have hne : (ofOctree pos t).linear_tree.isEmpty = false := by
      cases hl : (ofOctree pos t).linear_tree with
      | nil => rw [hl] at hlen; simp at hlen; omega
      | cons a as => rfl
    have hk' : (if k > (ofOctree pos t).ordered_data.length
        then (ofOctree pos t).ordered_data.length else k)
        = min k (ofOctree pos t).ordered_data.length := by
      by_cases h : k > (ofOctree pos t).ordered_data.length
      · rw [if_pos h, min_eq_right (le_of_lt h)]
      · rw [if_neg h, min_eq_left (not_lt.1 h)]
    generalize hkk : min k (ofOctree pos t).ordered_data.length = kk at hk'
    have hkk1 : 1 ≤ kk := by rw [← hkk, hod]; exact le_min hk hn
    have hkk64 : kk < 2 ^ 64 := by
      rw [← hkk]
      exact lt_of_le_of_lt (min_le_left _ _) hk64
    have hkkn : kk ≤ (ofOctree pos t).ordered_data.length := by
      rw [← hkk]
      exact min_le_right _ _
    obtain ⟨result, hres, hlenr, hexact, rest, hperm, hle⟩ :=
      knnLoop_spec pos (ofOctree pos t) p kk (ofOctree pos t).ordered_data hkk1 hkk64
        (ofOctree pos t).linear_tree.length
        ⟨(hull pos t).distance2 p, 0⟩ t []
        { result := [], max_distance2 := ⊤, to_visit := [] } [] []
        ⟨⟨0, none, layout_ofOctree pos t hf⟩, hmodel⟩ (by simp) (by simp)
        (by intro q j x y _ _ hx; simp at hx)
        ⟨by simp, by simp, fun _ => rfl, by simp, by simp; omega, by simp, by simpa using hkkn⟩
        (by simp [resItems, pendingItems, hod])
        (by simp [pendingSize, hlen])
    refine ⟨result, ?_, hlenr, hexact, ?_, ?_⟩
    · unfold knnSearch
      simp only [hne, Bool.false_eq_true, if_false, hk', hroot, PriorityQueue.clear]
      exact hres
    · exact List.Subperm.trans (List.sublist_append_left _ _).subperm hperm.symm.subperm
    · have hmap : result.map SearchResult.distance2
          = (resItems result).map (fun d => Vec3.distance2 (pos d) p) := by
        simp only [resItems, List.map_map]
        apply List.map_congr_left
        intro r hr
        exact hexact r hr
      have := perm_take_insertionSort (result.map SearchResult.distance2)
        (rest.map (fun d => Vec3.distance2 (pos d) p))
        ((ofOctree pos t).ordered_data.map (fun d => Vec3.distance2 (pos d) p))
        (by
          rw [hmap, ← List.map_append]
          exact hperm.map _)
        (by
          intro x hx y hy
          obtain ⟨r, hr, rfl⟩ := List.mem_map.1 hx
          obtain ⟨d, hd, rfl⟩ := List.mem_map.1 hy
          exact hle r hr d hd)
      simpa [bruteForceKnn, hlenr] using this

theorem knnSearch_correct_witness :
    sampleTree.payloadOnlyInLeaves = true ∧ 1 ≤ 3 ∧ 3 < 2 ^ 64 ∧
    ∃ result, knnSearch id (ofOctree id sampleTree) ⟨4, 4, 4⟩ 3 [] = some result ∧
      result.length = min 3 (ofOctree id sampleTree).ordered_data.length ∧
      (∀ r ∈ result, r.distance2 = Vec3.distance2 (id r.data) ⟨4, 4, 4⟩) ∧
      (result.map SearchResult.data).Subperm (ofOctree id sampleTree).ordered_data ∧
      (result.map SearchResult.distance2).Perm
        (bruteForceKnn id (ofOctree id sampleTree).ordered_data ⟨4, 4, 4⟩
          (min 3 (ofOctree id sampleTree).ordered_data.length)) :=
  ⟨by decide, by decide, by norm_num,
    knnSearch_correct id sampleTree ⟨4, 4, 4⟩ 3 [] (by decide) (by decide) (by norm_num)⟩

end KnnProofs

/-! ## Shape of the linear tree -/

section ShapeProofs

open Octree LinearOctree

variable {α D : Type} [LinearOrderedCommRing α]

theorem siblingChain_none (lin : LinearOctree α D) (fuel : Nat) :
    siblingChain lin fuel none = [] := by
  cases fuel <;> rfl

/-- Following `next_sibling` through a child array that is laid out in the tree. -/
theorem siblingChain_layout (pos : D → Vec3 α) (lin : LinearOctree α D) :
    ∀ (cs : List (Octree α D)) (j s fuel : Nat),
      OctreeLayoutList pos lin cs j s → lin.linear_tree.length ≤ fuel + j →
      siblingChain lin fuel (chainStart cs j) = childIndices cs j ∧
      (childIndices cs j).map (fun m => lin.linear_tree.get? m) =
        (childRecords pos cs j s).map some
  | [], j, s, fuel, _, _ => by
    simp [chainStart, siblingChain_none, childIndices, childRecords]
  | c :: cs, j, s, fuel, hlay, hfuel => by
    by_cases hu : c.used = true
    · simp only [OctreeLayoutList, hu, if_true] at hlay
      obtain ⟨hc, hcs⟩ := hlay
      obtain ⟨hnode, _⟩ := layout_node pos lin c j s _ hc
      have hjl : j < lin.linear_tree.length := (List.get?_eq_some.1 hnode).1
      obtain ⟨fuel', rfl⟩ : ∃ f, fuel = f + 1 := ⟨fuel - 1, by omega⟩
      have hsz := emitted_length_pos c
      have hstart : chainStart (c :: cs) j = some j := by simp [chainStart, hu]
      have hnext : (if !(cs.any Octree.used) then none else some (j + (emitted c).length))
          = chainStart cs (j + (emitted c).length) := by
        unfold chainStart
        cases cs.any Octree.used <;> rfl
      obtain ⟨ih1, ih2⟩ := siblingChain_layout pos lin cs (j + (emitted c).length)
        (s + (flatten c).length) fuel' hcs (by omega)
      constructor
      · rw [hstart]
        simp only [siblingChain, hnode, hnext, ih1, childIndices, hu, if_true]
      · simp only [childIndices, childRecords, hu, if_true, List.map_cons, hnode, ih2]
    · simp only [OctreeLayoutList, hu] at hlay
      have hstart : chainStart (c :: cs) j = chainStart cs j := by simp [chainStart, hu]
      obtain ⟨ih1, ih2⟩ := siblingChain_layout pos lin cs j s fuel hlay hfuel
      rw [hstart]
      simp only [childIndices, childRecords, hu]
      exact ⟨ih1, ih2⟩

omit [LinearOrderedCommRing α] in
theorem childIndices_ge (cs : List (Octree α D)) (j : Nat) :
    ∀ m ∈ childIndices cs j, j ≤ m := by
  induction cs generalizing j with
  | nil => simp [childIndices]
  | cons c cs ih =>
    intro m hm
    by_cases hu : c.used = true
    · simp only [childIndices, hu, if_true, List.mem_cons] at hm
      rcases hm with rfl | hm
      · exact le_refl _
      · exact le_trans (Nat.le_add_right _ _) (ih _ m hm)
    · simp only [childIndices, hu] at hm
      exact ih j m hm

omit [LinearOrderedCommRing α] in
theorem childIndices_increasing (cs : List (Octree α D)) (j : Nat) :
    (childIndices cs j).Pairwise (· < ·) := by
  induction cs generalizing j with
  | nil => simp [childIndices]
  | cons c cs ih =>
    by_cases hu : c.used = true
    · simp only [childIndices, hu, if_true, List.pairwise_cons]
      refine ⟨?_, ih _⟩
      intro m hm
      have := childIndices_ge cs _ m hm
      have := emitted_length_pos c
      omega
    · simp only [childIndices, hu]
      exact ih j

omit [LinearOrderedCommRing α] in
theorem emitted_head (c : Octree α D) : ∃ tl, emitted c = c :: tl := by
  cases c with
  | mk b d cs => exact ⟨_, rfl⟩

/-- The visited children sit in the pre-order list at their node indices. -/
theorem childIndices_emitted (E : List (Octree α D)) :
    ∀ (cs : List (Octree α D)) (pre post : List (Octree α D)),
      E = pre ++ emittedList cs ++ post →
      (childIndices cs pre.length).map (fun m => E.get? m) = (cs.filter Octree.used).map some
  | [], pre, post, _ => by simp [childIndices]
  | c :: cs, pre, post, hE => by
    by_cases hu : c.used = true
    · obtain ⟨tl, htl⟩ := emitted_head c
      have hget : E.get? pre.length = some c := by
        rw [hE, emittedList, if_pos hu, htl]
        simp only [List.cons_append, List.append_assoc]
        exact get?_append_self _ _ _
      have ih := childIndices_emitted E cs (pre ++ emitted c) post
        (by rw [hE, emittedList, if_pos hu]; simp)
      simp only [List.length_append] at ih
      simp only [childIndices, hu, if_true, List.map_cons, hget, List.filter_cons, ih]
    · have ih := childIndices_emitted E cs pre post
        (by rw [hE, emittedList, if_neg hu])
      simp only [childIndices, hu, List.filter_cons]
      exact ih

mutual
/-- A subtree found at index `i` of the pre-order list is followed by its own visited
subtrees. -/
theorem emitted_split :
    ∀ (t : Octree α D) (i : Nat) (b : BoundingBox α) (d : List D) (cs : List (Octree α D)),
      (emitted t).get? i = some (Octree.mk b d cs) →
      ∃ pre post, emitted t = pre ++ emittedList cs ++ post ∧ pre.length = i + 1
  | .mk b0 d0 cs0, i, b, d, cs, h => by
    cases i with
    | zero =>
      simp only [emitted, List.get?_cons_zero, Option.some.injEq, Octree.mk.injEq] at h
      obtain ⟨_, _, rfl⟩ := h
      exact ⟨[Octree.mk b0 d0 cs0], [], by simp [emitted], rfl⟩
    | succ i =>
      simp only [emitted, List.get?_cons_succ] at h
      obtain ⟨pre, post, h1, h2⟩ := emittedList_split cs0 i b d cs h
      exact ⟨Octree.mk b0 d0 cs0 :: pre, post, by simp [emitted, h1], by simp [h2]⟩
theorem emittedList_split :
    ∀ (l : List (Octree α D)) (i : Nat) (b : BoundingBox α) (d : List D)
      (cs : List (Octree α D)),
      (emittedList l).get? i = some (Octree.mk b d cs) →
      ∃ pre post, emittedList l = pre ++ emittedList cs ++ post ∧ pre.length = i + 1
  | [], i, b, d, cs, h => by simp [emittedList] at h
  | c :: l, i, b, d, cs, h => by
    by_cases hu : c.used = true
    · simp only [emittedList, hu, if_true] at h ⊢
      by_cases hlt : i < (emitted c).length
      · rw [List.get?_eq_getElem?, List.getElem?_append_left hlt, ← List.get?_eq_getElem?] at h
        obtain ⟨pre, post, h1, h2⟩ := emitted_split c i b d cs h
        exact ⟨pre, post ++ emittedList l, by rw [h1]; simp, h2⟩
      · rw [List.get?_eq_getElem?, List.getElem?_append_right (by omega),
          ← List.get?_eq_getElem?] at h
        obtain ⟨pre, post, h1, h2⟩ := emittedList_split l _ b d cs h
        exact ⟨emitted c ++ pre, post, by rw [h1]; simp, by
          simp only [List.length_append, h2]; omega⟩
    · simp only [emittedList, hu] at h ⊢
      exact emittedList_split l i b d cs h
end

theorem childRecords_tiles (pos : D → Vec3 α) :
    ∀ (cs : List (Octree α D)) (j s : Nat),
      tilesRange (childRecords pos cs j s) s (s + (flattenList cs).length)
  | [], j, s => by simp [childRecords, tilesRange, flattenList]
  | c :: cs, j, s => by
    by_cases hu : c.used = true
    · have ih := childRecords_tiles pos cs (j + (emitted c).length) (s + (flatten c).length)
      simp only [childRecords, hu, if_true, tilesRange, flattenList, List.length_append,
        true_and]
      rwa [Nat.add_assoc] at ih
    · have ih := childRecords_tiles pos cs j s
      simpa [childRecords, hu, flattenList, flatten_of_not_used c hu] using ih

omit [LinearOrderedCommRing α] in
theorem childIndices_head (cs : List (Octree α D)) (j : Nat) :
    (childIndices cs j).head? = chainStart cs j := by
  induction cs generalizing j with
  | nil => simp [childIndices, chainStart]
  | cons c cs ih =>
    by_cases hu : c.used = true
    · simp [childIndices, chainStart, hu]
    · simp only [childIndices, hu, Bool.false_eq_true, if_false]
      rw [ih]
      simp [chainStart, hu]

/-- The links of the visited children: each octant points to the next visited child, which
starts right after its own subtree. -/
theorem child_links (pos : D → Vec3 α) :
    ∀ (cs : List (Octree α D)) (j s m jm : Nat) (nm : LinearOctant α) (cm : Octree α D),
      (childIndices cs j).get? m = some jm → (childRecords pos cs j s).get? m = some nm →
      (cs.filter Octree.used).get? m = some cm →
      nm.next_sibling = (childIndices cs j).get? (m + 1) ∧
      ∀ n, nm.next_sibling = some n → n = jm + (emitted cm).length
  | [], j, s, m, jm, nm, cm, h, _, _ => by simp [childIndices] at h
  | c :: cs, j, s, m, jm, nm, cm, h1, h2, h3 => by
    by_cases hu : c.used = true
    · simp only [childIndices, childRecords, hu, if_true, List.filter_cons] at h1 h2 h3 ⊢
      cases m with
      | zero =>
        simp only [List.get?_cons_zero, Option.some.injEq] at h1 h2 h3
        subst h1 h2 h3
        simp only [List.get?_cons_succ]
        have hh := childIndices_head cs (j + (emitted c).length)
        rw [List.head?_eq_getElem?, ← List.get?_eq_getElem?] at hh
        rw [hh]
        unfold chainStart
        cases cs.any Octree.used
        · simp
        · simp
      | succ m =>
        simp only [List.get?_cons_succ] at h1 h2 h3 ⊢
        exact child_links pos cs _ _ m jm nm cm h1 h2 h3
    · simp only [childIndices, childRecords, hu, List.filter_cons] at h1 h2 h3 ⊢
      exact child_links pos cs j s m jm nm cm h1 h2 h3

omit [LinearOrderedCommRing α] in
theorem get?_of_map_eq_map_some {β γ : Type} (l : List β) (l' : List γ) (f : β → Option γ)
    (h : l.map f = l'.map some) (m : Nat) (x : β) (hx : l.get? m = some x) :
    ∃ y, l'.get? m = some y ∧ f x = some y := by
  have h1 := congrArg (fun q => q[m]?) h
  rw [List.get?_eq_getElem?] at hx
  simp only [List.getElem?_map, hx, Option.map_some'] at h1
  rw [List.get?_eq_getElem?]
  cases hy : l'[m]? with
  | none => rw [hy] at h1; simp at h1
  | some y => rw [hy] at h1; exact ⟨y, rfl, by simpa using h1⟩

/-- C4: in the compacted tree of a dynamic octree whose internal nodes all have a non-empty
descendant, for every non-leaf node `i`: the sibling chain from `i + 1` visits the emitted
children of `i` once each, in child order; each `next_sibling` that is not `NULL_IDX` is the
node's index plus the node count of its subtree, a valid later index; and the data ranges
of the children follow one another and cover the node's range after its own items. -/
theorem linear_tree_well_formed (pos : D → Vec3 α) (t : Octree α D)
    (h : t.internalNonEmpty = true) (i : Nat) (node : LinearOctant α)
    (hn : (ofOctree pos t).linear_tree.get? i = some node) (hleaf : node.leaf = false) :
    ∃ sub chain,
      t.emitted.get? i = some sub ∧
      siblingChain (ofOctree pos t) (ofOctree pos t).linear_tree.length (some (i + 1)) = chain ∧
      chain.head? = some (i + 1) ∧
      chain.Pairwise (· < ·) ∧
      chain.map (fun j => t.emitted.get? j) = (sub.octants.filter Octree.used).map some ∧
      (∀ m j, chain.get? m = some j →
        ∃ nj subj, (ofOctree pos t).linear_tree.get? j = some nj ∧
          t.emitted.get? j = some subj ∧ nj.next_sibling = chain.get? (m + 1) ∧
          ∀ n, nj.next_sibling = some n →
            n = j + subj.emitted.length ∧ j < n ∧ n < (ofOctree pos t).linear_tree.length) ∧
      ∃ childNodes,
        chain.map (fun j => (ofOctree pos t).linear_tree.get? j) = childNodes.map some ∧
        tilesRange childNodes (node.start_data + sub.data_vec.length)
          (node.start_data + node.contained_data) ∧
        ∀ c ∈ childNodes, 1 ≤ c.contained_data := by
  obtain ⟨sub, s, nx, hsub, hlay, hnode, _⟩ := ofOctree_node pos t i node hn
  have hf : flatten t ≠ [] := by
    intro h0
    rw [ofOctree_of_flatten_nil pos t h0] at hn
    simp [LinearOctree.empty] at hn
  obtain ⟨hsubne, hsubi⟩ := emitted_nonempty t h hf sub (List.get?_mem hsub)
  cases sub with
  | mk b d cs =>
    obtain ⟨_, _, hlist⟩ := hlay
    subst hnode
    simp only [Octree.leaf, Octree.octants, List.isEmpty_eq_false] at hleaf
    have hcs : flattenList cs ≠ [] := by
      simp only [internalNonEmpty, Bool.and_eq_true, Bool.or_eq_true, List.isEmpty_iff,
        Bool.not_eq_true', List.isEmpty_eq_false] at hsubi
      rcases hsubi.1 with h1 | h1
      · exact absurd h1 hleaf
      · exact h1
    have hany := any_used_of_flattenList_ne_nil cs hcs
    have hstart : chainStart cs (i + 1) = some (i + 1) := by
      unfold chainStart
      rw [hany]
      rfl
    obtain ⟨hc1, hc2⟩ := siblingChain_layout pos (ofOctree pos t) cs (i + 1) (s + d.length)
      (ofOctree pos t).linear_tree.length hlist (by omega)
    rw [hstart] at hc1
    obtain ⟨pre, post, hsplit, hprelen⟩ := emitted_split t i b d cs hsub
    have hce := childIndices_emitted (emitted t) cs pre post hsplit
    rw [hprelen] at hce
    have hsubi' : internalNonEmptyList cs = true := by
      simp only [internalNonEmpty, Bool.and_eq_true] at hsubi
      exact hsubi.2
    refine ⟨Octree.mk b d cs, childIndices cs (i + 1), hsub, hc1, ?_, childIndices_increasing _ _,
      hce, ?_, childRecords pos cs (i + 1) (s + d.length), hc2, ?_, ?_⟩
    · rw [childIndices_head, hstart]
    · intro m j hj
      obtain ⟨nj, hnj1, hnj2⟩ := get?_of_map_eq_map_some _ _ _ hc2 m j hj
      obtain ⟨subj, hsj1, hsj2⟩ := get?_of_map_eq_map_some _ _ _ hce m j hj
      obtain ⟨hl1, hl2⟩ := child_links pos cs (i + 1) (s + d.length) m j nj subj hj hnj1 hsj1
      refine ⟨nj, subj, hnj2, hsj2, hl1, ?_⟩
      intro n hnn
      have hn1 := hl2 n hnn
      have hsz := emitted_length_pos subj
      refine ⟨hn1, by omega, ?_⟩
      rw [hl1] at hnn
      obtain ⟨nn, _, hnn2⟩ := get?_of_map_eq_map_some _ _ _ hc2 (m + 1) n hnn
      exact (List.get?_eq_some.1 hnn2).1
    · have := childRecords_tiles pos cs (i + 1) (s + d.length)
      simpa [Octree.data_vec, flatten, Nat.add_assoc] using this
    · intro c hc
      have hm : some c ∈ (childRecords pos cs (i + 1) (s + d.length)).map some :=
        List.mem_map_of_mem _ hc
      rw [← hc2] at hm
      obtain ⟨j, _, hj2⟩ := List.mem_map.1 hm
      obtain ⟨subj, _, _, hsubj, _, hnodej, _⟩ := ofOctree_node pos t j c hj2
      have := (emitted_nonempty t h hf subj (List.get?_mem hsubj)).1
      subst hnodej
      exact List.length_pos.2 this

theorem linear_tree_well_formed_witness :
    sampleTree.internalNonEmpty = true ∧
    (ofOctree id sampleTree).linear_tree.get? 0 = some
      { BB := BoundingBox.box ⟨0, 0, 0⟩ ⟨9, 9, 9⟩, start_data := 0, contained_data := 5,
        next_sibling := none, leaf := false } ∧
    ∃ sub chain,
      sampleTree.emitted.get? 0 = some sub ∧
      siblingChain (ofOctree id sampleTree) (ofOctree id sampleTree).linear_tree.length
        (some (0 + 1)) = chain ∧
      chain.head? = some (0 + 1) ∧
      chain.Pairwise (· < ·) ∧
      chain.map (fun j => sampleTree.emitted.get? j) = (sub.octants.filter Octree.used).map some ∧
      (∀ m j, chain.get? m = some j →
        ∃ nj subj, (ofOctree id sampleTree).linear_tree.get? j = some nj ∧
          sampleTree.emitted.get? j = some subj ∧ nj.next_sibling = chain.get? (m + 1) ∧
          ∀ n, nj.next_sibling = some n →
            n = j + subj.emitted.length ∧ j < n ∧
              n < (ofOctree id sampleTree).linear_tree.length) ∧
      ∃ childNodes,
        chain.map (fun j => (ofOctree id sampleTree).linear_tree.get? j) = childNodes.map some ∧
        tilesRange childNodes (0 + sub.data_vec.length) (0 + 5) ∧
        ∀ c ∈ childNodes, 1 ≤ c.contained_data :=
  ⟨by decide, by decide,
    linear_tree_well_formed id sampleTree (by decide) 0
      { BB := BoundingBox.box ⟨0, 0, 0⟩ ⟨9, 9, 9⟩, start_data := 0, contained_data := 5,
        next_sibling := none, leaf := false } (by decide) rfl⟩

end ShapeProofs

/-! ## Queries on an empty tree -/

section EmptyTreeProofs

open Octree LinearOctree

variable {α D : Type} [LinearOrderedCommRing α]

theorem knnSearch_on_empty (pos : D → Vec3 α) (p : Vec3 α) (k : Nat)
    (result0 : PriorityQueue (SearchResult α D)) :
    knnSearch pos (LinearOctree.empty : LinearOctree α D) p k result0 = some [] := rfl

/-- C7: a tree built from a dynamic octree without items, like a default-constructed tree,
has no nodes and no data, and `knnSearch` on it returns an empty result; `knnSearch` clears
the result queue first, so its outcome never depends on the queue's prior contents. -/
theorem knnSearch_empty (pos : D → Vec3 α) (t : Octree α D) (p : Vec3 α) (k : Nat)
    (result0 : PriorityQueue (SearchResult α D)) (h : t.items = 0) :
    (ofOctree pos t).linear_tree = [] ∧ (ofOctree pos t).ordered_data = [] ∧
    (LinearOctree.empty : LinearOctree α D).linear_tree = [] ∧
    (LinearOctree.empty : LinearOctree α D).ordered_data = [] ∧
    knnSearch pos (ofOctree pos t) p k result0 = some [] ∧
    knnSearch pos (LinearOctree.empty : LinearOctree α D) p k result0 = some [] ∧
    ∀ (lin : LinearOctree α D) (q : Vec3 α) (k' : Nat)
      (r1 r2 : PriorityQueue (SearchResult α D)),
      knnSearch pos lin q k' r1 = knnSearch pos lin q k' r2 := by
  have hf : flatten t = [] := by
    have := coe_flatten t
    rw [h] at this
    simpa using this
  have he := ofOctree_of_flatten_nil pos t hf
  refine ⟨by rw [he]; rfl, by rw [he]; rfl, rfl, rfl, by rw [he]; rfl, rfl, ?_⟩
  intro lin q k' r1 r2
  rfl

theorem knnSearch_empty_witness :
    itemlessTree.items = 0 ∧ (ofOctree id itemlessTree).linear_tree = [] ∧
    knnSearch id (ofOctree id itemlessTree) ⟨0, 0, 0⟩ 3 [⟨⟨1, 1, 1⟩, 3⟩] = some [] :=
  ⟨by decide,
    (knnSearch_empty id itemlessTree ⟨0, 0, 0⟩ 3 [⟨⟨1, 1, 1⟩, 3⟩] (by decide)).1,
    (knnSearch_empty id itemlessTree ⟨0, 0, 0⟩ 3 [⟨⟨1, 1, 1⟩, 3⟩] (by decide)).2.2.2.2.1⟩

end EmptyTreeProofs

/-! ## The photon mapper -/

section PhotonMapperProofs

open PhotonMapper

variable {α σ : Type} [LinearOrderedField α] [FloorRing α]

/-- C8: the deposit rule of `emitPhoton`, for a mapper whose accept probability is
`1 / caustic_factor` and whose buffers are `cv` and `gv`.  A dirac-delta material deposits
nothing; otherwise a dirac-delta ray appends one photon with the unscaled flux to the
caustic buffer only; otherwise the caustic buffer is unchanged and one photon with flux
`flux * caustic_factor` is appended to the global buffer exactly when `1 / caustic_factor`
exceeds the rejection variate.  No hit changes both buffers. -/
theorem deposit_rule (env : Collaborators α σ) (self : PhotonMapper α) (s : σ)
    (interaction : Interaction α) (ray : Ray α) (flux : Vec3 α) (caustic_factor : α)
    (cv gv : List (Photon α)) (hcf : self.non_caustic_reject = 1 / caustic_factor)
    (hc : self.caustic_vecs = [cv]) (hg : self.global_vecs = [gv]) :
    (interaction.material_dirac_delta = true →
      (deposit env self s interaction ray flux).1.caustic_vecs = [cv] ∧
      (deposit env self s interaction ray flux).1.global_vecs = [gv]) ∧
    (interaction.material_dirac_delta = false → ray.dirac_delta = true →
      (deposit env self s interaction ray flux).1.caustic_vecs =
        [cv ++ [⟨flux, interaction.position, ray.direction.neg⟩]] ∧
      (deposit env self s interaction ray flux).1.global_vecs = [gv]) ∧
    (interaction.material_dirac_delta = false → ray.dirac_delta = false →
      (deposit env self s interaction ray flux).1.caustic_vecs = [cv] ∧
      (1 / caustic_factor > (env.get_PM_REJECT s).1 →
        (deposit env self s interaction ray flux).1.global_vecs =
          [gv ++ [⟨flux.smul caustic_factor, interaction.position, ray.direction.neg⟩]]) ∧
      (¬ 1 / caustic_factor > (env.get_PM_REJECT s).1 →
        (deposit env self s interaction ray flux).1.global_vecs = [gv])) ∧
    ((deposit env self s interaction ray flux).1.caustic_vecs = [cv] ∨
      (deposit env self s interaction ray flux).1.global_vecs = [gv]) ∧
    (ray.dirac_delta = true →
      (deposit env self s interaction ray flux).1.global_vecs = [gv]) := by
  have hflux : flux.sdiv (1 / caustic_factor) = flux.smul caustic_factor := by
    simp [Vec3.sdiv, Vec3.smul, div_eq_mul_inv]
  unfold deposit
  rw [hcf]
  cases hm : interaction.material_dirac_delta <;> cases hr : ray.dirac_delta <;>
    by_cases hu : 1 / caustic_factor > (env.get_PM_REJECT s).1 <;>
    simp only [Bool.not_false, Bool.not_true, Bool.false_eq_true, if_true, if_false, hu, hc, hg,
      updateAt, hflux, not_true_eq_false, not_false_eq_true, true_implies, false_implies,
      implies_true, and_self, and_true, true_and, or_true, true_or, List.nil_append,
      reduceCtorEq]

theorem deposit_rule_witness :
    sampleMapper.non_caustic_reject = 1 / 4 ∧ sampleMapper.caustic_vecs = [[]] ∧
    sampleMapper.global_vecs = [[]] ∧
    (deposit idleCollaborators sampleMapper () ⟨⟨0, 0, 0⟩, false, false⟩
      ⟨⟨0, 0, 1⟩, ⟨0, 0, -1⟩, 1, true, 1⟩ ⟨1, 1, 1⟩).1.caustic_vecs =
      [[] ++ [⟨⟨1, 1, 1⟩, ⟨0, 0, 0⟩, Vec3.neg ⟨0, 0, -1⟩⟩]] ∧
    (deposit idleCollaborators sampleMapper () ⟨⟨0, 0, 0⟩, false, false⟩
      ⟨⟨0, 0, 1⟩, ⟨0, 0, -1⟩, 1, true, 1⟩ ⟨1, 1, 1⟩).1.global_vecs = [[]] :=
  ⟨rfl, rfl, rfl,
    (deposit_rule idleCollaborators sampleMapper () ⟨⟨0, 0, 0⟩, false, false⟩
      ⟨⟨0, 0, 1⟩, ⟨0, 0, -1⟩, 1, true, 1⟩ ⟨1, 1, 1⟩ 4 [] [] rfl rfl rfl).2.1 rfl rfl⟩

theorem knnSearch_empty_map (p : Vec3 α) (k : Nat) :
    LinearOctree.knnSearch Photon.pos (LinearOctree.empty : LinearOctree α (Photon α)) p k []
      = some [] := rfl

theorem ofOctree_newOctree (BB : BoundingBox α) :
    LinearOctree.ofOctree Photon.pos (newOctree BB) = LinearOctree.empty := rfl

/-- C10: for a scene without emissive surfaces, construction creates no emission work and
deposits no photon, both linear octrees are empty, and both estimators return `(0,0,0)` for
every interaction (through the `photons.empty()` guard, whatever the collaborators and
constants are). -/
theorem empty_scene (env : Collaborators α σ) (fuel : Nat) (pm : PhotonMapConfig α)
    (scene : Scene α) (s : σ) (caustic_factor : α) (emissions : Nat)
    (hcf : pm.caustic_factor = some caustic_factor) (hem : pm.emissions = some emissions)
    (hscene : scene.emissives = []) :
    workLoop (toSizeT ((emissions : α) * caustic_factor)) (totalAddFlux scene.emissives)
      scene.emissives 0 [] = some [] ∧
    ∃ mapper, construct env fuel pm scene s = some (mapper, s) ∧
      mapper.caustic_vecs = [[]] ∧ mapper.global_vecs = [[]] ∧
      mapper.caustic_map.linear_tree = [] ∧ mapper.caustic_map.ordered_data = [] ∧
      mapper.global_map.linear_tree = [] ∧ mapper.global_map.ordered_data = [] ∧
      ∀ interaction : Interaction α,
        estimateGlobalRadiance env mapper interaction = some (Vec3.splat 0) ∧
        estimateCausticRadiance env mapper interaction = some (Vec3.splat 0) := by
  have hshuffle : env.shuffleWork ([] : List (EmissionWork α)) = [] :=
    (env.shuffleWork_perm []).eq_nil
  refine ⟨by rw [hscene]; rfl, ?_⟩
  refine ⟨{ k_nearest_photons := getOptional pm.k_nearest_photons 50,
             non_caustic_reject := 1 / caustic_factor,
             max_node_data := getOptional pm.max_photons_per_octree_leaf 200,
             direct_visualization := getOptional pm.direct_visualization false,
             caustic_vecs := [[]], global_vecs := [[]],
             caustic_map := LinearOctree.empty, global_map := LinearOctree.empty }, ?_, ?_⟩
  · unfold construct
    rw [hcf, hem, hscene]
    simp only [workLoop, hshuffle, runWork, List.get?_cons_zero, insertAndPop, List.foldr_nil,
      ofOctree_newOctree, updateAt]
  · refine ⟨rfl, rfl, rfl, rfl, rfl, rfl, ?_⟩
    intro interaction
    constructor
    · unfold estimateGlobalRadiance
      simp only [knnSearch_empty_map]
      rfl
    · unfold estimateCausticRadiance
      simp only [knnSearch_empty_map]
      rfl

theorem empty_scene_witness :
    sampleConfig.caustic_factor = some 4 ∧ sampleConfig.emissions = some 1000 ∧
    emptyScene.emissives = [] ∧
    ∃ mapper, construct idleCollaborators 10 sampleConfig emptyScene () = some (mapper, ()) ∧
      mapper.caustic_vecs = [[]] ∧ mapper.global_vecs = [[]] ∧
      mapper.caustic_map.linear_tree = [] ∧ mapper.caustic_map.ordered_data = [] ∧
      mapper.global_map.linear_tree = [] ∧ mapper.global_map.ordered_data = [] ∧
      ∀ interaction : Interaction ℚ,
        estimateGlobalRadiance idleCollaborators mapper interaction = some (Vec3.splat 0) ∧
        estimateCausticRadiance idleCollaborators mapper interaction = some (Vec3.splat 0) :=
  ⟨rfl, rfl, rfl, (empty_scene idleCollaborators 10 sampleConfig emptyScene () 4 1000 rfl rfl
    rfl).2⟩

end PhotonMapperProofs

/-! ## The result queue of the k-nearest-neighbour search -/

section KnnQueueProofs

open Octree LinearOctree

variable {α D : Type} [LinearOrderedCommRing α]

theorem updateMaxDistance_result (st : KnnState α D) (d2 : WithTop α) :
    (updateMaxDistance st d2).result = st.result ∧
    (updateMaxDistance st d2).to_visit = st.to_visit ∧
    (updateMaxDistance st d2).max_distance2 ≤ st.max_distance2 := by
  unfold updateMaxDistance
  split
  · exact ⟨rfl, rfl, le_of_lt (by assumption)⟩
  · exact ⟨rfl, rfl, le_refl _⟩

/-- One item of the data loop: the queue never exceeds `k` entries, it is a heap whenever it
holds `k` entries, and the bound does not grow. -/
theorem knnVisit_queue (p : Vec3 α) (k : Nat) (hk1 : 1 ≤ k) (hk64 : k < 2 ^ 64) (data : D)
    (pd : Vec3 α) (st : KnnState α D) (hle : st.result.length ≤ k)
    (hheap : st.result.length = k →
      PriorityQueue.IsHeap SearchResult.distance2 st.result) :
    ∃ st', knnVisit p k data pd st = some st' ∧ st'.result.length ≤ k ∧
      (st'.result.length = k → PriorityQueue.IsHeap SearchResult.distance2 st'.result) ∧
      st'.max_distance2 ≤ st.max_distance2 ∧ st.result.length ≤ st'.result.length ∧
      st'.to_visit = st.to_visit := by
  unfold knnVisit
  simp only [PriorityQueue.size, wrap_pred k hk1 hk64]
  by_cases hd : ((Vec3.distance2 pd p : α) : WithTop α) ≤ st.max_distance2
  · rw [if_pos hd]
    by_cases hsz : st.result.length < k - 1
    · rw [if_pos hsz]
      refine ⟨_, rfl, ?_, ?_, le_refl _, ?_, rfl⟩
      · simp only [PriorityQueue.push_unordered, List.length_append, List.length_singleton]
        omega
      · intro hfull
        simp only [PriorityQueue.push_unordered, List.length_append, List.length_singleton]
          at hfull
        omega
      · simp [PriorityQueue.push_unordered]
    · rw [if_neg hsz]
      by_cases hne : st.result.length ≠ k
      · simp only [hne, ne_eq, not_false_eq_true, if_true]
        have hlen : (PriorityQueue.make_heap SearchResult.lt
            (PriorityQueue.push_unordered st.result ⟨data, Vec3.distance2 pd p⟩)).length = k := by
          rw [(PriorityQueue.make_heap_perm _ _).length_eq]
          simp only [PriorityQueue.push_unordered, List.length_append, List.length_singleton]
          omega
        obtain ⟨t, ht⟩ := top_of_length_pos _ (by rw [hlen]; exact hk1)
        rw [ht]
        obtain ⟨h1, h2, h3⟩ := updateMaxDistance_result
          ⟨PriorityQueue.make_heap SearchResult.lt
              (PriorityQueue.push_unordered st.result ⟨data, Vec3.distance2 pd p⟩),
            st.max_distance2, st.to_visit⟩
          ((t.distance2 : α) : WithTop α)
        refine ⟨_, rfl, ?_, ?_, h3, ?_, h2⟩
        · rw [h1]; exact le_of_eq hlen
        · intro _
          rw [h1]
          exact PriorityQueue.make_heap_isHeap SearchResult.lt SearchResult.distance2
            searchResult_lt_iff _
        · rw [h1]
          show st.result.length ≤ _
          rw [hlen]
          exact hle
      · have heq : st.result.length = k := not_not.1 hne
        simp only [heq, ne_eq, not_true_eq_false, if_false]
        have hlen : (PriorityQueue.pop_push SearchResult.lt st.result
            ⟨data, Vec3.distance2 pd p⟩).length = k := by
          cases hr : st.result with
          | nil => rw [hr] at heq; simp at heq; omega
          | cons a as =>
            rw [(PriorityQueue.pop_push_perm _ a as _).length_eq]
            rw [hr] at heq
            simpa using heq
        obtain ⟨t, ht⟩ := top_of_length_pos _ (by rw [hlen]; exact hk1)
        rw [ht]
        obtain ⟨h1, h2, h3⟩ := updateMaxDistance_result
          ⟨PriorityQueue.pop_push SearchResult.lt st.result ⟨data, Vec3.distance2 pd p⟩,
            st.max_distance2, st.to_visit⟩
          ((t.distance2 : α) : WithTop α)
        refine ⟨_, rfl, ?_, ?_, h3, ?_, h2⟩
        · rw [h1]; exact le_of_eq hlen
        · intro _
          rw [h1]
          exact PriorityQueue.pop_push_isHeap SearchResult.lt SearchResult.distance2
            searchResult_lt_iff _ _ (hheap heq)
        · rw [h1]
          exact le_of_eq hlen.symm
  · rw [if_neg hd]
    exact ⟨st, rfl, hle, hheap, le_refl _, le_refl _, rfl⟩

/-- The data loop of `knnSearch` keeps the queue within `k` entries and heap-ordered once
full, and does not let the bound grow. -/
theorem knnScan_queue (pos : D → Vec3 α) (lin : LinearOctree α D) (p : Vec3 α) (k : Nat)
    (hk1 : 1 ≤ k) (hk64 : k < 2 ^ 64) :
    ∀ (n i : Nat) (st st' : KnnState α D), st.result.length ≤ k →
      (st.result.length = k → PriorityQueue.IsHeap SearchResult.distance2 st.result) →
      knnScan pos lin p k n i st = some st' →
      st'.result.length ≤ k ∧
      (st'.result.length = k → PriorityQueue.IsHeap SearchResult.distance2 st'.result) ∧
      st'.max_distance2 ≤ st.max_distance2 ∧ st.result.length ≤ st'.result.length ∧
      st'.to_visit = st.to_visit
  | 0, i, st, st', hle, hheap, h => by
    simp only [knnScan, Option.some.injEq] at h
    subst h
    exact ⟨hle, hheap, le_refl _, le_refl _, rfl⟩
  | n + 1, i, st, st', hle, hheap, h => by
    simp only [knnScan] at h
    split at h
    · simp at h
    · rename_i data hd
      obtain ⟨st1, h1, h2, h3, h4, h5, h6⟩ := knnVisit_queue p k hk1 hk64 data (pos data) st
        hle hheap
      simp only [h1] at h
      obtain ⟨e1, e2, e3, e4, e5⟩ := knnScan_queue pos lin p k hk1 hk64 n (i + 1) st1 st' h2
        h3 h
      exact ⟨e1, e2, le_trans e3 h4, le_trans h5 e4, e5.trans h6⟩

/-- The child loop of `knnSearch` leaves the result queue alone and does not let the bound
grow. -/
theorem knnChildren_queue (lin : LinearOctree α D) (p : Vec3 α) (k : Nat) :
    ∀ (fuel : Nat) (child : Option Nat) (st st' : KnnState α D),
      knnChildren lin p k fuel child st = some st' →
      st'.result = st.result ∧ st'.max_distance2 ≤ st.max_distance2
  | fuel, none, st, st', h => by
    rw [knnChildren_none] at h
    cases h
    exact ⟨rfl, le_refl _⟩
  | 0, some c, st, st', h => by
    simp [knnChildren] at h
  | fuel + 1, some c, st, st', h => by
    simp only [knnChildren] at h
    split at h
    · simp at h
    · rename_i node hn
      obtain ⟨e1, e2⟩ := knnChildren_queue lin p k fuel _ _ st' h
      refine ⟨e1.trans ?_, le_trans e2 ?_⟩
      · split
        · split
          · exact (updateMaxDistance_result _ _).1
          · rfl
        · rfl
      · split
        · split
          · exact (updateMaxDistance_result _ _).2.2
          · exact le_refl _
        · exact le_refl _

/-- The main loop of `knnSearch` returns a queue of at most `k` entries that is a heap when
it holds `k` entries. -/
theorem knnLoop_queue (pos : D → Vec3 α) (lin : LinearOctree α D) (p : Vec3 α) (k : Nat)
    (hk1 : 1 ≤ k) (hk64 : k < 2 ^ 64) :
    ∀ (fuel : Nat) (current : DNode α) (st : KnnState α D)
      (result : PriorityQueue (SearchResult α D)), st.result.length ≤ k →
      (st.result.length = k → PriorityQueue.IsHeap SearchResult.distance2 st.result) →
      knnLoop pos lin p k fuel current st = some result →
      result.length ≤ k ∧
      (result.length = k → PriorityQueue.IsHeap SearchResult.distance2 result)
  | 0, current, st, result, _, _, h => by
    simp [knnLoop] at h
  | fuel + 1, current, st, result, hle, hheap, h => by
    simp only [knnLoop] at h
    split at h
    · simp at h
    · rename_i node hn
      split at h
      · simp at h
      · rename_i st1 hs
        have hst1 : st1.result.length ≤ k ∧
            (st1.result.length = k →
              PriorityQueue.IsHeap SearchResult.distance2 st1.result) := by
          split at hs
          · obtain ⟨e1, e2, _⟩ := knnScan_queue pos lin p k hk1 hk64 _ _ st st1 hle hheap hs
            exact ⟨e1, e2⟩
          · obtain ⟨e1, _⟩ := knnChildren_queue lin p k _ _ st st1 hs
            rw [e1]
            exact ⟨hle, hheap⟩
        obtain ⟨h1, h2⟩ := hst1
        split at h
        · cases h
          exact ⟨h1, h2⟩
        · split at h
          · simp at h
          · rename_i cur ht
            split at h
            · cases h
              exact ⟨h1, h2⟩
            · exact knnLoop_queue pos lin p k hk1 hk64 fuel cur
                ⟨st1.result, st1.max_distance2, PriorityQueue.pop DNode.lt st1.to_visit⟩
                result h1 h2 h

omit [LinearOrderedCommRing α] in
/-- In a sorted list every element is at most the last one. -/
theorem le_getLast_of_sorted {β : Type} [LinearOrder β] (l : List β)
    (hs : l.Sorted (· ≤ ·)) (hne : l ≠ []) : ∀ y ∈ l, y ≤ l.getLast hne := by
  intro y hy
  have hsplit := List.dropLast_append_getLast hne
  rw [← hsplit] at hy hs
  rcases List.mem_append.1 hy with h | h
  · unfold List.Sorted at hs
    rw [List.pairwise_append] at hs
    exact hs.2.2 y h _ (List.mem_singleton_self _)
  · rw [List.mem_singleton] at h
    rw [h]

omit [LinearOrderedCommRing α] in
/-- The last element of a sorted list is the largest element of any rearrangement of it. -/
theorem getLast?_of_sorted_perm {β : Type} [LinearOrder β] (l m : List β) (x : β)
    (hs : l.Sorted (· ≤ ·)) (hp : m.Perm l) (hx : x ∈ m) (hmax : ∀ y ∈ m, y ≤ x) :
    l.getLast? = some x := by
  have hxl : x ∈ l := hp.mem_iff.1 hx
  have hne : l ≠ [] := List.ne_nil_of_mem hxl
  rw [List.getLast?_eq_getLast _ hne]
  congr 1
  apply le_antisymm
  · exact hmax _ (hp.mem_iff.2 (List.getLast_mem hne))
  · exact le_getLast_of_sorted l hs hne x hxl

/-- The brute-force list is sorted. -/
theorem bruteForceKnn_sorted (pos : D → Vec3 α) (data : List D) (p : Vec3 α) (k : Nat) :
    (bruteForceKnn pos data p k).Sorted (· ≤ ·) := by
  unfold bruteForceKnn
  exact List.Pairwise.sublist (List.take_sublist _ _) (List.sorted_insertionSort _ _)

/-- What `knnSearch` returns on a compacted tree that holds an item: the `min(k, n)` nearest
items with their exact distances, as a heap whose root carries the largest distance, which
is the last entry of the sorted brute-force list. -/
theorem knnSearch_facts (pos : D → Vec3 α) (t : Octree α D) (p : Vec3 α) (k : Nat)
    (result0 : PriorityQueue (SearchResult α D)) (hmodel : t.payloadOnlyInLeaves = true)
    (hf : flatten t ≠ []) (hk : 1 ≤ k) (hk64 : k < 2 ^ 64) :
    ∃ result top, knnSearch pos (ofOctree pos t) p k result0 = some result ∧
      result.length = min k (ofOctree pos t).ordered_data.length ∧
      (∀ r ∈ result, r.distance2 = Vec3.distance2 (pos r.data) p) ∧
      (result.map SearchResult.data).Subperm (ofOctree pos t).ordered_data ∧
      (result.map SearchResult.distance2).Perm
        (bruteForceKnn pos (ofOctree pos t).ordered_data p
          (min k (ofOctree pos t).ordered_data.length)) ∧
      PriorityQueue.IsHeap SearchResult.distance2 result ∧
      PriorityQueue.top result = some top ∧ top ∈ result ∧
      (∀ r ∈ result, r.distance2 ≤ top.distance2) ∧
      (bruteForceKnn pos (ofOctree pos t).ordered_data p
        (min k (ofOctree pos t).ordered_data.length)).getLast? = some top.distance2 := by
  have hlen := ofOctree_length pos t hf
  have hpos := emitted_length_pos t
  have hod := ofOctree_ordered_data pos t
  have hn : 0 < (flatten t).length := List.length_pos.2 hf
  obtain ⟨hroot, _⟩ := layout_node pos _ t 0 0 none (layout_ofOctree pos t hf)
  have hne : (ofOctree pos t).linear_tree.isEmpty = false := by
    cases hl : (ofOctree pos t).linear_tree with
    | nil => rw [hl] at hlen; simp at hlen; omega
    | cons a as => rfl
  have hk' : (if k > (ofOctree pos t).ordered_data.length
      then (ofOctree pos t).ordered_data.length else k)
      = min k (ofOctree pos t).ordered_data.length := by
    by_cases h : k > (ofOctree pos t).ordered_data.length
    · rw [if_pos h, min_eq_right (le_of_lt h)]
    · rw [if_neg h, min_eq_left (not_lt.1 h)]
  generalize hkk : min k (ofOctree pos t).ordered_data.length = kk at hk'
  have hkk1 : 1 ≤ kk := by rw [← hkk, hod]; exact le_min hk hn
  have hkk64 : kk < 2 ^ 64 := by
    rw [← hkk]
    exact lt_of_le_of_lt (min_le_left _ _) hk64
  have hkkn : kk ≤ (ofOctree pos t).ordered_data.length := by
    rw [← hkk]
    exact min_le_right _ _
  obtain ⟨result, hres, hlenr, hexact, rest, hperm, hle⟩ :=
    knnLoop_spec pos (ofOctree pos t) p kk (ofOctree pos t).ordered_data hkk1 hkk64
      (ofOctree pos t).linear_tree.length
      ⟨(hull pos t).distance2 p, 0⟩ t []
      { result := [], max_distance2 := ⊤, to_visit := [] } [] []
      ⟨⟨0, none, layout_ofOctree pos t hf⟩, hmodel⟩ (by simp) (by simp)
      (by intro q j x y _ _ hx; simp at hx)
      ⟨by simp, by simp, fun _ => rfl, by simp, by simp; omega, by simp, by simpa using hkkn⟩
      (by simp [resItems, pendingItems, hod])
      (by simp [pendingSize, hlen])
  have hheap := (knnLoop_queue pos (ofOctree pos t) p kk hkk1 hkk64 _ _ _ result
    (by simp) (by intro _ q j x y _ _ hx; simp at hx) hres).2 hlenr
  obtain ⟨top, htop⟩ := top_of_length_pos result (by rw [hlenr]; exact hkk1)
  have htopmem : top ∈ result := by
    cases result with
    | nil => simp [PriorityQueue.top] at htop
    | cons a as =>
      simp only [PriorityQueue.top, List.head?_cons, Option.some.injEq] at htop
      rw [← htop]
      exact List.mem_cons_self _ _
  have hmax := PriorityQueue.top_max SearchResult.distance2 result hheap top htop
  have hbf : (result.map SearchResult.distance2).Perm
      (bruteForceKnn pos (ofOctree pos t).ordered_data p kk) := by
    have hmap : result.map SearchResult.distance2
        = (resItems result).map (fun d => Vec3.distance2 (pos d) p) := by
      simp only [resItems, List.map_map]
      apply List.map_congr_left
      intro r hr
      exact hexact r hr
    have := perm_take_insertionSort (result.map SearchResult.distance2)
      (rest.map (fun d => Vec3.distance2 (pos d) p))
      ((ofOctree pos t).ordered_data.map (fun d => Vec3.distance2 (pos d) p))
      (by
        rw [hmap, ← List.map_append]
        exact hperm.map _)
      (by
        intro x hx y hy
        obtain ⟨r, hr, rfl⟩ := List.mem_map.1 hx
        obtain ⟨d, hd, rfl⟩ := List.mem_map.1 hy
        exact hle r hr d hd)
    simpa [bruteForceKnn, hlenr] using this
  refine ⟨result, top, ?_, hlenr, hexact, ?_, hbf, hheap, htop, htopmem, hmax, ?_⟩
  · unfold knnSearch
    simp only [hne, Bool.false_eq_true, if_false, hk', hroot, PriorityQueue.clear]
    exact hres
  · exact List.Subperm.trans (List.sublist_append_left _ _).subperm hperm.symm.subperm
  · apply getLast?_of_sorted_perm _ (result.map SearchResult.distance2) _
      (bruteForceKnn_sorted pos _ p kk) hbf (List.mem_map_of_mem _ htopmem)
    intro y hy
    obtain ⟨r, hr, rfl⟩ := List.mem_map.1 hy
    exact hmax r hr

/-! ### The recorded run -/

theorem knnScanLog_fst (pos : D → Vec3 α) (lin : LinearOctree α D) (p : Vec3 α) (k : Nat) :
    ∀ (n i : Nat) (st : KnnState α D) (log : KnnLog α D),
      (knnScanLog pos lin p k n i st log).map Prod.fst = knnScan pos lin p k n i st
  | 0, i, st, log => rfl
  | n + 1, i, st, log => by
    simp only [knnScanLog, knnScan]
    cases hd : lin.ordered_data.get? i with
    | none => rfl
    | some data =>
      dsimp only
      cases hv : knnVisit p k data (pos data) st with
      | none => rfl
      | some st1 => exact knnScanLog_fst pos lin p k n (i + 1) _ _

theorem knnChildrenLog_none (lin : LinearOctree α D) (p : Vec3 α) (k fuel : Nat)
    (st : KnnState α D) (log : KnnLog α D) :
    knnChildrenLog lin p k fuel none st log = some (st, log) := by
  cases fuel <;> rfl

theorem knnChildrenLog_fst (lin : LinearOctree α D) (p : Vec3 α) (k : Nat) :
    ∀ (fuel : Nat) (child : Option Nat) (st : KnnState α D) (log : KnnLog α D),
      (knnChildrenLog lin p k fuel child st log).map Prod.fst = knnChildren lin p k fuel child st
  | fuel, none, st, log => by
    rw [knnChildrenLog_none, knnChildren_none]
    rfl
  | 0, some c, st, log => rfl
  | fuel + 1, some c, st, log => by
    simp only [knnChildrenLog, knnChildren]
    cases hn : lin.linear_tree.get? c with
    | none => rfl
    | some node => exact knnChildrenLog_fst lin p k fuel _ _ _

theorem knnLoopLog_fst (pos : D → Vec3 α) (lin : LinearOctree α D) (p : Vec3 α) (k : Nat) :
    ∀ (fuel : Nat) (current : DNode α) (st : KnnState α D) (log : KnnLog α D),
      (knnLoopLog pos lin p k fuel current st log).map Prod.fst
        = knnLoop pos lin p k fuel current st
  | 0, current, st, log => rfl
  | fuel + 1, current, st, log => by
    simp only [knnLoopLog, knnLoop]
    cases hn : lin.linear_tree.get? current.octant with
    | none => rfl
    | some node =>
      simp only []
      have hstep : (if (node.leaf || decide (node.contained_data ≤ k)) = true then
            knnScanLog pos lin p k node.contained_data node.start_data st log
          else knnChildrenLog lin p k lin.linear_tree.length (some (current.octant + 1)) st
            log).map Prod.fst
          = (if (node.leaf || decide (node.contained_data ≤ k)) = true then
            knnScan pos lin p k node.contained_data node.start_data st
          else knnChildren lin p k lin.linear_tree.length (some (current.octant + 1)) st) := by
        split
        · exact knnScanLog_fst pos lin p k _ _ _ _
        · exact knnChildrenLog_fst lin p k _ _ _ _
      rw [← hstep]
      cases hs : (if (node.leaf || decide (node.contained_data ≤ k)) = true then
            knnScanLog pos lin p k node.contained_data node.start_data st log
          else knnChildrenLog lin p k lin.linear_tree.length (some (current.octant + 1)) st
            log) with
      | none => rfl
      | some r =>
        obtain ⟨st1, log1⟩ := r
        simp only [Option.map_some']
        by_cases he : st1.to_visit.empty = true
        · simp only [he, if_true, Option.map_some']
        · simp only [he, Bool.false_eq_true, if_false]
          cases ht : PriorityQueue.top st1.to_visit with
          | none => rfl
          | some cur =>
            simp only []
            by_cases hg : cur.distance2 > st1.max_distance2
            · simp only [hg, if_true, Option.map_some']
            · simp only [hg, if_false]
              exact knnLoopLog_fst pos lin p k fuel _ _ _

/-- The record does not influence the search. -/
theorem knnSearchLog_fst (pos : D → Vec3 α) (lin : LinearOctree α D) (p : Vec3 α) (k : Nat)
    (result0 : PriorityQueue (SearchResult α D)) :
    (knnSearchLog pos lin p k result0).map Prod.fst = knnSearch pos lin p k result0 := by
  unfold knnSearchLog knnSearch
  by_cases he : lin.linear_tree.isEmpty = true
  · simp only [he, if_true, Option.map_some']
  · simp only [he, Bool.false_eq_true, if_false]
    cases hr : lin.linear_tree.get? 0 with
    | none => rfl
    | some root => exact knnLoopLog_fst pos lin p _ _ _ _ _

theorem knnRunInv_snoc (k : Nat) (states : List (KnnState α D)) (st st' : KnnState α D)
    (hinv : KnnRunInv k states) (hlast : states.getLast? = some st)
    (hq : KnnQueueInv k st') (hm : st'.max_distance2 ≤ st.max_distance2) :
    KnnRunInv k (states ++ [st']) ∧ (states ++ [st']).getLast? = some st' := by
  refine ⟨⟨?_, ?_⟩, by simp⟩
  · intro x hx
    rcases List.mem_append.1 hx with h | h
    · exact hinv.1 x h
    · rw [List.mem_singleton] at h
      rw [h]
      exact hq
  · rw [List.chain'_append]
    refine ⟨hinv.2, List.chain'_singleton _, ?_⟩
    intro x hx y hy
    rw [hlast] at hx
    simp only [Option.mem_def, Option.some.injEq, List.head?_cons] at hx hy
    subst hx hy
    exact hm

theorem knnQueueInv_of_last (k : Nat) (states : List (KnnState α D)) (st : KnnState α D)
    (hinv : KnnRunInv k states) (hlast : states.getLast? = some st) : KnnQueueInv k st :=
  hinv.1 st (List.mem_of_getLast?_eq_some hlast)

/-- The recorded data loop keeps the run invariant. -/
theorem knnScanLog_run (pos : D → Vec3 α) (lin : LinearOctree α D) (p : Vec3 α) (k : Nat)
    (hk1 : 1 ≤ k) (hk64 : k < 2 ^ 64) :
    ∀ (n i : Nat) (st : KnnState α D) (log : KnnLog α D) (st' : KnnState α D)
      (log' : KnnLog α D), KnnRunInv k log.states → log.states.getLast? = some st →
      knnScanLog pos lin p k n i st log = some (st', log') →
      KnnRunInv k log'.states ∧ log'.states.getLast? = some st'
  | 0, i, st, log, st', log', hinv, hlast, h => by
    simp only [knnScanLog, Option.some.injEq, Prod.mk.injEq] at h
    obtain ⟨rfl, rfl⟩ := h
    exact ⟨hinv, hlast⟩
  | n + 1, i, st, log, st', log', hinv, hlast, h => by
    simp only [knnScanLog] at h
    split at h
    · simp at h
    · rename_i data hd
      have hq := knnQueueInv_of_last k _ st hinv hlast
      obtain ⟨st1, h1, h2, h3, h4, _, _⟩ := knnVisit_queue p k hk1 hk64 data (pos data) st
        hq.1 hq.2
      simp only [h1] at h
      obtain ⟨e1, e2⟩ := knnRunInv_snoc k log.states st st1 hinv hlast ⟨h2, h3⟩ h4
      exact knnScanLog_run pos lin p k hk1 hk64 n (i + 1) st1 _ st' log' e1 e2 h

/-- The recorded child loop keeps the run invariant. -/
theorem knnChildrenLog_run (lin : LinearOctree α D) (p : Vec3 α) (k : Nat) :
    ∀ (fuel : Nat) (child : Option Nat) (st : KnnState α D) (log : KnnLog α D)
      (st' : KnnState α D) (log' : KnnLog α D), KnnRunInv k log.states →
      log.states.getLast? = some st →
      knnChildrenLog lin p k fuel child st log = some (st', log') →
      KnnRunInv k log'.states ∧ log'.states.getLast? = some st'
  | fuel, none, st, log, st', log', hinv, hlast, h => by
    rw [knnChildrenLog_none] at h
    simp only [Option.some.injEq, Prod.mk.injEq] at h
    obtain ⟨rfl, rfl⟩ := h
    exact ⟨hinv, hlast⟩
  | 0, some c, st, log, st', log', _, _, h => by
    simp [knnChildrenLog] at h
  | fuel + 1, some c, st, log, st', log', hinv, hlast, h => by
    simp only [knnChildrenLog] at h
    split at h
    · simp at h
    · rename_i node hn
      have hq := knnQueueInv_of_last k _ st hinv hlast
      have hst : ∀ st1 : KnnState α D, st1.result = st.result →
          st1.max_distance2 ≤ st.max_distance2 →
          KnnRunInv k (log.states ++ [st1]) ∧ (log.states ++ [st1]).getLast? = some st1 := by
        intro st1 hr hm
        exact knnRunInv_snoc k log.states st st1 hinv hlast
          ⟨by rw [hr]; exact hq.1, by rw [hr]; exact hq.2⟩ hm
      refine knnChildrenLog_run lin p k fuel _ _ _ st' log' ?_ ?_ h
      · refine (hst _ ?_ ?_).1
        · split
          · split
            · exact (updateMaxDistance_result _ _).1
            · rfl
          · rfl
        · split
          · split
            · exact (updateMaxDistance_result _ _).2.2
            · exact le_refl _
          · exact le_refl _
      · simp

/-- The recorded main loop keeps the run invariant, and the last recorded state carries the
returned queue. -/
theorem knnLoopLog_run (pos : D → Vec3 α) (lin : LinearOctree α D) (p : Vec3 α) (k : Nat)
    (hk1 : 1 ≤ k) (hk64 : k < 2 ^ 64) :
    ∀ (fuel : Nat) (current : DNode α) (st : KnnState α D) (log : KnnLog α D)
      (result : PriorityQueue (SearchResult α D)) (log' : KnnLog α D),
      KnnRunInv k log.states → log.states.getLast? = some st →
      knnLoopLog pos lin p k fuel current st log = some (result, log') →
      KnnRunInv k log'.states ∧ ∃ stf, log'.states.getLast? = some stf ∧ stf.result = result
  | 0, current, st, log, result, log', _, _, h => by
    simp [knnLoopLog] at h
  | fuel + 1, current, st, log, result, log', hinv, hlast, h => by
    simp only [knnLoopLog] at h
    split at h
    · simp at h
    · rename_i node hn
      split at h
      · simp at h
      · rename_i st1 log1 hs
        have hst1 : KnnRunInv k log1.states ∧ log1.states.getLast? = some st1 := by
          split at hs
          · exact knnScanLog_run pos lin p k hk1 hk64 _ _ st log st1 log1 hinv hlast hs
          · exact knnChildrenLog_run lin p k _ _ st log st1 log1 hinv hlast hs
        obtain ⟨h1, h2⟩ := hst1
        split at h
        · simp only [Option.some.injEq, Prod.mk.injEq] at h
          obtain ⟨rfl, rfl⟩ := h
          exact ⟨h1, st1, h2, rfl⟩
        · split at h
          · simp at h
          · rename_i cur ht
            split at h
            · simp only [Option.some.injEq, Prod.mk.injEq] at h
              obtain ⟨rfl, rfl⟩ := h
              exact ⟨h1, st1, h2, rfl⟩
            · have hq := knnQueueInv_of_last k _ st1 h1 h2
              obtain ⟨e1, e2⟩ := knnRunInv_snoc k log1.states st1
                ⟨st1.result, st1.max_distance2, PriorityQueue.pop DNode.lt st1.to_visit⟩
                h1 h2 hq (le_refl _)
              exact knnLoopLog_run pos lin p k hk1 hk64 fuel cur _ _ result log' e1 e2 h

theorem flatten_ne_nil_of_items (t : Octree α D) (h : t.items ≠ 0) : flatten t ≠ [] := by
  intro h0
  apply h
  rw [← coe_flatten, h0]
  rfl

/-- C17: in every run of `knnSearch` on a compacted tree whose dynamic octree has payload
only in leaves, with `1 ≤ k`, each state that the search goes through (the start, and the
state after every item examined, every child examined and every pop) has a result queue of
at most `min(k, n) ≤ k` entries which is a max-heap on `distance2` whenever it holds
`min(k, n)` entries (`k` is clamped to the number `n` of stored items), and `max_distance2`
never grows from one state to the next.  When the tree holds an item, the root of the
returned queue carries the largest squared distance of the result, which is the
`min(k, n)`-th smallest squared distance of a brute-force scan. -/
theorem knn_result_queue_invariant (pos : D → Vec3 α) (t : Octree α D) (p : Vec3 α) (k : Nat)
    (result0 : PriorityQueue (SearchResult α D)) (hmodel : t.payloadOnlyInLeaves = true)
    (hk : 1 ≤ k) (hk64 : k < 2 ^ 64) :
    ∃ result log, knnSearchLog pos (ofOctree pos t) p k result0 = some (result, log) ∧
      knnSearch pos (ofOctree pos t) p k result0 = some result ∧
      (∀ st ∈ log.states, st.result.length ≤ k ∧
        st.result.length ≤ min k (ofOctree pos t).ordered_data.length ∧
        (st.result.length = min k (ofOctree pos t).ordered_data.length →
          PriorityQueue.IsHeap SearchResult.distance2 st.result)) ∧
      log.states.Chain' (fun a b => b.max_distance2 ≤ a.max_distance2) ∧
      (t.items ≠ 0 →
        (∃ stf, log.states.getLast? = some stf ∧ stf.result = result) ∧
        result.length = min k (ofOctree pos t).ordered_data.length ∧
        ∃ top, PriorityQueue.top result = some top ∧ top ∈ result ∧
          (∀ r ∈ result, r.distance2 ≤ top.distance2) ∧
          (bruteForceKnn pos (ofOctree pos t).ordered_data p
            (min k (ofOctree pos t).ordered_data.length)).getLast? = some top.distance2) := by
  by_cases hf : flatten t = []
  · refine ⟨[], ⟨[], []⟩, ?_, ?_, by simp, by simp, ?_⟩
    · rw [ofOctree_of_flatten_nil pos t hf]
      rfl
    · rw [ofOctree_of_flatten_nil pos t hf]
      rfl
    · intro hi
      exact absurd hf (flatten_ne_nil_of_items t hi)
  · obtain ⟨result, top, hres, hlenr, _, _, _, _, htop, htm, hmax, hlast⟩ :=
      knnSearch_facts pos t p k result0 hmodel hf hk hk64
    have hproj := knnSearchLog_fst pos (ofOctree pos t) p k result0
    rw [hres] at hproj
    obtain ⟨⟨result', log⟩, hlog, hfst⟩ := Option.map_eq_some'.1 hproj
    simp only at hfst
    subst hfst
    have hlen := ofOctree_length pos t hf
    have hpos := emitted_length_pos t
    have hod := ofOctree_ordered_data pos t
    have hn : 0 < (flatten t).length := List.length_pos.2 hf
    have hne : (ofOctree pos t).linear_tree.isEmpty = false := by
      cases hl : (ofOctree pos t).linear_tree with
      | nil => rw [hl] at hlen; simp at hlen; omega
      | cons a as => rfl
    have hk' : (if k > (ofOctree pos t).ordered_data.length
        then (ofOctree pos t).ordered_data.length else k)
        = min k (ofOctree pos t).ordered_data.length := by
      by_cases h : k > (ofOctree pos t).ordered_data.length
      · rw [if_pos h, min_eq_right (le_of_lt h)]
      · rw [if_neg h, min_eq_left (not_lt.1 h)]
    have hkk1 : 1 ≤ min k (ofOctree pos t).ordered_data.length := by
      rw [hod]; exact le_min hk hn
    have hkk64 : min k (ofOctree pos t).ordered_data.length < 2 ^ 64 :=
      lt_of_le_of_lt (min_le_left _ _) hk64
    have hrun : KnnRunInv (min k (ofOctree pos t).ordered_data.length) log.states ∧
        ∃ stf, log.states.getLast? = some stf ∧ stf.result = result' := by
      unfold knnSearchLog at hlog
      simp only [hne, Bool.false_eq_true, if_false, hk', PriorityQueue.clear] at hlog
      split at hlog
      · simp at hlog
      · rename_i root hroot
        refine knnLoopLog_run pos (ofOctree pos t) p _ hkk1 hkk64 _ _ _ _ result' log ?_ ?_
          hlog
        · refine ⟨?_, List.chain'_singleton _⟩
          intro st hst
          rw [List.mem_singleton] at hst
          rw [hst]
          refine ⟨by simp, ?_⟩
          intro _ q j x y _ _ hx
          simp at hx
        · rfl
    refine ⟨result', log, hlog, hres, ?_, hrun.1.2, ?_⟩
    · intro st hst
      obtain ⟨h1, h2⟩ := hrun.1.1 st hst
      exact ⟨le_trans h1 (min_le_left _ _), h1, h2⟩
    · intro _
      exact ⟨hrun.2, hlenr, top, htop, htm, hmax, hlast⟩

theorem knn_result_queue_invariant_witness :
    sampleTree.payloadOnlyInLeaves = true ∧ 1 ≤ 2 ∧ 2 < 2 ^ 64 ∧
    ∃ result log, knnSearchLog id (ofOctree id sampleTree) ⟨4, 4, 4⟩ 2 [] = some (result, log) ∧
      knnSearch id (ofOctree id sampleTree) ⟨4, 4, 4⟩ 2 [] = some result ∧
      (∀ st ∈ log.states, st.result.length ≤ 2 ∧
        st.result.length ≤ min 2 (ofOctree id sampleTree).ordered_data.length ∧
        (st.result.length = min 2 (ofOctree id sampleTree).ordered_data.length →
          PriorityQueue.IsHeap SearchResult.distance2 st.result)) ∧
      log.states.Chain' (fun a b => b.max_distance2 ≤ a.max_distance2) :=
  ⟨by decide, by decide, by norm_num,
    (knn_result_queue_invariant id sampleTree ⟨4, 4, 4⟩ 2 [] (by decide) (by decide)
      (by norm_num)).imp fun _ h => h.imp fun _ h => ⟨h.1, h.2.1, h.2.2.1, h.2.2.2.1⟩⟩

end KnnQueueProofs

/-! ## The radiance estimators -/

section EstimatorProofs

open Octree LinearOctree PhotonMapper

variable {α σ : Type} [LinearOrderedField α] [FloorRing α]

theorem vec3_add_assoc (a b c : Vec3 α) : (a.add b).add c = a.add (b.add c) := by
  simp [Vec3.add, add_assoc]

theorem vec3_zero_add (a : Vec3 α) : (Vec3.splat 0).add a = a := by
  simp [Vec3.add, Vec3.splat]

theorem vec3_add_zero (a : Vec3 α) : a.add (Vec3.splat 0) = a := by
  simp [Vec3.add, Vec3.splat]

/-- The loop of `estimateGlobalRadiance` adds up the contributions of the photons whose BSDF
evaluation succeeds. -/
theorem globalSum_eq (env : Collaborators α σ) (interaction : Interaction α) :
    ∀ (photons : List (SearchResult α (Photon α))) (radiance : Vec3 α),
      globalSum env interaction photons radiance
        = radiance.add (Vec3.sum (globalTerms env interaction photons))
  | [], radiance => by
    simp [globalSum, globalTerms, Vec3.sum, vec3_add_zero]
  | ph :: photons, radiance => by
    simp only [globalSum, globalTerms, List.filterMap_cons]
    cases hb : env.BSDF interaction ph.data.dir with
    | none =>
      simp only [Option.map_none']
      exact globalSum_eq env interaction photons radiance
    | some b =>
      obtain ⟨b1, b2⟩ := b
      simp only [Option.map_some']
      rw [globalSum_eq env interaction photons]
      simp only [Vec3.sum, List.foldr_cons, globalTerms]
      rw [vec3_add_assoc]

/-- The loop of `estimateCausticRadiance` adds up the cone-weighted contributions of the
photons whose BSDF evaluation succeeds. -/
theorem causticSum_eq (env : Collaborators α σ) (interaction : Interaction α) (r2 : α) :
    ∀ (photons : List (SearchResult α (Photon α))) (radiance : Vec3 α),
      causticSum env interaction (1 / r2) photons radiance
        = radiance.add (Vec3.sum (causticTerms env interaction r2 photons))
  | [], radiance => by
    simp [causticSum, causticTerms, Vec3.sum, vec3_add_zero]
  | ph :: photons, radiance => by
    simp only [causticSum, causticTerms, List.filterMap_cons]
    cases hb : env.BSDF interaction ph.data.dir with
    | none =>
      simp only [Option.map_none']
      exact causticSum_eq env interaction r2 photons radiance
    | some b =>
      obtain ⟨b1, b2⟩ := b
      simp only [Option.map_some']
      rw [causticSum_eq env interaction r2 photons]
      simp only [Vec3.sum, List.foldr_cons, causticTerms]
      rw [vec3_add_assoc]
      congr 2
      simp only [Vec3.smul, Vec3.sdiv, Vec3.mul, coneWeight, mul_one_div, Vec3.mk.injEq]
      refine ⟨?_, ?_, ?_⟩ <;> ring

/-- C11: for a non-empty global map and `1 ≤ k = k_nearest_photons`, `estimateGlobalRadiance`
returns the sum of `p.flux * bsdf_absIdotN / bsdf_pdf` over those of the `min(k, n)` nearest
photons whose BSDF evaluation succeeds, divided by `pi * r2`, where `r2` is the squared
distance of the `min(k, n)`-th nearest photon (the last entry of the sorted brute-force
list). -/
theorem global_estimate_value (env : Collaborators α σ) (self : PhotonMapper α)
    (interaction : Interaction α) (t : Octree α (Photon α)) (r2 : α)
    (hmap : self.global_map = ofOctree Photon.pos t) (hmodel : t.payloadOnlyInLeaves = true)
    (hne : t.items ≠ 0) (hk : 1 ≤ self.k_nearest_photons)
    (hk64 : self.k_nearest_photons < 2 ^ 64)
    (hr2 : (bruteForceKnn Photon.pos self.global_map.ordered_data interaction.position
      (min self.k_nearest_photons self.global_map.ordered_data.length)).getLast? = some r2) :
    ∃ photons, knnSearch Photon.pos self.global_map interaction.position
        self.k_nearest_photons [] = some photons ∧
      photons.length = min self.k_nearest_photons self.global_map.ordered_data.length ∧
      (∀ ph ∈ photons, ph.distance2 = Vec3.distance2 ph.data.pos interaction.position) ∧
      (photons.map SearchResult.data).Subperm self.global_map.ordered_data ∧
      (photons.map SearchResult.distance2).Perm
        (bruteForceKnn Photon.pos self.global_map.ordered_data interaction.position
          (min self.k_nearest_photons self.global_map.ordered_data.length)) ∧
      estimateGlobalRadiance env self interaction
        = some ((Vec3.sum (globalTerms env interaction photons)).sdiv (env.PI * r2)) := by
  obtain ⟨photons, top, hres, hlen, hexact, hsub, hperm, _, htop, _, _, hlast⟩ :=
    knnSearch_facts Photon.pos t interaction.position self.k_nearest_photons []
      hmodel (flatten_ne_nil_of_items t hne) hk hk64
  rw [← hmap] at hres hlen hsub hperm hlast
  rw [hlast] at hr2
  cases hr2
  refine ⟨photons, hres, hlen, hexact, hsub, hperm, ?_⟩
  unfold estimateGlobalRadiance
  have hempty : PriorityQueue.empty photons = false := by
    cases photons with
    | nil => simp [PriorityQueue.top] at htop
    | cons a as => rfl
  simp only [hres, hempty, htop, Bool.false_eq_true, if_false]
  rw [globalSum_eq, vec3_zero_add, mul_comm]

/-- The brute-force list of items that all lie at the same squared distance. -/
theorem bruteForceKnn_const {D : Type} (pos : D → Vec3 α) (data : List D) (p : Vec3 α) (k : Nat)
    (c : α) (h : ∀ d ∈ data, Vec3.distance2 (pos d) p = c) :
    bruteForceKnn pos data p k = List.replicate (min k data.length) c := by
  unfold bruteForceKnn
  have h1 : data.map (fun d => Vec3.distance2 (pos d) p) = List.replicate data.length c := by
    rw [List.eq_replicate_iff]
    refine ⟨by simp, ?_⟩
    intro b hb
    obtain ⟨d, hd, rfl⟩ := List.mem_map.1 hb
    exact h d hd
  rw [h1]
  have h2 : (List.replicate data.length c).insertionSort (· ≤ ·) = List.replicate data.length c :=
    List.perm_replicate.1 (List.perm_insertionSort _ _)
  rw [h2, List.take_replicate]

theorem e2_ordered_data :
    (ofOctree Photon.pos e2Tree).ordered_data = List.replicate 100 e2Photon := by
  rw [ofOctree_ordered_data]
  simp [e2Tree, flatten, flattenList]

theorem e2_items : e2Tree.items ≠ 0 := by
  intro h
  have h1 := coe_flatten e2Tree
  rw [h] at h1
  have h2 : flatten e2Tree = [] := by simpa using h1
  simp [e2Tree, flatten, flattenList, List.replicate] at h2

theorem e2_distance (d : Photon ℚ) (hd : d ∈ List.replicate 100 e2Photon) :
    Vec3.distance2 (Photon.pos d) ⟨1, 0, 0⟩ = 1 := by
  rw [List.eq_of_mem_replicate hd]
  simp [e2Photon, Photon.pos, Vec3.distance2]

theorem global_estimate_value_witness :
    e2Mapper.global_map = ofOctree Photon.pos e2Tree ∧ e2Tree.payloadOnlyInLeaves = true ∧
    e2Tree.items ≠ 0 ∧ 1 ≤ e2Mapper.k_nearest_photons ∧
    (bruteForceKnn Photon.pos e2Mapper.global_map.ordered_data ⟨1, 0, 0⟩
      (min e2Mapper.k_nearest_photons e2Mapper.global_map.ordered_data.length)).getLast?
        = some 1 ∧
    estimateGlobalRadiance diffuseCollaborators e2Mapper ⟨⟨1, 0, 0⟩, false, false⟩
      = some ⟨70 / 11, 70 / 11, 70 / 11⟩ := by
  have hod : e2Mapper.global_map.ordered_data = List.replicate 100 e2Photon := e2_ordered_data
  have hbf : bruteForceKnn Photon.pos e2Mapper.global_map.ordered_data ⟨1, 0, 0⟩
      (min e2Mapper.k_nearest_photons e2Mapper.global_map.ordered_data.length)
      = List.replicate 10 1 := by
    rw [bruteForceKnn_const Photon.pos _ ⟨1, 0, 0⟩ _ 1 (by rw [hod]; exact e2_distance), hod]
    rfl
  have hr2 : (bruteForceKnn Photon.pos e2Mapper.global_map.ordered_data ⟨1, 0, 0⟩
      (min e2Mapper.k_nearest_photons e2Mapper.global_map.ordered_data.length)).getLast?
        = some 1 := by
    rw [hbf]
    rfl
  have hmodel : e2Tree.payloadOnlyInLeaves = true := by
    simp [e2Tree, payloadOnlyInLeaves, payloadOnlyInLeavesList]
  refine ⟨rfl, hmodel, e2_items, by decide, hr2, ?_⟩
  obtain ⟨photons, _, hlen, hexact, hsub, _, hest⟩ :=
    global_estimate_value diffuseCollaborators e2Mapper ⟨⟨1, 0, 0⟩, false, false⟩ e2Tree 1 rfl
      hmodel e2_items (by decide) (by norm_num [e2Mapper]) hr2
  have hph : photons = List.replicate 10 ⟨e2Photon, 1⟩ := by
    rw [List.eq_replicate_iff]
    refine ⟨by rw [hlen, hod]; rfl, ?_⟩
    intro ph hph
    have hmem : ph.data ∈ List.replicate 100 e2Photon := by
      rw [← hod]
      exact hsub.subset (List.mem_map_of_mem _ hph)
    have hd := hexact ph hph
    rw [show (⟨⟨1, 0, 0⟩, false, false⟩ : Interaction ℚ).position = ⟨1, 0, 0⟩ from rfl,
      e2_distance ph.data hmem] at hd
    cases ph with
    | mk data distance2 =>
      simp only at hd hmem
      rw [List.eq_of_mem_replicate hmem, hd]
  rw [hest, hph]
  simp [globalTerms, Vec3.sum, diffuseCollaborators, idleCollaborators, e2Photon, Vec3.mul,
    Vec3.sdiv, Vec3.add, Vec3.splat, List.replicate]
  norm_num

/-- C12: for a non-empty caustic map, `1 ≤ k = k_nearest_photons` and `r2 > 0`, where `r2`
is the squared distance of the `min(k, n)`-th nearest photon, `estimateCausticRadiance`
returns `3 / (pi * r2)` times the sum, over all of the `min(k, n)` nearest photons whose
BSDF evaluation succeeds, of `w_p * p.flux * bsdf_absIdotN / bsdf_pdf` with the cone weight
`w_p = max(0, 1 - sqrt(d_p^2 / r2))`.  The constant `INV_PI` is `1 / PI`. -/
theorem caustic_estimate_value (env : Collaborators α σ) (self : PhotonMapper α)
    (interaction : Interaction α) (t : Octree α (Photon α)) (r2 : α)
    (hpi : env.INV_PI = 1 / env.PI)
    (hmap : self.caustic_map = ofOctree Photon.pos t) (hmodel : t.payloadOnlyInLeaves = true)
    (hne : t.items ≠ 0) (hk : 1 ≤ self.k_nearest_photons)
    (hk64 : self.k_nearest_photons < 2 ^ 64)
    (hr2 : (bruteForceKnn Photon.pos self.caustic_map.ordered_data interaction.position
      (min self.k_nearest_photons self.caustic_map.ordered_data.length)).getLast? = some r2)
    (hpos : 0 < r2) :
    ∃ photons, knnSearch Photon.pos self.caustic_map interaction.position
        self.k_nearest_photons [] = some photons ∧
      photons.length = min self.k_nearest_photons self.caustic_map.ordered_data.length ∧
      (∀ ph ∈ photons, ph.distance2 = Vec3.distance2 ph.data.pos interaction.position) ∧
      (photons.map SearchResult.data).Subperm self.caustic_map.ordered_data ∧
      (photons.map SearchResult.distance2).Perm
        (bruteForceKnn Photon.pos self.caustic_map.ordered_data interaction.position
          (min self.k_nearest_photons self.caustic_map.ordered_data.length)) ∧
      estimateCausticRadiance env self interaction
        = some ((Vec3.sum (causticTerms env interaction r2 photons)).smul
            (3 / (env.PI * r2))) := by
  obtain ⟨photons, top, hres, hlen, hexact, hsub, hperm, _, htop, _, _, hlast⟩ :=
    knnSearch_facts Photon.pos t interaction.position self.k_nearest_photons []
      hmodel (flatten_ne_nil_of_items t hne) hk hk64
  rw [← hmap] at hres hlen hsub hperm hlast
  rw [hlast] at hr2
  cases hr2
  refine ⟨photons, hres, hlen, hexact, hsub, hperm, ?_⟩
  unfold estimateCausticRadiance
  have hempty : PriorityQueue.empty photons = false := by
    cases photons with
    | nil => simp [PriorityQueue.top] at htop
    | cons a as => rfl
  simp only [hres, hempty, htop, Bool.false_eq_true, if_false]
  rw [causticSum_eq, vec3_zero_add, hpi]
  have hne0 : top.distance2 ≠ 0 := ne_of_gt hpos
  simp only [Vec3.smul, Option.some.injEq, Vec3.mk.injEq]
  refine ⟨?_, ?_, ?_⟩ <;>
    · simp only [div_eq_mul_inv, mul_inv, one_mul]
      ring

/-- The sum of vectors does not depend on their order. -/
theorem vec3_sum_perm {l1 l2 : List (Vec3 α)} (h : l1.Perm l2) : Vec3.sum l1 = Vec3.sum l2 := by
  unfold Vec3.sum
  induction h with
  | nil => rfl
  | cons x _ ih => simp only [List.foldr_cons, ih]
  | swap x y l =>
    simp only [List.foldr_cons]
    rw [← vec3_add_assoc, ← vec3_add_assoc]
    congr 1
    simp [Vec3.add, add_comm]
  | trans _ _ ih1 ih2 => exact ih1.trans ih2

theorem twoPhoton_ordered_data :
    (ofOctree Photon.pos twoPhotonTree).ordered_data
      = [⟨⟨1, 1, 1⟩, ⟨1, 0, 0⟩, ⟨0, 0, 1⟩⟩, ⟨⟨2, 2, 2⟩, ⟨0, 0, 0⟩, ⟨0, 0, 1⟩⟩] := by
  rw [ofOctree_ordered_data]
  simp [twoPhotonTree, flatten, flattenList]

theorem twoPhoton_items : twoPhotonTree.items ≠ 0 := by
  intro h
  have h1 := coe_flatten twoPhotonTree
  rw [h] at h1
  have h2 : flatten twoPhotonTree = [] := by simpa using h1
  simp [twoPhotonTree, flatten, flattenList] at h2

theorem twoPhoton_bruteForce :
    bruteForceKnn Photon.pos twoPhotonMapper.caustic_map.ordered_data ⟨1, 0, 0⟩
      (min twoPhotonMapper.k_nearest_photons twoPhotonMapper.caustic_map.ordered_data.length)
      = [0, 1] := by
  have hod : twoPhotonMapper.caustic_map.ordered_data
      = [⟨⟨1, 1, 1⟩, ⟨1, 0, 0⟩, ⟨0, 0, 1⟩⟩, ⟨⟨2, 2, 2⟩, ⟨0, 0, 0⟩, ⟨0, 0, 1⟩⟩] :=
    twoPhoton_ordered_data
  rw [hod]
  simp [bruteForceKnn, twoPhotonMapper, Photon.pos, Vec3.distance2, List.insertionSort,
    List.orderedInsert]

theorem caustic_estimate_value_witness :
    diffuseCollaborators.INV_PI = 1 / diffuseCollaborators.PI ∧
    twoPhotonMapper.caustic_map = ofOctree Photon.pos twoPhotonTree ∧
    twoPhotonTree.payloadOnlyInLeaves = true ∧ twoPhotonTree.items ≠ 0 ∧
    1 ≤ twoPhotonMapper.k_nearest_photons ∧
    (bruteForceKnn Photon.pos twoPhotonMapper.caustic_map.ordered_data ⟨1, 0, 0⟩
      (min twoPhotonMapper.k_nearest_photons
        twoPhotonMapper.caustic_map.ordered_data.length)).getLast? = some 1 ∧
    (0 : ℚ) < 1 ∧
    estimateCausticRadiance diffuseCollaborators twoPhotonMapper ⟨⟨1, 0, 0⟩, false, false⟩
      = some ⟨21 / 11, 21 / 11, 21 / 11⟩ := by
  have hod : twoPhotonMapper.caustic_map.ordered_data
      = [⟨⟨1, 1, 1⟩, ⟨1, 0, 0⟩, ⟨0, 0, 1⟩⟩, ⟨⟨2, 2, 2⟩, ⟨0, 0, 0⟩, ⟨0, 0, 1⟩⟩] :=
    twoPhoton_ordered_data
  have hr2 : (bruteForceKnn Photon.pos twoPhotonMapper.caustic_map.ordered_data ⟨1, 0, 0⟩
      (min twoPhotonMapper.k_nearest_photons
        twoPhotonMapper.caustic_map.ordered_data.length)).getLast? = some 1 := by
    rw [twoPhoton_bruteForce]
    rfl
  have hmodel : twoPhotonTree.payloadOnlyInLeaves = true := by
    simp [twoPhotonTree, payloadOnlyInLeaves, payloadOnlyInLeavesList]
  have hpi : diffuseCollaborators.INV_PI = 1 / diffuseCollaborators.PI := by
    simp [diffuseCollaborators, idleCollaborators]
  refine ⟨hpi, rfl, hmodel, twoPhoton_items, by decide, hr2, by norm_num, ?_⟩
  obtain ⟨photons, _, hlen, hexact, hsub, _, hest⟩ :=
    caustic_estimate_value diffuseCollaborators twoPhotonMapper ⟨⟨1, 0, 0⟩, false, false⟩
      twoPhotonTree 1 hpi rfl hmodel twoPhoton_items (by decide)
      (by norm_num [twoPhotonMapper]) hr2 (by norm_num)
  have hp1 : (photons.map SearchResult.data).Perm twoPhotonMapper.caustic_map.ordered_data :=
    hsub.perm_of_length_le (by rw [List.length_map, hlen, hod]; rfl)
  have hp2 : photons
      = (photons.map SearchResult.data).map
          (fun d => (⟨d, Vec3.distance2 d.pos ⟨1, 0, 0⟩⟩ : SearchResult ℚ (Photon ℚ))) := by
    rw [List.map_map]
    conv_lhs => rw [← List.map_id photons]
    apply List.map_congr_left
    intro ph hph
    have := hexact ph hph
    cases ph with
    | mk data distance2 =>
      simp only at this
      simp [this]
  have hp3 := (hp1.map
    (fun d => (⟨d, Vec3.distance2 d.pos ⟨1, 0, 0⟩⟩ : SearchResult ℚ (Photon ℚ))))
  rw [← hp2, hod] at hp3
  rw [hest]
  have hsum := vec3_sum_perm ((hp3.filterMap _ : (causticTerms diffuseCollaborators
    ⟨⟨1, 0, 0⟩, false, false⟩ 1 photons).Perm _))
  unfold causticTerms
  rw [hsum]
  simp [coneWeight, Vec3.sum, diffuseCollaborators, idleCollaborators,
    Vec3.mul, Vec3.sdiv, Vec3.add, Vec3.splat, Vec3.smul, Photon.pos, Vec3.distance2]
  norm_num

theorem distance2_nonneg (a b : Vec3 α) : 0 ≤ Vec3.distance2 a b := by
  unfold Vec3.distance2
  exact add_nonneg (add_nonneg (mul_self_nonneg _) (mul_self_nonneg _)) (mul_self_nonneg _)

theorem distance2_eq_zero_iff (a b : Vec3 α) : Vec3.distance2 a b = 0 ↔ a = b := by
  constructor
  · intro h
    unfold Vec3.distance2 at h
    have hx := mul_self_nonneg (a.x - b.x)
    have hy := mul_self_nonneg (a.y - b.y)
    have hz := mul_self_nonneg (a.z - b.z)
    have h1 : (a.x - b.x) * (a.x - b.x) = 0 := by linarith
    have h2 : (a.y - b.y) * (a.y - b.y) = 0 := by linarith
    have h3 : (a.z - b.z) * (a.z - b.z) = 0 := by linarith
    rw [mul_self_eq_zero, sub_eq_zero] at h1 h2 h3
    cases a
    cases b
    simp only at h1 h2 h3
    rw [h1, h2, h3]
  · intro h
    rw [h]
    simp [Vec3.distance2]

/-- The largest squared distance of a search result is zero exactly when every returned item
lies at the query point, which happens exactly when all entries of the brute-force list are
zero. -/
theorem radius_zero_iff {D : Type} (pos : D → Vec3 α) (x : Vec3 α)
    (photons : List (SearchResult α D)) (top : SearchResult α D) (bf : List α)
    (hexact : ∀ ph ∈ photons, ph.distance2 = Vec3.distance2 (pos ph.data) x)
    (hperm : (photons.map SearchResult.distance2).Perm bf)
    (htm : top ∈ photons) (hmax : ∀ ph ∈ photons, ph.distance2 ≤ top.distance2) :
    0 ≤ top.distance2 ∧
    (top.distance2 = 0 ↔ ∀ ph ∈ photons, pos ph.data = x) ∧
    (top.distance2 = 0 ↔ ∀ d ∈ bf, d = 0) := by
  have h0 : 0 ≤ top.distance2 := by
    rw [hexact top htm]
    exact distance2_nonneg _ _
  have hall : top.distance2 = 0 ↔ ∀ ph ∈ photons, ph.distance2 = 0 := by
    constructor
    · intro h ph hph
      apply le_antisymm
      · rw [← h]
        exact hmax ph hph
      · rw [hexact ph hph]
        exact distance2_nonneg _ _
    · intro h
      exact h top htm
  refine ⟨h0, ?_, ?_⟩
  · rw [hall]
    constructor
    · intro h ph hph
      have := h ph hph
      rw [hexact ph hph, distance2_eq_zero_iff] at this
      exact this
    · intro h ph hph
      rw [hexact ph hph, distance2_eq_zero_iff]
      exact h ph hph
  · rw [hall]
    constructor
    · intro h d hd
      obtain ⟨ph, hph, rfl⟩ := List.mem_map.1 (hperm.mem_iff.2 hd)
      exact h ph hph
    · intro h ph hph
      exact h _ (hperm.mem_iff.1 (List.mem_map_of_mem _ hph))

/-- C18: for non-empty maps and `1 ≤ k`, the divisor of `estimateGlobalRadiance` is
`r2 * PI` and that of `estimateCausticRadiance` is `r2`, with `r2 = photons.top().distance2`
and `PI > 0`; either divisor is zero exactly when all `min(k, n)` nearest photons lie at the
shading point (all entries of the brute-force list are zero), and strictly positive
otherwise.  When all stored photons share one position, the divisor is zero exactly for the
shading point at that position. -/
theorem estimator_divisor (env : Collaborators α σ) (self : PhotonMapper α)
    (interaction : Interaction α) (tg tc : Octree α (Photon α)) (hPI : 0 < env.PI)
    (hg : self.global_map = ofOctree Photon.pos tg)
    (hc : self.caustic_map = ofOctree Photon.pos tc)
    (hmg : tg.payloadOnlyInLeaves = true) (hmc : tc.payloadOnlyInLeaves = true)
    (hng : tg.items ≠ 0) (hnc : tc.items ≠ 0) (hk : 1 ≤ self.k_nearest_photons)
    (hk64 : self.k_nearest_photons < 2 ^ 64) :
    (∃ photons top, knnSearch Photon.pos self.global_map interaction.position
        self.k_nearest_photons [] = some photons ∧ PriorityQueue.top photons = some top ∧
      photons.length = min self.k_nearest_photons self.global_map.ordered_data.length ∧
      estimateGlobalRadiance env self interaction
        = some ((globalSum env interaction photons (Vec3.splat 0)).sdiv
            (top.distance2 * env.PI)) ∧
      (top.distance2 * env.PI = 0 ↔ ∀ ph ∈ photons, ph.data.pos = interaction.position) ∧
      (top.distance2 * env.PI = 0 ↔
        ∀ d ∈ bruteForceKnn Photon.pos self.global_map.ordered_data interaction.position
          (min self.k_nearest_photons self.global_map.ordered_data.length), d = 0) ∧
      (top.distance2 * env.PI ≠ 0 → 0 < top.distance2 * env.PI) ∧
      ∀ q, (∀ d ∈ self.global_map.ordered_data, d.pos = q) →
        (top.distance2 * env.PI = 0 ↔ interaction.position = q)) ∧
    (∃ photons top, knnSearch Photon.pos self.caustic_map interaction.position
        self.k_nearest_photons [] = some photons ∧ PriorityQueue.top photons = some top ∧
      photons.length = min self.k_nearest_photons self.caustic_map.ordered_data.length ∧
      estimateCausticRadiance env self interaction
        = some ((((causticSum env interaction (1 / top.distance2) photons
            (Vec3.splat 0)).smul 3).smul (1 / top.distance2)).smul env.INV_PI) ∧
      (top.distance2 = 0 ↔ ∀ ph ∈ photons, ph.data.pos = interaction.position) ∧
      (top.distance2 = 0 ↔
        ∀ d ∈ bruteForceKnn Photon.pos self.caustic_map.ordered_data interaction.position
          (min self.k_nearest_photons self.caustic_map.ordered_data.length), d = 0) ∧
      (top.distance2 ≠ 0 → 0 < top.distance2) ∧
      ∀ q, (∀ d ∈ self.caustic_map.ordered_data, d.pos = q) →
        (top.distance2 = 0 ↔ interaction.position = q)) := by
  have hcoin : ∀ (lin : LinearOctree α (Photon α))
      (photons : List (SearchResult α (Photon α))) (top : SearchResult α (Photon α)),
      (∀ ph ∈ photons, ph.distance2 = Vec3.distance2 ph.data.pos interaction.position) →
      (photons.map SearchResult.data).Subperm lin.ordered_data → top ∈ photons →
      ∀ q, (∀ d ∈ lin.ordered_data, d.pos = q) →
        (top.distance2 = 0 ↔ interaction.position = q) := by
    intro lin photons top hexact hsub htm q hq
    have hpos : top.data.pos = q := hq _ (hsub.subset (List.mem_map_of_mem _ htm))
    rw [hexact top htm, distance2_eq_zero_iff, hpos]
    exact eq_comm
  constructor
  · obtain ⟨photons, top, hres, hlen, hexact, hsub, hperm, _, htop, htm, hmax, _⟩ :=
      knnSearch_facts Photon.pos tg interaction.position self.k_nearest_photons []
        hmg (flatten_ne_nil_of_items tg hng) hk hk64
    rw [← hg] at hres hlen hsub hperm
    obtain ⟨h0, h1, h2⟩ := radius_zero_iff Photon.pos interaction.position photons top _
      hexact hperm htm hmax
    have hz : top.distance2 * env.PI = 0 ↔ top.distance2 = 0 := by
      rw [mul_eq_zero]
      exact ⟨fun h => h.resolve_right (ne_of_gt hPI), Or.inl⟩
    have hempty : PriorityQueue.empty photons = false := by
      cases photons with
      | nil => simp at htm
      | cons a as => rfl
    refine ⟨photons, top, hres, htop, hlen, ?_, hz.trans h1, hz.trans h2, ?_, ?_⟩
    · unfold estimateGlobalRadiance
      simp only [hres, hempty, htop, Bool.false_eq_true, if_false]
    · intro hne
      exact lt_of_le_of_ne (mul_nonneg h0 (le_of_lt hPI)) (Ne.symm hne)
    · intro q hq
      exact hz.trans (hcoin self.global_map photons top hexact hsub htm q hq)
  · obtain ⟨photons, top, hres, hlen, hexact, hsub, hperm, _, htop, htm, hmax, _⟩ :=
      knnSearch_facts Photon.pos tc interaction.position self.k_nearest_photons []
        hmc (flatten_ne_nil_of_items tc hnc) hk hk64
    rw [← hc] at hres hlen hsub hperm
    obtain ⟨h0, h1, h2⟩ := radius_zero_iff Photon.pos interaction.position photons top _
      hexact hperm htm hmax
    have hempty : PriorityQueue.empty photons = false := by
      cases photons with
      | nil => simp at htm
      | cons a as => rfl
    refine ⟨photons, top, hres, htop, hlen, ?_, h1, h2, ?_, ?_⟩
    · unfold estimateCausticRadiance
      simp only [hres, hempty, htop, Bool.false_eq_true, if_false]
    · intro hne
      exact lt_of_le_of_ne h0 (Ne.symm hne)
    · intro q hq
      exact hcoin self.caustic_map photons top hexact hsub htm q hq

theorem estimator_divisor_witness :
    (0 : ℚ) < diffuseCollaborators.PI ∧
    e2Mapper.global_map = ofOctree Photon.pos e2Tree ∧
    e2Mapper.caustic_map = ofOctree Photon.pos e2Tree ∧
    e2Tree.payloadOnlyInLeaves = true ∧ e2Tree.items ≠ 0 ∧ 1 ≤ e2Mapper.k_nearest_photons ∧
    ∃ photons top, knnSearch Photon.pos e2Mapper.caustic_map ⟨0, 0, 0⟩
        e2Mapper.k_nearest_photons [] = some photons ∧ PriorityQueue.top photons = some top ∧
      top.distance2 = 0 := by
  have hmodel : e2Tree.payloadOnlyInLeaves = true := by
    simp [e2Tree, payloadOnlyInLeaves, payloadOnlyInLeavesList]
  have hPI : (0 : ℚ) < diffuseCollaborators.PI := by
    simp [diffuseCollaborators, idleCollaborators]
  refine ⟨hPI, rfl, rfl, hmodel, e2_items, by decide, ?_⟩
  obtain ⟨photons, top, h1, h2, _, _, _, _, _, h3⟩ :=
    (estimator_divisor diffuseCollaborators e2Mapper ⟨⟨0, 0, 0⟩, false, false⟩ e2Tree e2Tree
      hPI rfl rfl hmodel hmodel e2_items e2_items (by decide) (by norm_num [e2Mapper])).2
  refine ⟨photons, top, h1, h2, (h3 ⟨0, 0, 0⟩ ?_).2 rfl⟩
  intro d hd
  have hod : e2Mapper.caustic_map.ordered_data = List.replicate 100 e2Photon := e2_ordered_data
  rw [hod] at hd
  rw [List.eq_of_mem_replicate hd]
  rfl

end EstimatorProofs

/-! ## The emission pass -/

section EmissionProofs

open PhotonMapper

variable {α σ : Type} [LinearOrderedField α] [FloorRing α]

/-- The batching loop started at `count ≤ n` ends and appends work items that cut
`[count, n)` into consecutive ranges of `EPW` emissions, the last one possibly shorter. -/
theorem batchLoop_spec (i n : Nat) (photon_flux : Vec3 α) :
    ∀ (fuel count : Nat) (work_vec : List (EmissionWork α)), count ≤ n → n - count ≤ fuel →
      ∃ ws, batchLoop i n photon_flux fuel count work_vec = some (work_vec ++ ws) ∧
        (∀ q w, ws.get? q = some w → w.light_index = i ∧
          w.emissions_offset = count + q * EPW ∧ 1 ≤ w.num_emissions ∧
          w.num_emissions ≤ EPW ∧ (q + 1 < ws.length → w.num_emissions = EPW) ∧
          w.photon_flux = photon_flux) ∧
        (ws.map EmissionWork.num_emissions).sum = n - count ∧
        (count = n → ws = []) ∧
        ws.flatMap (fun w => (List.range w.num_emissions).map (fun j => w.emissions_offset + j))
          = List.range' count (n - count)
  | 0, count, work_vec, hle, hfuel => by
    have hc : count = n := by omega
    refine ⟨[], ?_, ?_, ?_, fun _ => rfl, ?_⟩
    · simp [batchLoop, hc]
    · intro q w h
      simp at h
    · simp [hc]
    · simp [hc]
  | fuel + 1, count, work_vec, hle, hfuel => by
    by_cases hc : count = n
    · refine ⟨[], ?_, ?_, ?_, fun _ => rfl, ?_⟩
      · simp [batchLoop, hc]
      · intro q w h
        simp at h
      · simp [hc]
      · simp [hc]
    · have hEPW : (EPW : Nat) = 100000 := rfl
      obtain ⟨em, hem⟩ : ∃ em, em = (if count + EPW > n then n - count else EPW) := ⟨_, rfl⟩
      have hem1 : 1 ≤ em := by
        rw [hem]
        split <;> omega
      have hem2 : em ≤ EPW := by
        rw [hem]
        split <;> omega
      have hem3 : count + em ≤ n := by
        rw [hem]
        split <;> omega
      have hem4 : count + em ≠ n → em = EPW := by
        rw [hem]
        split <;> omega
      obtain ⟨ws, h1, h2, h3, h4, h5⟩ := batchLoop_spec i n photon_flux fuel (count + em)
        (work_vec ++ [⟨i, count, em, photon_flux⟩]) hem3 (by omega)
      refine ⟨⟨i, count, em, photon_flux⟩ :: ws, ?_, ?_, ?_, fun h => absurd h hc, ?_⟩
      · simp only [batchLoop, ne_eq, hc, not_false_eq_true, if_true]
        rw [← hem, h1]
        simp
      · intro q w hq
        cases q with
        | zero =>
          simp only [List.get?_cons_zero, Option.some.injEq] at hq
          subst hq
          refine ⟨rfl, by simp, hem1, hem2, ?_, rfl⟩
          intro hlen
          apply hem4
          intro hcn
          have := h4 hcn
          rw [this] at hlen
          simp at hlen
        | succ q =>
          simp only [List.get?_cons_succ] at hq
          obtain ⟨e1, e2, e3, e4, e5, e6⟩ := h2 q w hq
          have hne : ws ≠ [] := by
            intro h0
            rw [h0] at hq
            simp at hq
          have hemE : em = EPW := hem4 (fun hcn => hne (h4 hcn))
          refine ⟨e1, ?_, e3, e4, ?_, e6⟩
          · rw [e2, hemE]
            ring
          · intro hlen
            apply e5
            simpa using hlen
      · simp only [List.map_cons, List.sum_cons, h3]
        omega
      · simp only [List.flatMap_cons, h5]
        have hr : (List.range em).map (fun j => count + j) = List.range' count em := by
          rw [List.range_eq_range', List.map_add_range']
          simp
        rw [hr, List.range'_append_1]
        congr 1
        omega

/-- With the recording sampler, where no ray hits anything, `emitPhoton` leaves the mapper and
the record alone. -/
theorem emitPhoton_trace (self : PhotonMapper α) (log : List Nat) (ray : Ray α)
    (flux : Vec3 α) : emitPhoton (indexTracer α) 1 self log ray flux = some (self, log) := rfl

/-- The emission loop of one work item sets the sampler to the indices
`(emissions_offset + j) mod 2 ^ 32`, in increasing order of `j`. -/
theorem emissionLoop_trace (scene : Scene α) (light : Light α) (work : EmissionWork α) :
    ∀ (n i : Nat) (self : PhotonMapper α) (log : List Nat),
      emissionLoop (indexTracer α) 1 scene light work n i self log
        = some (self, log ++ (List.range' i n).map
            (fun j => (work.emissions_offset + j) % 2 ^ 32))
  | 0, i, self, log => by simp [emissionLoop]
  | n + 1, i, self, log => by
    simp only [emissionLoop]
    have hset : (indexTracer α).setIndex log ((work.emissions_offset + i) % 2 ^ 32)
        = log ++ [(work.emissions_offset + i) % 2 ^ 32] := rfl
    have hget : ∀ l : List Nat, ((indexTracer α).get_PM_LIGHT l).2 = l := fun _ => rfl
    rw [hset, hget, emitPhoton_trace]
    simp only
    rw [emissionLoop_trace scene light work n (i + 1)]
    simp [List.range'_succ]

/-- The work loop over the items of one light sets the sampler to the indices of all items,
one item after the other. -/
theorem runWork_trace (scene : Scene α) (light : Light α) (i0 : Nat)
    (hlight : scene.emissives.get? i0 = some light) :
    ∀ (ws : List (EmissionWork α)) (self : PhotonMapper α) (log : List Nat),
      (∀ w ∈ ws, w.light_index = i0) →
      runWork (indexTracer α) 1 scene ws self log
        = some (self, log ++ ws.flatMap (fun w =>
            (List.range w.num_emissions).map (fun j => (w.emissions_offset + j) % 2 ^ 32)))
  | [], self, log, _ => by simp [runWork]
  | w :: ws, self, log, h => by
    have hw : w.light_index = i0 := h w (List.mem_cons_self _ _)
    simp only [runWork, hw, hlight]
    have hinit : ∀ m, (indexTracer α).initiate log m = log := fun _ => rfl
    rw [hinit, emissionLoop_trace]
    simp only
    rw [runWork_trace scene light i0 hlight ws self _ (fun q hq => h q (List.mem_cons_of_mem _ hq))]
    simp [List.range_eq_range']

omit [FloorRing α] in
theorem flatMap_mod (ws : List (EmissionWork α)) :
    ws.flatMap (fun w =>
        (List.range w.num_emissions).map (fun j => (w.emissions_offset + j) % 2 ^ 32))
      = (ws.flatMap (fun w =>
        (List.range w.num_emissions).map (fun j => w.emissions_offset + j))).map
          (fun m => m % 2 ^ 32) := by
  induction ws with
  | nil => rfl
  | cons w ws ih =>
    rw [List.flatMap_cons, List.flatMap_cons, List.map_append, ih, List.map_map]
    rfl

/-- C16, as stated, fails: in the emission work of a light with `2 ^ 32 + 1` emissions the
sampler is set to index 0 at the first emission and again at the last one, so the indices
used for the light are not each used once, in whatever order the work items are taken. -/
theorem sampler_index_collision :
    ∃ ws log, batchLoop 0 (2 ^ 32 + 1) (⟨1, 1, 1⟩ : Vec3 ℚ) (2 ^ 32 + 1) 0 [] = some ws ∧
      runWork (indexTracer ℚ) 1 oneLightScene ws sampleMapper [] = some (sampleMapper, log) ∧
      log.get? 0 = some 0 ∧ log.get? (2 ^ 32) = some 0 ∧ ¬ log.Nodup ∧
      ∀ ws2 : List (EmissionWork ℚ), ws2.Perm ws →
        ∃ log2, runWork (indexTracer ℚ) 1 oneLightScene ws2 sampleMapper []
            = some (sampleMapper, log2) ∧ ¬ log2.Nodup := by
  obtain ⟨ws, h1, h2, _, _, h5⟩ := batchLoop_spec 0 (2 ^ 32 + 1) (⟨1, 1, 1⟩ : Vec3 ℚ)
    (2 ^ 32 + 1) 0 [] (Nat.zero_le _) (le_refl _)
  have hall : ∀ w ∈ ws, w.light_index = 0 := by
    intro w hw
    obtain ⟨q, hq⟩ := List.mem_iff_get?.1 hw
    exact (h2 q w hq).1
  have h3 := runWork_trace oneLightScene ⟨⟨1, 1, 1⟩, 1⟩ 0 rfl ws sampleMapper [] hall
  have h3b := h3
  rw [flatMap_mod, h5] at h3
  have e0 : ([] ++ (List.range' 0 (2 ^ 32 + 1 - 0)).map (fun m => m % 2 ^ 32)).get? 0
      = some 0 := by
    rw [List.nil_append, List.get?_eq_getElem?, List.getElem?_map, Nat.sub_zero,
      ← List.range_eq_range', List.getElem?_range (by norm_num)]
    rfl
  have e1 : ([] ++ (List.range' 0 (2 ^ 32 + 1 - 0)).map (fun m => m % 2 ^ 32)).get? (2 ^ 32)
      = some 0 := by
    rw [List.nil_append, List.get?_eq_getElem?, List.getElem?_map, Nat.sub_zero,
      ← List.range_eq_range', List.getElem?_range (by norm_num)]
    simp
  have hdup : ¬ ([] ++ (List.range' 0 (2 ^ 32 + 1 - 0)).map (fun m => m % 2 ^ 32)).Nodup := by
    intro hnd
    refine List.nodup_iff_get?_ne_get?.1 hnd 0 (2 ^ 32) (by norm_num) ?_ (e0.trans e1.symm)
    simp
  refine ⟨ws, _, by simpa using h1, h3, e0, e1, hdup, ?_⟩
  intro ws2 hperm
  have hall2 : ∀ w ∈ ws2, w.light_index = 0 := fun w hw => hall w (hperm.mem_iff.1 hw)
  refine ⟨_, runWork_trace oneLightScene ⟨⟨1, 1, 1⟩, 1⟩ 0 rfl ws2 sampleMapper [] hall2, ?_⟩
  intro hnd
  apply hdup
  rw [← h5, ← flatMap_mod]
  exact (List.Perm.nodup_iff ((List.Perm.flatMap_right _ hperm).append_left [])).1 hnd

/-- C16 (amended): for a light with allocation `n`, the batching loop ends and produces work
items that cut `[0, n)` into consecutive ranges: the offsets are `0, EPW, 2 * EPW, ..`, every
item has `1 ≤ count ≤ EPW`, all items but the last have `count = EPW`, the counts add up to
`n`, the values `offset + j` are exactly `0 .. n - 1`, and `n = 0` gives no item.  The
sampler is set to `(offset + j) mod 2 ^ 32`; for `n ≤ 2 ^ 32` these indices are exactly
`0 .. n - 1`, each once, in whatever order the work items are taken after the shuffle. -/
theorem emission_batching (i n : Nat) (photon_flux : Vec3 α)
    (work_vec : List (EmissionWork α)) (scene : Scene α) (light : Light α)
    (self : PhotonMapper α) (hlight : scene.emissives.get? i = some light) :
    ∃ ws, batchLoop i n photon_flux n 0 work_vec = some (work_vec ++ ws) ∧
      (∀ q w, ws.get? q = some w → w.light_index = i ∧ w.emissions_offset = q * EPW ∧
        1 ≤ w.num_emissions ∧ w.num_emissions ≤ EPW ∧
        (q + 1 < ws.length → w.num_emissions = EPW) ∧ w.photon_flux = photon_flux) ∧
      (ws.map EmissionWork.num_emissions).sum = n ∧
      (n = 0 → ws = []) ∧
      ws.flatMap (fun w => (List.range w.num_emissions).map (fun j => w.emissions_offset + j))
        = List.range n ∧
      runWork (indexTracer α) 1 scene ws self []
        = some (self, (List.range n).map (fun m => m % 2 ^ 32)) ∧
      (n ≤ 2 ^ 32 →
        runWork (indexTracer α) 1 scene ws self [] = some (self, List.range n)) ∧
      ∀ ws2 : List (EmissionWork α), ws2.Perm ws →
        ∃ log, runWork (indexTracer α) 1 scene ws2 self [] = some (self, log) ∧
          log.Perm ((List.range n).map (fun m => m % 2 ^ 32)) ∧
          (n ≤ 2 ^ 32 → log.Perm (List.range n)) := by
  obtain ⟨ws, h1, h2, h3, h4, h5⟩ := batchLoop_spec i n photon_flux n 0 work_vec
    (Nat.zero_le _) (le_refl _)
  rw [Nat.sub_zero, ← List.range_eq_range'] at h5
  have hall : ∀ w ∈ ws, w.light_index = i := by
    intro w hw
    obtain ⟨q, hq⟩ := List.mem_iff_get?.1 hw
    exact (h2 q w hq).1
  have htrace := runWork_trace scene light i hlight ws self [] hall
  rw [flatMap_mod, h5, List.nil_append] at htrace
  have hmod : n ≤ 2 ^ 32 → (List.range n).map (fun m => m % 2 ^ 32) = List.range n := by
    intro hn
    conv_rhs => rw [← List.map_id (List.range n)]
    apply List.map_congr_left
    intro m hm
    rw [List.mem_range] at hm
    exact Nat.mod_eq_of_lt (lt_of_lt_of_le hm hn)
  refine ⟨ws, h1, ?_, by simpa using h3, fun h => h4 h.symm, h5, htrace, ?_, ?_⟩
  · intro q w hq
    obtain ⟨e1, e2, e3⟩ := h2 q w hq
    exact ⟨e1, by simpa using e2, e3⟩
  · intro hn
    rw [htrace, hmod hn]
  · intro ws2 hperm
    have hall2 : ∀ w ∈ ws2, w.light_index = i := fun w hw => hall w (hperm.mem_iff.1 hw)
    have hp : ([] ++ ws2.flatMap (fun w => (List.range w.num_emissions).map
        (fun j => (w.emissions_offset + j) % 2 ^ 32))).Perm
        ((List.range n).map (fun m => m % 2 ^ 32)) := by
      rw [List.nil_append, ← h5, ← flatMap_mod ws]
      exact List.Perm.flatMap_right _ hperm
    refine ⟨_, runWork_trace scene light i hlight ws2 self [] hall2, hp, ?_⟩
    intro hn
    rw [← hmod hn]
    exact hp

theorem emission_batching_witness :
    oneLightScene.emissives.get? 0 = some ⟨⟨1, 1, 1⟩, 1⟩ ∧
    ∃ ws, batchLoop 0 250000 (⟨1, 1, 1⟩ : Vec3 ℚ) 250000 0 [] = some ([] ++ ws) ∧
      (ws.map EmissionWork.num_emissions).sum = 250000 ∧
      runWork (indexTracer ℚ) 1 oneLightScene ws sampleMapper []
        = some (sampleMapper, List.range 250000) := by
  refine ⟨rfl, ?_⟩
  obtain ⟨ws, h1, _, h3, _, _, _, h7, _⟩ :=
    emission_batching 0 250000 (⟨1, 1, 1⟩ : Vec3 ℚ) [] oneLightScene ⟨⟨1, 1, 1⟩, 1⟩
      sampleMapper rfl
  exact ⟨ws, h1, h3, h7 (by norm_num)⟩

/-! ### Construction and the configuration -/

omit [FloorRing α] in
/-- Two mappers with the same configuration values. -/
theorem deposit_config (env : Collaborators α σ) (self : PhotonMapper α) (s : σ)
    (interaction : Interaction α) (ray : Ray α) (flux : Vec3 α) :
    (deposit env self s interaction ray flux).1.non_caustic_reject = self.non_caustic_reject ∧
    (deposit env self s interaction ray flux).1.k_nearest_photons = self.k_nearest_photons ∧
    (deposit env self s interaction ray flux).1.max_node_data = self.max_node_data ∧
    (deposit env self s interaction ray flux).1.direct_visualization
      = self.direct_visualization := by
  unfold deposit
  by_cases h1 : (!interaction.material_dirac_delta) = true
  · rw [if_pos h1]
    by_cases h2 : ray.dirac_delta = true
    · rw [if_pos h2]
      exact ⟨rfl, rfl, rfl, rfl⟩
    · rw [if_neg h2]
      by_cases h3 : self.non_caustic_reject > (env.get_PM_REJECT s).1
      · simp [h3]
      · simp [h3]
  · rw [if_neg h1]
    exact ⟨rfl, rfl, rfl, rfl⟩

omit [FloorRing α] in
theorem emitPhotonLoop_config (env : Collaborators α σ) :
    ∀ (fuel : Nat) (self : PhotonMapper α) (s : σ) (ray : Ray α) (flux : Vec3 α)
      (r : PhotonMapper α × σ), emitPhotonLoop env fuel self s ray flux = some r →
      r.1.non_caustic_reject = self.non_caustic_reject ∧
      r.1.k_nearest_photons = self.k_nearest_photons ∧
      r.1.max_node_data = self.max_node_data ∧
      r.1.direct_visualization = self.direct_visualization
  | 0, self, s, ray, flux, r, h => by simp [emitPhotonLoop] at h
  | fuel + 1, self, s, ray, flux, r, h => by
    simp only [emitPhotonLoop] at h
    split at h
    · cases h
      exact ⟨rfl, rfl, rfl, rfl⟩
    · rename_i interaction hi
      have hd := deposit_config env self (env.shuffle s) interaction ray flux
      split at h
      · cases h
        exact hd
      · split at h
        · cases h
          exact hd
        · split at h
          · cases h
            exact hd
          · obtain ⟨e1, e2, e3, e4⟩ := emitPhotonLoop_config env fuel _ _ _ _ r h
            exact ⟨e1.trans hd.1, e2.trans hd.2.1, e3.trans hd.2.2.1, e4.trans hd.2.2.2⟩

omit [FloorRing α] in
theorem emissionLoop_config (env : Collaborators α σ) (fuel : Nat) (scene : Scene α)
    (light : Light α) (work : EmissionWork α) :
    ∀ (n i : Nat) (self : PhotonMapper α) (s : σ) (r : PhotonMapper α × σ),
      emissionLoop env fuel scene light work n i self s = some r →
      r.1.non_caustic_reject = self.non_caustic_reject ∧
      r.1.k_nearest_photons = self.k_nearest_photons ∧
      r.1.max_node_data = self.max_node_data ∧
      r.1.direct_visualization = self.direct_visualization
  | 0, i, self, s, r, h => by
    simp only [emissionLoop, Option.some.injEq] at h
    subst h
    exact ⟨rfl, rfl, rfl, rfl⟩
  | n + 1, i, self, s, r, h => by
    simp only [emissionLoop] at h
    split at h
    · simp at h
    · rename_i r1 h1
      have hd := emitPhotonLoop_config env fuel _ _ _ _ r1 h1
      obtain ⟨e1, e2, e3, e4⟩ := emissionLoop_config env fuel scene light work n (i + 1) _ _ r h
      exact ⟨e1.trans hd.1, e2.trans hd.2.1, e3.trans hd.2.2.1, e4.trans hd.2.2.2⟩

omit [FloorRing α] in
theorem runWork_config (env : Collaborators α σ) (fuel : Nat) (scene : Scene α) :
    ∀ (ws : List (EmissionWork α)) (self : PhotonMapper α) (s : σ) (r : PhotonMapper α × σ),
      runWork env fuel scene ws self s = some r →
      r.1.non_caustic_reject = self.non_caustic_reject ∧
      r.1.k_nearest_photons = self.k_nearest_photons ∧
      r.1.max_node_data = self.max_node_data ∧
      r.1.direct_visualization = self.direct_visualization
  | [], self, s, r, h => by
    simp only [runWork, Option.some.injEq] at h
    subst h
    exact ⟨rfl, rfl, rfl, rfl⟩
  | w :: ws, self, s, r, h => by
    simp only [runWork] at h
    split at h
    · simp at h
    · rename_i light hl
      split at h
      · simp at h
      · rename_i r1 h1
        have hd := emissionLoop_config env fuel scene light w _ _ _ _ r1 h1
        obtain ⟨e1, e2, e3, e4⟩ := runWork_config env fuel scene ws _ _ r h
        exact ⟨e1.trans hd.1, e2.trans hd.2.1, e3.trans hd.2.2.1, e4.trans hd.2.2.2⟩

/-- C15, as stated, fails: construction with `caustic_factor = 1/2` is not rejected; it
succeeds, and the accept probability of the mapper is `2`. -/
theorem caustic_factor_below_one_accepted :
    halfConfig.caustic_factor = some (1 / 2) ∧ (1 / 2 : ℚ) < 1 ∧
    ∃ mapper, construct idleCollaborators 10 halfConfig emptyScene () = some (mapper, ()) ∧
      mapper.non_caustic_reject = 2 ∧ 1 < mapper.non_caustic_reject := by
  refine ⟨rfl, by norm_num, ?_⟩
  refine ⟨{ k_nearest_photons := 50, non_caustic_reject := 1 / (1 / 2), max_node_data := 200,
            direct_visualization := false, caustic_vecs := [[]], global_vecs := [[]],
            caustic_map := LinearOctree.empty, global_map := LinearOctree.empty }, ?_, ?_, ?_⟩
  · simp only [construct, halfConfig, emptyScene, workLoop, idleCollaborators, runWork,
      List.get?_cons_zero, insertAndPop, List.foldr_nil, ofOctree_newOctree, updateAt,
      getOptional, Option.getD_none]
  · norm_num
  · norm_num

/-- C15 (amended): construction fails and produces no mapper when a required key
(`caustic_factor` or `emissions`) is missing.  The constructor makes no other check: whenever
it produces a mapper, both keys are present and the mapper carries the accept probability
`1 / caustic_factor` and the configured or default values of the optional keys, whatever
the value of `caustic_factor` is. -/
theorem config_validation (env : Collaborators α σ) (fuel : Nat) (pm : PhotonMapConfig α)
    (scene : Scene α) (s : σ) :
    ((pm.caustic_factor = none ∨ pm.emissions = none) →
      construct env fuel pm scene s = none) ∧
    ∀ mapper s', construct env fuel pm scene s = some (mapper, s') →
      ∃ caustic_factor emissions, pm.caustic_factor = some caustic_factor ∧
        pm.emissions = some emissions ∧
        mapper.non_caustic_reject = 1 / caustic_factor ∧
        mapper.k_nearest_photons = getOptional pm.k_nearest_photons 50 ∧
        mapper.max_node_data = getOptional pm.max_photons_per_octree_leaf 200 ∧
        mapper.direct_visualization = getOptional pm.direct_visualization false := by
  constructor
  · intro h
    unfold construct
    rcases h with h | h
    · rw [h]
    · rw [h]
      cases pm.caustic_factor <;> rfl
  · intro mapper s' h
    unfold construct at h
    cases hcf : pm.caustic_factor with
    | none => simp [hcf] at h
    | some cf =>
      cases hem : pm.emissions with
      | none => simp [hcf, hem] at h
      | some em =>
        refine ⟨cf, em, rfl, rfl, ?_⟩
        simp only [hcf, hem] at h
        split at h
        · simp at h
        · rename_i work_vec hw
          split at h
          · simp at h
          · rename_i self1 s1 hrun
            obtain ⟨e1, e2, e3, e4⟩ := runWork_config env fuel scene _ _ _ _ hrun
            split at h
            · simp only [Option.some.injEq, Prod.mk.injEq] at h
              obtain ⟨rfl, _⟩ := h
              exact ⟨e1, e2, e3, e4⟩
            · simp at h

theorem config_validation_witness :
    construct idleCollaborators 10
      ({ caustic_factor := none, emissions := some 1000, k_nearest_photons := none,
         max_photons_per_octree_leaf := none, direct_visualization := none } :
        PhotonMapConfig ℚ) emptyScene () = none :=
  (config_validation idleCollaborators 10 _ emptyScene ()).1 (Or.inl rfl)

/-! ### Russian roulette -/

omit [FloorRing α] in
theorem compMax_sdiv (t : Vec3 α) (c : α) (hc : 0 < c) :
    (t.sdiv c).compMax = t.compMax / c := by
  simp only [Vec3.sdiv, Vec3.compMax]
  rw [max_div_div_right (le_of_lt hc), max_div_div_right (le_of_lt hc)]

omit [FloorRing α] in
theorem le_compMax (t : Vec3 α) : t.x ≤ t.compMax ∧ t.y ≤ t.compMax ∧ t.z ≤ t.compMax := by
  unfold Vec3.compMax
  exact ⟨le_trans (le_max_left _ _) (le_max_left _ _),
    le_trans (le_max_right _ _) (le_max_left _ _), le_max_right _ _⟩

/-- C14: one bounce of `emitPhoton` whose BSDF sampling succeeds with throughput factor
`t = bsdf_absIdotN / bsdf_pdf`, for an absorb variate `u ≥ 0` and
`survive = min(compMax(t), 0.95)`: the path ends at this bounce exactly when `survive ≤ u`,
in particular whenever `survive ≤ 0`; otherwise `0 < survive ≤ 0.95` and the loop goes on
with the flux `flux * t / survive`.  When the largest component of `t` is at most `0.95`
(and positive), the largest component of `t / survive` is exactly `1`, and no component of a
non-negative flux grows. -/
theorem roulette_rule (env : Collaborators α σ) (fuel : Nat) (self : PhotonMapper α) (s : σ)
    (ray : Ray α) (flux : Vec3 α) (interaction : Interaction α) (bsdf_absIdotN : Vec3 α)
    (bsdf_pdf : α) (ray' : Ray α) (s' : σ)
    (hhit : env.intersect (env.shuffle s) ray = some interaction)
    (hbsdf : env.sampleBSDF (deposit env self (env.shuffle s) interaction ray flux).2
      interaction ray true = (some (bsdf_absIdotN, bsdf_pdf, ray'), s'))
    (hu0 : 0 ≤ (env.get_ABSORB s').1) :
    ((∃ r, emitPhotonLoop env 1 self s ray flux = some r) ↔
      min (bsdf_absIdotN.sdiv bsdf_pdf).compMax (95 / 100) ≤ (env.get_ABSORB s').1) ∧
    (min (bsdf_absIdotN.sdiv bsdf_pdf).compMax (95 / 100) ≤ (env.get_ABSORB s').1 →
      ∃ s'', emitPhotonLoop env (fuel + 1) self s ray flux
        = some ((deposit env self (env.shuffle s) interaction ray flux).1, s'')) ∧
    (min (bsdf_absIdotN.sdiv bsdf_pdf).compMax (95 / 100) ≤ 0 →
      min (bsdf_absIdotN.sdiv bsdf_pdf).compMax (95 / 100) ≤ (env.get_ABSORB s').1) ∧
    (¬ min (bsdf_absIdotN.sdiv bsdf_pdf).compMax (95 / 100) ≤ (env.get_ABSORB s').1 →
      0 < min (bsdf_absIdotN.sdiv bsdf_pdf).compMax (95 / 100) ∧
      min (bsdf_absIdotN.sdiv bsdf_pdf).compMax (95 / 100) ≤ 95 / 100 ∧
      emitPhotonLoop env (fuel + 1) self s ray flux
        = emitPhotonLoop env fuel (deposit env self (env.shuffle s) interaction ray flux).1
            (env.updateHistory (env.get_ABSORB s').2 ray') ray'
            (flux.mul ((bsdf_absIdotN.sdiv bsdf_pdf).sdiv
              (min (bsdf_absIdotN.sdiv bsdf_pdf).compMax (95 / 100))))) ∧
    ((bsdf_absIdotN.sdiv bsdf_pdf).compMax ≤ 95 / 100 →
      0 < (bsdf_absIdotN.sdiv bsdf_pdf).compMax →
      ((bsdf_absIdotN.sdiv bsdf_pdf).sdiv
        (min (bsdf_absIdotN.sdiv bsdf_pdf).compMax (95 / 100))).compMax = 1 ∧
      (0 ≤ flux.x → (flux.mul ((bsdf_absIdotN.sdiv bsdf_pdf).sdiv
        (min (bsdf_absIdotN.sdiv bsdf_pdf).compMax (95 / 100)))).x ≤ flux.x) ∧
      (0 ≤ flux.y → (flux.mul ((bsdf_absIdotN.sdiv bsdf_pdf).sdiv
        (min (bsdf_absIdotN.sdiv bsdf_pdf).compMax (95 / 100)))).y ≤ flux.y) ∧
      (0 ≤ flux.z → (flux.mul ((bsdf_absIdotN.sdiv bsdf_pdf).sdiv
        (min (bsdf_absIdotN.sdiv bsdf_pdf).compMax (95 / 100)))).z ≤ flux.z)) := by
  generalize hsv : min (bsdf_absIdotN.sdiv bsdf_pdf).compMax (95 / 100) = sv
  have hstep : ∀ f : Nat, emitPhotonLoop env (f + 1) self s ray flux
      = if sv = 0 then some ((deposit env self (env.shuffle s) interaction ray flux).1, s')
        else if sv ≤ (env.get_ABSORB s').1 then
          some ((deposit env self (env.shuffle s) interaction ray flux).1,
            (env.get_ABSORB s').2)
        else emitPhotonLoop env f (deposit env self (env.shuffle s) interaction ray flux).1
          (env.updateHistory (env.get_ABSORB s').2 ray') ray'
          (flux.mul ((bsdf_absIdotN.sdiv bsdf_pdf).sdiv sv)) := by
    intro f
    simp only [emitPhotonLoop, hhit, hbsdf, hsv]
  refine ⟨?_, ?_, fun h => le_trans h hu0, ?_, ?_⟩
  · rw [hstep 0]
    constructor
    · rintro ⟨r, hr⟩
      by_cases h0 : sv = 0
      · rw [h0]
        exact hu0
      · rw [if_neg h0] at hr
        by_contra hle
        rw [if_neg hle] at hr
        simp [emitPhotonLoop] at hr
    · intro hle
      by_cases h0 : sv = 0
      · rw [if_pos h0]
        exact ⟨_, rfl⟩
      · rw [if_neg h0, if_pos hle]
        exact ⟨_, rfl⟩
  · intro hle
    rw [hstep fuel]
    by_cases h0 : sv = 0
    · rw [if_pos h0]
      exact ⟨_, rfl⟩
    · rw [if_neg h0, if_pos hle]
      exact ⟨_, rfl⟩
  · intro hle
    have hpos : 0 < sv := lt_of_le_of_lt hu0 (not_le.1 hle)
    refine ⟨hpos, ?_, ?_⟩
    · rw [← hsv]
      exact min_le_right _ _
    · rw [hstep fuel, if_neg (ne_of_gt hpos), if_neg hle]
  · intro hmax hpos
    have hsvm : sv = (bsdf_absIdotN.sdiv bsdf_pdf).compMax := by
      rw [← hsv]
      exact min_eq_left hmax
    rw [hsvm]
    obtain ⟨hx, hy, hz⟩ := le_compMax (bsdf_absIdotN.sdiv bsdf_pdf)
    refine ⟨?_, ?_, ?_, ?_⟩
    · rw [compMax_sdiv _ _ hpos, div_self (ne_of_gt hpos)]
    · intro hf
      show flux.x * ((bsdf_absIdotN.sdiv bsdf_pdf).x / _) ≤ flux.x
      exact mul_le_of_le_one_right hf ((div_le_one hpos).2 hx)
    · intro hf
      show flux.y * ((bsdf_absIdotN.sdiv bsdf_pdf).y / _) ≤ flux.y
      exact mul_le_of_le_one_right hf ((div_le_one hpos).2 hy)
    · intro hf
      show flux.z * ((bsdf_absIdotN.sdiv bsdf_pdf).z / _) ≤ flux.z
      exact mul_le_of_le_one_right hf ((div_le_one hpos).2 hz)

theorem roulette_rule_witness :
    bounceCollaborators.intersect (bounceCollaborators.shuffle ())
      (Ray.new ⟨0, 0, 1⟩ ⟨0, 0, -1⟩ 1) = some ⟨⟨0, 0, 0⟩, false, false⟩ ∧
    (0 : ℚ) ≤ (bounceCollaborators.get_ABSORB ()).1 ∧
    ¬ min ((⟨1 / 2, 1 / 4, 1 / 4⟩ : Vec3 ℚ).sdiv 1).compMax (95 / 100)
      ≤ (bounceCollaborators.get_ABSORB ()).1 ∧
    0 < min ((⟨1 / 2, 1 / 4, 1 / 4⟩ : Vec3 ℚ).sdiv 1).compMax (95 / 100) ∧
    emitPhotonLoop bounceCollaborators (0 + 1) sampleMapper ()
        (Ray.new ⟨0, 0, 1⟩ ⟨0, 0, -1⟩ 1) ⟨1, 1, 1⟩ = none := by
  have hu : (bounceCollaborators.get_ABSORB ()).1 = 1 / 4 := rfl
  have hsv : min ((⟨1 / 2, 1 / 4, 1 / 4⟩ : Vec3 ℚ).sdiv 1).compMax (95 / 100) = 1 / 2 := by
    simp only [Vec3.sdiv, Vec3.compMax, div_one]
    norm_num
  have hnle : ¬ min ((⟨1 / 2, 1 / 4, 1 / 4⟩ : Vec3 ℚ).sdiv 1).compMax (95 / 100)
      ≤ (bounceCollaborators.get_ABSORB ()).1 := by
    rw [hsv, hu]
    norm_num
  have h := (roulette_rule bounceCollaborators 0 sampleMapper ()
    (Ray.new ⟨0, 0, 1⟩ ⟨0, 0, -1⟩ 1) ⟨1, 1, 1⟩ ⟨⟨0, 0, 0⟩, false, false⟩
    ⟨1 / 2, 1 / 4, 1 / 4⟩ 1 (Ray.new ⟨0, 0, 1⟩ ⟨0, 0, -1⟩ 1) () rfl rfl
    (by rw [hu]; norm_num)).2.2.2.1 hnle
  refine ⟨rfl, by rw [hu]; norm_num, hnle, h.1, ?_⟩
  rw [h.2.2]
  rfl

/-! ### The per-pixel integrator -/

omit [FloorRing α] in
theorem sampleRayTail_radiance (env : Collaborators α σ) (ienv : IntegratorCollaborators α σ)
    (s : σ) (ray : Ray α) (radiance throughput : Vec3 α) (ls : LightSample α) :
    (sampleRayTail env ienv s ray radiance throughput ls).radiance = radiance := by
  unfold sampleRayTail
  by_cases h : (ienv.absorb s ray throughput).1.1 = true
  · simp only [h, if_true]
    rfl
  · simp only [h, if_false]
    rfl

omit [FloorRing α] in
/-- The BSDF sampling and the end of the iteration do not change the radiance. -/
theorem sampleRayContinue_radiance (env : Collaborators α σ)
    (ienv : IntegratorCollaborators α σ) (s : σ) (interaction : Interaction α) (ray : Ray α)
    (radiance throughput : Vec3 α) (ls : LightSample α) :
    (sampleRayContinue env ienv s interaction ray radiance throughput ls).radiance
      = radiance := by
  unfold sampleRayContinue
  split
  · rfl
  · exact sampleRayTail_radiance env ienv _ _ _ _ _

/-- C13: `sampleRay` at a hit whose interaction is not dirac-delta; `emissive` is what
`sampleEmissive` returns there, `direct` what `sampleDirect` returns when it is called after
it, `caustic` the caustic estimate.  The caustic estimate times the throughput is always
added.  If `direct_visualization` is off and the incoming ray is dirac-delta or has depth 0,
the direct illumination times the throughput is added and the path continues by BSDF
sampling: when the sampling fails `sampleRay` returns the radiance; when it succeeds with
factor `b`, pdf `pdf` and the new ray `ray2`, the throughput is multiplied by `b / pdf` and,
unless `absorb` ends the path, the loop goes on from `ray2` with that throughput.  The global
map is not consulted in this case.  Otherwise the global estimate times the throughput is
added and `sampleRay` returns at once; this is always the case when `direct_visualization` is
on.  The two additions exclude each other. -/
theorem sampleRay_non_dirac_hit (env : Collaborators α σ) (ienv : IntegratorCollaborators α σ)
    (self : PhotonMapper α) (s s1 s2 : σ) (ray : Ray α) (interaction : Interaction α)
    (radiance throughput : Vec3 α) (ls ls1 ls2 : LightSample α)
    (emissive direct caustic : Vec3 α)
    (hnd : interaction.dirac_delta = false)
    (hemi : ienv.sampleEmissive s interaction ls = ((emissive, ls1), s1))
    (hdir : ienv.sampleDirect s1 interaction ls1 = ((direct, ls2), s2))
    (hcau : estimateCausticRadiance env self interaction = some caustic) :
    (self.direct_visualization = false → (ray.dirac_delta = true ∨ ray.depth = 0) →
      sampleRayHit env ienv self s ray interaction radiance throughput ls
        = some (sampleRayContinue env ienv s2 interaction ray
            (((radiance.add (emissive.mul throughput)).add (caustic.mul throughput)).add
              (direct.mul throughput))
            throughput ls2) ∧
      (∀ s3, env.sampleBSDF s2 interaction ray false = (none, s3) →
        sampleRayHit env ienv self s ray interaction radiance throughput ls
          = some (.ret
              (((radiance.add (emissive.mul throughput)).add (caustic.mul throughput)).add
                (direct.mul throughput)) s3) ∧
        ∀ (fuel : Nat) (s0 : σ), env.shuffle s0 = s → env.intersect s ray = some interaction →
          sampleRayLoop env ienv self (fuel + 1) s0 ray radiance throughput ls
            = some (((radiance.add (emissive.mul throughput)).add
                (caustic.mul throughput)).add (direct.mul throughput), s3)) ∧
      (∀ (b : Vec3 α) (pdf : α) (ray2 : Ray α) (s3 s4 : σ) (absorbed : Bool) (thr2 : Vec3 α),
        env.sampleBSDF s2 interaction ray false = (some (b, pdf, ray2), s3) →
        ienv.absorb s3 ray2 (throughput.mul (b.sdiv pdf)) = ((absorbed, thr2), s4) →
        (absorbed = true →
          sampleRayHit env ienv self s ray interaction radiance throughput ls
            = some (.ret
                (((radiance.add (emissive.mul throughput)).add (caustic.mul throughput)).add
                  (direct.mul throughput)) s4)) ∧
        (absorbed = false →
          sampleRayHit env ienv self s ray interaction radiance throughput ls
            = some (.next (env.updateHistory s4 ray2) ray2
                (((radiance.add (emissive.mul throughput)).add (caustic.mul throughput)).add
                  (direct.mul throughput))
                thr2 { ls2 with bsdf_pdf := pdf }) ∧
          ∀ (fuel : Nat) (s0 : σ), env.shuffle s0 = s →
            env.intersect s ray = some interaction →
            sampleRayLoop env ienv self (fuel + 1) s0 ray radiance throughput ls
              = sampleRayLoop env ienv self fuel (env.updateHistory s4 ray2) ray2
                  (((radiance.add (emissive.mul throughput)).add
                    (caustic.mul throughput)).add (direct.mul throughput))
                  thr2 { ls2 with bsdf_pdf := pdf })) ∧
      (∀ step, sampleRayHit env ienv self s ray interaction radiance throughput ls = some step →
        step.radiance =
          ((radiance.add (emissive.mul throughput)).add (caustic.mul throughput)).add
            (direct.mul throughput)) ∧
      ∀ m, sampleRayHit env ienv { self with global_map := m } s ray interaction radiance
          throughput ls
        = sampleRayHit env ienv self s ray interaction radiance throughput ls) ∧
    ((self.direct_visualization = true ∨ (ray.dirac_delta = false ∧ ray.depth ≠ 0)) →
      ∀ glob, estimateGlobalRadiance env self interaction = some glob →
        sampleRayHit env ienv self s ray interaction radiance throughput ls
          = some (.ret
              (((radiance.add (emissive.mul throughput)).add (caustic.mul throughput)).add
                (glob.mul throughput)) s1) ∧
        ∀ (fuel : Nat) (s0 : σ), env.shuffle s0 = s → env.intersect s ray = some interaction →
          sampleRayLoop env ienv self (fuel + 1) s0 ray radiance throughput ls
            = some (((radiance.add (emissive.mul throughput)).add
                (caustic.mul throughput)).add (glob.mul throughput), s1)) := by
  constructor
  · intro hdv hray
    have hcond : (!self.direct_visualization && (ray.dirac_delta || ray.depth == 0)) = true := by
      rw [hdv]
      rcases hray with h | h
      · simp [h]
      · simp [h]
    have hcau2 : ∀ m, estimateCausticRadiance env { self with global_map := m } interaction
        = some caustic := by
      intro m
      rw [← hcau]
      rfl
    have hval : ∀ self2 : PhotonMapper α,
        self2.direct_visualization = self.direct_visualization →
        estimateCausticRadiance env self2 interaction = some caustic →
        sampleRayHit env ienv self2 s ray interaction radiance throughput ls
        = some (sampleRayContinue env ienv s2 interaction ray
            (((radiance.add (emissive.mul throughput)).add (caustic.mul throughput)).add
              (direct.mul throughput))
            throughput ls2) := by
      intro self2 hdv2 hc2
      unfold sampleRayHit
      simp only [hnd, Bool.false_eq_true, if_false, hc2, hdv2, hcond, if_true, hemi, hdir]
    refine ⟨hval self rfl hcau, ?_, ?_, ?_, ?_⟩
    · intro s3 hfail
      have hstep : sampleRayHit env ienv self s ray interaction radiance throughput ls
          = some (.ret
              (((radiance.add (emissive.mul throughput)).add (caustic.mul throughput)).add
                (direct.mul throughput)) s3) := by
        rw [hval self rfl hcau]
        simp only [sampleRayContinue, hfail]
      refine ⟨hstep, ?_⟩
      intro fuel s0 hs hhit
      simp only [sampleRayLoop, hs, hhit, hstep]
    · intro b pdf ray2 s3 s4 absorbed thr2 hbsdf habs
      constructor
      · intro ha
        rw [hval self rfl hcau]
        simp only [sampleRayContinue, hbsdf, sampleRayTail, habs, ha, if_true]
      · intro ha
        have hstep : sampleRayHit env ienv self s ray interaction radiance throughput ls
            = some (.next (env.updateHistory s4 ray2) ray2
                (((radiance.add (emissive.mul throughput)).add (caustic.mul throughput)).add
                  (direct.mul throughput))
                thr2 { ls2 with bsdf_pdf := pdf }) := by
          rw [hval self rfl hcau]
          simp only [sampleRayContinue, hbsdf, sampleRayTail, habs, ha, Bool.false_eq_true,
            if_false]
        refine ⟨hstep, ?_⟩
        intro fuel s0 hs hhit
        simp only [sampleRayLoop, hs, hhit, hstep]
    · intro step hstep
      rw [hval self rfl hcau] at hstep
      cases hstep
      exact sampleRayContinue_radiance env ienv _ _ _ _ _ _
    · intro m
      rw [hval self rfl hcau, hval { self with global_map := m } rfl (hcau2 m)]
  · intro hcase glob hglob
    have hcond : (!self.direct_visualization && (ray.dirac_delta || ray.depth == 0)) = false := by
      rcases hcase with h | ⟨h1, h2⟩
      · simp [h]
      · simp [h1, h2]
    have hval : sampleRayHit env ienv self s ray interaction radiance throughput ls
        = some (.ret
            (((radiance.add (emissive.mul throughput)).add (caustic.mul throughput)).add
              (glob.mul throughput)) s1) := by
      unfold sampleRayHit
      simp only [hnd, Bool.false_eq_true, if_false, hcau, hcond, hglob, hemi]
    refine ⟨hval, ?_⟩
    intro fuel s0 hs hhit
    simp only [sampleRayLoop, hs, hhit, hval]

theorem sampleRay_non_dirac_hit_witness :
    (⟨⟨0, 0, 0⟩, false, false⟩ : Interaction ℚ).dirac_delta = false ∧
    idleIntegrator.sampleEmissive () ⟨⟨0, 0, 0⟩, false, false⟩ ⟨0⟩ = ((⟨0, 0, 0⟩, ⟨0⟩), ()) ∧
    idleIntegrator.sampleDirect () ⟨⟨0, 0, 0⟩, false, false⟩ ⟨0⟩ = ((⟨1, 1, 1⟩, ⟨0⟩), ()) ∧
    estimateCausticRadiance bounceCollaborators sampleMapper ⟨⟨0, 0, 0⟩, false, false⟩
      = some (Vec3.splat 0) ∧
    sampleMapper.direct_visualization = false ∧
    (Ray.new ⟨0, 0, 1⟩ ⟨0, 0, -1⟩ (1 : ℚ)).depth = 0 ∧
    bounceCollaborators.sampleBSDF () ⟨⟨0, 0, 0⟩, false, false⟩
        (Ray.new ⟨0, 0, 1⟩ ⟨0, 0, -1⟩ 1) false
      = (some (⟨1 / 2, 1 / 4, 1 / 4⟩, 1, Ray.new ⟨0, 0, 1⟩ ⟨0, 0, -1⟩ 1), ()) ∧
    idleIntegrator.absorb () (Ray.new ⟨0, 0, 1⟩ ⟨0, 0, -1⟩ (1 : ℚ))
        ((⟨1, 1, 1⟩ : Vec3 ℚ).mul ((⟨1 / 2, 1 / 4, 1 / 4⟩ : Vec3 ℚ).sdiv 1))
      = ((false, (⟨1, 1, 1⟩ : Vec3 ℚ).mul ((⟨1 / 2, 1 / 4, 1 / 4⟩ : Vec3 ℚ).sdiv 1)), ()) ∧
    sampleRayHit bounceCollaborators idleIntegrator sampleMapper ()
        (Ray.new ⟨0, 0, 1⟩ ⟨0, 0, -1⟩ 1) ⟨⟨0, 0, 0⟩, false, false⟩ ⟨0, 0, 0⟩ ⟨1, 1, 1⟩ ⟨0⟩
      = some (.next () (Ray.new ⟨0, 0, 1⟩ ⟨0, 0, -1⟩ 1)
          ((((⟨0, 0, 0⟩ : Vec3 ℚ).add ((⟨0, 0, 0⟩ : Vec3 ℚ).mul ⟨1, 1, 1⟩)).add
            ((Vec3.splat 0 : Vec3 ℚ).mul ⟨1, 1, 1⟩)).add ((⟨1, 1, 1⟩ : Vec3 ℚ).mul ⟨1, 1, 1⟩))
          ((⟨1, 1, 1⟩ : Vec3 ℚ).mul ((⟨1 / 2, 1 / 4, 1 / 4⟩ : Vec3 ℚ).sdiv 1)) ⟨1⟩) :=
  ⟨rfl, rfl, rfl, rfl, rfl, rfl, rfl, rfl,
    ((((sampleRay_non_dirac_hit bounceCollaborators idleIntegrator sampleMapper () () ()
      (Ray.new ⟨0, 0, 1⟩ ⟨0, 0, -1⟩ 1) ⟨⟨0, 0, 0⟩, false, false⟩ ⟨0, 0, 0⟩ ⟨1, 1, 1⟩ ⟨0⟩ ⟨0⟩ ⟨0⟩
      ⟨0, 0, 0⟩ ⟨1, 1, 1⟩ (Vec3.splat 0) rfl rfl rfl rfl).1 rfl (Or.inr rfl)).2.2.1
        ⟨1 / 2, 1 / 4, 1 / 4⟩ 1 (Ray.new ⟨0, 0, 1⟩ ⟨0, 0, -1⟩ 1) () () false _ rfl rfl).2
          rfl).1⟩

end EmissionProofs

/-! ## Safety and termination of the searches -/

section SafetyProofs

open Octree LinearOctree

variable {α D : Type} [LinearOrderedCommRing α]

omit [LinearOrderedCommRing α] in
theorem apart_symm (a b : Octree α D × Nat) (h : Apart a b) : Apart b a := by
  unfold Apart at h ⊢
  exact h.symm

omit [LinearOrderedCommRing α] in
theorem safeRun_perm (len : Nat) (log : List Nat) (L L' : List (Octree α D × Nat))
    (h : SafeRun len log L) (hp : L.Perm L') : SafeRun len log L' := by
  obtain ⟨h1, h2, h3, h4⟩ := h
  refine ⟨(hp.pairwise_iff (fun {a b} hab => apart_symm a b hab)).1 h1, h2, h3, ?_⟩
  intro j hj g hg
  exact h4 j hj g (hp.mem_iff.2 hg)

omit [LinearOrderedCommRing α] in
/-- Pushing children of a visited subtree keeps the invariant of the pushes. -/
theorem safeRun_step (len : Nat) (log : List Nat) (sub : Octree α D) (i : Nat)
    (pend pushed : List (Octree α D × Nat)) (h : SafeRun len log ((sub, i) :: pend))
    (hin : ∀ g ∈ pushed, i < g.2 ∧ g.2 + (emitted g.1).length ≤ i + (emitted sub).length ∧
      g.2 < len)
    (hsorted : pushed.Pairwise (fun a b => a.2 + (emitted a.1).length ≤ b.2)) :
    SafeRun len (log ++ pushed.map Prod.snd) (pend ++ pushed) := by
  obtain ⟨h1, h2, h3, h4⟩ := h
  rw [List.pairwise_cons] at h1
  obtain ⟨hsub, hpend⟩ := h1
  refine ⟨?_, ?_, ?_, ?_⟩
  · rw [List.pairwise_append]
    refine ⟨hpend, hsorted.imp (fun hab => Or.inl hab), ?_⟩
    intro a ha b hb
    obtain ⟨hb1, hb2, _⟩ := hin b hb
    have hpos := emitted_length_pos b.1
    rcases hsub a ha with h | h
    · simp only at h
      exact Or.inr (by omega)
    · simp only at h
      exact Or.inl (by omega)
  · rw [List.nodup_append]
    refine ⟨h2, ?_, ?_⟩
    · unfold List.Nodup
      rw [List.pairwise_map]
      refine hsorted.imp ?_
      intro a b hab
      have hpos := emitted_length_pos a.1
      omega
    · intro j hj hj'
      obtain ⟨g, hg, rfl⟩ := List.mem_map.1 hj'
      obtain ⟨hg1, hg2, _⟩ := hin g hg
      have hpos := emitted_length_pos g.1
      rcases h4 g.2 hj (sub, i) (List.mem_cons_self _ _) with h | h
      · simp only at h
        omega
      · simp only at h
        omega
  · intro j hj
    rcases List.mem_append.1 hj with hj | hj
    · exact h3 j hj
    · obtain ⟨g, hg, rfl⟩ := List.mem_map.1 hj
      exact (hin g hg).2.2
  · intro j hj g hg
    rcases List.mem_append.1 hj with hj | hj
    · rcases List.mem_append.1 hg with hg | hg
      · exact h4 j hj g (List.mem_cons_of_mem _ hg)
      · obtain ⟨hg1, hg2, _⟩ := hin g hg
        rcases h4 j hj (sub, i) (List.mem_cons_self _ _) with h | h
        · simp only at h
          exact Or.inl (by omega)
        · simp only at h
          exact Or.inr (by omega)
    · obtain ⟨g', hg', rfl⟩ := List.mem_map.1 hj
      obtain ⟨hg1, hg2, _⟩ := hin g' hg'
      have hpos' := emitted_length_pos g'.1
      rcases List.mem_append.1 hg with hg | hg
      · rcases hsub g hg with h | h
        · simp only at h
          exact Or.inl (by omega)
        · simp only at h
          exact Or.inr (by omega)
      · -- both are pushed children
        obtain ⟨n1, hn1⟩ := List.mem_iff_getElem.1 hg'
        obtain ⟨n2, hn2⟩ := List.mem_iff_getElem.1 hg
        obtain ⟨hn1l, hn1e⟩ := hn1
        obtain ⟨hn2l, hn2e⟩ := hn2
        have hpos := emitted_length_pos g.1
        rcases Nat.lt_trichotomy n1 n2 with hlt | heq | hgt
        · have := List.pairwise_iff_getElem.1 hsorted n1 n2 hn1l hn2l hlt
          rw [hn1e, hn2e] at this
          exact Or.inl (by omega)
        · subst heq
          rw [hn1e] at hn2e
          rw [hn2e]
          exact Or.inl (le_refl _)
        · have := List.pairwise_iff_getElem.1 hsorted n2 n1 hn2l hn1l hgt
          rw [hn1e, hn2e] at this
          exact Or.inr (by omega)

/-! ### The k-nearest-neighbour search -/

/-- The body of the data loop always yields a state. -/
theorem knnVisit_total (p : Vec3 α) (k : Nat) (hk1 : 1 ≤ k) (hk64 : k < 2 ^ 64) (data : D)
    (pd : Vec3 α) (st : KnnState α D) :
    ∃ st', knnVisit p k data pd st = some st' ∧ st'.to_visit = st.to_visit := by
  unfold knnVisit
  simp only [PriorityQueue.size, wrap_pred k hk1 hk64]
  by_cases hd : ((Vec3.distance2 pd p : α) : WithTop α) ≤ st.max_distance2
  · rw [if_pos hd]
    by_cases hsz : st.result.length < k - 1
    · rw [if_pos hsz]
      exact ⟨_, rfl, rfl⟩
    · rw [if_neg hsz]
      by_cases hne : st.result.length ≠ k
      · simp only [hne, ne_eq, not_false_eq_true, if_true]
        obtain ⟨t, ht⟩ := top_of_length_pos (PriorityQueue.make_heap SearchResult.lt
            (PriorityQueue.push_unordered st.result ⟨data, Vec3.distance2 pd p⟩)) (by
          rw [(PriorityQueue.make_heap_perm _ _).length_eq]
          simp [PriorityQueue.push_unordered])
        rw [ht]
        exact ⟨_, rfl, (updateMaxDistance_result _ _).2.1⟩
      · have heq : st.result.length = k := not_not.1 hne
        simp only [heq, ne_eq, not_true_eq_false, if_false]
        obtain ⟨t, ht⟩ := top_of_length_pos (PriorityQueue.pop_push SearchResult.lt st.result
            ⟨data, Vec3.distance2 pd p⟩) (by
          cases hr : st.result with
          | nil => rw [hr] at heq; simp at heq; omega
          | cons a as =>
            rw [(PriorityQueue.pop_push_perm _ a as _).length_eq]
            simp)
        rw [ht]
        exact ⟨_, rfl, (updateMaxDistance_result _ _).2.1⟩
  · rw [if_neg hd]
    exact ⟨st, rfl, rfl⟩

/-- The recorded data loop over a range that lies inside `ordered_data` ends without an
out-of-range access; it pushes nothing. -/
theorem knnScanLog_total (pos : D → Vec3 α) (lin : LinearOctree α D) (p : Vec3 α) (k : Nat)
    (hk1 : 1 ≤ k) (hk64 : k < 2 ^ 64) :
    ∀ (l pre post : List D) (st : KnnState α D) (log : KnnLog α D),
      lin.ordered_data = pre ++ l ++ post →
      ∃ st' log', knnScanLog pos lin p k l.length pre.length st log = some (st', log') ∧
        st'.to_visit = st.to_visit ∧ log'.pushed = log.pushed
  | [], pre, post, st, log, _ => ⟨st, log, rfl, rfl, rfl⟩
  | x :: xs, pre, post, st, log, h => by
    have hx : lin.ordered_data.get? pre.length = some x := by
      rw [h, List.append_assoc, List.cons_append, get?_append_self]
    obtain ⟨st1, h1, h2⟩ := knnVisit_total p k hk1 hk64 x (pos x) st
    obtain ⟨st', log', e1, e2, e3⟩ := knnScanLog_total pos lin p k hk1 hk64 xs (pre ++ [x]) post
      st1 ⟨log.states ++ [st1], log.pushed⟩ (by rw [h]; simp)
    simp only [List.length_append, List.length_singleton] at e1
    refine ⟨st', log', ?_, e2.trans h2, e3⟩
    simp only [List.length_cons, knnScanLog, hx, h1, e1]

/-- The recorded child loop of `knnSearch` over a child array that is laid out in the tree:
it ends, reads only nodes of the tree, and the pushed children occupy consecutive disjoint
index ranges inside the range of the child array. -/
theorem knnChildrenLog_safe (pos : D → Vec3 α) (lin : LinearOctree α D) (p : Vec3 α) (k : Nat) :
    ∀ (cs : List (Octree α D)) (j s fuel : Nat) (st : KnnState α D) (log : KnnLog α D),
      OctreeLayoutList pos lin cs j s → internalNonEmptyList cs = true →
      lin.linear_tree.length ≤ fuel + j →
      ∃ st' log' pushed, knnChildrenLog lin p k fuel (chainStart cs j) st log = some (st', log') ∧
        log'.pushed = log.pushed ++ pushed.map Prod.snd ∧
        (st'.to_visit.map DNode.octant).Perm
          (st.to_visit.map DNode.octant ++ pushed.map Prod.snd) ∧
        (∀ g ∈ pushed, PendingS pos lin g ∧ j ≤ g.2 ∧
          g.2 + (emitted g.1).length ≤ j + (emittedList cs).length) ∧
        pushed.Pairwise (fun a b => a.2 + (emitted a.1).length ≤ b.2) ∧
        pendingSize pushed ≤ (emittedList cs).length
  | [], j, s, fuel, st, log, _, _, _ => by
    refine ⟨st, log, [], ?_, by simp, by simp, by simp, List.Pairwise.nil, by simp [pendingSize]⟩
    simp [chainStart, knnChildrenLog_none]
  | c :: cs, j, s, fuel, st, log, hlay, hine, hfuel => by
    simp only [internalNonEmptyList, Bool.and_eq_true] at hine
    by_cases hu : c.used = true
    · simp only [OctreeLayoutList, hu, if_true] at hlay
      obtain ⟨hc, hcs⟩ := hlay
      obtain ⟨hnode, _⟩ := layout_node pos lin c j s _ hc
      have hjl : j < lin.linear_tree.length := (List.get?_eq_some.1 hnode).1
      obtain ⟨fuel', rfl⟩ : ∃ f, fuel = f + 1 := ⟨fuel - 1, by omega⟩
      have hsz := emitted_length_pos c
      have hstart : chainStart (c :: cs) j = some j := by simp [chainStart, hu]
      have hnext : (if !(cs.any Octree.used) then none else some (j + (emitted c).length))
          = chainStart cs (j + (emitted c).length) := by
        unfold chainStart
        cases cs.any Octree.used <;> rfl
      have hlen : (emittedList (c :: cs)).length
          = (emitted c).length + (emittedList cs).length := by
        simp [emittedList, hu]
      rw [hstart]
      simp only [knnChildrenLog, hnode, hnext]
      by_cases h1 : (hull pos c).distance2 p ≤ st.max_distance2
      · simp only [h1, if_true]
        have hrec : ∀ st1 : KnnState α D,
            st1.to_visit = PriorityQueue.push DNode.lt st.to_visit
              ⟨(hull pos c).distance2 p, j⟩ →
            ∃ st' log' pushed,
              knnChildrenLog lin p k fuel' (chainStart cs (j + (emitted c).length)) st1
                ⟨log.states ++ [st1], log.pushed ++ [j]⟩ = some (st', log') ∧
              log'.pushed = log.pushed ++ pushed.map Prod.snd ∧
              (st'.to_visit.map DNode.octant).Perm
                (st.to_visit.map DNode.octant ++ pushed.map Prod.snd) ∧
              (∀ g ∈ pushed, PendingS pos lin g ∧ j ≤ g.2 ∧
                g.2 + (emitted g.1).length ≤ j + (emittedList (c :: cs)).length) ∧
              pushed.Pairwise (fun a b => a.2 + (emitted a.1).length ≤ b.2) ∧
              pendingSize pushed ≤ (emittedList (c :: cs)).length := by
          intro st1 htv
          obtain ⟨st', log', pushed, e1, e2, e3, e4, e5, e6⟩ :=
            knnChildrenLog_safe pos lin p k cs (j + (emitted c).length)
              (s + (flatten c).length) fuel' st1 ⟨log.states ++ [st1], log.pushed ++ [j]⟩
              hcs hine.2 (by omega)
          refine ⟨st', log', (c, j) :: pushed, e1, ?_, ?_, ?_, ?_, ?_⟩
          · rw [e2]
            simp
          · refine e3.trans ?_
            rw [htv]
            have hp := (PriorityQueue.push_perm DNode.lt st.to_visit
              ⟨(hull pos c).distance2 p, j⟩).map DNode.octant
            simp only [List.map_cons] at hp ⊢
            refine (hp.append_right _).trans ?_
            simp only [List.cons_append]
            exact List.perm_middle.symm
          · intro g hg
            rcases List.mem_cons.1 hg with rfl | hg
            · refine ⟨⟨⟨s, _, hc⟩, hine.1⟩, le_refl _, ?_⟩
              show j + (emitted c).length ≤ _
              rw [hlen]
              omega
            · obtain ⟨a1, a2, a3⟩ := e4 g hg
              exact ⟨a1, by omega, by rw [hlen]; omega⟩
          · rw [List.pairwise_cons]
            refine ⟨?_, e5⟩
            intro g hg
            exact (e4 g hg).2.1
          · rw [hlen]
            simp only [pendingSize, List.map_cons, List.sum_cons]
            unfold pendingSize at e6
            omega
        by_cases h2 : (flatten c).length ≥ k
        · simp only [h2, if_true]
          exact hrec _ (updateMaxDistance_result _ _).2.1
        · simp only [h2, if_false]
          exact hrec _ rfl
      · simp only [h1, if_false]
        obtain ⟨st', log', pushed, e1, e2, e3, e4, e5, e6⟩ :=
          knnChildrenLog_safe pos lin p k cs (j + (emitted c).length)
            (s + (flatten c).length) fuel' st ⟨log.states ++ [st], log.pushed⟩ hcs hine.2
            (by omega)
        refine ⟨st', log', pushed, e1, e2, e3, ?_, e5, by rw [hlen]; omega⟩
        intro g hg
        obtain ⟨a1, a2, a3⟩ := e4 g hg
        exact ⟨a1, by omega, by rw [hlen]; omega⟩
    · simp only [OctreeLayoutList, hu] at hlay
      have hstart : chainStart (c :: cs) j = chainStart cs j := by simp [chainStart, hu]
      have hlen : (emittedList (c :: cs)).length = (emittedList cs).length := by
        simp [emittedList, hu]
      rw [hstart, hlen]
      exact knnChildrenLog_safe pos lin p k cs j s fuel st log hlay hine.2 hfuel

omit [LinearOrderedCommRing α] in
theorem pendingSize_perm {a b : List (Octree α D × Nat)} (h : a.Perm b) :
    pendingSize a = pendingSize b := by
  unfold pendingSize
  exact (h.map _).sum_eq

theorem pendingS_lt (pos : D → Vec3 α) (lin : LinearOctree α D) (g : Octree α D × Nat)
    (h : PendingS pos lin g) : g.2 < lin.linear_tree.length := by
  obtain ⟨⟨s, nx, hlay⟩, _⟩ := h
  obtain ⟨hnode, _⟩ := layout_node pos lin g.1 g.2 s nx hlay
  exact (List.get?_eq_some.1 hnode).1

/-- The recorded main loop of `knnSearch` ends within the fuel, reads only nodes and data of
the tree, and pushes no node index twice. -/
theorem knnLoopLog_safe (pos : D → Vec3 α) (lin : LinearOctree α D) (p : Vec3 α) (k : Nat)
    (hk1 : 1 ≤ k) (hk64 : k < 2 ^ 64) :
    ∀ (fuel : Nat) (current : DNode α) (sub : Octree α D) (pend : List (Octree α D × Nat))
      (st : KnnState α D) (log : KnnLog α D),
      PendingS pos lin (sub, current.octant) → (∀ g ∈ pend, PendingS pos lin g) →
      (st.to_visit.map DNode.octant).Perm (pend.map Prod.snd) →
      SafeRun lin.linear_tree.length log.pushed ((sub, current.octant) :: pend) →
      (emitted sub).length + pendingSize pend ≤ fuel →
      ∃ result log', knnLoopLog pos lin p k fuel current st log = some (result, log') ∧
        log'.pushed.Nodup ∧ ∀ j ∈ log'.pushed, j < lin.linear_tree.length
  | 0, current, sub, pend, st, log, _, _, _, _, hfuel => by
    have := emitted_length_pos sub
    omega
  | fuel + 1, current, .mk b d cs, pend, st, log, hsub, hpend, htv, hsafe, hfuel => by
    obtain ⟨⟨s, nx, hlay⟩, hine⟩ := hsub
    obtain ⟨hnode, ⟨pre, post, hod, hpre⟩, hlist⟩ := hlay
    simp only at hine hnode hlist
    simp only [internalNonEmpty, Bool.and_eq_true, Bool.or_eq_true, Bool.not_eq_true'] at hine
    -- what happens after the node has been handled
    have hnext : ∀ (st1 : KnnState α D) (log1 : KnnLog α D)
        (pushed : List (Octree α D × Nat)),
        (st1.to_visit.map DNode.octant).Perm ((pend ++ pushed).map Prod.snd) →
        SafeRun lin.linear_tree.length log1.pushed (pend ++ pushed) →
        (∀ g ∈ pushed, PendingS pos lin g) →
        pendingSize pushed + 1 ≤ (emitted (Octree.mk b d cs)).length →
        ∃ result log',
          (if st1.to_visit.empty then some (st1.result, log1)
            else
              match PriorityQueue.top st1.to_visit with
              | none => none
              | some current =>
                if current.distance2 > st1.max_distance2 then some (st1.result, log1)
                else knnLoopLog pos lin p k fuel current
                  ⟨st1.result, st1.max_distance2, PriorityQueue.pop DNode.lt st1.to_visit⟩
                  ⟨log1.states ++
                    [⟨st1.result, st1.max_distance2, PriorityQueue.pop DNode.lt st1.to_visit⟩],
                    log1.pushed⟩) =
            some (result, log') ∧
          log'.pushed.Nodup ∧ ∀ j ∈ log'.pushed, j < lin.linear_tree.length := by
      intro st1 log1 pushed htv1 hsafe1 hpushed hsize
      cases htvl : st1.to_visit with
      | nil => exact ⟨st1.result, log1, by simp [PriorityQueue.empty], hsafe1.2.1, hsafe1.2.2.1⟩
      | cons cur rest =>
        have htop : PriorityQueue.top (cur :: rest) = some cur := rfl
        simp only [PriorityQueue.empty, List.isEmpty_cons, Bool.false_eq_true, if_false, htop]
        rw [htvl] at htv1
        by_cases hgt : cur.distance2 > st1.max_distance2
        · rw [if_pos hgt]
          exact ⟨st1.result, log1, rfl, hsafe1.2.1, hsafe1.2.2.1⟩
        · rw [if_neg hgt]
          have hcm : cur.octant ∈ (pend ++ pushed).map Prod.snd :=
            htv1.mem_iff.1 (by simp)
          obtain ⟨g, hg, hgc⟩ := List.mem_map.1 hcm
          obtain ⟨l1, l2, hsplit⟩ := List.append_of_mem hg
          have hperm2 : (pend ++ pushed).Perm (g :: (l1 ++ l2)) := by
            rw [hsplit]
            exact List.perm_middle
          have hP : ∀ g' ∈ g :: (l1 ++ l2), PendingS pos lin g' := by
            intro g' hg'
            have : g' ∈ pend ++ pushed := hperm2.mem_iff.2 hg'
            rcases List.mem_append.1 this with h | h
            · exact hpend g' h
            · exact hpushed g' h
          have hpop : ((PriorityQueue.pop DNode.lt (cur :: rest)).map DNode.octant).Perm
              ((l1 ++ l2).map Prod.snd) := by
            refine ((PriorityQueue.pop_perm DNode.lt cur rest).map _).trans ?_
            have := htv1.trans (hperm2.map Prod.snd)
            rw [List.map_cons, List.map_cons, hgc] at this
            exact this.cons_inv
          have hsz2 := pendingSize_perm hperm2
          have hsz3 : pendingSize (g :: (l1 ++ l2))
              = (emitted g.1).length + pendingSize (l1 ++ l2) := by
            simp [pendingSize]
          rw [pendingSize_append] at hsz2
          have hsafe2 := safeRun_perm _ _ _ _ hsafe1 hperm2
          obtain ⟨g1, g2⟩ := g
          simp only at hgc
          subst hgc
          exact knnLoopLog_safe pos lin p k hk1 hk64 fuel cur g1 (l1 ++ l2) _ _
            (hP _ (List.mem_cons_self _ _))
            (fun g' hg' => hP g' (List.mem_cons_of_mem _ hg'))
            hpop hsafe2
            (by
              simp only [emitted, List.length_cons] at hsize hfuel
              simp only at hsz3
              omega)
    simp only [knnLoopLog, hnode]
    by_cases hscan : (cs.isEmpty || decide ((flatten (Octree.mk b d cs)).length ≤ k)) = true
    · rw [if_pos hscan]
      obtain ⟨st1, log1, h1, h2, h3⟩ := knnScanLog_total pos lin p k hk1 hk64
        (flatten (Octree.mk b d cs)) pre post st log hod
      rw [hpre] at h1
      rw [h1]
      have hs := safeRun_step lin.linear_tree.length log.pushed (Octree.mk b d cs)
        current.octant pend [] hsafe (by simp) List.Pairwise.nil
      simp only [List.map_nil, List.append_nil] at hs
      exact hnext st1 log1 [] (by simpa [h2] using htv) (by simpa [h3] using hs) (by simp)
        (by simp [pendingSize, emitted])
    · rw [if_neg hscan]
      simp only [Bool.or_eq_true, List.isEmpty_iff, decide_eq_true_eq, not_or, not_le] at hscan
      obtain ⟨hne, _⟩ := hscan
      have hcsne : cs.isEmpty = false := by
        cases cs with
        | nil => exact absurd rfl hne
        | cons a as => rfl
      have hflat : flattenList cs ≠ [] := by
        rcases hine.1 with h | h
        · rw [hcsne] at h
          cases h
        · intro h0
          rw [h0] at h
          simp at h
      have hany : cs.any Octree.used = true := any_used_of_flattenList_ne_nil _ hflat
      have hstart : chainStart cs (current.octant + 1) = some (current.octant + 1) := by
        unfold chainStart
        rw [hany]
        rfl
      obtain ⟨st1, log1, pushed, e1, e2, e3, e4, e5, e6⟩ :=
        knnChildrenLog_safe pos lin p k cs (current.octant + 1) (s + d.length)
          lin.linear_tree.length st log hlist hine.2 (by omega)
      rw [hstart] at e1
      rw [e1]
      have hs := safeRun_step lin.linear_tree.length log.pushed (Octree.mk b d cs)
        current.octant pend pushed hsafe
        (by
          intro g hg
          obtain ⟨a1, a2, a3⟩ := e4 g hg
          refine ⟨by omega, ?_, pendingS_lt pos lin g a1⟩
          simp only [emitted, List.length_cons]
          omega)
        e5
      exact hnext st1 log1 pushed
        (by
          refine e3.trans ?_
          rw [List.map_append]
          exact htv.append_right _)
        (by rw [e2]; exact hs) (fun g hg => (e4 g hg).1)
        (by simp only [emitted, List.length_cons]; omega)

/-! ### The radius search -/

theorem radiusChildrenLog_none (pos : D → Vec3 α) (lin : LinearOctree α D) (p : Vec3 α)
    (r2 : α) (fuel : Nat) (st : RadiusState α D) (pl : List Nat) :
    radiusChildrenLog pos lin p r2 fuel none st pl = some (st, pl) := by
  cases fuel <;> rfl

theorem radiusChildrenLog_fst (pos : D → Vec3 α) (lin : LinearOctree α D) (p : Vec3 α)
    (r2 : α) :
    ∀ (fuel : Nat) (child : Option Nat) (st : RadiusState α D) (pl : List Nat),
      (radiusChildrenLog pos lin p r2 fuel child st pl).map Prod.fst
        = radiusChildren pos lin p r2 fuel child st
  | fuel, none, st, pl => by
    rw [radiusChildrenLog_none, radiusChildren_none]
    rfl
  | 0, some c, st, pl => rfl
  | fuel + 1, some c, st, pl => by
    simp only [radiusChildrenLog, radiusChildren]
    cases hn : lin.linear_tree.get? c with
    | none => rfl
    | some node =>
      dsimp only
      by_cases h1 : node.BB.distance2 p ≤ ((r2 : α) : WithTop α)
      · by_cases h2 : node.BB.max_distance2 p ≤ ((r2 : α) : WithTop α)
        · simp only [h1, h2, if_true]
          cases hc : radiusCollect pos lin p node.contained_data node.start_data st.result with
          | none => rfl
          | some r =>
            simp only [Option.map_some']
            exact radiusChildrenLog_fst pos lin p r2 fuel _ _ _
        · simp only [h1, h2, if_true, if_false]
          exact radiusChildrenLog_fst pos lin p r2 fuel _ _ _
      · simp only [h1, if_false]
        exact radiusChildrenLog_fst pos lin p r2 fuel _ _ _

theorem radiusLoopLog_fst (pos : D → Vec3 α) (lin : LinearOctree α D) (p : Vec3 α) (r2 : α) :
    ∀ (fuel : Nat) (idx : Nat) (st : RadiusState α D) (pl : List Nat),
      (radiusLoopLog pos lin p r2 fuel idx st pl).map Prod.fst
        = radiusLoop pos lin p r2 fuel idx st
  | 0, idx, st, pl => rfl
  | fuel + 1, idx, st, pl => by
    simp only [radiusLoopLog, radiusLoop]
    cases hn : lin.linear_tree.get? idx with
    | none => rfl
    | some node =>
      dsimp only
      have hstep : (if node.leaf = true then
            (radiusScan pos lin p r2 node.contained_data node.start_data st.result).map
              (fun r => (({ st with result := r } : RadiusState α D), pl))
          else radiusChildrenLog pos lin p r2 lin.linear_tree.length (some (idx + 1)) st
            pl).map Prod.fst
          = (if node.leaf = true then
            (radiusScan pos lin p r2 node.contained_data node.start_data st.result).map
              (fun r => ({ st with result := r } : RadiusState α D))
          else radiusChildren pos lin p r2 lin.linear_tree.length (some (idx + 1)) st) := by
        split
        · cases radiusScan pos lin p r2 node.contained_data node.start_data st.result <;> rfl
        · exact radiusChildrenLog_fst pos lin p r2 _ _ _ _
      rw [← hstep]
      cases hs : (if node.leaf = true then
            (radiusScan pos lin p r2 node.contained_data node.start_data st.result).map
              (fun r => (({ st with result := r } : RadiusState α D), pl))
          else radiusChildrenLog pos lin p r2 lin.linear_tree.length (some (idx + 1)) st
            pl) with
      | none => rfl
      | some r =>
        obtain ⟨st1, pl1⟩ := r
        simp only [Option.map_some']
        cases hl : st1.to_visit.getLast? with
        | none => rfl
        | some nidx => exact radiusLoopLog_fst pos lin p r2 fuel _ _ _

/-- The record does not influence the radius search. -/
theorem radiusSearchLog_fst (pos : D → Vec3 α) (lin : LinearOctree α D) (p : Vec3 α)
    (radius : α) :
    (radiusSearchLog pos lin p radius).map Prod.fst = radiusSearch pos lin p radius := by
  unfold radiusSearchLog radiusSearch
  by_cases he : lin.linear_tree.isEmpty = true
  · simp only [he, if_true, Option.map_some']
  · simp only [he, Bool.false_eq_true, if_false]
    exact radiusLoopLog_fst pos lin p _ _ _ _ _

/-- The recorded child loop of `radiusSearch` over a child array that is laid out in the
tree: it ends, reads only nodes and data of the tree, and the pushed children occupy
consecutive disjoint index ranges inside the range of the child array. -/
theorem radiusChildrenLog_safe (pos : D → Vec3 α) (lin : LinearOctree α D) (p : Vec3 α)
    (r2 : α) :
    ∀ (cs : List (Octree α D)) (j s fuel : Nat) (res : List (SearchResult α D))
      (tv pl : List Nat),
      OctreeLayoutList pos lin cs j s → internalNonEmptyList cs = true →
      lin.linear_tree.length ≤ fuel + j →
      ∃ res' pushed,
        radiusChildrenLog pos lin p r2 fuel (chainStart cs j) ⟨res, tv⟩ pl =
          some (⟨res', tv ++ pushed.map Prod.snd⟩, pl ++ pushed.map Prod.snd) ∧
        (∀ g ∈ pushed, PendingS pos lin g ∧ j ≤ g.2 ∧
          g.2 + (emitted g.1).length ≤ j + (emittedList cs).length) ∧
        pushed.Pairwise (fun a b => a.2 + (emitted a.1).length ≤ b.2) ∧
        pendingSize pushed ≤ (emittedList cs).length
  | [], j, s, fuel, res, tv, pl, _, _, _ => by
    refine ⟨res, [], ?_, by simp, List.Pairwise.nil, by simp [pendingSize]⟩
    simp [chainStart, radiusChildrenLog_none]
  | c :: cs, j, s, fuel, res, tv, pl, hlay, hine, hfuel => by
    simp only [internalNonEmptyList, Bool.and_eq_true] at hine
    by_cases hu : c.used = true
    · simp only [OctreeLayoutList, hu, if_true] at hlay
      obtain ⟨hc, hcs⟩ := hlay
      obtain ⟨hnode, _⟩ := layout_node pos lin c j s _ hc
      have hjl : j < lin.linear_tree.length := (List.get?_eq_some.1 hnode).1
      obtain ⟨fuel', rfl⟩ : ∃ f, fuel = f + 1 := ⟨fuel - 1, by omega⟩
      have hslice : ∃ pre post, lin.ordered_data = pre ++ flatten c ++ post ∧ pre.length = s := by
        cases c with
        | mk b d cs' => exact hc.2.1
      obtain ⟨pre, post, hod, hpre⟩ := hslice
      have hsz := emitted_length_pos c
      have hstart : chainStart (c :: cs) j = some j := by simp [chainStart, hu]
      have hnext : (if !(cs.any Octree.used) then none else some (j + (emitted c).length))
          = chainStart cs (j + (emitted c).length) := by
        unfold chainStart
        cases cs.any Octree.used <;> rfl
      have hlen : (emittedList (c :: cs)).length
          = (emitted c).length + (emittedList cs).length := by
        simp [emittedList, hu]
      rw [hstart]
      simp only [radiusChildrenLog, hnode, hnext]
      by_cases h1 : (hull pos c).distance2 p ≤ ((r2 : α) : WithTop α)
      · by_cases h2 : (hull pos c).max_distance2 p ≤ ((r2 : α) : WithTop α)
        · have hcol := radiusCollect_spec pos lin p (flatten c) pre post res hod
          rw [hpre] at hcol
          obtain ⟨res', pushed, e1, e2, e3, e4⟩ := radiusChildrenLog_safe pos lin p r2 cs
            (j + (emitted c).length) (s + (flatten c).length) fuel'
            (res ++ (flatten c).map (fun d => ⟨d, Vec3.distance2 (pos d) p⟩)) tv pl hcs hine.2
            (by omega)
          refine ⟨res', pushed, ?_, ?_, e3, by rw [hlen]; omega⟩
          · simp only [h1, h2, if_true, hcol, Option.map_some', e1]
          · intro g hg
            obtain ⟨a1, a2, a3⟩ := e2 g hg
            exact ⟨a1, by omega, by rw [hlen]; omega⟩
        · obtain ⟨res', pushed, e1, e2, e3, e4⟩ := radiusChildrenLog_safe pos lin p r2 cs
            (j + (emitted c).length) (s + (flatten c).length) fuel' res (tv ++ [j]) (pl ++ [j])
            hcs hine.2 (by omega)
          refine ⟨res', (c, j) :: pushed, ?_, ?_, ?_, ?_⟩
          · simp only [h1, h2, if_true, if_false, e1, List.append_assoc, List.map_cons,
              List.singleton_append]
          · intro g hg
            rcases List.mem_cons.1 hg with rfl | hg
            · refine ⟨⟨⟨s, _, hc⟩, hine.1⟩, le_refl _, ?_⟩
              show j + (emitted c).length ≤ _
              rw [hlen]
              omega
            · obtain ⟨a1, a2, a3⟩ := e2 g hg
              exact ⟨a1, by omega, by rw [hlen]; omega⟩
          · rw [List.pairwise_cons]
            refine ⟨?_, e3⟩
            intro g hg
            exact (e2 g hg).2.1
          · rw [hlen]
            simp only [pendingSize, List.map_cons, List.sum_cons]
            unfold pendingSize at e4
            omega
      · obtain ⟨res', pushed, e1, e2, e3, e4⟩ := radiusChildrenLog_safe pos lin p r2 cs
          (j + (emitted c).length) (s + (flatten c).length) fuel' res tv pl hcs hine.2 (by omega)
        refine ⟨res', pushed, ?_, ?_, e3, by rw [hlen]; omega⟩
        · simp only [h1, if_false, e1]
        · intro g hg
          obtain ⟨a1, a2, a3⟩ := e2 g hg
          exact ⟨a1, by omega, by rw [hlen]; omega⟩
    · simp only [OctreeLayoutList, hu] at hlay
      have hstart : chainStart (c :: cs) j = chainStart cs j := by simp [chainStart, hu]
      have hlen : (emittedList (c :: cs)).length = (emittedList cs).length := by
        simp [emittedList, hu]
      rw [hstart, hlen]
      exact radiusChildrenLog_safe pos lin p r2 cs j s fuel res tv pl hlay hine.2 hfuel

/-- The recorded main loop of `radiusSearch` ends within the fuel, reads only nodes and data
of the tree, and pushes no node index twice. -/
theorem radiusLoopLog_safe (pos : D → Vec3 α) (lin : LinearOctree α D) (p : Vec3 α) (r2 : α) :
    ∀ (fuel : Nat) (sub : Octree α D) (idx : Nat) (pend : List (Octree α D × Nat))
      (res : List (SearchResult α D)) (pl : List Nat),
      PendingS pos lin (sub, idx) → (∀ g ∈ pend, PendingS pos lin g) →
      SafeRun lin.linear_tree.length pl ((sub, idx) :: pend) →
      (emitted sub).length + pendingSize pend ≤ fuel →
      ∃ result pl', radiusLoopLog pos lin p r2 fuel idx ⟨res, pend.map Prod.snd⟩ pl
          = some (result, pl') ∧
        pl'.Nodup ∧ ∀ j ∈ pl', j < lin.linear_tree.length
  | 0, sub, idx, pend, res, pl, _, _, _, hfuel => by
    have := emitted_length_pos sub
    omega
  | fuel + 1, .mk b d cs, idx, pend, res, pl, hsub, hpend, hsafe, hfuel => by
    obtain ⟨⟨s, nx, hlay⟩, hine⟩ := hsub
    obtain ⟨hnode, ⟨pre, post, hod, hpre⟩, hlist⟩ := hlay
    simp only at hine hnode hlist
    simp only [internalNonEmpty, Bool.and_eq_true, Bool.or_eq_true, Bool.not_eq_true'] at hine
    have hnext : ∀ (res1 : List (SearchResult α D)) (pl1 : List Nat)
        (pushed : List (Octree α D × Nat)),
        SafeRun lin.linear_tree.length pl1 (pend ++ pushed) →
        (∀ g ∈ pushed, PendingS pos lin g) →
        pendingSize pushed + 1 ≤ (emitted (Octree.mk b d cs)).length →
        ∃ result pl',
          (match ((pend ++ pushed).map Prod.snd).getLast? with
            | none => some (res1, pl1)
            | some node_idx => radiusLoopLog pos lin p r2 fuel node_idx
                ⟨res1, ((pend ++ pushed).map Prod.snd).dropLast⟩ pl1) = some (result, pl') ∧
          pl'.Nodup ∧ ∀ j ∈ pl', j < lin.linear_tree.length := by
      intro res1 pl1 pushed hsafe1 hpushed hsize
      rcases List.eq_nil_or_concat (pend ++ pushed) with hnil | ⟨pend', g, hcat⟩
      · rw [hnil]
        exact ⟨res1, pl1, rfl, hsafe1.2.1, hsafe1.2.2.1⟩
      · rw [List.concat_eq_append] at hcat
        have hP : ∀ g' ∈ pend' ++ [g], PendingS pos lin g' := by
          intro g' hg'
          rw [← hcat] at hg'
          rcases List.mem_append.1 hg' with h | h
          · exact hpend g' h
          · exact hpushed g' h
        have hsz : pendingSize pend + pendingSize pushed
            = pendingSize pend' + (emitted g.1).length := by
          rw [← pendingSize_append, hcat, pendingSize_append, pendingSize_single]
        have hsafe2 : SafeRun lin.linear_tree.length pl1 (g :: pend') := by
          apply safeRun_perm _ _ _ _ hsafe1
          rw [hcat]
          exact List.perm_append_comm
        obtain ⟨result, pl', f1, f2, f3⟩ := radiusLoopLog_safe pos lin p r2 fuel g.1 g.2 pend'
          res1 pl1 (hP g (by simp)) (fun g' hg' => hP g' (by simp [hg'])) hsafe2
          (by
            simp only [emitted, List.length_cons] at hsize hfuel
            omega)
        refine ⟨result, pl', ?_, f2, f3⟩
        have hl : ((pend' ++ [g]).map Prod.snd).getLast? = some g.2 := by simp
        have hd : ((pend' ++ [g]).map Prod.snd).dropLast = pend'.map Prod.snd := by simp
        rw [hcat, hl, hd]
        exact f1
    have hs0 := safeRun_step lin.linear_tree.length pl (Octree.mk b d cs) idx pend [] hsafe
      (by simp) List.Pairwise.nil
    simp only [List.map_nil, List.append_nil] at hs0
    cases cs with
    | nil =>
      have hscan := radiusScan_spec pos lin p r2 (flatten (Octree.mk b d [])) pre post res hod
      rw [hpre] at hscan
      obtain ⟨result, pl', g1, g2, g3⟩ := hnext _ pl [] (by simpa using hs0) (by simp)
        (by simp [pendingSize, emitted])
      refine ⟨result, pl', ?_, g2, g3⟩
      simp only [radiusLoopLog, hnode, List.isEmpty_nil, if_true, hscan, Option.map_some']
      simpa using g1
    | cons c cs =>
      have hflat : flattenList (c :: cs) ≠ [] := by
        rcases hine.1 with h | h
        · simp at h
        · intro h0
          rw [h0] at h
          simp at h
      have hany : (c :: cs).any Octree.used = true := any_used_of_flattenList_ne_nil _ hflat
      have hstart : chainStart (c :: cs) (idx + 1) = some (idx + 1) := by
        unfold chainStart
        rw [hany]
        rfl
      obtain ⟨res', pushed, e1, e2, e3, e4⟩ := radiusChildrenLog_safe pos lin p r2 (c :: cs)
        (idx + 1) (s + d.length) lin.linear_tree.length res (pend.map Prod.snd) pl hlist hine.2
        (by omega)
      rw [hstart] at e1
      have hs := safeRun_step lin.linear_tree.length pl (Octree.mk b d (c :: cs)) idx pend
        pushed hsafe
        (by
          intro g hg
          obtain ⟨a1, a2, a3⟩ := e2 g hg
          refine ⟨by omega, ?_, pendingS_lt pos lin g a1⟩
          simp only [emitted, List.length_cons]
          omega)
        e3
      obtain ⟨result, pl', g1, g2, g3⟩ := hnext res' (pl ++ pushed.map Prod.snd) pushed hs
        (fun g hg => (e2 g hg).1)
        (by simp only [emitted, List.length_cons]; omega)
      refine ⟨result, pl', ?_, g2, g3⟩
      simp only [radiusLoopLog, hnode, List.isEmpty_cons, Bool.false_eq_true, if_false, e1]
      simpa using g1

/-- C19: on a linear octree compacted from a dynamic octree in which every internal node has
payload below it, for every query point, every `1 ≤ k` (a `size_t`) and every radius,
`knnSearch` and `radiusSearch` return a result: the loops end within as many iterations as
the tree has nodes, and no access to `linear_tree` or `ordered_data` is out of range (an
access out of range or an exhausted loop would make the functions yield `none`).  In the
recorded run no node index is pushed on `to_visit` twice, and every pushed index is a node
index. -/
theorem search_safety (pos : D → Vec3 α) (t : Octree α D) (p : Vec3 α) (k : Nat) (radius : α)
    (result0 : PriorityQueue (SearchResult α D)) (h : t.internalNonEmpty = true)
    (hk : 1 ≤ k) (hk64 : k < 2 ^ 64) :
    (∃ result log, knnSearchLog pos (ofOctree pos t) p k result0 = some (result, log) ∧
      knnSearch pos (ofOctree pos t) p k result0 = some result ∧
      log.pushed.Nodup ∧ ∀ i ∈ log.pushed, i < (ofOctree pos t).linear_tree.length) ∧
    (∃ result pushed, radiusSearchLog pos (ofOctree pos t) p radius = some (result, pushed) ∧
      radiusSearch pos (ofOctree pos t) p radius = some result ∧
      pushed.Nodup ∧ ∀ i ∈ pushed, i < (ofOctree pos t).linear_tree.length) := by
  by_cases hf : flatten t = []
  · rw [ofOctree_of_flatten_nil pos t hf]
    exact ⟨⟨[], ⟨[], []⟩, rfl, rfl, List.nodup_nil, by simp⟩,
      ⟨[], [], rfl, rfl, List.nodup_nil, by simp⟩⟩
  · have hlen := ofOctree_length pos t hf
    have hpos := emitted_length_pos t
    have hod := ofOctree_ordered_data pos t
    have hn : 0 < (flatten t).length := List.length_pos.2 hf
    have hlay := layout_ofOctree pos t hf
    obtain ⟨hroot, _⟩ := layout_node pos _ t 0 0 none hlay
    have hne : (ofOctree pos t).linear_tree.isEmpty = false := by
      cases hl : (ofOctree pos t).linear_tree with
      | nil => rw [hl] at hlen; simp at hlen; omega
      | cons a as => rfl
    have hP : PendingS pos (ofOctree pos t) (t, 0) := ⟨⟨0, none, hlay⟩, h⟩
    have hsafe : SafeRun (ofOctree pos t).linear_tree.length []
        [((t, 0) : Octree α D × Nat)] :=
      ⟨List.pairwise_singleton _ _, List.nodup_nil, by simp, by simp⟩
    constructor
    · have hkk1 : 1 ≤ (if k > (ofOctree pos t).ordered_data.length
          then (ofOctree pos t).ordered_data.length else k) := by
        split
        · rw [hod]; exact hn
        · exact hk
      have hkk64 : (if k > (ofOctree pos t).ordered_data.length
          then (ofOctree pos t).ordered_data.length else k) < 2 ^ 64 := by
        split
        · omega
        · exact hk64
      obtain ⟨result, log, h1, h2, h3⟩ := knnLoopLog_safe pos (ofOctree pos t) p _ hkk1 hkk64
        (ofOctree pos t).linear_tree.length ⟨(hull pos t).distance2 p, 0⟩ t []
        { result := [], max_distance2 := ⊤, to_visit := [] }
        ⟨[{ result := [], max_distance2 := ⊤, to_visit := [] }], []⟩
        hP (by simp) (by simp) hsafe (by simp [pendingSize, hlen])
      have hlog : knnSearchLog pos (ofOctree pos t) p k result0 = some (result, log) := by
        unfold knnSearchLog
        simp only [hne, Bool.false_eq_true, if_false, hroot, PriorityQueue.clear]
        exact h1
      refine ⟨result, log, hlog, ?_, h2, h3⟩
      rw [← knnSearchLog_fst, hlog]
      rfl
    · obtain ⟨result, pushed, h1, h2, h3⟩ := radiusLoopLog_safe pos (ofOctree pos t) p
        (radius * radius) (ofOctree pos t).linear_tree.length t 0 [] [] [] hP (by simp) hsafe
        (by simp [pendingSize, hlen])
      have hlog : radiusSearchLog pos (ofOctree pos t) p radius = some (result, pushed) := by
        unfold radiusSearchLog
        simp only [hne, Bool.false_eq_true, if_false]
        exact h1
      refine ⟨result, pushed, hlog, ?_, h2, h3⟩
      rw [← radiusSearchLog_fst, hlog]
      rfl

theorem search_safety_witness :
    sampleTree.internalNonEmpty = true ∧ 1 ≤ 2 ∧ 2 < 2 ^ 64 ∧
    (∃ result log, knnSearchLog id (ofOctree id sampleTree) ⟨4, 4, 4⟩ 2 [] = some (result, log) ∧
      knnSearch id (ofOctree id sampleTree) ⟨4, 4, 4⟩ 2 [] = some result ∧
      log.pushed.Nodup ∧ ∀ i ∈ log.pushed, i < (ofOctree id sampleTree).linear_tree.length) ∧
    (∃ result pushed, radiusSearchLog id (ofOctree id sampleTree) ⟨4, 4, 4⟩ 6
        = some (result, pushed) ∧
      radiusSearch id (ofOctree id sampleTree) ⟨4, 4, 4⟩ 6 = some result ∧
      pushed.Nodup ∧ ∀ i ∈ pushed, i < (ofOctree id sampleTree).linear_tree.length) :=
  ⟨by decide, by decide, by norm_num,
    search_safety id sampleTree ⟨4, 4, 4⟩ 2 6 [] (by decide) (by decide) (by norm_num)⟩

end SafetyProofs

/-! ## The search with `k = 0` -/

section ZeroProofs

open Octree LinearOctree

variable {α D : Type} [LinearOrderedCommRing α]

/-- With `k = 0` the test `result.size() < k - 1` compares with `2 ^ 64 - 1`: an item within
the bound is appended without any further test. -/
theorem knnVisit_zero (p : Vec3 α) (d : D) (pd : Vec3 α) (st : KnnState α D)
    (hsz : st.result.length < 2 ^ 64 - 1) :
    knnVisit p 0 d pd st
      = some (if ((Vec3.distance2 pd p : α) : WithTop α) ≤ st.max_distance2
          then ⟨st.result ++ [⟨d, Vec3.distance2 pd p⟩], st.max_distance2, st.to_visit⟩
          else st) := by
  unfold knnVisit
  have hw : (0 + 2 ^ 64 - 1) % 2 ^ 64 = 2 ^ 64 - 1 := by norm_num
  simp only [PriorityQueue.size, hw]
  by_cases hle : ((Vec3.distance2 pd p : α) : WithTop α) ≤ st.max_distance2
  · rw [if_pos hle, if_pos hle, if_pos hsz]
    rfl
  · rw [if_neg hle, if_neg hle]

theorem acceptedEntries_nil (pos : D → Vec3 α) (p : Vec3 α) (m : WithTop α) :
    acceptedEntries pos p m ([] : List D) = [] := rfl

theorem acceptedEntries_cons (pos : D → Vec3 α) (p : Vec3 α) (m : WithTop α) (x : D)
    (l : List D) :
    acceptedEntries pos p m (x :: l)
      = (if ((Vec3.distance2 (pos x) p : α) : WithTop α) ≤ m
          then [⟨x, Vec3.distance2 (pos x) p⟩] else []) ++ acceptedEntries pos p m l := by
  unfold acceptedEntries
  by_cases h : ((Vec3.distance2 (pos x) p : α) : WithTop α) ≤ m
  · simp [h]
  · simp [h]

theorem acceptedEntries_length_le (pos : D → Vec3 α) (p : Vec3 α) (m : WithTop α)
    (l : List D) : (acceptedEntries pos p m l).length ≤ l.length := by
  unfold acceptedEntries
  rw [List.length_map]
  exact List.length_filter_le _ _

/-- With `k = 0` the data loop appends every item of the range that is within the bound, and
changes neither the bound nor the queue of nodes. -/
theorem knnScan_zero (pos : D → Vec3 α) (lin : LinearOctree α D) (p : Vec3 α) :
    ∀ (l pre post : List D) (st : KnnState α D),
      lin.ordered_data = pre ++ l ++ post → st.result.length + l.length < 2 ^ 64 - 1 →
      knnScan pos lin p 0 l.length pre.length st
        = some ⟨st.result ++ acceptedEntries pos p st.max_distance2 l, st.max_distance2,
            st.to_visit⟩
  | [], pre, post, st, _, _ => by
    simp only [List.length_nil, knnScan, acceptedEntries_nil, List.append_nil]
  | x :: xs, pre, post, st, hod, hlen => by
    have hx : lin.ordered_data.get? pre.length = some x := by
      rw [hod, List.append_assoc, List.cons_append, get?_append_self]
    simp only [List.length_cons] at hlen
    have h1 := knnVisit_zero p x (pos x) st (by omega)
    have h2 := knnScan_zero pos lin p xs (pre ++ [x]) post
      (if ((Vec3.distance2 (pos x) p : α) : WithTop α) ≤ st.max_distance2
          then ⟨st.result ++ [⟨x, Vec3.distance2 (pos x) p⟩], st.max_distance2, st.to_visit⟩
          else st)
      (by rw [hod]; simp)
      (by
        by_cases h : ((Vec3.distance2 (pos x) p : α) : WithTop α) ≤ st.max_distance2
        · rw [if_pos h]
          simp only [List.length_append, List.length_singleton]
          omega
        · rw [if_neg h]
          omega)
    simp only [List.length_append, List.length_singleton] at h2
    simp only [List.length_cons, knnScan, hx, h1, h2, acceptedEntries_cons]
    by_cases h : ((Vec3.distance2 (pos x) p : α) : WithTop α) ≤ st.max_distance2
    · simp [h]
    · simp [h]

theorem max_distance2_ne_top (pos : D → Vec3 α) (sub : Octree α D) (p : Vec3 α)
    (h : (hull pos sub).max_distance2 p ≠ ⊤) : flatten sub ≠ [] := by
  apply flatten_ne_nil_of_distance2 pos sub p
  cases hb : hull pos sub with
  | empty => rw [hb] at h; exact absurd rfl h
  | box mn mx => simp [BoundingBox.distance2]

/-- A subtree whose box has a finite farthest-corner distance `m` holds items, all of them
within `m`. -/
theorem withinBound_of_max_distance2 (pos : D → Vec3 α) (sub : Octree α D) (p : Vec3 α)
    (m : WithTop α) (h : (hull pos sub).max_distance2 p < m) :
    WithinBound pos p ((hull pos sub).max_distance2 p) (flatten sub) :=
  ⟨max_distance2_ne_top pos sub p (ne_top_of_lt h), fun d hd => (hull_bounds pos sub p d hd).2⟩

/-- A subtree whose items are all within the bound has its box within the bound. -/
theorem distance2_le_of_withinBound (pos : D → Vec3 α) (sub : Octree α D) (p : Vec3 α)
    (m : WithTop α) (h : WithinBound pos p m (flatten sub)) :
    (hull pos sub).distance2 p ≤ m := by
  obtain ⟨hne, hall⟩ := h
  obtain ⟨d, hd⟩ := List.exists_mem_of_ne_nil _ hne
  exact le_trans (hull_bounds pos sub p d hd).1 (hall d hd)

/-- With `k = 0` the child loop pushes the children whose box is within the bound and lowers
the bound to the farthest corner of every pushed child.  If a waiting subtree or a child has
all its items within the bound before the loop, a waiting subtree has so after it. -/
theorem knnChildren_zero (pos : D → Vec3 α) (lin : LinearOctree α D) (p : Vec3 α) :
    ∀ (cs : List (Octree α D)) (j s fuel : Nat) (st : KnnState α D)
      (pend : List (Octree α D × Nat)),
      OctreeLayoutList pos lin cs j s → payloadOnlyInLeavesList cs = true →
      lin.linear_tree.length ≤ fuel + j →
      st.to_visit.Perm (pend.map (dnodeOf pos p)) →
      PriorityQueue.IsHeap dnodeKey st.to_visit →
      ∃ st' pushed, knnChildren lin p 0 fuel (chainStart cs j) st = some st' ∧
        st'.result = st.result ∧
        st'.to_visit.Perm ((pend ++ pushed).map (dnodeOf pos p)) ∧
        PriorityQueue.IsHeap dnodeKey st'.to_visit ∧
        (∀ g ∈ pushed, PendingK pos lin g) ∧
        pendingSize pushed ≤ (emittedList cs).length ∧
        (pendingItems pushed).Sublist (flattenList cs) ∧
        (((∃ g ∈ pend, WithinBound pos p st.max_distance2 (flatten g.1)) ∨
            ∃ c ∈ cs, WithinBound pos p st.max_distance2 (flatten c)) →
          ∃ g ∈ pend ++ pushed, WithinBound pos p st'.max_distance2 (flatten g.1))
  | [], j, s, fuel, st, pend, _, _, _, htv, hheap => by
    refine ⟨st, [], ?_, rfl, by simpa using htv, hheap, by simp, by simp [pendingSize],
      by simp [pendingItems], ?_⟩
    · simp [chainStart, knnChildren_none]
    · intro h
      rcases h with ⟨g, hg, hw⟩ | ⟨c, hc, _⟩
      · exact ⟨g, by simpa using hg, hw⟩
      · simp at hc
  | c :: cs, j, s, fuel, st, pend, hlay, hpay, hfuel, htv, hheap => by
    simp only [payloadOnlyInLeavesList, Bool.and_eq_true] at hpay
    by_cases hu : c.used = true
    · simp only [OctreeLayoutList, hu, if_true] at hlay
      obtain ⟨hc, hcs⟩ := hlay
      obtain ⟨hnode, _⟩ := layout_node pos lin c j s _ hc
      have hjl : j < lin.linear_tree.length := (List.get?_eq_some.1 hnode).1
      obtain ⟨fuel', rfl⟩ : ∃ f, fuel = f + 1 := ⟨fuel - 1, by omega⟩
      have hsz := emitted_length_pos c
      have hstart : chainStart (c :: cs) j = some j := by simp [chainStart, hu]
      have hnext : (if !(cs.any Octree.used) then none else some (j + (emitted c).length))
          = chainStart cs (j + (emitted c).length) := by
        unfold chainStart
        cases cs.any Octree.used <;> rfl
      rw [hstart]
      simp only [knnChildren, hnode, hnext, ge_iff_le, Nat.zero_le, if_true]
      by_cases h1 : (hull pos c).distance2 p ≤ st.max_distance2
      · rw [if_pos h1]
        -- the child is pushed
        have htv1 : (PriorityQueue.push DNode.lt st.to_visit ⟨(hull pos c).distance2 p, j⟩).Perm
            ((pend ++ [(c, j)]).map (dnodeOf pos p)) := by
          refine (PriorityQueue.push_perm DNode.lt _ _).trans ?_
          simp only [List.map_append, List.map_cons, List.map_nil]
          exact (List.perm_append_singleton _ _).symm.trans (List.Perm.append_right _ htv)
        have hheap1 := PriorityQueue.push_isHeap DNode.lt dnodeKey dnode_lt_iff st.to_visit
          ⟨(hull pos c).distance2 p, j⟩ hheap
        have hfin : ∀ (st1 : KnnState α D), st1.result = st.result →
            st1.to_visit = PriorityQueue.push DNode.lt st.to_visit
              ⟨(hull pos c).distance2 p, j⟩ →
            (((∃ g ∈ pend, WithinBound pos p st.max_distance2 (flatten g.1)) ∨
                ∃ c' ∈ c :: cs, WithinBound pos p st.max_distance2 (flatten c')) →
              ((∃ g ∈ pend ++ [(c, j)], WithinBound pos p st1.max_distance2 (flatten g.1)) ∨
                ∃ c' ∈ cs, WithinBound pos p st1.max_distance2 (flatten c'))) →
            ∃ st' pushed,
              knnChildren lin p 0 fuel' (chainStart cs (j + (emitted c).length)) st1 =
                some st' ∧
              st'.result = st.result ∧
              st'.to_visit.Perm ((pend ++ pushed).map (dnodeOf pos p)) ∧
              PriorityQueue.IsHeap dnodeKey st'.to_visit ∧
              (∀ g ∈ pushed, PendingK pos lin g) ∧
              pendingSize pushed ≤ (emittedList (c :: cs)).length ∧
              (pendingItems pushed).Sublist (flattenList (c :: cs)) ∧
              (((∃ g ∈ pend, WithinBound pos p st.max_distance2 (flatten g.1)) ∨
                  ∃ c' ∈ c :: cs, WithinBound pos p st.max_distance2 (flatten c')) →
                ∃ g ∈ pend ++ pushed, WithinBound pos p st'.max_distance2 (flatten g.1)) := by
          intro st1 hres1 htv1' hgood1
          obtain ⟨st', pushed, e1, e2, e3, e4, e5, e6, e7, e8⟩ :=
            knnChildren_zero pos lin p cs (j + (emitted c).length)
              (s + (flatten c).length) fuel' st1 (pend ++ [(c, j)]) hcs
              hpay.2 (by omega) (by rw [htv1']; exact htv1) (by rw [htv1']; exact hheap1)
          refine ⟨st', (c, j) :: pushed, e1, e2.trans hres1, ?_, e4, ?_, ?_, ?_, ?_⟩
          · simpa using e3
          · intro g hg
            rcases List.mem_cons.1 hg with rfl | hg
            · exact ⟨⟨s, _, hc⟩, hpay.1⟩
            · exact e5 g hg
          · simp only [emittedList, hu, if_true, List.length_append, pendingSize, List.map_cons,
              List.sum_cons]
            unfold pendingSize at e6
            omega
          · simp only [pendingItems, List.flatMap_cons, flattenList]
            exact List.Sublist.append (List.Sublist.refl _) e7
          · intro hgood
            obtain ⟨g, hg, hw⟩ := e8 (hgood1 hgood)
            exact ⟨g, by simpa using hg, hw⟩
        unfold updateMaxDistance
        by_cases hlt : (hull pos c).max_distance2 p < st.max_distance2
        · simp only [hlt, if_true]
          refine hfin _ rfl rfl ?_
          intro _
          exact Or.inl ⟨(c, j), by simp, withinBound_of_max_distance2 pos c p _ hlt⟩
        · simp only [hlt, if_false]
          refine hfin _ rfl rfl ?_
          intro hgood
          rcases hgood with ⟨g, hg, hw⟩ | ⟨c', hc', hw⟩
          · exact Or.inl ⟨g, by simp [hg], hw⟩
          · rcases List.mem_cons.1 hc' with rfl | hc'
            · exact Or.inl ⟨(c', j), by simp, hw⟩
            · exact Or.inr ⟨c', hc', hw⟩
      · rw [if_neg h1]
        obtain ⟨st', pushed, e1, e2, e3, e4, e5, e6, e7, e8⟩ :=
          knnChildren_zero pos lin p cs (j + (emitted c).length)
            (s + (flatten c).length) fuel' st pend hcs hpay.2 (by omega) htv hheap
        refine ⟨st', pushed, e1, e2, e3, e4, e5, ?_, ?_, ?_⟩
        · simp only [emittedList, hu, if_true, List.length_append]
          omega
        · rw [flattenList]
          exact List.Sublist.trans e7 (List.sublist_append_right _ _)
        · intro hgood
          apply e8
          rcases hgood with ⟨g, hg, hw⟩ | ⟨c', hc', hw⟩
          · exact Or.inl ⟨g, hg, hw⟩
          · rcases List.mem_cons.1 hc' with rfl | hc'
            · exact absurd (distance2_le_of_withinBound pos c' p _ hw) h1
            · exact Or.inr ⟨c', hc', hw⟩
    · simp only [OctreeLayoutList, hu] at hlay
      have hstart : chainStart (c :: cs) j = chainStart cs j := by simp [chainStart, hu]
      rw [hstart]
      obtain ⟨st', pushed, e1, e2, e3, e4, e5, e6, e7, e8⟩ :=
        knnChildren_zero pos lin p cs j s fuel st pend hlay hpay.2 hfuel htv hheap
      refine ⟨st', pushed, e1, e2, e3, e4, e5, by simpa [emittedList, hu] using e6, ?_, ?_⟩
      · rw [flattenList]
        exact List.Sublist.trans e7 (List.sublist_append_right _ _)
      · intro hgood
        apply e8
        rcases hgood with ⟨g, hg, hw⟩ | ⟨c', hc', hw⟩
        · exact Or.inl ⟨g, hg, hw⟩
        · rcases List.mem_cons.1 hc' with rfl | hc'
          · exact absurd (flatten_of_not_used c' hu) hw.1
          · exact Or.inr ⟨c', hc', hw⟩

theorem acceptedEntries_exact (pos : D → Vec3 α) (p : Vec3 α) (m : WithTop α) (l : List D) :
    ∀ r ∈ acceptedEntries pos p m l, r.distance2 = Vec3.distance2 (pos r.data) p := by
  intro r hr
  unfold acceptedEntries at hr
  obtain ⟨d, _, rfl⟩ := List.mem_map.1 hr
  rfl

theorem acceptedEntries_items (pos : D → Vec3 α) (p : Vec3 α) (m : WithTop α) (l : List D) :
    (resItems (acceptedEntries pos p m l)).Sublist l := by
  unfold acceptedEntries resItems
  rw [List.map_map]
  have : (SearchResult.data ∘ fun d => (⟨d, Vec3.distance2 (pos d) p⟩ : SearchResult α D))
      = id := rfl
  rw [this, List.map_id]
  exact List.filter_sublist _

/-- Items that are all within the bound are all appended. -/
theorem acceptedEntries_of_withinBound (pos : D → Vec3 α) (p : Vec3 α) (m : WithTop α)
    (l : List D) (h : ∀ d ∈ l, ((Vec3.distance2 (pos d) p : α) : WithTop α) ≤ m) :
    acceptedEntries pos p m l = l.map (fun d => ⟨d, Vec3.distance2 (pos d) p⟩) := by
  unfold acceptedEntries
  rw [List.filter_eq_self.2]
  intro d hd
  simpa using h d hd

omit [LinearOrderedCommRing α] in
theorem mem_flattenList (cs : List (Octree α D)) (d : D) (c : Octree α D) (hc : c ∈ cs)
    (hd : d ∈ flatten c) : d ∈ flattenList cs := by
  induction cs with
  | nil => simp at hc
  | cons c' cs ih =>
    rw [flattenList]
    rcases List.mem_cons.1 hc with rfl | hc
    · exact List.mem_append_left _ hd
    · exact List.mem_append_right _ (ih hc)

/-- If the items below a child array are all within the bound, so are those of some child
that holds items. -/
theorem withinBound_flattenList (pos : D → Vec3 α) (p : Vec3 α) (m : WithTop α)
    (cs : List (Octree α D)) (h : WithinBound pos p m (flattenList cs)) :
    ∃ c ∈ cs, WithinBound pos p m (flatten c) := by
  obtain ⟨hne, hall⟩ := h
  have hex : ∃ c ∈ cs, flatten c ≠ [] := by
    clear hall
    induction cs with
    | nil => exact absurd rfl hne
    | cons c cs ih =>
      by_cases hc : flatten c = []
      · rw [flattenList, hc, List.nil_append] at hne
        obtain ⟨c', hc', h'⟩ := ih hne
        exact ⟨c', List.mem_cons_of_mem _ hc', h'⟩
      · exact ⟨c, List.mem_cons_self _ _, hc⟩
  obtain ⟨c, hc, hcne⟩ := hex
  exact ⟨c, hc, hcne, fun d hd => hall d (mem_flattenList cs d c hc hd)⟩

/-- The main loop of `knnSearch` with `k = 0`: when the result is not empty or a waiting
subtree has all its items within the bound, the loop ends with a result that is not
empty. -/
theorem knnLoop_zero (pos : D → Vec3 α) (lin : LinearOctree α D) (p : Vec3 α) (all : List D)
    (hall : all.length < 2 ^ 64 - 1) :
    ∀ (fuel : Nat) (current : DNode α) (sub : Octree α D) (pend : List (Octree α D × Nat))
      (st : KnnState α D),
      PendingK pos lin (sub, current.octant) → (∀ g ∈ pend, PendingK pos lin g) →
      st.to_visit.Perm (pend.map (dnodeOf pos p)) →
      PriorityQueue.IsHeap dnodeKey st.to_visit →
      (∀ r ∈ st.result, r.distance2 = Vec3.distance2 (pos r.data) p) →
      (resItems st.result ++ (flatten sub ++ pendingItems pend)).Subperm all →
      (emitted sub).length + pendingSize pend ≤ fuel →
      (st.result ≠ [] ∨ ∃ g ∈ (sub, current.octant) :: pend,
        WithinBound pos p st.max_distance2 (flatten g.1)) →
      ∃ result, knnLoop pos lin p 0 fuel current st = some result ∧ result ≠ [] ∧
        (∀ r ∈ result, r.distance2 = Vec3.distance2 (pos r.data) p) ∧
        (resItems result).Subperm all
  | 0, current, sub, pend, st, _, _, _, _, _, _, hfuel, _ => by
    have := emitted_length_pos sub
    omega
  | fuel + 1, current, .mk b d cs, pend, st, hsub, hpend, htv, hheap, hexact, hacc, hfuel,
      hgood => by
    obtain ⟨⟨s, nx, hlay⟩, hpay⟩ := hsub
    obtain ⟨hnode, ⟨pre, post, hod, hpre⟩, hlist⟩ := hlay
    simp only at hpay hnode hlist
    -- what happens after the node has been handled
    have hnext : ∀ (st1 : KnnState α D) (pushed : List (Octree α D × Nat)),
        (∀ r ∈ st1.result, r.distance2 = Vec3.distance2 (pos r.data) p) →
        (resItems st1.result ++ pendingItems (pend ++ pushed)).Subperm all →
        st1.to_visit.Perm ((pend ++ pushed).map (dnodeOf pos p)) →
        PriorityQueue.IsHeap dnodeKey st1.to_visit →
        (∀ g ∈ pushed, PendingK pos lin g) →
        pendingSize pushed + 1 ≤ (emitted (Octree.mk b d cs)).length →
        (st1.result ≠ [] ∨ ∃ g ∈ pend ++ pushed,
          WithinBound pos p st1.max_distance2 (flatten g.1)) →
        ∃ result,
          (if st1.to_visit.empty then some st1.result
            else
              match PriorityQueue.top st1.to_visit with
              | none => none
              | some current =>
                if current.distance2 > st1.max_distance2 then some st1.result
                else knnLoop pos lin p 0 fuel current
                  { st1 with to_visit := PriorityQueue.pop DNode.lt st1.to_visit }) =
            some result ∧ result ≠ [] ∧
          (∀ r ∈ result, r.distance2 = Vec3.distance2 (pos r.data) p) ∧
          (resItems result).Subperm all := by
      intro st1 pushed hexact1 hacc1 htv1 hheap1 hpushed hsize hgood1
      have hsub1 : (resItems st1.result).Subperm all :=
        List.Subperm.trans (List.sublist_append_left _ _).subperm hacc1
      cases htvl : st1.to_visit with
      | nil =>
        have hnil : pend ++ pushed = [] := by
          rw [htvl] at htv1
          have := htv1.length_eq
          simpa using this.symm
        refine ⟨st1.result, by simp [PriorityQueue.empty], ?_, hexact1, hsub1⟩
        rcases hgood1 with h | ⟨g, hg, _⟩
        · exact h
        · rw [hnil] at hg
          simp at hg
      | cons cur rest =>
        have htop : PriorityQueue.top (cur :: rest) = some cur := rfl
        simp only [PriorityQueue.empty, List.isEmpty_cons, Bool.false_eq_true, if_false, htop]
        rw [htvl] at htv1 hheap1
        have hmin := PriorityQueue.top_max dnodeKey (cur :: rest) hheap1 cur htop
        by_cases hgt : cur.distance2 > st1.max_distance2
        · rw [if_pos hgt]
          refine ⟨st1.result, rfl, ?_, hexact1, hsub1⟩
          rcases hgood1 with h | ⟨g, hg, hw⟩
          · exact h
          · have hgm : dnodeOf pos p g ∈ cur :: rest :=
              htv1.mem_iff.2 (List.mem_map_of_mem _ hg)
            have h1 : cur.distance2 ≤ (dnodeOf pos p g).distance2 := hmin _ hgm
            have h2 : (dnodeOf pos p g).distance2 ≤ st1.max_distance2 :=
              distance2_le_of_withinBound pos g.1 p _ hw
            exact absurd (le_trans h1 h2) (not_le.2 hgt)
        · rw [if_neg hgt]
          -- the popped entry belongs to a waiting subtree
          have hcm : cur ∈ (pend ++ pushed).map (dnodeOf pos p) :=
            htv1.mem_iff.1 (List.mem_cons_self _ _)
          obtain ⟨g, hg, hgc⟩ := List.mem_map.1 hcm
          obtain ⟨l1, l2, hsplit⟩ := List.append_of_mem hg
          have hperm2 : (pend ++ pushed).Perm (g :: (l1 ++ l2)) := by
            rw [hsplit]
            exact List.perm_middle
          have hgP : PendingK pos lin g := by
            rcases List.mem_append.1 hg with h | h
            · exact hpend g h
            · exact hpushed g h
          have hrestP : ∀ g' ∈ l1 ++ l2, PendingK pos lin g' := by
            intro g' hg'
            have : g' ∈ pend ++ pushed := hperm2.mem_iff.2 (List.mem_cons_of_mem _ hg')
            rcases List.mem_append.1 this with h | h
            · exact hpend g' h
            · exact hpushed g' h
          have hpop : (PriorityQueue.pop DNode.lt (cur :: rest)).Perm
              ((l1 ++ l2).map (dnodeOf pos p)) := by
            refine (PriorityQueue.pop_perm DNode.lt cur rest).trans ?_
            have := htv1.trans (hperm2.map (dnodeOf pos p))
            rw [List.map_cons, hgc] at this
            exact this.cons_inv
          have hsz2 : pendingSize (pend ++ pushed)
              = (emitted g.1).length + pendingSize (l1 ++ l2) := by
            unfold pendingSize
            rw [(hperm2.map _).sum_eq]
            simp
          have hit2 := pendingItems_perm hperm2
          have hcur : cur.octant = g.2 := by rw [← hgc]; rfl
          obtain ⟨result, hres, hfinal⟩ := knnLoop_zero pos lin p all hall fuel cur g.1
            (l1 ++ l2) { st1 with to_visit := PriorityQueue.pop DNode.lt st1.to_visit }
            (by rw [hcur]; exact hgP) hrestP (by simp only [htvl]; exact hpop)
            (by
              simp only [htvl]
              exact PriorityQueue.pop_isHeap DNode.lt dnodeKey dnode_lt_iff _ hheap1)
            hexact1
            (by
              refine List.Subperm.trans (List.Perm.subperm ?_) hacc1
              refine List.Perm.append_left _ ?_
              simpa [pendingItems, List.flatMap_cons] using hit2.symm)
            (by
              rw [pendingSize_append] at hsz2
              omega)
            (by
              rcases hgood1 with h | ⟨g', hg', hw⟩
              · exact Or.inl h
              · refine Or.inr ⟨g', ?_, hw⟩
                have := hperm2.mem_iff.1 hg'
                rw [hcur]
                exact this)
          exact ⟨result, by rw [← htvl]; exact hres, hfinal⟩
    have hlenacc : st.result.length + (flatten (Octree.mk b d cs)).length < 2 ^ 64 - 1 := by
      have := hacc.length_le
      simp only [resItems, List.length_append, List.length_map] at this
      omega
    simp only [knnLoop, hnode]
    by_cases hscan : (cs.isEmpty || decide ((flatten (Octree.mk b d cs)).length ≤ 0)) = true
    · rw [if_pos hscan]
      have h1 := knnScan_zero pos lin p (flatten (Octree.mk b d cs)) pre post st hod hlenacc
      rw [hpre] at h1
      rw [h1]
      refine hnext _ [] ?_ ?_ (by simpa using htv) hheap (by simp)
        (by simp [pendingSize, emitted]) ?_
      · intro r hr
        rcases List.mem_append.1 hr with hr | hr
        · exact hexact r hr
        · exact acceptedEntries_exact pos p _ _ r hr
      · refine List.Subperm.trans (List.Sublist.subperm ?_) hacc
        simp only [resItems, List.map_append, List.append_nil, List.append_assoc]
        exact List.Sublist.append (List.Sublist.refl _)
          (List.Sublist.append (acceptedEntries_items pos p _ _) (List.Sublist.refl _))
      · rcases hgood with h | ⟨g, hg, hw⟩
        · left
          intro h0
          exact h (List.append_eq_nil.1 h0).1
        · rcases List.mem_cons.1 hg with rfl | hg
          · left
            intro h0
            have h2 := (List.append_eq_nil.1 h0).2
            rw [acceptedEntries_of_withinBound pos p _ _ hw.2] at h2
            exact hw.1 (List.map_eq_nil_iff.1 h2)
          · exact Or.inr ⟨g, by simpa using hg, hw⟩
    · rw [if_neg hscan]
      simp only [Bool.or_eq_true, List.isEmpty_iff, decide_eq_true_eq, not_or, not_le] at hscan
      obtain ⟨hne, hbig⟩ := hscan
      obtain ⟨hfl, hpl⟩ := payloadOnlyInLeaves_flatten b d cs hpay hne
      have hany : cs.any Octree.used = true :=
        any_used_of_flattenList_ne_nil _ (by
          rw [← hfl]
          intro h0
          rw [h0] at hbig
          simp at hbig)
      have hstart : chainStart cs (current.octant + 1) = some (current.octant + 1) := by
        unfold chainStart
        rw [hany]
        rfl
      obtain ⟨st1, pushed, e1, e2, e3, e4, e5, e6, e7, e8⟩ :=
        knnChildren_zero pos lin p cs (current.octant + 1) (s + d.length)
          lin.linear_tree.length st pend hlist hpl (by omega) htv hheap
      rw [hstart] at e1
      rw [e1]
      refine hnext st1 pushed (by rw [e2]; exact hexact) ?_ e3 e4 e5
        (by simp only [emitted, List.length_cons]; omega) ?_
      · rw [e2]
        refine List.Subperm.trans ?_ hacc
        rw [hfl, pendingItems_append]
        refine List.Subperm.trans (List.Perm.subperm
          (List.Perm.append_left _ List.perm_append_comm)) ?_
        exact (List.Sublist.append (List.Sublist.refl _)
          (List.Sublist.append e7 (List.Sublist.refl _))).subperm
      · rcases hgood with h | ⟨g, hg, hw⟩
        · exact Or.inl (by rw [e2]; exact h)
        · right
          apply e8
          rcases List.mem_cons.1 hg with rfl | hg
          · right
            apply withinBound_flattenList
            rw [← hfl]
            exact hw
          · exact Or.inl ⟨g, hg, hw⟩

/-- C21 (the code at `k = 0`): on every compacted tree that holds an item (fewer than
`2 ^ 64 - 1` of them), built from a dynamic octree with payload only in leaves, and for every
query point, `knnSearch` with `k = 0` returns a result that is not empty, so it has more than
`k` entries: the test `result.size() < k - 1` compares with `2 ^ 64 - 1` and every item that
is examined within the bound is appended.  The entries are stored items with their exact
squared distances; when the root is a leaf the result holds every stored item. -/
theorem knnSearch_zero_k (pos : D → Vec3 α) (t : Octree α D) (p : Vec3 α)
    (result0 : PriorityQueue (SearchResult α D)) (hmodel : t.payloadOnlyInLeaves = true)
    (hne : t.items ≠ 0) (hlen : (ofOctree pos t).ordered_data.length < 2 ^ 64 - 1) :
    ∃ result, knnSearch pos (ofOctree pos t) p 0 result0 = some result ∧
      0 < result.length ∧ ¬ result.length ≤ 0 ∧
      (∀ r ∈ result, r.distance2 = Vec3.distance2 (pos r.data) p) ∧
      (result.map SearchResult.data).Subperm (ofOctree pos t).ordered_data ∧
      (t.leaf = true → result
        = (ofOctree pos t).ordered_data.map (fun d => ⟨d, Vec3.distance2 (pos d) p⟩)) := by
  have hf : flatten t ≠ [] := flatten_ne_nil_of_items t hne
  have hlenl := ofOctree_length pos t hf
  have hpos := emitted_length_pos t
  have hod := ofOctree_ordered_data pos t
  obtain ⟨hroot, _⟩ := layout_node pos _ t 0 0 none (layout_ofOctree pos t hf)
  have hnel : (ofOctree pos t).linear_tree.isEmpty = false := by
    cases hl : (ofOctree pos t).linear_tree with
    | nil => rw [hl] at hlenl; simp at hlenl; omega
    | cons a as => rfl
  have hk0 : (if 0 > (ofOctree pos t).ordered_data.length
      then (ofOctree pos t).ordered_data.length else 0) = 0 := by simp
  obtain ⟨result, hres, hnonempty, hexact, hsub⟩ :=
    knnLoop_zero pos (ofOctree pos t) p (ofOctree pos t).ordered_data hlen
      (ofOctree pos t).linear_tree.length ⟨(hull pos t).distance2 p, 0⟩ t []
      { result := [], max_distance2 := ⊤, to_visit := [] }
      ⟨⟨0, none, layout_ofOctree pos t hf⟩, hmodel⟩ (by simp) (by simp)
      (by intro q j x y _ _ hx; simp at hx) (by simp)
      (by simp [resItems, pendingItems, hod, List.Subperm.refl])
      (by simp [pendingSize, hlenl])
      (Or.inr ⟨(t, 0), by simp, hf, fun d _ => le_top⟩)
  have hsearch : knnSearch pos (ofOctree pos t) p 0 result0 = some result := by
    unfold knnSearch
    simp only [hnel, Bool.false_eq_true, if_false, hk0, hroot, PriorityQueue.clear]
    exact hres
  refine ⟨result, hsearch, List.length_pos.2 hnonempty, ?_, hexact, hsub, ?_⟩
  · have := List.length_pos.2 hnonempty
    omega
  · intro hleaf
    obtain ⟨fuel, hfuel⟩ : ∃ f, (ofOctree pos t).linear_tree.length = f + 1 :=
      ⟨(ofOctree pos t).linear_tree.length - 1, by omega⟩
    have hscan := knnScan_zero pos (ofOctree pos t) p (flatten t) [] []
      { result := [], max_distance2 := ⊤, to_visit := [] } (by simp [hod])
      (by
        rw [hod] at hlen
        simpa using hlen)
    rw [hfuel] at hres
    simp only [knnLoop, hroot, hleaf, Bool.true_or, if_true] at hres
    simp only [List.length_nil] at hscan
    rw [hscan] at hres
    simp only [PriorityQueue.empty, List.isEmpty_nil, if_true, List.nil_append,
      Option.some.injEq] at hres
    rw [← hres, hod]
    exact acceptedEntries_of_withinBound pos p ⊤ (flatten t) (fun d _ => le_top)

theorem knnSearch_zero_k_witness :
    oneItemTree.payloadOnlyInLeaves = true ∧ oneItemTree.items ≠ 0 ∧
    (ofOctree id oneItemTree).ordered_data.length < 2 ^ 64 - 1 ∧
    knnSearch id (ofOctree id oneItemTree) ⟨1, 0, 0⟩ 0 [] = some [⟨⟨0, 0, 0⟩, 1⟩] ∧
    knnSearch id (ofOctree id sampleTree) ⟨0, 0, 0⟩ 0 []
      = some [⟨⟨0, 0, 0⟩, 0⟩, ⟨⟨1, 1, 1⟩, 3⟩] ∧
    ∃ result, knnSearch id (ofOctree id oneItemTree) ⟨1, 0, 0⟩ 0 [] = some result ∧
      0 < result.length ∧ ¬ result.length ≤ 0 ∧
      (∀ r ∈ result, r.distance2 = Vec3.distance2 (id r.data) ⟨1, 0, 0⟩) ∧
      (result.map SearchResult.data).Subperm (ofOctree id oneItemTree).ordered_data ∧
      (oneItemTree.leaf = true → result
        = (ofOctree id oneItemTree).ordered_data.map
            (fun d => ⟨d, Vec3.distance2 (id d) ⟨1, 0, 0⟩⟩)) :=
  ⟨by decide, by decide, by decide, by decide, by decide,
    knnSearch_zero_k id oneItemTree ⟨1, 0, 0⟩ [] (by decide) (by decide) (by decide)⟩

end ZeroProofs

/-! ## Rounded double arithmetic -/

section RoundingProofs

variable {α : Type} [LinearOrderedField α] [FloorRing α]

theorem int_log_eq {b : ℕ} (hb : 1 < b) {x : α} (hx : 0 < x) {z : ℤ}
    (h1 : (b : α) ^ z ≤ x) (h2 : x < (b : α) ^ (z + 1)) : Int.log b x = z := by
  apply le_antisymm
  · have := (Int.lt_zpow_iff_log_lt hb hx).1 h2
    omega
  · exact (Int.zpow_le_iff_le_log hb hx).1 h1

theorem roundHalfEven_bounds (q : α) :
    ⌊q⌋ ≤ roundHalfEven q ∧ roundHalfEven q ≤ ⌊q⌋ + 1 := by
  unfold roundHalfEven
  split_ifs <;> constructor <;> omega

/-- A value that is less than one half away from an integer is rounded to it. -/
theorem roundHalfEven_of_near (q : α) (m : ℤ) (h1 : (m : α) - 1 / 2 < q)
    (h2 : q < (m : α) + 1 / 2) : roundHalfEven q = m := by
  by_cases hq : (m : α) ≤ q
  · have hf : ⌊q⌋ = m := Int.floor_eq_iff.2 ⟨hq, by linarith⟩
    unfold roundHalfEven
    rw [hf, if_pos (by linarith)]
  · have hf : ⌊q⌋ = m - 1 :=
      Int.floor_eq_iff.2 ⟨by push_cast; linarith, by push_cast; linarith⟩
    unfold roundHalfEven
    rw [hf]
    push_cast
    rw [if_neg (by linarith), if_pos (by linarith)]
    ring

theorem roundHalfEven_intCast (z : ℤ) : roundHalfEven (z : α) = z :=
  roundHalfEven_of_near _ z (by linarith) (by linarith)

theorem roundNearestEven_zero : roundNearestEven (0 : α) = 0 := by
  simp [roundNearestEven]

theorem roundNearestEven_neg (x : α) : roundNearestEven (-x) = -roundNearestEven x := by
  rcases lt_trichotomy x 0 with h | h | h
  · have h1 : ¬ x = 0 := ne_of_lt h
    have h2 : ¬ 0 < x := not_lt.2 (le_of_lt h)
    have h3 : ¬ -x = 0 := by simpa using h1
    have h4 : 0 < -x := by linarith
    simp only [roundNearestEven, h1, h2, h3, h4, if_true, if_false, neg_neg]
  · subst h
    simp [roundNearestEven]
  · have h1 : ¬ x = 0 := ne_of_gt h
    have h3 : ¬ -x = 0 := by simpa using h1
    have h4 : ¬ 0 < -x := by linarith
    simp only [roundNearestEven, h1, h, h3, h4, if_true, if_false, neg_neg]

/-- The scaled value that is rounded lies in `[2 ^ 52, 2 ^ 53)`. -/
theorem mantissa_range (x : α) (hx : 0 < x) :
    (2 : α) ^ (52 : ℕ) ≤ x / 2 ^ (Int.log 2 x - 52) ∧
    x / 2 ^ (Int.log 2 x - 52) < 2 ^ (53 : ℕ) := by
  have h2 : (0 : α) < 2 := by norm_num
  have hp : (0 : α) < 2 ^ (Int.log 2 x - 52) := zpow_pos h2 _
  have hlo := Int.zpow_log_le_self (b := 2) (by norm_num) hx
  have hhi := Int.lt_zpow_succ_log_self (b := 2) (by norm_num) x
  simp only [Nat.cast_ofNat] at hlo hhi
  constructor
  · rw [le_div_iff₀ hp]
    calc (2 : α) ^ (52 : ℕ) * 2 ^ (Int.log 2 x - 52)
        = 2 ^ (Int.log 2 x) := by
          rw [← zpow_natCast, ← zpow_add₀ (ne_of_gt h2)]
          congr 1
          push_cast
          ring
      _ ≤ x := hlo
  · rw [div_lt_iff₀ hp]
    calc x < 2 ^ (Int.log 2 x + 1) := hhi
      _ = (2 : α) ^ (53 : ℕ) * 2 ^ (Int.log 2 x - 52) := by
          rw [← zpow_natCast, ← zpow_add₀ (ne_of_gt h2)]
          congr 1
          push_cast
          ring

theorem roundNearestEven_of_pos (x : α) (hx : 0 < x) :
    roundNearestEven x
      = (roundHalfEven (x / 2 ^ (Int.log 2 x - 52)) : α) * 2 ^ (Int.log 2 x - 52) := by
  simp only [roundNearestEven, ne_of_gt hx, hx, if_true, if_false]

/-- The rounding of a positive value whose scaling by `2 ^ e` lies in `[2 ^ 52, 2 ^ 53)`. -/
theorem roundNearestEven_of_scale (x : α) (hx : 0 < x) (e : ℤ)
    (h1 : (2 : α) ^ (52 : ℕ) ≤ x / 2 ^ e) (h2 : x / 2 ^ e < 2 ^ (53 : ℕ)) :
    roundNearestEven x = (roundHalfEven (x / 2 ^ e) : α) * 2 ^ e := by
  have h2' : (0 : α) < 2 := by norm_num
  have hp : (0 : α) < 2 ^ e := zpow_pos h2' _
  have hlog : Int.log 2 x = e + 52 := by
    apply int_log_eq (by norm_num) hx
    · simp only [Nat.cast_ofNat]
      rw [le_div_iff₀ hp] at h1
      calc (2 : α) ^ (e + 52) = 2 ^ (52 : ℕ) * 2 ^ e := by
            rw [← zpow_natCast, ← zpow_add₀ (ne_of_gt h2')]
            congr 1
            push_cast
            ring
        _ ≤ x := h1
    · simp only [Nat.cast_ofNat]
      rw [div_lt_iff₀ hp] at h2
      calc x < 2 ^ (53 : ℕ) * 2 ^ e := h2
        _ = (2 : α) ^ (e + 52 + 1) := by
            rw [← zpow_natCast, ← zpow_add₀ (ne_of_gt h2')]
            congr 1
            push_cast
            ring
  rw [roundNearestEven_of_pos x hx, hlog]
  have : e + 52 - 52 = e := by ring
  rw [this]

/-- The rounding of a positive value that is less than half a unit of the last place away
from the double `m * 2 ^ e`. -/
theorem roundNearestEven_of_near (x : α) (m e : ℤ) (hm : 2 ^ 52 ≤ m) (hm2 : m < 2 ^ 53)
    (h0 : (2 : α) ^ (52 : ℕ) * 2 ^ e ≤ x) (h1 : ((m : α) - 1 / 2) * 2 ^ e < x)
    (h2 : x < ((m : α) + 1 / 2) * 2 ^ e) : roundNearestEven x = (m : α) * 2 ^ e := by
  have h2' : (0 : α) < 2 := by norm_num
  have hp : (0 : α) < 2 ^ e := zpow_pos h2' _
  have hx : 0 < x := lt_of_lt_of_le (mul_pos (pow_pos h2' _) hp) h0
  have hm2' : (m : α) + 1 ≤ 2 ^ (53 : ℕ) := by
    have : m + 1 ≤ 2 ^ 53 := by omega
    exact_mod_cast this
  rw [roundNearestEven_of_scale x hx e ((le_div_iff₀ hp).2 h0)
    ((div_lt_iff₀ hp).2 (lt_of_lt_of_le h2 (mul_le_mul_of_nonneg_right (by linarith)
      (le_of_lt hp))))]
  rw [roundHalfEven_of_near (x / 2 ^ e) m ((lt_div_iff₀ hp).2 h1) ((div_lt_iff₀ hp).2 h2)]

theorem roundNearestEven_pos (x : α) (hx : 0 < x) : 0 < roundNearestEven x := by
  rw [roundNearestEven_of_pos x hx]
  have h2 : (0 : α) < 2 := by norm_num
  refine mul_pos ?_ (zpow_pos h2 _)
  obtain ⟨h1, _⟩ := mantissa_range x hx
  have hf : (2 : ℤ) ^ 52 ≤ ⌊x / 2 ^ (Int.log 2 x - 52)⌋ := by
    rw [Int.le_floor, Int.cast_pow, Int.cast_ofNat]
    exact h1
  have hb := (roundHalfEven_bounds (x / 2 ^ (Int.log 2 x - 52))).1
  have : (0 : ℤ) < roundHalfEven (x / 2 ^ (Int.log 2 x - 52)) := by
    have : (0 : ℤ) < 2 ^ 52 := by norm_num
    omega
  exact_mod_cast this

theorem roundNearestEven_nonneg (x : α) (hx : 0 ≤ x) : 0 ≤ roundNearestEven x := by
  rcases eq_or_lt_of_le hx with h | h
  · rw [← h, roundNearestEven_zero]
  · exact le_of_lt (roundNearestEven_pos x h)

theorem roundNearestEven_nonpos (x : α) (hx : x ≤ 0) : roundNearestEven x ≤ 0 := by
  have := roundNearestEven_nonneg (-x) (by linarith)
  rw [roundNearestEven_neg] at this
  linarith

/-- A positive value `m * 2 ^ e` with an integer `m ≤ 2 ^ 53` is a double. -/
theorem roundNearestEven_fixed_pos (m e : ℤ) (hm0 : 0 < m) (hm : m ≤ 2 ^ 53) :
    roundNearestEven ((m : α) * 2 ^ e) = (m : α) * 2 ^ e := by
  have h2 : (0 : α) < 2 := by norm_num
  have hx : (0 : α) < (m : α) * 2 ^ e := mul_pos (by exact_mod_cast hm0) (zpow_pos h2 _)
  obtain ⟨hq1, hq2⟩ := mantissa_range ((m : α) * 2 ^ e) hx
  rw [roundNearestEven_of_pos _ hx]
  generalize hL : Int.log 2 ((m : α) * 2 ^ e) = L at hq1 hq2 ⊢
  have hq : (m : α) * 2 ^ e / 2 ^ (L - 52) = (m : α) * 2 ^ (e - L + 52) := by
    rw [mul_div_assoc, ← zpow_sub₀ (ne_of_gt h2)]
    congr 2
    ring
  have hint : ∃ z : ℤ, (m : α) * 2 ^ e / 2 ^ (L - 52) = (z : α) := by
    by_cases hd : 0 ≤ e - L + 52
    · refine ⟨m * 2 ^ (e - L + 52).toNat, ?_⟩
      rw [hq]
      push_cast
      rw [← zpow_natCast, Int.toNat_of_nonneg hd]
    · refine ⟨2 ^ 52, ?_⟩
      rw [Int.cast_pow, Int.cast_ofNat]
      apply le_antisymm _ hq1
      rw [hq]
      have hd' : e - L + 52 ≤ -1 := by omega
      have hz : (2 : α) ^ (e - L + 52) ≤ 2 ^ (-1 : ℤ) :=
        zpow_le_zpow_right₀ (by norm_num) hd'
      have hm' : (m : α) ≤ 2 ^ (53 : ℕ) := by exact_mod_cast hm
      calc (m : α) * 2 ^ (e - L + 52) ≤ 2 ^ (53 : ℕ) * 2 ^ (-1 : ℤ) :=
            mul_le_mul hm' hz (le_of_lt (zpow_pos h2 _)) (by positivity)
        _ = 2 ^ (52 : ℕ) := by norm_num
  obtain ⟨z, hz⟩ := hint
  rw [hz, roundHalfEven_intCast, ← hz]
  exact div_mul_cancel₀ _ (ne_of_gt (zpow_pos h2 _))

/-- Every value `m * 2 ^ e` with an integer `|m| ≤ 2 ^ 53` is a double: rounding leaves it
unchanged. -/
theorem roundNearestEven_fixed (m e : ℤ) (hm : |m| ≤ 2 ^ 53) :
    roundNearestEven ((m : α) * 2 ^ e) = (m : α) * 2 ^ e := by
  rcases lt_trichotomy m 0 with h | h | h
  · have h1 := roundNearestEven_fixed_pos (α := α) (-m) e (by omega)
      (by rw [abs_of_neg h] at hm; exact hm)
    have h2 : ((m : α) * 2 ^ e) = -(((-m : ℤ) : α) * 2 ^ e) := by push_cast; ring
    rw [h2, roundNearestEven_neg, h1]
  · subst h
    simp [roundNearestEven_zero]
  · exact roundNearestEven_fixed_pos m e h (by rw [abs_of_pos h] at hm; exact hm)

theorem roundNearestEven_natCast (n : ℕ) (hn : n ≤ 2 ^ 53) :
    roundNearestEven (n : α) = n := by
  have := roundNearestEven_fixed (α := α) (n : ℤ) 0 (by
    rw [abs_of_nonneg (by omega)]
    exact_mod_cast hn)
  simpa using this

theorem roundNearestEven_one : roundNearestEven (1 : α) = 1 := by
  simpa using roundNearestEven_natCast (α := α) 1 (by norm_num)

/-- The result of a rounding is a double. -/
theorem roundNearestEven_idem (x : α) :
    roundNearestEven (roundNearestEven x) = roundNearestEven x := by
  have hpos : ∀ y : α, 0 < y → roundNearestEven (roundNearestEven y) = roundNearestEven y := by
    intro y hy
    obtain ⟨h1, h2⟩ := mantissa_range y hy
    have hb := roundHalfEven_bounds (y / 2 ^ (Int.log 2 y - 52))
    have hf1 : (2 : ℤ) ^ 52 ≤ ⌊y / 2 ^ (Int.log 2 y - 52)⌋ := by
      rw [Int.le_floor, Int.cast_pow, Int.cast_ofNat]
      exact h1
    have hf2 : ⌊y / 2 ^ (Int.log 2 y - 52)⌋ < 2 ^ 53 := by
      rw [Int.floor_lt, Int.cast_pow, Int.cast_ofNat]
      exact h2
    rw [roundNearestEven_of_pos y hy]
    apply roundNearestEven_fixed
    rw [abs_of_nonneg (by
      have : (0 : ℤ) < 2 ^ 52 := by norm_num
      omega)]
    omega
  rcases lt_trichotomy x 0 with h | h | h
  · have := hpos (-x) (by linarith)
    rw [roundNearestEven_neg, roundNearestEven_neg] at this
    exact neg_injective this
  · subst h
    rw [roundNearestEven_zero, roundNearestEven_zero]
  · exact hpos x h

/-- Rounding does not carry a value that is at most `1` above `1`. -/
theorem roundNearestEven_le_one (x : α) (hx : x ≤ 1) : roundNearestEven x ≤ 1 := by
  rcases le_or_lt x 0 with h0 | h0
  · exact le_trans (roundNearestEven_nonpos x h0) zero_le_one
  rcases eq_or_lt_of_le hx with h1 | h1
  · rw [h1, roundNearestEven_one]
  have h2 : (0 : α) < 2 := by norm_num
  have hL : Int.log 2 x < 0 := by
    apply (Int.lt_zpow_iff_log_lt (b := 2) (by norm_num) h0).1
    simpa using h1
  obtain ⟨_, hq2⟩ := mantissa_range x h0
  have hb := (roundHalfEven_bounds (x / 2 ^ (Int.log 2 x - 52))).2
  have hf2 : ⌊x / 2 ^ (Int.log 2 x - 52)⌋ < 2 ^ 53 := by
    rw [Int.floor_lt, Int.cast_pow, Int.cast_ofNat]
    exact hq2
  have hm : (roundHalfEven (x / 2 ^ (Int.log 2 x - 52)) : α) ≤ 2 ^ (53 : ℕ) := by
    have : roundHalfEven (x / 2 ^ (Int.log 2 x - 52)) ≤ 2 ^ 53 := by omega
    exact_mod_cast this
  rw [roundNearestEven_of_pos x h0]
  have hz : (2 : α) ^ (Int.log 2 x - 52) ≤ 2 ^ (-53 : ℤ) :=
    zpow_le_zpow_right₀ (by norm_num) (by omega)
  calc (roundHalfEven (x / 2 ^ (Int.log 2 x - 52)) : α) * 2 ^ (Int.log 2 x - 52)
      ≤ 2 ^ (53 : ℕ) * 2 ^ (-53 : ℤ) :=
        mul_le_mul hm hz (le_of_lt (zpow_pos h2 _)) (by positivity)
    _ = 1 := by norm_num

theorem sqrtNearest_nonneg (x : α) : 0 ≤ sqrtNearest x := by
  unfold sqrtNearest
  split
  · exact le_refl _
  · apply roundNearestEven_nonneg
    apply div_nonneg
    · apply add_nonneg (Nat.cast_nonneg _)
      split <;> norm_num
    · exact le_of_lt (zpow_pos (by norm_num) _)

theorem sqrtNearest_one : sqrtNearest (1 : α) = 1 := by
  have hs : Nat.sqrt (4 ^ 60) = 2 ^ 60 := by
    have : (4 : ℕ) ^ 60 = 2 ^ 60 * 2 ^ 60 := by norm_num
    rw [this, Nat.sqrt_eq]
  have hfl : ⌊(1 : α) * 4 ^ ((60 : ℤ) - 0)⌋₊ = 4 ^ 60 := by
    have : (1 : α) * 4 ^ ((60 : ℤ) - 0) = ((4 ^ 60 : ℕ) : α) := by norm_num
    rw [this, Nat.floor_natCast]
  unfold sqrtNearest
  rw [if_neg (by norm_num)]
  simp only [Int.log_one_right, hfl, hs]
  have he : ((2 ^ 60 : ℕ) : α) * ((2 ^ 60 : ℕ) : α) = 1 * 4 ^ ((60 : ℤ) - 0) := by norm_num
  rw [if_pos he]
  have hv : (((2 ^ 60 : ℕ) : α) + 0) / 2 ^ ((60 : ℤ) - 0) = 1 := by norm_num
  rw [hv, roundNearestEven_one]

end RoundingProofs

/-! ## The photon budget -/

section BudgetProofs

open PhotonMapper

variable {α σ : Type} [LinearOrderedField α] [FloorRing α]

/-- With the identity as rounding the rounded scalar flux is the exact one. -/
theorem lightFluxRounded_id (light : Light α) :
    lightFluxRounded (fun x => x) light = lightFlux light := rfl

theorem numLightEmissionsRounded_id (N : Nat) (F : α) (light : Light α) :
    numLightEmissionsRounded (fun x => x) N F light = numLightEmissions N F light := rfl

theorem totalAddFluxRounded_id (lights : List (Light α)) :
    totalAddFluxRounded (fun x => x) lights = totalAddFlux lights := rfl

/-- The double nearest to `1/49`. -/
theorem roundNearestEven_inv_49 :
    roundNearestEven ((1 : ℚ) / 49) = 5882252574524729 / 2 ^ 58 := by
  rw [roundNearestEven_of_near ((1 : ℚ) / 49) 5882252574524729 (-58) (by norm_num)
    (by norm_num) (by norm_num) (by norm_num) (by norm_num)]
  norm_num

/-- The double product of `49` and the double nearest to `1/49` is the double below `1`. -/
theorem roundNearestEven_49_mul_inv_49 :
    roundNearestEven ((49 : ℚ) * (5882252574524729 / 2 ^ 58)) = 1 - 1 / 2 ^ 53 := by
  rw [roundNearestEven_of_near ((49 : ℚ) * (5882252574524729 / 2 ^ 58))
    9007199254740991 (-53) (by norm_num) (by norm_num) (by norm_num) (by norm_num)
    (by norm_num)]
  norm_num

theorem roundNearestEven_ofNat_2 : roundNearestEven (2 : ℚ) = 2 := by
  simpa using roundNearestEven_natCast (α := ℚ) 2 (by norm_num)

end BudgetProofs

/-! ## The cone weight of the farthest photon -/

section ConeWeightProofs

open Octree LinearOctree PhotonMapper

variable {α σ : Type} [LinearOrderedField α] [FloorRing α]

omit [FloorRing α] in
/-- A photon of weight zero adds the zero vector. -/
theorem causticTermRounded_zero (fl : α → α) (hfl0 : fl 0 = 0) (flux b : Vec3 α) (pdf : α) :
    causticTermRounded fl flux b 0 pdf = Vec3.splat 0 := by
  simp [causticTermRounded, Vec3.map, Vec3.smul, Vec3.sdiv, Vec3.splat, hfl0]

omit [FloorRing α] in
/-- The photons whose weight is zero can be left out of the loop of
`estimateCausticRadiance`. -/
theorem causticSumRounded_drop (fl : α → α) (env : Collaborators α σ)
    (interaction : Interaction α) (inv r2 : α) (hfl0 : fl 0 = 0)
    (hidem : ∀ x, fl (fl x) = fl x) :
    ∀ (photons : List (SearchResult α (Photon α))) (radiance : Vec3 α),
      radiance.map fl = radiance →
      (∀ ph ∈ photons, ph.distance2 = r2 → coneWeightRounded fl env ph.distance2 inv = 0) →
      causticSumRounded fl env interaction inv photons radiance
        = causticSumRounded fl env interaction inv
            (photons.filter (fun ph => decide (ph.distance2 ≠ r2))) radiance
  | [], _, _, _ => rfl
  | ph :: photons, radiance, hrep, hw => by
    have hrest := causticSumRounded_drop fl env interaction inv r2 hfl0 hidem photons
    have hw' : ∀ q ∈ photons, q.distance2 = r2 →
        coneWeightRounded fl env q.distance2 inv = 0 :=
      fun q hq => hw q (List.mem_cons_of_mem _ hq)
    have hrepn : ∀ v : Vec3 α, (v.map fl).map fl = v.map fl := by
      intro v
      simp [Vec3.map, hidem]
    by_cases hd : ph.distance2 = r2
    · have hf : (ph :: photons).filter (fun ph => decide (ph.distance2 ≠ r2))
          = photons.filter (fun ph => decide (ph.distance2 ≠ r2)) := by
        simp [hd]
      rw [hf]
      simp only [causticSumRounded]
      cases hb : env.BSDF interaction ph.data.dir with
      | none => exact hrest radiance hrep hw'
      | some b =>
        obtain ⟨b1, b2⟩ := b
        simp only
        rw [hw ph (List.mem_cons_self _ _) hd, causticTermRounded_zero fl hfl0]
        have h0 : (radiance.add (Vec3.splat 0)).map fl = radiance := by
          have : radiance.add (Vec3.splat 0) = radiance := by
            simp [Vec3.add, Vec3.splat]
          rw [this, hrep]
        rw [h0]
        exact hrest radiance hrep hw'
    · have hf : (ph :: photons).filter (fun ph => decide (ph.distance2 ≠ r2))
          = ph :: photons.filter (fun ph => decide (ph.distance2 ≠ r2)) := by
        simp [hd]
      rw [hf]
      simp only [causticSumRounded]
      cases hb : env.BSDF interaction ph.data.dir with
      | none => exact hrest radiance hrep hw'
      | some b =>
        obtain ⟨b1, b2⟩ := b
        exact hrest _ (hrepn _) hw'

omit [FloorRing α] in
/-- The weight that `estimateCausticRadiance` uses lies in `[0, 1]`. -/
theorem coneWeightRounded_range (fl : α → α) (env : Collaborators α σ) (d inv : α)
    (hfl1 : ∀ x, x ≤ 1 → fl x ≤ 1) (hs : 0 ≤ env.sqrt (fl (d * inv))) :
    0 ≤ coneWeightRounded fl env d inv ∧ coneWeightRounded fl env d inv ≤ 1 := by
  unfold coneWeightRounded
  exact ⟨le_max_left _ _, max_le zero_le_one (hfl1 _ (by linarith))⟩

/-- C20 (amended): in `estimateCausticRadiance`, computed with the rounding `fl` after every
double operation, the loop adds for every neighbour the term with the weight
`w_p = max(0, fl(1 - sqrt(fl(d_p^2 * fl(1 / r2)))))`, and every such weight lies in `[0, 1]`
(`r2` is the squared distance at the root of the result).  When the product
`r2 * fl(1 / r2)` is computed as `1` (always so in exact arithmetic when `r2 ≠ 0`), every
neighbour with `d_p^2 = r2`, among them
the root, has weight exactly `0`, such neighbours can be left out of the sum without
changing it, and when all returned photons are equidistant, in particular when the result
holds a single photon, the estimate is `(0,0,0)`.  With the identity as rounding the function
is the exact embedding. -/
theorem cone_weight_farthest (fl : α → α) (env : Collaborators α σ) (self : PhotonMapper α)
    (interaction : Interaction α) (t : Octree α (Photon α))
    (hfl0 : fl 0 = 0) (hflnn : ∀ x, 0 ≤ x → 0 ≤ fl x) (hfl1 : ∀ x, x ≤ 1 → fl x ≤ 1)
    (hidem : ∀ x, fl (fl x) = fl x)
    (hsqrt0 : ∀ x, 0 ≤ x → 0 ≤ env.sqrt x) (hsqrt1 : env.sqrt 1 = 1)
    (hc : self.caustic_map = ofOctree Photon.pos t) (hmodel : t.payloadOnlyInLeaves = true)
    (hne : t.items ≠ 0) (hk : 1 ≤ self.k_nearest_photons)
    (hk64 : self.k_nearest_photons < 2 ^ 64) :
    ∃ photons top, knnSearch Photon.pos self.caustic_map interaction.position
        self.k_nearest_photons [] = some photons ∧ PriorityQueue.top photons = some top ∧
      top ∈ photons ∧
      photons.length = min self.k_nearest_photons self.caustic_map.ordered_data.length ∧
      (∀ ph ∈ photons, ph.distance2 = Vec3.distance2 ph.data.pos interaction.position) ∧
      (photons.map SearchResult.data).Subperm self.caustic_map.ordered_data ∧
      (bruteForceKnn Photon.pos self.caustic_map.ordered_data interaction.position
        (min self.k_nearest_photons self.caustic_map.ordered_data.length)).getLast?
        = some top.distance2 ∧
      estimateCausticRadianceRounded fl env self interaction
        = some (((((((causticSumRounded fl env interaction (fl (1 / top.distance2)) photons
            (Vec3.splat 0)).smul 3).map fl).smul (fl (1 / top.distance2))).map fl).smul
              env.INV_PI).map fl) ∧
      causticSumRounded fl env interaction (fl (1 / top.distance2)) photons (Vec3.splat 0)
        = photons.foldl (fun radiance ph =>
            match env.BSDF interaction ph.data.dir with
            | some (b, pdf) =>
              (radiance.add ((((((ph.data.flux.mul b).map fl).smul
                (max 0 (fl (1 - env.sqrt (fl (ph.distance2 * fl (1 / top.distance2))))))).map
                  fl).sdiv pdf).map fl)).map fl
            | none => radiance) (Vec3.splat 0) ∧
      (∀ ph ∈ photons,
        0 ≤ max 0 (fl (1 - env.sqrt (fl (ph.distance2 * fl (1 / top.distance2))))) ∧
        max 0 (fl (1 - env.sqrt (fl (ph.distance2 * fl (1 / top.distance2))))) ≤ 1) ∧
      (fl (top.distance2 * fl (1 / top.distance2)) = 1 →
        (∀ ph ∈ photons, ph.distance2 = top.distance2 →
          max 0 (fl (1 - env.sqrt (fl (ph.distance2 * fl (1 / top.distance2))))) = 0) ∧
        max 0 (fl (1 - env.sqrt (fl (top.distance2 * fl (1 / top.distance2))))) = 0 ∧
        causticSumRounded fl env interaction (fl (1 / top.distance2)) photons (Vec3.splat 0)
          = causticSumRounded fl env interaction (fl (1 / top.distance2))
              (photons.filter (fun ph => decide (ph.distance2 ≠ top.distance2)))
              (Vec3.splat 0) ∧
        ((∀ ph ∈ photons, ph.distance2 = top.distance2) →
          estimateCausticRadianceRounded fl env self interaction = some (Vec3.splat 0)) ∧
        (photons.length = 1 →
          estimateCausticRadianceRounded fl env self interaction = some (Vec3.splat 0))) ∧
      estimateCausticRadianceRounded (fun x => x) env self interaction
        = estimateCausticRadiance env self interaction ∧
      (top.distance2 ≠ 0 → top.distance2 * (1 / top.distance2) = 1) := by
  obtain ⟨photons, top, hres, hlen, hexact, hsub, _, _, htop, htm, _, hlast⟩ :=
    knnSearch_facts Photon.pos t interaction.position self.k_nearest_photons []
      hmodel (flatten_ne_nil_of_items t hne) hk hk64
  rw [← hc] at hres hlen hsub hlast
  have hempty : PriorityQueue.empty photons = false := by
    cases photons with
    | nil => simp at htm
    | cons a as => rfl
  have hval : estimateCausticRadianceRounded fl env self interaction
      = some (((((((causticSumRounded fl env interaction (fl (1 / top.distance2)) photons
          (Vec3.splat 0)).smul 3).map fl).smul (fl (1 / top.distance2))).map fl).smul
            env.INV_PI).map fl) := by
    unfold estimateCausticRadianceRounded
    simp only [hres, hempty, htop, Bool.false_eq_true, if_false]
  have hd0 : ∀ ph ∈ photons, 0 ≤ ph.distance2 := by
    intro ph hph
    rw [hexact ph hph]
    exact distance2_nonneg _ _
  have hinv0 : 0 ≤ fl (1 / top.distance2) :=
    hflnn _ (one_div_nonneg.2 (hd0 top htm))
  have hexactSum : ∀ (inv : α) (l : List (SearchResult α (Photon α))) (radiance : Vec3 α),
      causticSumRounded (fun x => x) env interaction inv l radiance
        = causticSum env interaction inv l radiance := by
    intro inv l
    induction l with
    | nil =>
      intro _
      rfl
    | cons ph l ih =>
      intro radiance
      simp only [causticSumRounded, causticSum]
      cases env.BSDF interaction ph.data.dir with
      | none => exact ih radiance
      | some b => exact ih _
  have hid : estimateCausticRadianceRounded (fun x => x) env self interaction
      = estimateCausticRadiance env self interaction := by
    unfold estimateCausticRadianceRounded estimateCausticRadiance
    simp only [hres, hempty, htop, Bool.false_eq_true, if_false, hexactSum]
    rfl
  refine ⟨photons, top, hres, htop, htm, hlen, hexact, hsub, hlast, hval, ?_, ?_, ?_, hid,
    fun h => mul_one_div_cancel h⟩
  · generalize Vec3.splat (0 : α) = r0
    generalize photons = l
    induction l generalizing r0 with
    | nil => rfl
    | cons ph l ih =>
      rw [List.foldl_cons, ← ih]
      simp only [causticSumRounded]
      cases env.BSDF interaction ph.data.dir with
      | none => rfl
      | some b => rfl
  · intro ph hph
    exact coneWeightRounded_range fl env _ _ hfl1
      (hsqrt0 _ (hflnn _ (mul_nonneg (hd0 ph hph) hinv0)))
  · intro hex
    have hw0 : ∀ d : α, d = top.distance2 →
        coneWeightRounded fl env d (fl (1 / top.distance2)) = 0 := by
      intro d hd
      unfold coneWeightRounded
      rw [hd, hex, hsqrt1, sub_self, hfl0, max_self]
    have hdrop := causticSumRounded_drop fl env interaction (fl (1 / top.distance2))
      top.distance2 hfl0 hidem photons (Vec3.splat 0)
      (by simp [Vec3.map, Vec3.splat, hfl0]) (fun ph _ hd => hw0 _ hd)
    have hequi : (∀ ph ∈ photons, ph.distance2 = top.distance2) →
        estimateCausticRadianceRounded fl env self interaction = some (Vec3.splat 0) := by
      intro hall
      have hnil : photons.filter (fun ph => decide (ph.distance2 ≠ top.distance2)) = [] := by
        rw [List.filter_eq_nil_iff]
        intro ph hph
        simp [hall ph hph]
      rw [hval, hdrop, hnil]
      simp [causticSumRounded, Vec3.map, Vec3.smul, Vec3.splat, hfl0]
    refine ⟨fun ph _ hd => hw0 _ hd, hw0 _ rfl, hdrop, hequi, ?_⟩
    intro hone
    apply hequi
    intro ph hph
    cases photons with
    | nil => simp at hph
    | cons a as =>
      have has : as = [] := by
        cases as with
        | nil => rfl
        | cons b bs => simp at hone
      subst has
      rw [List.mem_singleton] at hph htm
      rw [hph, htm]

omit [FloorRing α] in
/-- The estimate for a result that holds one photon whose BSDF evaluation succeeds. -/
theorem estimateCausticRadianceRounded_single (fl : α → α) (env : Collaborators α σ)
    (self : PhotonMapper α) (interaction : Interaction α) (ph : SearchResult α (Photon α))
    (b : Vec3 α) (pdf : α)
    (hres : knnSearch Photon.pos self.caustic_map interaction.position
      self.k_nearest_photons [] = some [ph])
    (hb : env.BSDF interaction ph.data.dir = some (b, pdf)) :
    estimateCausticRadianceRounded fl env self interaction
      = some (((((((((Vec3.splat 0).add (causticTermRounded fl ph.data.flux b
          (coneWeightRounded fl env ph.distance2 (fl (1 / ph.distance2))) pdf)).map fl).smul
            3).map fl).smul (fl (1 / ph.distance2))).map fl).smul env.INV_PI).map fl) := by
  unfold estimateCausticRadianceRounded
  rw [hres]
  simp only [PriorityQueue.empty, List.isEmpty_cons, Bool.false_eq_true, if_false,
    PriorityQueue.top, List.head?_cons, causticSumRounded, hb]

omit [FloorRing α] in
/-- With a rounding that keeps positive values positive, a photon of positive weight gives an
estimate of positive components. -/
theorem single_estimate_pos (fl : α → α) (hp : ∀ x, 0 < x → 0 < fl x) (flux b : Vec3 α)
    (wp pdf inv ipi : α) (hf : 0 < flux.x ∧ 0 < flux.y ∧ 0 < flux.z)
    (hb : 0 < b.x ∧ 0 < b.y ∧ 0 < b.z) (hw : 0 < wp) (hpdf : 0 < pdf) (hinv : 0 < inv)
    (hipi : 0 < ipi) :
    0 < (((((((((Vec3.splat 0).add (causticTermRounded fl flux b wp pdf)).map fl).smul
      3).map fl).smul inv).map fl).smul ipi).map fl).x ∧
    0 < (((((((((Vec3.splat 0).add (causticTermRounded fl flux b wp pdf)).map fl).smul
      3).map fl).smul inv).map fl).smul ipi).map fl).y ∧
    0 < (((((((((Vec3.splat 0).add (causticTermRounded fl flux b wp pdf)).map fl).smul
      3).map fl).smul inv).map fl).smul ipi).map fl).z := by
  have h3 : (0 : α) < 3 := by norm_num
  have hc : ∀ f c : α, 0 < f → 0 < c →
      0 < fl (fl (fl (fl (0 + fl (fl (fl (f * c) * wp) / pdf)) * 3) * inv) * ipi) := by
    intro f c hf hc
    refine hp _ (mul_pos (hp _ (mul_pos (hp _ (mul_pos (hp _ ?_) h3)) hinv)) hipi)
    rw [zero_add]
    exact hp _ (div_pos (hp _ (mul_pos (hp _ (mul_pos hf hc)) hw)) hpdf)
  simp only [causticTermRounded, Vec3.map, Vec3.smul, Vec3.sdiv, Vec3.mul, Vec3.add,
    Vec3.splat]
  exact ⟨hc _ _ hf.1 hb.1, hc _ _ hf.2.1 hb.2.1, hc _ _ hf.2.2 hb.2.2⟩

/-! ### The weight of a single photon at squared distance 49 -/

/-- The correctly rounded square root of the double below `1` is that double. -/
theorem sqrtNearest_below_one : sqrtNearest ((1 : ℚ) - 1 / 2 ^ 53) = 1 - 1 / 2 ^ 53 := by
  have hx : (0 : ℚ) < 1 - 1 / 2 ^ 53 := by norm_num
  have hlog : Int.log 4 ((1 : ℚ) - 1 / 2 ^ 53) = -1 :=
    int_log_eq (by norm_num) hx (by norm_num) (by norm_num)
  have hy : ((1 : ℚ) - 1 / 2 ^ 53) * 4 ^ ((60 : ℤ) - (-1))
      = ((5316911983139662901319417882415726592 : ℕ) : ℚ) := by norm_num
  have hs : Nat.sqrt 5316911983139662901319417882415726592 = 2305843009213693823 := by
    symm
    rw [Nat.eq_sqrt]
    constructor <;> norm_num
  unfold sqrtNearest
  rw [if_neg (not_le.2 hx)]
  simp only [hlog, hy, Nat.floor_natCast, hs]
  rw [if_neg (by norm_num)]
  rw [roundNearestEven_of_near
    ((((2305843009213693823 : ℕ) : ℚ) + 1 / 2) / 2 ^ ((60 : ℤ) - (-1)))
    9007199254740991 (-53) (by norm_num) (by norm_num) (by norm_num) (by norm_num)
    (by norm_num)]
  norm_num

theorem roundNearestEven_one_sub_below_one :
    roundNearestEven ((1 : ℚ) - (1 - 1 / 2 ^ 53)) = 1 / 2 ^ 53 := by
  have h : (1 : ℚ) - (1 - 1 / 2 ^ 53) = ((1 : ℤ) : ℚ) * 2 ^ (-53 : ℤ) := by norm_num
  rw [h, roundNearestEven_fixed 1 (-53) (by norm_num)]
  norm_num

/-- The weight that the code computes for a photon at squared distance 49 when 49 is the
largest squared distance: `2 ^ (-53)`. -/
theorem coneWeightRounded_49 :
    coneWeightRounded roundNearestEven doubleCollaborators 49 (roundNearestEven (1 / 49))
      = 1 / 2 ^ 53 := by
  have hs : doubleCollaborators.sqrt = sqrtNearest := rfl
  unfold coneWeightRounded
  rw [hs, roundNearestEven_inv_49, roundNearestEven_49_mul_inv_49, sqrtNearest_below_one,
    roundNearestEven_one_sub_below_one]
  norm_num

theorem farPhoton_search :
    knnSearch Photon.pos farPhotonMapper.caustic_map ⟨0, 0, 0⟩
      farPhotonMapper.k_nearest_photons [] = some [⟨farPhoton, 49⟩] := by
  have hf : flatten farPhotonTree = [farPhoton] := by
    simp [farPhotonTree, flatten, flattenList]
  have hmodel : farPhotonTree.payloadOnlyInLeaves = true := by
    simp [farPhotonTree, payloadOnlyInLeaves, payloadOnlyInLeavesList]
  obtain ⟨photons, top, hres, hlen, hexact, hsub, _⟩ :=
    knnSearch_facts Photon.pos farPhotonTree ⟨0, 0, 0⟩ 1 [] hmodel (by rw [hf]; simp)
      (by norm_num) (by norm_num)
  rw [ofOctree_ordered_data, hf] at hlen hsub
  have hres' : knnSearch Photon.pos farPhotonMapper.caustic_map ⟨0, 0, 0⟩
      farPhotonMapper.k_nearest_photons [] = some photons := hres
  rw [hres']
  cases photons with
  | nil => simp at hlen
  | cons ph rest =>
    have hrest : rest = [] := by
      cases rest with
      | nil => rfl
      | cons b bs => simp at hlen
    subst hrest
    have hdata : ph.data = farPhoton := by
      have := hsub.subset (List.mem_map_of_mem SearchResult.data (List.mem_singleton_self ph))
      simpa using this
    have hdist := hexact ph (List.mem_singleton_self ph)
    rw [hdata] at hdist
    have h49 : Vec3.distance2 farPhoton.pos (⟨0, 0, 0⟩ : Vec3 ℚ) = 49 := by
      simp [farPhoton, Photon.pos, Vec3.distance2]
      norm_num
    rw [h49] at hdist
    cases ph with
    | mk data distance2 =>
      simp only at hdata hdist
      rw [hdata, hdist]

/-- C20, as stated, fails: for a caustic map with one photon at squared distance 49 from the
shading point the code computes `1.0 / 49` and then `49 * (1.0 / 49) = 1 - 2 ^ (-53)`, whose
square root is `1 - 2 ^ (-53)`; the weight of the only (hence farthest) photon is
`2 ^ (-53)`, not `0`, and the caustic estimate is a vector of positive components, not
`(0,0,0)`. -/
theorem far_photon_weight_counterexample :
    knnSearch Photon.pos farPhotonMapper.caustic_map ⟨0, 0, 0⟩
      farPhotonMapper.k_nearest_photons [] = some [⟨farPhoton, 49⟩] ∧
    roundNearestEven ((49 : ℚ) * roundNearestEven (1 / 49)) = 1 - 1 / 2 ^ 53 ∧
    coneWeightRounded roundNearestEven doubleCollaborators 49 (roundNearestEven (1 / 49))
      = 1 / 2 ^ 53 ∧
    ∃ v, estimateCausticRadianceRounded roundNearestEven doubleCollaborators farPhotonMapper
        ⟨⟨0, 0, 0⟩, false, false⟩ = some v ∧
      0 < v.x ∧ 0 < v.y ∧ 0 < v.z ∧ v ≠ Vec3.splat 0 := by
  refine ⟨farPhoton_search, by rw [roundNearestEven_inv_49, roundNearestEven_49_mul_inv_49],
    coneWeightRounded_49, ?_⟩
  have hval := estimateCausticRadianceRounded_single roundNearestEven doubleCollaborators
    farPhotonMapper ⟨⟨0, 0, 0⟩, false, false⟩ ⟨farPhoton, 49⟩ ⟨1 / 2, 1 / 2, 1 / 2⟩ (1 / 4)
    farPhoton_search rfl
  have hw : (0 : ℚ) < coneWeightRounded roundNearestEven doubleCollaborators 49
      (roundNearestEven (1 / 49)) := by
    rw [coneWeightRounded_49]
    norm_num
  have hpos := single_estimate_pos roundNearestEven roundNearestEven_pos
    (⟨1, 1, 1⟩ : Vec3 ℚ) ⟨1 / 2, 1 / 2, 1 / 2⟩
    (coneWeightRounded roundNearestEven doubleCollaborators 49 (roundNearestEven (1 / 49)))
    (1 / 4) (roundNearestEven (1 / 49)) (5734161139222659 / 2 ^ 54)
    ⟨by norm_num, by norm_num, by norm_num⟩ ⟨by norm_num, by norm_num, by norm_num⟩ hw
    (by norm_num) (roundNearestEven_pos _ (by norm_num)) (by norm_num)
  refine ⟨_, hval, hpos.1, hpos.2.1, hpos.2.2, ?_⟩
  intro h
  have hx := congrArg Vec3.x h
  exact absurd hx (ne_of_gt hpos.1)

omit [FloorRing α] in
/-- The loop of `estimateCausticRadiance` over two photons of which the first has weight
zero. -/
theorem causticSumRounded_far_near (fl : α → α) (env : Collaborators α σ)
    (interaction : Interaction α) (inv : α) (far near : SearchResult α (Photon α))
    (b : Vec3 α) (pdf : α) (hfl0 : fl 0 = 0)
    (hb : ∀ d, env.BSDF interaction d = some (b, pdf))
    (hfar : coneWeightRounded fl env far.distance2 inv = 0) :
    causticSumRounded fl env interaction inv [far, near] (Vec3.splat 0)
      = ((Vec3.splat 0).add (causticTermRounded fl near.data.flux b
          (coneWeightRounded fl env near.distance2 inv) pdf)).map fl := by
  simp only [causticSumRounded, hb, hfar, causticTermRounded_zero fl hfl0]
  simp [Vec3.add, Vec3.splat, Vec3.map, hfl0]

omit [FloorRing α] in
/-- The term of a photon of flux `(1,1,1)` and weight one with `bsdf_absIdotN = 1/2` and pdf
`1/4`, for a rounding that leaves `1/2` and `2` unchanged. -/
theorem unit_term_value (fl : α → α) (h12 : fl (1 / 2) = 1 / 2) (h2 : fl 2 = 2) :
    ((Vec3.splat 0).add (causticTermRounded fl (⟨1, 1, 1⟩ : Vec3 α) ⟨1 / 2, 1 / 2, 1 / 2⟩ 1
      (1 / 4))).map fl = ⟨2, 2, 2⟩ := by
  have hq : (1 : α) / 2 / (1 / 4) = 2 := by norm_num
  simp only [causticTermRounded, Vec3.mul, Vec3.map, Vec3.smul, Vec3.sdiv, Vec3.add,
    Vec3.splat, one_mul, mul_one, h12, hq, h2, zero_add]

theorem sqrtNearest_zero : sqrtNearest (0 : α) = 0 := by
  unfold sqrtNearest
  rw [if_pos (le_refl _)]

theorem roundNearestEven_half : roundNearestEven ((1 : ℚ) / 2) = 1 / 2 := by
  have := roundNearestEven_fixed (α := ℚ) 1 (-1) (by norm_num)
  norm_num at this ⊢
  exact this

/-- The result of the search around `(1,0,0)` in the map of the two sample photons: the
photon at the origin, at squared distance 1, is at the root. -/
theorem twoPhoton_shape (photons : List (SearchResult ℚ (Photon ℚ)))
    (top : SearchResult ℚ (Photon ℚ)) (htop : PriorityQueue.top photons = some top)
    (hr2 : top.distance2 = 1)
    (hexact : ∀ ph ∈ photons, ph.distance2 = Vec3.distance2 (Photon.pos ph.data) ⟨1, 0, 0⟩)
    (hperm : (photons.map SearchResult.data).Perm
      [⟨⟨1, 1, 1⟩, ⟨1, 0, 0⟩, ⟨0, 0, 1⟩⟩, ⟨⟨2, 2, 2⟩, ⟨0, 0, 0⟩, ⟨0, 0, 1⟩⟩]) :
    photons = [⟨⟨⟨2, 2, 2⟩, ⟨0, 0, 0⟩, ⟨0, 0, 1⟩⟩, 1⟩,
      ⟨⟨⟨1, 1, 1⟩, ⟨1, 0, 0⟩, ⟨0, 0, 1⟩⟩, 0⟩] := by
  have hlen := hperm.length_eq
  simp only [List.length_map, List.length_cons, List.length_nil] at hlen
  cases photons with
  | nil => simp at hlen
  | cons a rest =>
    cases rest with
    | nil => simp at hlen
    | cons b rest2 =>
      cases rest2 with
      | cons c r => simp at hlen
      | nil =>
        simp only [PriorityQueue.top, List.head?_cons, Option.some.injEq] at htop
        subst htop
        have ha := hexact a (by simp)
        have hb := hexact b (by simp)
        rw [hr2] at ha
        have hma : a.data ∈ ([⟨⟨1, 1, 1⟩, ⟨1, 0, 0⟩, ⟨0, 0, 1⟩⟩,
            ⟨⟨2, 2, 2⟩, ⟨0, 0, 0⟩, ⟨0, 0, 1⟩⟩] : List (Photon ℚ)) :=
          hperm.subset (by simp)
        have hm1 : (⟨⟨1, 1, 1⟩, ⟨1, 0, 0⟩, ⟨0, 0, 1⟩⟩ : Photon ℚ)
            ∈ [a, b].map SearchResult.data := hperm.symm.subset (by simp)
        simp only [List.mem_cons, List.mem_singleton, List.not_mem_nil, or_false] at hma
        simp only [List.map_cons, List.map_nil, List.mem_cons, List.mem_singleton,
          List.not_mem_nil, or_false] at hm1
        rcases hma with hma | hma
        · rw [hma] at ha
          simp [Photon.pos, Vec3.distance2] at ha
        · rcases hm1 with hm1 | hm1
          · rw [hma] at hm1
            simp at hm1
          · rw [← hm1] at hb
            have hb0 : b.distance2 = 0 := by
              rw [hb]
              simp [Photon.pos, Vec3.distance2]
            cases a with
            | mk da d2a =>
              cases b with
              | mk db d2b =>
                simp only at hma hm1 hr2 hb0
                rw [hma, ← hm1, hr2, hb0]

theorem cone_weight_farthest_witness :
    roundNearestEven (0 : ℚ) = 0 ∧ (∀ x : ℚ, 0 ≤ x → 0 ≤ roundNearestEven x) ∧
    (∀ x : ℚ, x ≤ 1 → roundNearestEven x ≤ 1) ∧
    (∀ x : ℚ, roundNearestEven (roundNearestEven x) = roundNearestEven x) ∧
    (∀ x : ℚ, 0 ≤ x → 0 ≤ doubleCollaborators.sqrt x) ∧ doubleCollaborators.sqrt 1 = 1 ∧
    twoPhotonMapper.caustic_map = ofOctree Photon.pos twoPhotonTree ∧
    twoPhotonTree.payloadOnlyInLeaves = true ∧ twoPhotonTree.items ≠ 0 ∧
    1 ≤ twoPhotonMapper.k_nearest_photons ∧
    ∃ photons top, knnSearch Photon.pos twoPhotonMapper.caustic_map ⟨1, 0, 0⟩
        twoPhotonMapper.k_nearest_photons [] = some photons ∧
      PriorityQueue.top photons = some top ∧ photons.length = 2 ∧ top.distance2 = 1 ∧
      roundNearestEven (top.distance2 * roundNearestEven (1 / top.distance2)) = 1 ∧
      max 0 (roundNearestEven (1 - doubleCollaborators.sqrt (roundNearestEven
        (top.distance2 * roundNearestEven (1 / top.distance2))))) = 0 ∧
      causticSumRounded roundNearestEven doubleCollaborators ⟨⟨1, 0, 0⟩, false, false⟩
          (roundNearestEven (1 / top.distance2)) photons (Vec3.splat 0)
        = causticSumRounded roundNearestEven doubleCollaborators ⟨⟨1, 0, 0⟩, false, false⟩
            (roundNearestEven (1 / top.distance2))
            (photons.filter (fun ph => decide (ph.distance2 ≠ top.distance2)))
            (Vec3.splat 0) ∧
      photons.map SearchResult.distance2 = [1, 0] ∧
      causticSumRounded roundNearestEven doubleCollaborators ⟨⟨1, 0, 0⟩, false, false⟩
          (roundNearestEven (1 / top.distance2)) photons (Vec3.splat 0) = ⟨2, 2, 2⟩ := by
  have hmodel : twoPhotonTree.payloadOnlyInLeaves = true := by
    simp [twoPhotonTree, payloadOnlyInLeaves, payloadOnlyInLeavesList]
  have hs0 : ∀ x : ℚ, 0 ≤ x → 0 ≤ doubleCollaborators.sqrt x :=
    fun x _ => sqrtNearest_nonneg x
  have hs1 : doubleCollaborators.sqrt 1 = 1 := sqrtNearest_one
  refine ⟨roundNearestEven_zero, roundNearestEven_nonneg, roundNearestEven_le_one,
    roundNearestEven_idem, hs0, hs1, rfl, hmodel, twoPhoton_items, by decide, ?_⟩
  obtain ⟨photons, top, hres, htop, _, hlen, hexact, hsub, hlast, _, _, _, hex, _⟩ :=
    cone_weight_farthest roundNearestEven doubleCollaborators twoPhotonMapper
      ⟨⟨1, 0, 0⟩, false, false⟩ twoPhotonTree roundNearestEven_zero roundNearestEven_nonneg
      roundNearestEven_le_one roundNearestEven_idem hs0 hs1 rfl hmodel twoPhoton_items
      (by decide) (by norm_num [twoPhotonMapper])
  have hbf := twoPhoton_bruteForce
  have hr2 : top.distance2 = 1 := by
    have h := hlast
    simp only [Interaction.position] at h
    rw [hbf] at h
    simpa using h.symm
  have hod : twoPhotonMapper.caustic_map.ordered_data
      = [⟨⟨1, 1, 1⟩, ⟨1, 0, 0⟩, ⟨0, 0, 1⟩⟩, ⟨⟨2, 2, 2⟩, ⟨0, 0, 0⟩, ⟨0, 0, 1⟩⟩] :=
    twoPhoton_ordered_data
  have hlen2 : photons.length = 2 := by
    rw [hlen, hod]
    rfl
  have hone : roundNearestEven (top.distance2 * roundNearestEven (1 / top.distance2)) = 1 := by
    rw [hr2]
    norm_num [roundNearestEven_one]
  obtain ⟨_, h2, h3, _⟩ := hex hone
  rw [hod] at hsub
  have hperm : (photons.map SearchResult.data).Perm
      [⟨⟨1, 1, 1⟩, ⟨1, 0, 0⟩, ⟨0, 0, 1⟩⟩, ⟨⟨2, 2, 2⟩, ⟨0, 0, 0⟩, ⟨0, 0, 1⟩⟩] :=
    hsub.perm_of_length_le (by rw [List.length_map, hlen2]; rfl)
  have hshape := twoPhoton_shape photons top htop hr2 hexact hperm
  have hsumv : causticSumRounded roundNearestEven doubleCollaborators
      ⟨⟨1, 0, 0⟩, false, false⟩ (roundNearestEven (1 / top.distance2)) photons
      (Vec3.splat 0) = ⟨2, 2, 2⟩ := by
    have hfar : coneWeightRounded roundNearestEven doubleCollaborators (1 : ℚ)
        (roundNearestEven (1 / 1)) = 0 := by
      have := h2
      rw [hr2] at this
      exact this
    have hnear : coneWeightRounded roundNearestEven doubleCollaborators (0 : ℚ)
        (roundNearestEven (1 / 1)) = 1 := by
      unfold coneWeightRounded
      have hs : doubleCollaborators.sqrt = sqrtNearest := rfl
      rw [zero_mul, roundNearestEven_zero, hs, sqrtNearest_zero, sub_zero,
        roundNearestEven_one]
      exact max_eq_right zero_le_one
    have hb : ∀ d, doubleCollaborators.BSDF (⟨⟨1, 0, 0⟩, false, false⟩ : Interaction ℚ) d
        = some (⟨1 / 2, 1 / 2, 1 / 2⟩, 1 / 4) := fun _ => rfl
    have key := causticSumRounded_far_near roundNearestEven doubleCollaborators
      ⟨⟨1, 0, 0⟩, false, false⟩ (roundNearestEven (1 / 1))
      ⟨⟨⟨2, 2, 2⟩, ⟨0, 0, 0⟩, ⟨0, 0, 1⟩⟩, 1⟩ ⟨⟨⟨1, 1, 1⟩, ⟨1, 0, 0⟩, ⟨0, 0, 1⟩⟩, 0⟩
      ⟨1 / 2, 1 / 2, 1 / 2⟩ (1 / 4) roundNearestEven_zero hb hfar
    simp only at key
    rw [hr2, hshape, key, hnear]
    exact unit_term_value roundNearestEven roundNearestEven_half roundNearestEven_ofNat_2
  refine ⟨photons, top, hres, htop, hlen2, hr2, hone, h2, h3, ?_, hsumv⟩
  rw [hshape]
  rfl

end ConeWeightProofs

